import Mathlib

/-!
# listmonk start-up constants, notifications, the postback JSON codec and the S3 media store

A shallow embedding of

* `cmd/init.go` (`initConstants`, `initCampaignManager`, `initPostbackMessengers`),
* `cmd/notifications.go` (`App.sendNotification`),
* `internal/messenger/postback/postback_easyjson.go` (the generated encoder and decoder),
* `internal/media/providers/s3/s3.go` (`NewS3Store`, `Put`, `Get`, `Delete`),

together with the library routines these functions call (`strings.TrimRight`,
`strings.TrimPrefix`, `strings.TrimSuffix`, `fmt.Sprintf`, `jwriter.Writer`, `jlexer.Lexer`).
Libraries that are not embedded (`simples3`, `koanf`, `postback.New`, `json.Marshal` and the
marshaler methods of attribute values, `json.Valid`, `strconv.ParseFloat`) are parameters of the
definitions that call them.

Go strings are modelled as lists of characters (`Str`).  Every routine embedded here either copies
text verbatim or inspects ASCII characters only, so on UTF-8 text the character view and the byte
view agree.
-/

set_option autoImplicit false

namespace Listmonk

/-- A Go `string` / `[]byte` holding text. -/
abbrev Str := List Char

/-! ## `strings.TrimRight` -/

/-- The loop of `strings.trimRightByte`:
`for len(s) > 0 && s[len(s)-1] == c { s = s[:len(s)-1] }`, run for at most `n` rounds. -/
def trimRightByteLoop : Nat → Str → Char → Str
  | 0, s, _ => s
  | n + 1, s, c => if s.getLast? = some c then trimRightByteLoop n s.dropLast c else s

/-- `strings.trimRightByte(s, c)`; the loop shortens `s` each round, so `len(s)` rounds suffice. -/
def trimRightByte (s : Str) (c : Char) : Str := trimRightByteLoop s.length s c

/-- The general loop of `strings.TrimRight`: drop trailing characters that occur in `cutset`. -/
def trimRightSetLoop : Nat → Str → Str → Str
  | 0, s, _ => s
  | n + 1, s, cutset =>
    match s.getLast? with
    | some c => if c ∈ cutset then trimRightSetLoop n s.dropLast cutset else s
    | none => s

/-- `strings.TrimRight(s, cutset)`: unchanged when either string is empty, `trimRightByte` for a
cutset of one ASCII character, the general loop otherwise. -/
def TrimRight (s : Str) (cutset : Str) : Str :=
  if s = [] ∨ cutset = [] then s
  else
    match cutset with
    | [c] => if c.toNat < 128 then trimRightByte s c else trimRightSetLoop s.length s cutset
    | _ => trimRightSetLoop s.length s cutset

/-! ## `fmt.Sprintf` on string operands -/

/-- The text `fmt` appends when operands are left over, for the unused operands `a`:
`%!(EXTRA string=a, string=b)`. -/
def extraArgs (a : List Str) : Str :=
  "%!(EXTRA ".toList ++ ", ".toList.intercalate (a.map fun x => "string=".toList ++ x) ++ [')']

/-- Whether the byte behind a `%` opens a directive that is more than a verb: a flag (`#`, `0`,
`+`, `-`, space), a width or precision (a digit, `*`, `.`) or an argument index (`[`). -/
def isDirectiveOption (c : Char) : Bool :=
  c = '#' ∨ c = '+' ∨ c = '-' ∨ c = ' ' ∨ c = '*' ∨ c = '.' ∨ c = '[' ∨ c.isDigit

/-- The format loop of `fmt.(*pp).doPrintf` for operands that are all strings.

`argNum` counts the operands consumed so far.  Plain text is copied and `%%` writes a percent
sign.  A verb right behind the `%` writes `%!verb(MISSING)` when no operand is left; otherwise it
consumes the next operand `x`: `%s` and `%v` write `x`, `%T` writes `string`, and a verb that
does not apply to strings writes `%!verb(string=x)`.  A `%` that ends the format writes
`%!(NOVERB)`, and at the end of the format the unused operands `a[argNum:]` are reported with
`%!(EXTRA ...)`.  Directives with flags, a width, a precision or an argument index, and the
verbs `q`, `x` and `X` (quoting and hexadecimal output) lie outside the fragment embedded here
and yield `none`. -/
def doPrintf (a : List Str) : Str → Nat → Option Str
  | [], argNum => some (if argNum < a.length then extraArgs (a.drop argNum) else [])
  | ['%'], argNum => (doPrintf a [] argNum).map fun out => "%!(NOVERB)".toList ++ out
  | '%' :: verb :: rest, argNum =>
    if verb = '%' then (doPrintf a rest argNum).map fun out => '%' :: out
    else if isDirectiveOption verb then none
    else
      match a.get? argNum with
      | none =>
        (doPrintf a rest argNum).map fun out => "%!".toList ++ verb :: "(MISSING)".toList ++ out
      | some x =>
        if verb = 's' ∨ verb = 'v' then (doPrintf a rest (argNum + 1)).map fun out => x ++ out
        else if verb = 'T' then
          (doPrintf a rest (argNum + 1)).map fun out => "string".toList ++ out
        else if verb = 'q' ∨ verb = 'x' ∨ verb = 'X' then none
        else
          (doPrintf a rest (argNum + 1)).map fun out =>
            "%!".toList ++ verb :: "(string=".toList ++ x ++ ')' :: out
  | c :: rest, argNum => (doPrintf a rest argNum).map fun out => c :: out

/-- `fmt.Sprintf(format, a...)` with string operands. -/
def Sprintf (format : Str) (a : List Str) : Option Str := doPrintf a format 0

/-! ## `cmd/init.go`: `initConstants` -/

/-- The fields of `constants` that `initConstants` computes from the root URL. -/
structure constants where
  RootURL : Str
  UnsubURL : Str
  LinkTrackURL : Str
  ViewTrackURL : Str
  OptinURL : Str
  MessageURL : Str
  deriving DecidableEq, Repr

/-- `initConstants`, restricted to the root URL and the URL templates derived from it.
`rootURL` is the value `ko.Unmarshal("app", &c)` stored in `c.RootURL`.  A `Sprintf` call whose
format leaves the embedded fragment makes the result `none`; with the constant formats used here
that never happens (`initConstants_isSome`). -/
def initConstants (rootURL : Str) : Option constants := do
  let root := TrimRight rootURL "/".toList
  let unsub ← Sprintf "%s/subscription/%%s/%%s".toList [root]
  let optin ← Sprintf "%s/subscription/optin/%%s?%%s".toList [root]
  let link ← Sprintf "%s/link/%%s/%%s/%%s".toList [root]
  let message ← Sprintf "%s/campaign/%%s/%%s".toList [root]
  let view ← Sprintf "%s/campaign/%%s/%%s/px.png".toList [root]
  pure { RootURL := root, UnsubURL := unsub, LinkTrackURL := link, ViewTrackURL := view,
         OptinURL := optin, MessageURL := message }

/-! ## `cmd/init.go`: `initCampaignManager` -/

/-- The koanf configuration store `ko`, by the type of value a key holds.  A key that is not set
maps to `none`. -/
structure Koanf where
  ints : Str → Option ℤ
  bools : Str → Option Bool
  durations : Str → Option ℤ

/-- `ko.Int(path)`: the value at `path`, or `0` when the key is not set. -/
def Koanf.Int (ko : Koanf) (path : Str) : ℤ := (ko.ints path).getD 0

/-- `ko.Bool(path)`: the value at `path`, or `false` when the key is not set. -/
def Koanf.Bool (ko : Koanf) (path : Str) : Bool := (ko.bools path).getD false

/-- `ko.Duration(path)`: the value at `path`, or `0` when the key is not set. -/
def Koanf.Duration (ko : Koanf) (path : Str) : ℤ := (ko.durations path).getD 0

/-- The record `manager.Config` as `initCampaignManager` fills it. -/
structure Config where
  BatchSize : Int
  Concurrency : Int
  MessageRate : Int
  MaxSendErrors : Int
  FromEmail : Str
  IndividualTracking : Bool
  UnsubURL : Str
  OptinURL : Str
  LinkTrackURL : Str
  ViewTrackURL : Str
  MessageURL : Str
  UnsubHeader : Bool
  SlidingWindow : Bool
  SlidingWindowDuration : Int
  SlidingWindowRate : Int
  deriving DecidableEq, Repr

/-- `initCampaignManager`.  `lo.Fatal` prints its message and exits the process, which is the
`Except.error` outcome; `Except.ok cfg` is the one call `manager.New(cfg, ...)` that the function
makes.  `fromEmail` is `cs.FromEmail`, the URL templates are read from `cs`. -/
def initCampaignManager (ko : Koanf) (fromEmail : Str) (cs : constants) : Except Str Config :=
  if ko.Int "app.concurrency".toList < 1 then
    .error "app.concurrency should be at least 1".toList
  else if ko.Int "app.message_rate".toList < 1 then
    .error "app.message_rate should be at least 1".toList
  else
    .ok { BatchSize := ko.Int "app.batch_size".toList
          Concurrency := ko.Int "app.concurrency".toList
          MessageRate := ko.Int "app.message_rate".toList
          MaxSendErrors := ko.Int "app.max_send_errors".toList
          FromEmail := fromEmail
          IndividualTracking := ko.Bool "privacy.individual_tracking".toList
          UnsubURL := cs.UnsubURL
          OptinURL := cs.OptinURL
          LinkTrackURL := cs.LinkTrackURL
          ViewTrackURL := cs.ViewTrackURL
          MessageURL := cs.MessageURL
          UnsubHeader := ko.Bool "privacy.unsubscribe_header".toList
          SlidingWindow := ko.Bool "app.message_sliding_window".toList
          SlidingWindowDuration := ko.Duration "app.message_sliding_window_duration".toList
          SlidingWindowRate := ko.Int "app.message_sliding_window_rate".toList }

/-! ## `cmd/notifications.go`: `App.sendNotification` -/

/-- The fields of `manager.Message` that `sendNotification` assigns; every other field keeps its
zero value. -/
structure Message where
  ContentType : Str
  From : Str
  To : List Str
  Subject : Str
  Body : Str
  Messenger : Str
  deriving DecidableEq, Repr

/-- The zero value `manager.Message{}`. -/
def Message.zero : Message :=
  { ContentType := [], From := [], To := [], Subject := [], Body := [], Messenger := [] }

/-- The parts of `App` that `sendNotification` reads.  `Data` is the type of the template data,
`Err` the type of Go errors.

* `ExecuteTemplate name data` is `app.notifTpls.tpls.ExecuteTemplate(&b, name, data)`: the text
  written to the buffer and the error returned;
* `PushMessage` is `app.manager.PushMessage`;
* `emailMsgr` is the package constant naming the built-in e-mail messenger, declared outside the
  embedded sources;
* `campaignMessenger` is the value of the expression `m.Campaign.Messenger` on the message built
  here, `none` when evaluating it panics; the declaration of `manager.Message` is outside the
  embedded sources. -/
structure App (Data Err : Type) where
  contentType : Str
  ExecuteTemplate : Str → Data → Str × Option Err
  FromEmail : Str
  PushMessage : Message → Option Err
  emailMsgr : Str
  campaignMessenger : Message → Option Str

/-- How a call of `sendNotification` ends. -/
inductive Outcome (Err : Type) where
  /-- The function returned this `error` value (`none` is `nil`). -/
  | returned (err : Option Err)
  /-- The function panicked. -/
  | panicked
  deriving Repr

/-- Everything observable about one call of `sendNotification`: how it ended, the messages handed
to `PushMessage`, the lines logged and the counters incremented (with their labels). -/
structure NotifResult (Err : Type) where
  outcome : Outcome Err
  pushed : List Message
  logged : List Str
  metrics : List (Str × List (Str × Str))

/-- `App.sendNotification(toEmails, subject, tplName, data)`. -/
def sendNotification {Data Err : Type} (app : App Data Err) (toEmails : List Str)
    (subject tplName : Str) (data : Data) : NotifResult Err :=
  if toEmails.length = 0 then
    { outcome := .returned none, pushed := [], logged := [], metrics := [] }
  else
    match app.ExecuteTemplate tplName data with
    | (_, some err) =>
      { outcome := .returned (some err), pushed := [],
        logged := ["error compiling notification template".toList], metrics := [] }
    | (b, none) =>
      let m := Message.zero
      let m := { m with ContentType := app.contentType }
      let m := { m with From := app.FromEmail }
      let m := { m with To := toEmails }
      let m := { m with Subject := subject }
      let m := { m with Body := b }
      let m := { m with Messenger := app.emailMsgr }
      match app.campaignMessenger m with
      | none => { outcome := .panicked, pushed := [], logged := [], metrics := [] }
      | some dest =>
        let ml := [("campaign".toList, "test".toList), ("destination".toList, dest)]
        match app.PushMessage m with
        | some err =>
          { outcome := .returned (some err), pushed := [m],
            logged := ["error sending admin notification".toList],
            metrics := [("messages_pushed_errors_total".toList, ml)] }
        | none =>
          { outcome := .returned none, pushed := [m], logged := [],
            metrics := [("messages_pushed_total".toList, ml)] }

/-! ## The postback payload (`internal/messenger/postback`) -/

/-- A Go map in the order in which `range` visits it; Go leaves that order unspecified, so
nothing proved here depends on it. -/
abbrev GoMap (α : Type) := List (Str × α)

/-- The struct `recipient`.  `V` is the type of the values held in the `Attribs` map
(`interface{}` in Go); `none` is the nil map. -/
structure recipient (V : Type) where
  UUID : Str
  Email : Str
  Name : Str
  Attribs : Option (GoMap V)
  Status : Str

/-- The struct `campaign`.  `Headers` is a slice of `map[string]string`, `Tags` a slice of
strings; `none` is the nil slice or nil map. -/
structure campaign where
  UUID : Str
  Name : Str
  Headers : Option (List (Option (GoMap Str)))
  Tags : Option (List Str)

/-- The struct `postback`; `none` is the nil slice, respectively the nil pointer. -/
structure postback (V : Type) where
  Subject : Str
  ContentType : Str
  Body : Str
  Recipients : Option (List (recipient V))
  Campaign : Option campaign

/-! ## `jwriter.Writer` -/

/-- The writer of `easyjson/jwriter`: its flags, the first error met and the bytes written. -/
structure Writer (Err : Type) where
  Flags : Nat
  Error : Option Err
  Buffer : Str
  NoEscapeHTML : Bool

/-- `jwriter.NilMapAsEmpty`. -/
def NilMapAsEmpty : Nat := 1

/-- `jwriter.NilSliceAsEmpty`. -/
def NilSliceAsEmpty : Nat := 2

/-- The zero value `jwriter.Writer{}`. -/
def Writer.zero {Err : Type} : Writer Err :=
  { Flags := 0, Error := none, Buffer := [], NoEscapeHTML := false }

/-- `w.RawByte(c)`. -/
def Writer.RawByte {Err : Type} (w : Writer Err) (c : Char) : Writer Err :=
  { w with Buffer := w.Buffer ++ [c] }

/-- `w.RawString(s)`. -/
def Writer.RawString {Err : Type} (w : Writer Err) (s : Str) : Writer Err :=
  { w with Buffer := w.Buffer ++ s }

/-- `w.Raw(data, err)`: nothing once an error is recorded, record `err`, else append `data`, or
`null` when `data` is empty. -/
def Writer.Raw {Err : Type} (w : Writer Err) (res : Str × Option Err) : Writer Err :=
  match w.Error, res with
  | some _, _ => w
  | none, (_, some err) => { w with Error := some err }
  | none, (data, none) => if data.length > 0 then w.RawString data else w.RawString "null".toList

/-- The digits `chars` of `jwriter`. -/
def hexChar (n : Nat) : Char := ("0123456789abcdef".toList).getD n '0'

/-- The table `htmlEscapeTable` (every ASCII character but the control characters and
`"`, `&`, `<`, `>`, `\`) or `htmlNoEscapeTable` (the same with `&`, `<`, `>` allowed): whether
the character is written as it is. -/
def escapeTable (noEscapeHTML : Bool) (c : Char) : Bool :=
  if c.toNat < 32 ∨ c = '"' ∨ c = '\\' then false
  else if c = '&' ∨ c = '<' ∨ c = '>' then noEscapeHTML
  else true

/-- What the loop of `w.String` writes for one character of the string. -/
def escapeChar (noEscapeHTML : Bool) (c : Char) : Str :=
  if c.toNat < 128 then
    if escapeTable noEscapeHTML c then [c]
    else if c = '\t' then "\\t".toList
    else if c = '\r' then "\\r".toList
    else if c = '\n' then "\\n".toList
    else if c = '\\' then "\\\\".toList
    else if c = '"' then "\\\"".toList
    else "\\u00".toList ++ [hexChar (c.toNat / 16), hexChar (c.toNat % 16)]
  else if c.toNat = 0x2028 ∨ c.toNat = 0x2029 then
    "\\u202".toList ++ [hexChar (c.toNat % 16)]
  else [c]

/-- The quoted text `w.String(s)` appends. -/
def quoteString (noEscapeHTML : Bool) (s : Str) : Str :=
  '"' :: (s.map (escapeChar noEscapeHTML)).flatten ++ ['"']

/-- `w.String(s)`. -/
def Writer.String {Err : Type} (w : Writer Err) (s : Str) : Writer Err :=
  { w with Buffer := w.Buffer ++ quoteString w.NoEscapeHTML s }

/-! ## The generated encoders -/

section Encode

variable {V Err : Type}

/-- How an attribute value (an `interface{}` in Go) gets written.  A value that implements
`easyjson.Marshaler` has a `MarshalEasyJSON`, which is handed the writer and does with it what
it likes; a value that implements `json.Marshaler` has a `MarshalJSON`, which returns bytes and
an error; `none` says the value does not implement the interface.  `Marshal` is `json.Marshal`.
None of the three is part of the repository. -/
structure Marshalers (V Err : Type) where
  MarshalEasyJSON : V → Option (Writer Err → Writer Err)
  MarshalJSON : V → Option (Str × Option Err)
  Marshal : V → Str × Option Err

/-- The statement `if m, ok := v13Value.(easyjson.Marshaler); ok { m.MarshalEasyJSON(out) }
else if m, ok := v13Value.(json.Marshaler); ok { out.Raw(m.MarshalJSON()) }
else { out.Raw(json.Marshal(v13Value)) }`. -/
def encodeAttribValue (ms : Marshalers V Err) (out : Writer Err) (v13Value : V) : Writer Err :=
  match ms.MarshalEasyJSON v13Value with
  | some m => m out
  | none =>
    match ms.MarshalJSON v13Value with
    | some res => out.Raw res
    | none => out.Raw (ms.Marshal v13Value)

/-- The loop `for v13Name, v13Value := range in.Attribs` of the recipient encoder. -/
def encodeAttribsLoop (ms : Marshalers V Err) :
    Writer Err → Bool → GoMap V → Writer Err
  | out, _, [] => out
  | out, v13First, (v13Name, v13Value) :: rest =>
    let out := if v13First then out else out.RawByte ','
    let out := out.String v13Name
    let out := out.RawByte ':'
    let out := encodeAttribValue ms out v13Value
    encodeAttribsLoop ms out false rest

/-- The encoder of `recipient`. -/
def easyjsonDf11841fEncodeGithubComKnadhListmonkInternalMessengerPostback1
    (ms : Marshalers V Err) (out : Writer Err) (v : recipient V) : Writer Err :=
  let out := out.RawByte '{'
  let out := out.RawString (",\"uuid\":".toList.drop 1)
  let out := out.String v.UUID
  let out := out.RawString ",\"email\":".toList
  let out := out.String v.Email
  let out := out.RawString ",\"name\":".toList
  let out := out.String v.Name
  let out := out.RawString ",\"attribs\":".toList
  let out :=
    if v.Attribs.isNone ∧ Nat.land out.Flags NilMapAsEmpty = 0 then
      out.RawString "null".toList
    else
      let out := out.RawByte '{'
      let out := encodeAttribsLoop ms out true (v.Attribs.getD [])
      out.RawByte '}'
  let out := out.RawString ",\"status\":".toList
  let out := out.String v.Status
  out.RawByte '}'

/-- The loop `for v9Name, v9Value := range v8` of the campaign encoder. -/
def encodeHeaderLoop : Writer Err → Bool → GoMap Str → Writer Err
  | out, _, [] => out
  | out, v9First, (v9Name, v9Value) :: rest =>
    let out := if v9First then out else out.RawByte ','
    let out := out.String v9Name
    let out := out.RawByte ':'
    let out := out.String v9Value
    encodeHeaderLoop out false rest

/-- The loop `for v7, v8 := range in.Headers` of the campaign encoder; `v7` is the index. -/
def encodeHeadersLoop : Writer Err → Nat → List (Option (GoMap Str)) → Writer Err
  | out, _, [] => out
  | out, v7, v8 :: rest =>
    let out := if v7 > 0 then out.RawByte ',' else out
    let out :=
      if v8.isNone ∧ Nat.land out.Flags NilMapAsEmpty = 0 then
        out.RawString "null".toList
      else
        let out := out.RawByte '{'
        let out := encodeHeaderLoop out true (v8.getD [])
        out.RawByte '}'
    encodeHeadersLoop out (v7 + 1) rest

/-- The loop `for v10, v11 := range in.Tags` of the campaign encoder. -/
def encodeTagsLoop : Writer Err → Nat → List Str → Writer Err
  | out, _, [] => out
  | out, v10, v11 :: rest =>
    let out := if v10 > 0 then out.RawByte ',' else out
    let out := out.String v11
    encodeTagsLoop out (v10 + 1) rest

/-- The encoder of `campaign`. -/
def easyjsonDf11841fEncodeGithubComKnadhListmonkInternalMessengerPostback2
    (out : Writer Err) (v : campaign) : Writer Err :=
  let out := out.RawByte '{'
  let out := out.RawString (",\"uuid\":".toList.drop 1)
  let out := out.String v.UUID
  let out := out.RawString ",\"name\":".toList
  let out := out.String v.Name
  let out := out.RawString ",\"headers\":".toList
  let out :=
    if v.Headers.isNone ∧ Nat.land out.Flags NilSliceAsEmpty = 0 then
      out.RawString "null".toList
    else
      let out := out.RawByte '['
      let out := encodeHeadersLoop out 0 (v.Headers.getD [])
      out.RawByte ']'
  let out := out.RawString ",\"tags\":".toList
  let out :=
    if v.Tags.isNone ∧ Nat.land out.Flags NilSliceAsEmpty = 0 then
      out.RawString "null".toList
    else
      let out := out.RawByte '['
      let out := encodeTagsLoop out 0 (v.Tags.getD [])
      out.RawByte ']'
  out.RawByte '}'

/-- The loop `for v2, v3 := range in.Recipients` of the postback encoder. -/
def encodeRecipientsLoop (ms : Marshalers V Err) :
    Writer Err → Nat → List (recipient V) → Writer Err
  | out, _, [] => out
  | out, v2, v3 :: rest =>
    let out := if v2 > 0 then out.RawByte ',' else out
    let out := easyjsonDf11841fEncodeGithubComKnadhListmonkInternalMessengerPostback1 ms out v3
    encodeRecipientsLoop ms out (v2 + 1) rest

/-- The encoder of `postback`. -/
def easyjsonDf11841fEncodeGithubComKnadhListmonkInternalMessengerPostback
    (ms : Marshalers V Err) (out : Writer Err) (v : postback V) : Writer Err :=
  let out := out.RawByte '{'
  let out := out.RawString (",\"subject\":".toList.drop 1)
  let out := out.String v.Subject
  let out := out.RawString ",\"content_type\":".toList
  let out := out.String v.ContentType
  let out := out.RawString ",\"body\":".toList
  let out := out.String v.Body
  let out := out.RawString ",\"recipients\":".toList
  let out :=
    if v.Recipients.isNone ∧ Nat.land out.Flags NilSliceAsEmpty = 0 then
      out.RawString "null".toList
    else
      let out := out.RawByte '['
      let out := encodeRecipientsLoop ms out 0 (v.Recipients.getD [])
      out.RawByte ']'
  let out := out.RawString ",\"campaign\":".toList
  let out :=
    match v.Campaign with
    | none => out.RawString "null".toList
    | some c => easyjsonDf11841fEncodeGithubComKnadhListmonkInternalMessengerPostback2 out c
  out.RawByte '}'

/-- `postback.MarshalJSON`: the bytes built and the writer's error. -/
def MarshalJSON (ms : Marshalers V Err) (v : postback V) : Str × Option Err :=
  let w : Writer Err := Writer.zero
  let w := easyjsonDf11841fEncodeGithubComKnadhListmonkInternalMessengerPostback ms w v
  (w.Buffer, w.Error)

end Encode

/-! ## `jlexer.Lexer`

The lexer is embedded with `Data` holding the unread input `r.Data[r.pos:]`; `pos` is kept
beside it because `IsStart` reads it.  Error values are reduced to their reason text, and the
lexer runs with `UseMultipleErrors` off, as `UnmarshalJSON` builds it. -/

/-- The kind of the current token. -/
inductive tokenKind where
  | tokenUndef
  | tokenDelim
  | tokenString
  | tokenNumber
  | tokenBool
  | tokenNull
  deriving DecidableEq, Repr

/-- The zero byte, which `wantSep` and `delimValue` hold when they are not set. -/
def NUL : Char := Char.ofNat 0

/-- The state of a `jlexer.Lexer`: the unread input, the current token (`kind`, `boolValue`,
`byteValue`, `delimValue`), the separator bookkeeping and the fatal error. -/
structure Lexer where
  Data : Str
  pos : Nat
  kind : tokenKind
  boolValue : Bool
  byteValue : Str
  delimValue : Char
  firstElement : Bool
  wantSep : Char
  fatalError : Option Str
  deriving DecidableEq, Repr

/-- The lexer `jlexer.Lexer{Data: data}`. -/
def Lexer.new (data : Str) : Lexer :=
  { Data := data, pos := 0, kind := .tokenUndef, boolValue := false, byteValue := [],
    delimValue := NUL, firstElement := false, wantSep := NUL, fatalError := none }

/-- `r.Ok()`. -/
def Lexer.Ok (r : Lexer) : Bool := r.fatalError.isNone

/-- `r.Error()`. -/
def Lexer.Error (r : Lexer) : Option Str := r.fatalError

/-- `r.IsStart()`. -/
def Lexer.IsStart (r : Lexer) : Bool := r.pos = 0

/-- `r.pos += n`. -/
def Lexer.advance (r : Lexer) (n : Nat) : Lexer :=
  { r with Data := r.Data.drop n, pos := r.pos + n }

/-- `r.errParse(what)`: record the error unless one is recorded already. -/
def Lexer.errParse (r : Lexer) (what : Str) : Lexer :=
  if r.fatalError.isNone then { r with fatalError := some what } else r

/-- `r.errSyntax()`. -/
def Lexer.errSyntax (r : Lexer) : Lexer := r.errParse "syntax error".toList

/-- `r.errInvalidToken(expected)`. -/
def Lexer.errInvalidToken (r : Lexer) (expected : Str) : Lexer :=
  if r.fatalError.isSome then r
  else { r with fatalError := some ("expected ".toList ++ expected) }

/-- `r.AddError(e)`. -/
def Lexer.AddError (r : Lexer) (e : Str) : Lexer :=
  if r.fatalError.isNone then { r with fatalError := some e } else r

/-- `r.consume()`. -/
def Lexer.consume (r : Lexer) : Lexer :=
  { r with kind := .tokenUndef, delimValue := NUL }

/-- `isTokenEnd(c)`. -/
def isTokenEnd (c : Char) : Bool :=
  c = ' ' ∨ c = '\t' ∨ c = '\r' ∨ c = '\n' ∨ c = '[' ∨ c = ']' ∨ c = '{' ∨ c = '}' ∨
    c = ',' ∨ c = ':'

/-- Whether the literal that was just read ends the data or is followed by a token end. -/
def literalEnds : Str → Bool
  | [] => true
  | c :: _ => isTokenEnd c

/-- `r.fetchNull()`. -/
def Lexer.fetchNull (r : Lexer) : Lexer :=
  match r.Data with
  | _ :: c1 :: c2 :: c3 :: more =>
    if c1 ≠ 'u' ∨ c2 ≠ 'l' ∨ c3 ≠ 'l' ∨ ¬ literalEnds more then r.errSyntax else r.advance 4
  | _ => r.errSyntax

/-- `r.fetchTrue()`. -/
def Lexer.fetchTrue (r : Lexer) : Lexer :=
  match r.Data with
  | _ :: c1 :: c2 :: c3 :: more =>
    if c1 ≠ 'r' ∨ c2 ≠ 'u' ∨ c3 ≠ 'e' ∨ ¬ literalEnds more then r.errSyntax else r.advance 4
  | _ => r.errSyntax

/-- `r.fetchFalse()`. -/
def Lexer.fetchFalse (r : Lexer) : Lexer :=
  match r.Data with
  | _ :: c1 :: c2 :: c3 :: c4 :: more =>
    if c1 ≠ 'a' ∨ c2 ≠ 'l' ∨ c3 ≠ 's' ∨ c4 ≠ 'e' ∨ ¬ literalEnds more then r.errSyntax
    else r.advance 5
  | _ => r.errSyntax

/-- The loop of `fetchNumber` over the bytes after the first: the number of bytes it accepts and
the byte that stopped it (`none` at the end of the data). -/
def numberLoop : Str → Bool → Bool → Bool → Nat → Nat × Option Char
  | [], _, _, _, i => (i, none)
  | c :: cs, hasE, afterE, hasDot, i =>
    if c.isDigit then numberLoop cs hasE false hasDot (i + 1)
    else if c = '.' ∧ ¬ hasDot then numberLoop cs hasE afterE true (i + 1)
    else if (c = 'e' ∨ c = 'E') ∧ ¬ hasE then numberLoop cs true true true (i + 1)
    else if (c = '+' ∨ c = '-') ∧ afterE then numberLoop cs hasE false hasDot (i + 1)
    else (i, some c)

/-- `r.fetchNumber()`. -/
def Lexer.fetchNumber (r : Lexer) : Lexer :=
  let r1 := r.advance 1
  match numberLoop r1.Data false false false 0 with
  | (i, some c) =>
    let r2 := r1.advance i
    if isTokenEnd c then { r2 with byteValue := r.Data.take (i + 1) }
    else r2.errParse "expected end of token".toList
  | (_, none) => { r1.advance r1.Data.length with byteValue := r.Data }

/-- `bytes.IndexByte(data, c)`, `none` for `-1`. -/
def indexByte : Str → Char → Option Nat
  | [], _ => none
  | d :: ds, c => if d = c then some 0 else (indexByte ds c).map (· + 1)

/-- The number of consecutive backslashes that end right before index `idx` of `data`: the value
of `cnt` after the counting loop of `findStringLen`. -/
def countBackslashes (data : Str) (idx : Nat) : Nat :=
  ((data.take idx).reverse.takeWhile (· = '\\')).length

/-- The loop of `findStringLen`; every round drops at least one byte of `data`. -/
def findStringLenLoop : Nat → Str → Nat → Bool × Nat
  | 0, data, _ => (false, data.length)
  | n + 1, data, length =>
    match indexByte data '"' with
    | none => (false, data.length)
    | some idx =>
      if idx = 0 ∨ (data.drop (idx - 1)).head? ≠ some '\\' then (true, length + idx)
      else if countBackslashes data idx % 2 = 0 then (true, length + idx)
      else findStringLenLoop n (data.drop (idx + 1)) (length + idx + 1)

/-- `findStringLen(data)`: whether a closing quote was found, and the length of the string. -/
def findStringLen (data : Str) : Bool × Nat := findStringLenLoop (data.length + 1) data 0

/-- `r.fetchString()`. -/
def Lexer.fetchString (r : Lexer) : Lexer :=
  let r1 := r.advance 1
  match findStringLen r1.Data with
  | (false, length) => (r1.advance length).errParse "unterminated string literal".toList
  | (true, length) => { r1.advance (length + 1) with byteValue := r1.Data.take length }

/-- The loop `for _, c := range r.Data[r.pos:]` of `FetchToken`.  The first argument is what is
left of the range; `r.Data` lags behind it once a misplaced separator has been met, exactly as
`r.pos` does in the source. -/
def fetchLoop : Str → Lexer → Lexer
  | [], r => { r with fatalError := some "EOF".toList }
  | c :: cs, r =>
    if c = ':' ∨ c = ',' then
      if r.wantSep = c then fetchLoop cs { r.advance 1 with wantSep := NUL }
      else fetchLoop cs r.errSyntax
    else if c = ' ' ∨ c = '\t' ∨ c = '\r' ∨ c = '\n' then fetchLoop cs (r.advance 1)
    else if c = '"' then
      let r := if r.wantSep ≠ NUL then r.errSyntax else r
      Lexer.fetchString { r with kind := .tokenString }
    else if c = '{' ∨ c = '[' then
      let r := if r.wantSep ≠ NUL ∧ ¬ r.firstElement then r.errSyntax else r
      Lexer.advance
        { r with firstElement := true, kind := .tokenDelim, delimValue := r.Data.headD NUL } 1
    else if c = '}' ∨ c = ']' then
      let r := if ¬ r.firstElement ∧ r.wantSep ≠ ',' then r.errSyntax else r
      Lexer.advance
        { r with wantSep := NUL, kind := .tokenDelim, delimValue := r.Data.headD NUL } 1
    else if c.isDigit ∨ c = '-' then
      let r := if r.wantSep ≠ NUL then r.errSyntax else r
      Lexer.fetchNumber { r with kind := .tokenNumber }
    else if c = 'n' then
      let r := if r.wantSep ≠ NUL then r.errSyntax else r
      Lexer.fetchNull { r with kind := .tokenNull }
    else if c = 't' then
      let r := if r.wantSep ≠ NUL then r.errSyntax else r
      Lexer.fetchTrue { r with kind := .tokenBool, boolValue := true }
    else if c = 'f' then
      let r := if r.wantSep ≠ NUL then r.errSyntax else r
      Lexer.fetchFalse { r with kind := .tokenBool, boolValue := false }
    else r.errSyntax

/-- `r.FetchToken()`. -/
def Lexer.FetchToken (r : Lexer) : Lexer :=
  fetchLoop r.Data { r with kind := .tokenUndef }

/-- The opening `if r.token.kind == tokenUndef && r.Ok() { r.FetchToken() }` of the reading
methods. -/
def Lexer.fetchIfUndef (r : Lexer) : Lexer :=
  if r.kind = .tokenUndef ∧ r.Ok then r.FetchToken else r

/-- `r.scanToken()`. -/
def Lexer.scanToken (r : Lexer) : Lexer :=
  if r.kind ≠ .tokenUndef ∨ r.fatalError.isSome then r else r.FetchToken

/-- `r.IsNull()`. -/
def Lexer.IsNull (r : Lexer) : Bool × Lexer :=
  let r := r.fetchIfUndef
  (r.Ok ∧ r.kind = .tokenNull, r)

/-- `r.Skip()`. -/
def Lexer.Skip (r : Lexer) : Lexer := r.fetchIfUndef.consume

/-- `r.Delim(c)`. -/
def Lexer.Delim (r : Lexer) (c : Char) : Lexer :=
  let r := r.fetchIfUndef
  if ¬ r.Ok ∨ r.delimValue ≠ c then (r.consume).errInvalidToken [c] else r.consume

/-- `r.IsDelim(c)`. -/
def Lexer.IsDelim (r : Lexer) (c : Char) : Bool × Lexer :=
  let r := r.fetchIfUndef
  (¬ r.Ok ∨ r.delimValue = c, r)

/-- `r.WantColon()`. -/
def Lexer.WantColon (r : Lexer) : Lexer := { r with wantSep := ':', firstElement := false }

/-- `r.WantComma()`. -/
def Lexer.WantComma (r : Lexer) : Lexer := { r with wantSep := ',', firstElement := false }

/-- The value of a hexadecimal digit, `none` for any other byte. -/
def hexValue (c : Char) : Option Nat :=
  if '0' ≤ c ∧ c ≤ '9' then some (c.toNat - '0'.toNat)
  else if 'a' ≤ c ∧ c ≤ 'f' then some (c.toNat - 'a'.toNat + 10)
  else if 'A' ≤ c ∧ c ≤ 'F' then some (c.toNat - 'A'.toNat + 10)
  else none

/-- `getu4(s)`: the code unit of a `\uXXXX` escape at the head of `s`, `none` for `-1`. -/
def getu4 : Str → Option Nat
  | '\\' :: 'u' :: a :: b :: c :: d :: _ => do
    let a ← hexValue a
    let b ← hexValue b
    let c ← hexValue c
    let d ← hexValue d
    pure (((a * 16 + b) * 16 + c) * 16 + d)
  | _ => none

/-- `utf16.IsSurrogate(r)`. -/
def isSurrogate (r : Nat) : Bool := 0xd800 ≤ r ∧ r < 0xe000

/-- `unicode.ReplacementChar`. -/
def replacementChar : Nat := 0xfffd

/-- `utf16.DecodeRune(r1, r2)`; `r2 = none` stands for the `-1` that `getu4` returns. -/
def utf16DecodeRune (r1 : Nat) (r2 : Option Nat) : Nat :=
  match r2 with
  | some r2 =>
    if 0xd800 ≤ r1 ∧ r1 < 0xdc00 ∧ 0xdc00 ≤ r2 ∧ r2 < 0xe000 then
      (r1 - 0xd800) * 1024 + (r2 - 0xdc00) + 0x10000
    else replacementChar
  | none => replacementChar

/-- The character `utf8.EncodeRune` writes for a rune: the rune itself, or the replacement
character when it is no Unicode scalar value. -/
def encodeRune (r : Nat) : Char :=
  if r.isValidChar then Char.ofNat r else Char.ofNat replacementChar

/-- `decodeEscape(data)`: the rune of the escape sequence at the head of `data` and the number of
bytes it takes, or the error. -/
def decodeEscape (data : Str) : Except Str (Nat × Nat) :=
  match data with
  | _ :: c :: _ =>
    if c = '"' ∨ c = '/' ∨ c = '\\' then .ok (c.toNat, 2)
    else if c = 'b' then .ok (8, 2)
    else if c = 'f' then .ok (12, 2)
    else if c = 'n' then .ok (10, 2)
    else if c = 'r' then .ok (13, 2)
    else if c = 't' then .ok (9, 2)
    else if c = 'u' then
      match getu4 data with
      | none => .error "incorrectly escaped \\uXXXX sequence".toList
      | some rr =>
        if isSurrogate rr then
          let dec := utf16DecodeRune rr (getu4 (data.drop 6))
          if dec ≠ replacementChar then .ok (dec, 12) else .ok (replacementChar, 6)
        else .ok (rr, 6)
    else .error "incorrectly escaped bytes".toList
  | _ => .error "incorrect escape symbol \\ at the end of token".toList

/-- The loop of `unescapeStringToken`: copy up to the next backslash, decode the escape,
continue behind it.  Every round drops at least two bytes of `data`. -/
def unescapeLoop : Nat → Str → Except Str Str
  | 0, data => .ok data
  | n + 1, data =>
    match indexByte data '\\' with
    | none => .ok data
    | some i =>
      match decodeEscape (data.drop i) with
      | .error e => .error e
      | .ok (escapedRune, escapedBytes) =>
        match unescapeLoop n (data.drop (i + escapedBytes)) with
        | .error e => .error e
        | .ok rest => .ok (data.take i ++ encodeRune escapedRune :: rest)

/-- The text `unescapeStringToken` leaves in the token, or its error. -/
def unescape (data : Str) : Except Str Str := unescapeLoop (data.length + 1) data

/-- `r.unescapeStringToken()`: the lexer afterwards and whether it failed. -/
def Lexer.unescapeStringToken (r : Lexer) : Bool × Lexer :=
  match unescape r.byteValue with
  | .error e => (false, r.errParse e)
  | .ok s => (true, { r with byteValue := s })

/-- `r.String()`. -/
def Lexer.String (r : Lexer) : Str × Lexer :=
  let r := r.fetchIfUndef
  if ¬ r.Ok ∨ r.kind ≠ .tokenString then ([], r.errInvalidToken "string".toList)
  else
    match r.unescapeStringToken with
    | (false, r) => ([], r.errInvalidToken "string".toList)
    | (true, r) => (r.byteValue, r.consume)

/-- `r.UnsafeFieldName(skipUnescape)`. -/
def Lexer.UnsafeFieldName (r : Lexer) (skipUnescape : Bool) : Str × Lexer :=
  let r := r.fetchIfUndef
  if ¬ r.Ok ∨ r.kind ≠ .tokenString then ([], r.errInvalidToken "string".toList)
  else if skipUnescape then (r.byteValue, r.consume)
  else
    match r.unescapeStringToken with
    | (false, r) => ([], r.errInvalidToken "string".toList)
    | (true, r) => (r.byteValue, r.consume)

/-- The scanning loop of `SkipRecursive` over the bytes behind the opening delimiter: the number
of bytes up to and including the delimiter that closes it, `none` when the data ends first. -/
def skipLoop (start stop : Char) : Str → Nat → Bool → Bool → Nat → Option Nat
  | [], _, _, _, _ => none
  | c :: cs, level, inQuotes, wasEscape, i =>
    if c = start ∧ ¬ inQuotes then skipLoop start stop cs (level + 1) inQuotes false (i + 1)
    else if c = stop ∧ ¬ inQuotes then
      if level - 1 = 0 then some (i + 1)
      else skipLoop start stop cs (level - 1) inQuotes false (i + 1)
    else if c = '\\' ∧ inQuotes then skipLoop start stop cs level inQuotes (!wasEscape) (i + 1)
    else if c = '"' ∧ inQuotes then skipLoop start stop cs level wasEscape false (i + 1)
    else if c = '"' then skipLoop start stop cs level true false (i + 1)
    else skipLoop start stop cs level inQuotes false (i + 1)

/-- `r.SkipRecursive()`.  `jsonValid` is `json.Valid` of `encoding/json`, applied to the skipped
array or object. -/
def Lexer.SkipRecursive (jsonValid : Str → Bool) (r : Lexer) : Lexer :=
  let r := r.scanToken
  if r.delimValue = '{' ∨ r.delimValue = '[' then
    let start := r.delimValue
    let stop := if start = '{' then '}' else ']'
    let r := r.consume
    match skipLoop start stop r.Data 1 false false 0 with
    | some n =>
      let r1 := r.advance n
      if jsonValid (start :: r.Data.take n) then r1
      else
        { r1.advance r1.Data.length with
          fatalError := some "skipped array/object json value is invalid".toList }
    | none =>
      { r.advance r.Data.length with
        fatalError := some "EOF reached while skipping array/object or token".toList }
  else r.consume

/-- The loop of `Consumed`. -/
def consumedLoop : Str → Lexer → Lexer
  | [], r => r
  | c :: cs, r =>
    if c ≠ ' ' ∧ c ≠ '\t' ∧ c ≠ '\r' ∧ c ≠ '\n' then
      r.AddError "invalid character after top-level value".toList
    else consumedLoop cs (r.advance 1)

/-- `r.Consumed()`. -/
def Lexer.Consumed (r : Lexer) : Lexer :=
  if ¬ r.Ok then r else consumedLoop r.Data r

/-- The state a loop of the embedding is left in when its round budget is used up.  The budgets
are chosen so that this does not happen; the error keeps such a run from passing for a
successful one. -/
def Lexer.outOfFuel (r : Lexer) : Lexer :=
  { r with fatalError := some "loop budget exhausted".toList }

/-! ## `Lexer.Interface` and the values it builds -/

/-- The Go values `Lexer.Interface` returns: `nil`, `bool`, `float64`, `string`,
`[]interface{}` and `map[string]interface{}`.  `F` stands for `float64`. -/
inductive GoValue (F : Type) where
  | nil
  | bool (b : Bool)
  | float64 (f : F)
  | string (s : Str)
  | slice (xs : List (GoValue F))
  | map (m : List (Str × GoValue F))

/-- The assignment `m[k] = v`: an existing key keeps its place, a new key goes to the end. -/
def GoMap.set {α : Type} : GoMap α → Str → α → GoMap α
  | [], k, v => [(k, v)]
  | (k', v') :: rest, k, v =>
    if k' = k then (k, v) :: rest else (k', v') :: GoMap.set rest k v

/-- The library routines the decoder reaches that are not embedded: `json.Valid` (used by
`SkipRecursive`), `strconv.ParseFloat(s, 64)` with its error, and the `float64` zero. -/
structure Runtime (F : Type) where
  jsonValid : Str → Bool
  ParseFloat : Str → F × Option Str
  zero : F

/-- `r.number()`. -/
def Lexer.number (r : Lexer) : Str × Lexer :=
  let r := r.fetchIfUndef
  if ¬ r.Ok ∨ r.kind ≠ .tokenNumber then ([], r.errInvalidToken "number".toList)
  else (r.byteValue, r.consume)

/-- `r.Float64()`; a `ParseFloat` error becomes the fatal error. -/
def Lexer.Float64 {F : Type} (rt : Runtime F) (r : Lexer) : F × Lexer :=
  let (s, r) := r.number
  if ¬ r.Ok then (rt.zero, r)
  else
    match rt.ParseFloat s with
    | (n, some err) => (n, { r with fatalError := some err })
    | (n, none) => (n, r)

/-- `r.Bool()`. -/
def Lexer.Bool (r : Lexer) : Bool × Lexer :=
  let r := r.fetchIfUndef
  if ¬ r.Ok ∨ r.kind ≠ .tokenBool then (false, r.errInvalidToken "bool".toList)
  else (r.boolValue, r.consume)

/-- `r.Null()`. -/
def Lexer.Null (r : Lexer) : Lexer :=
  let r := r.fetchIfUndef
  if ¬ r.Ok ∨ r.kind ≠ .tokenNull then (r.errInvalidToken "null".toList).consume
  else r.consume

/-- A loop `for !in.IsDelim(c) { body }` over a lexer `in` and the data `a` the body updates,
run for at most the given number of rounds. -/
def delimLoop {α : Type} (c : Char) (body : Lexer → α → Lexer × α) :
    Nat → Lexer → α → Lexer × α
  | 0, inp, a => (inp.outOfFuel, a)
  | n + 1, inp, a =>
    let (d, inp) := inp.IsDelim c
    if d then (inp, a)
    else
      let (inp, a) := body inp a
      delimLoop c body n inp a

/-- The budget handed to a loop: every round reads at least one byte or ends the loop, so one
round per unread byte and one more suffice. -/
def loopFuel (r : Lexer) : Nat := r.Data.length + 1

/-- `r.Interface()`; the budget bounds the nesting of the calls. -/
def Interface {F : Type} (rt : Runtime F) : Nat → Lexer → Lexer × GoValue F
  | 0, r => (r.outOfFuel, .nil)
  | n + 1, r =>
    let r := r.fetchIfUndef
    if ¬ r.Ok then (r, .nil)
    else
      match r.kind with
      | .tokenString => let (s, r) := r.String; (r, .string s)
      | .tokenNumber => let (f, r) := r.Float64 rt; (r, .float64 f)
      | .tokenBool => let (b, r) := r.Bool; (r, .bool b)
      | .tokenNull => (r.Null, .nil)
      | _ =>
        if r.delimValue = '{' then
          let r := r.consume
          let (r, ret) :=
            delimLoop '}'
              (fun r (ret : GoMap (GoValue F)) =>
                let (key, r) := r.String
                let r := r.WantColon
                let (r, v) := Interface rt n r
                (r.WantComma, GoMap.set ret key v))
              (loopFuel r) r []
          let r := r.Delim '}'
          if r.Ok then (r, .map ret) else (r, .nil)
        else if r.delimValue = '[' then
          let r := r.consume
          let (r, ret) :=
            delimLoop ']'
              (fun r (ret : List (GoValue F)) =>
                let (r, v) := Interface rt n r
                (r.WantComma, ret ++ [v]))
              (loopFuel r) r []
          let r := r.Delim ']'
          if r.Ok then (r, .slice ret) else (r, .nil)
        else (r.errSyntax, .nil)

/-- The budget handed to `Interface`: a value cannot nest deeper than it is long. -/
def interfaceFuel (r : Lexer) : Nat := r.Data.length + 2

/-! ## The generated decoders -/

section Decode

variable {F : Type}

/-- One round of the loop that fills `out.Attribs`. -/
def decodeAttrib (rt : Runtime F) (inp : Lexer) (attribs : GoMap (GoValue F)) :
    Lexer × GoMap (GoValue F) :=
  let (key, inp) := inp.String
  let inp := inp.WantColon
  let (inp, v12) := Interface rt (interfaceFuel inp) inp
  let attribs := GoMap.set attribs key v12
  (inp.WantComma, attribs)

/-- The `switch key` of the recipient decoder. -/
def decodeRecipientField (rt : Runtime F) (key : Str) (inp : Lexer)
    (out : recipient (GoValue F)) : Lexer × recipient (GoValue F) :=
  if key = "uuid".toList then
    let (s, inp) := inp.String
    (inp, { out with UUID := s })
  else if key = "email".toList then
    let (s, inp) := inp.String
    (inp, { out with Email := s })
  else if key = "name".toList then
    let (s, inp) := inp.String
    (inp, { out with Name := s })
  else if key = "attribs".toList then
    let (isNull, inp) := inp.IsNull
    if isNull then (inp.Skip, out)
    else
      let inp := inp.Delim '{'
      let (inp, attribs) := delimLoop '}' (decodeAttrib rt) (loopFuel inp) inp []
      let inp := inp.Delim '}'
      (inp, { out with Attribs := some attribs })
  else if key = "status".toList then
    let (s, inp) := inp.String
    (inp, { out with Status := s })
  else (inp.SkipRecursive rt.jsonValid, out)

/-- One round of the loop `for !in.IsDelim('}')` of the recipient decoder; the `continue` of
the null case ends the round like its last statement does. -/
def decodeRecipientMember (rt : Runtime F) (inp : Lexer) (out : recipient (GoValue F)) :
    Lexer × recipient (GoValue F) :=
  let (key, inp) := inp.UnsafeFieldName false
  let inp := inp.WantColon
  let (isNull, inp) := inp.IsNull
  if isNull then
    let inp := inp.Skip
    (inp.WantComma, out)
  else
    let (inp, out) := decodeRecipientField rt key inp out
    (inp.WantComma, out)

/-- The decoder of `recipient`. -/
def easyjsonDf11841fDecodeGithubComKnadhListmonkInternalMessengerPostback1 (rt : Runtime F)
    (inp : Lexer) (out : recipient (GoValue F)) : Lexer × recipient (GoValue F) :=
  let isTopLevel := inp.IsStart
  let (isNull, inp) := inp.IsNull
  if isNull then
    let inp := if isTopLevel then inp.Consumed else inp
    (inp.Skip, out)
  else
    let inp := inp.Delim '{'
    let (inp, out) := delimLoop '}' (decodeRecipientMember rt) (loopFuel inp) inp out
    let inp := inp.Delim '}'
    let inp := if isTopLevel then inp.Consumed else inp
    (inp, out)

/-- One round of the loop that fills one header map `v4`. -/
def decodeHeaderEntry (inp : Lexer) (v4 : GoMap Str) : Lexer × GoMap Str :=
  let (key, inp) := inp.String
  let inp := inp.WantColon
  let (v5, inp) := inp.String
  let v4 := GoMap.set v4 key v5
  (inp.WantComma, v4)

/-- One round of the loop that fills `out.Headers`. -/
def decodeHeader (inp : Lexer) (headers : List (Option (GoMap Str))) :
    Lexer × List (Option (GoMap Str)) :=
  let (isNull, inp) := inp.IsNull
  let (inp, v4) :=
    if isNull then (inp.Skip, (none : Option (GoMap Str)))
    else
      let inp := inp.Delim '{'
      let (inp, v4) := delimLoop '}' decodeHeaderEntry (loopFuel inp) inp []
      let inp := inp.Delim '}'
      (inp, some v4)
  let headers := headers ++ [v4]
  (inp.WantComma, headers)

/-- One round of the loop that fills `out.Tags`. -/
def decodeTag (inp : Lexer) (tags : List Str) : Lexer × List Str :=
  let (v6, inp) := inp.String
  let tags := tags ++ [v6]
  (inp.WantComma, tags)

/-- The `switch key` of the campaign decoder. -/
def decodeCampaignField (rt : Runtime F) (key : Str) (inp : Lexer) (out : campaign) :
    Lexer × campaign :=
  if key = "uuid".toList then
    let (s, inp) := inp.String
    (inp, { out with UUID := s })
  else if key = "name".toList then
    let (s, inp) := inp.String
    (inp, { out with Name := s })
  else if key = "headers".toList then
    let (isNull, inp) := inp.IsNull
    if isNull then (inp.Skip, { out with Headers := none })
    else
      let inp := inp.Delim '['
      let fuel := loopFuel inp
      let inp := if out.Headers.isNone then (inp.IsDelim ']').2 else inp
      let (inp, headers) := delimLoop ']' decodeHeader fuel inp []
      let inp := inp.Delim ']'
      (inp, { out with Headers := some headers })
  else if key = "tags".toList then
    let (isNull, inp) := inp.IsNull
    if isNull then (inp.Skip, { out with Tags := none })
    else
      let inp := inp.Delim '['
      let fuel := loopFuel inp
      let inp := if out.Tags.isNone then (inp.IsDelim ']').2 else inp
      let (inp, tags) := delimLoop ']' decodeTag fuel inp []
      let inp := inp.Delim ']'
      (inp, { out with Tags := some tags })
  else (inp.SkipRecursive rt.jsonValid, out)

/-- One round of the loop `for !in.IsDelim('}')` of the campaign decoder. -/
def decodeCampaignMember (rt : Runtime F) (inp : Lexer) (out : campaign) : Lexer × campaign :=
  let (key, inp) := inp.UnsafeFieldName false
  let inp := inp.WantColon
  let (isNull, inp) := inp.IsNull
  if isNull then
    let inp := inp.Skip
    (inp.WantComma, out)
  else
    let (inp, out) := decodeCampaignField rt key inp out
    (inp.WantComma, out)

/-- The decoder of `campaign`. -/
def easyjsonDf11841fDecodeGithubComKnadhListmonkInternalMessengerPostback2 (rt : Runtime F)
    (inp : Lexer) (out : campaign) : Lexer × campaign :=
  let isTopLevel := inp.IsStart
  let (isNull, inp) := inp.IsNull
  if isNull then
    let inp := if isTopLevel then inp.Consumed else inp
    (inp.Skip, out)
  else
    let inp := inp.Delim '{'
    let (inp, out) := delimLoop '}' (decodeCampaignMember rt) (loopFuel inp) inp out
    let inp := inp.Delim '}'
    let inp := if isTopLevel then inp.Consumed else inp
    (inp, out)

/-- The zero value of `recipient` (`var v1 recipient`). -/
def recipient.zero : recipient (GoValue F) :=
  { UUID := [], Email := [], Name := [], Attribs := none, Status := [] }

/-- The zero value of `campaign` (`new(campaign)`). -/
def campaign.zero : campaign := { UUID := [], Name := [], Headers := none, Tags := none }

/-- One round of the loop that fills `out.Recipients`. -/
def decodeRecipient (rt : Runtime F) (inp : Lexer) (recipients : List (recipient (GoValue F))) :
    Lexer × List (recipient (GoValue F)) :=
  let (inp, v1) :=
    easyjsonDf11841fDecodeGithubComKnadhListmonkInternalMessengerPostback1 rt inp recipient.zero
  let recipients := recipients ++ [v1]
  (inp.WantComma, recipients)

/-- The `switch key` of the postback decoder. -/
def decodePostbackField (rt : Runtime F) (key : Str) (inp : Lexer)
    (out : postback (GoValue F)) : Lexer × postback (GoValue F) :=
  if key = "subject".toList then
    let (s, inp) := inp.String
    (inp, { out with Subject := s })
  else if key = "content_type".toList then
    let (s, inp) := inp.String
    (inp, { out with ContentType := s })
  else if key = "body".toList then
    let (s, inp) := inp.String
    (inp, { out with Body := s })
  else if key = "recipients".toList then
    let (isNull, inp) := inp.IsNull
    if isNull then (inp.Skip, { out with Recipients := none })
    else
      let inp := inp.Delim '['
      let fuel := loopFuel inp
      let inp := if out.Recipients.isNone then (inp.IsDelim ']').2 else inp
      let (inp, recipients) := delimLoop ']' (decodeRecipient rt) fuel inp []
      let inp := inp.Delim ']'
      (inp, { out with Recipients := some recipients })
  else if key = "campaign".toList then
    let (isNull, inp) := inp.IsNull
    if isNull then (inp.Skip, { out with Campaign := none })
    else
      let c := out.Campaign.getD campaign.zero
      let (inp, c) :=
        easyjsonDf11841fDecodeGithubComKnadhListmonkInternalMessengerPostback2 rt inp c
      (inp, { out with Campaign := some c })
  else (inp.SkipRecursive rt.jsonValid, out)

/-- One round of the loop `for !in.IsDelim('}')` of the postback decoder. -/
def decodePostbackMember (rt : Runtime F) (inp : Lexer) (out : postback (GoValue F)) :
    Lexer × postback (GoValue F) :=
  let (key, inp) := inp.UnsafeFieldName false
  let inp := inp.WantColon
  let (isNull, inp) := inp.IsNull
  if isNull then
    let inp := inp.Skip
    (inp.WantComma, out)
  else
    let (inp, out) := decodePostbackField rt key inp out
    (inp.WantComma, out)

/-- The decoder of `postback`. -/
def easyjsonDf11841fDecodeGithubComKnadhListmonkInternalMessengerPostback (rt : Runtime F)
    (inp : Lexer) (out : postback (GoValue F)) : Lexer × postback (GoValue F) :=
  let isTopLevel := inp.IsStart
  let (isNull, inp) := inp.IsNull
  if isNull then
    let inp := if isTopLevel then inp.Consumed else inp
    (inp.Skip, out)
  else
    let inp := inp.Delim '{'
    let (inp, out) := delimLoop '}' (decodePostbackMember rt) (loopFuel inp) inp out
    let inp := inp.Delim '}'
    let inp := if isTopLevel then inp.Consumed else inp
    (inp, out)

/-- `(*postback).UnmarshalJSON(data)`: the value `v` points to afterwards and the error
returned (`none` is `nil`). -/
def UnmarshalJSON (rt : Runtime F) (v : postback (GoValue F)) (data : Str) :
    postback (GoValue F) × Option Str :=
  let r := Lexer.new data
  let (r, v) := easyjsonDf11841fDecodeGithubComKnadhListmonkInternalMessengerPostback rt r v
  (v, r.Error)

end Decode

/-! ## JSON texts (RFC 8259)

The grammar of JSON as a predicate on texts.  An array or object is given by its pieces, so that
"the same object with one more member" can be written down. -/

/-- `ws = *( %x20 / %x09 / %x0A / %x0D )`. -/
def IsWs (ws : Str) : Prop := ∀ c ∈ ws, c = ' ' ∨ c = '\t' ∨ c = '\r' ∨ c = '\n'

/-- `*DIGIT`. -/
def AllDigits (ds : Str) : Prop := ∀ c ∈ ds, c.isDigit = true

/-- `int = zero / ( digit1-9 *DIGIT )`. -/
def JsonInt (n : Str) : Prop :=
  n = ['0'] ∨ ∃ d ds, n = d :: ds ∧ d.isDigit = true ∧ d ≠ '0' ∧ AllDigits ds

/-- `[ frac ]` with `frac = decimal-point 1*DIGIT`. -/
def JsonFrac (f : Str) : Prop :=
  f = [] ∨ ∃ d ds, f = '.' :: d :: ds ∧ AllDigits (d :: ds)

/-- `[ exp ]` with `exp = e [ minus / plus ] 1*DIGIT`. -/
def JsonExp (x : Str) : Prop :=
  x = [] ∨ ∃ e sign d ds, x = e :: sign ++ d :: ds ∧ (e = 'e' ∨ e = 'E') ∧
    (sign = [] ∨ sign = ['+'] ∨ sign = ['-']) ∧ AllDigits (d :: ds)

/-- `number = [ minus ] int [ frac ] [ exp ]`. -/
def JsonNumber (n : Str) : Prop :=
  ∃ sign i f x, n = sign ++ i ++ f ++ x ∧ (sign = [] ∨ sign = ['-']) ∧
    JsonInt i ∧ JsonFrac f ∧ JsonExp x

/-- `HEXDIG`. -/
def IsHexDigit (c : Char) : Prop := (hexValue c).isSome = true

/-- What stands between the quotes of a `string`: `*char` with
`char = unescaped / escape ( " / \ / / / b / f / n / r / t / uXXXX )`. -/
inductive StrBody : Str → Prop where
  | nil : StrBody []
  | unescaped (c : Char) (b : Str) :
      32 ≤ c.toNat → c ≠ '"' → c ≠ '\\' → StrBody b → StrBody (c :: b)
  | escape (e : Char) (b : Str) :
      e = '"' ∨ e = '\\' ∨ e = '/' ∨ e = 'b' ∨ e = 'f' ∨ e = 'n' ∨ e = 'r' ∨ e = 't' →
      StrBody b → StrBody ('\\' :: e :: b)
  | unicode (h1 h2 h3 h4 : Char) (b : Str) :
      IsHexDigit h1 → IsHexDigit h2 → IsHexDigit h3 → IsHexDigit h4 →
      StrBody b → StrBody ('\\' :: 'u' :: h1 :: h2 :: h3 :: h4 :: b)

/-- An element of an array with the white space around it. -/
structure Elem where
  ws1 : Str
  value : Str
  ws2 : Str

/-- The text of an element: `ws value ws`. -/
def Elem.text (e : Elem) : Str := e.ws1 ++ e.value ++ e.ws2

/-- The white space of an element is white space. -/
def Elem.WF (e : Elem) : Prop := IsWs e.ws1 ∧ IsWs e.ws2

/-- A member of an object: the text between the quotes of its name, its value, and the white
space around them. -/
structure Member where
  ws1 : Str
  key : Str
  ws2 : Str
  ws3 : Str
  value : Str
  ws4 : Str

/-- The text of a member: `ws string ws : ws value ws`. -/
def Member.text (m : Member) : Str :=
  m.ws1 ++ '"' :: m.key ++ '"' :: m.ws2 ++ ':' :: m.ws3 ++ m.value ++ m.ws4

/-- The name of a member is a string and its white space is white space. -/
def Member.WF (m : Member) : Prop :=
  IsWs m.ws1 ∧ StrBody m.key ∧ IsWs m.ws2 ∧ IsWs m.ws3 ∧ IsWs m.ws4

/-- The text `[ ws e1 , e2 , ... ]` of an array. -/
def arrayText (ws : Str) (es : List Elem) : Str :=
  '[' :: ws ++ [','].intercalate (es.map Elem.text) ++ [']']

/-- The text `{ ws m1 , m2 , ... }` of an object. -/
def objectText (ws : Str) (ms : List Member) : Str :=
  '{' :: ws ++ [','].intercalate (ms.map Member.text) ++ ['}']

/-- `value = false / null / true / object / array / number / string`. -/
inductive JsonValue : Str → Prop where
  | null : JsonValue "null".toList
  | true : JsonValue "true".toList
  | false : JsonValue "false".toList
  | number (n : Str) : JsonNumber n → JsonValue n
  | string (b : Str) : StrBody b → JsonValue ('"' :: b ++ ['"'])
  | array (ws : Str) (es : List Elem) :
      IsWs ws → (∀ e ∈ es, e.WF) → (∀ e ∈ es, JsonValue e.value) → JsonValue (arrayText ws es)
  | object (ws : Str) (ms : List Member) :
      IsWs ws → (∀ m ∈ ms, m.WF) → (∀ m ∈ ms, JsonValue m.value) →
      JsonValue (objectText ws ms)

/-- The members of an object are well formed. -/
def MembersWF (ws : Str) (ms : List Member) : Prop :=
  IsWs ws ∧ (∀ m ∈ ms, m.WF) ∧ (∀ m ∈ ms, JsonValue m.value)

/-! ## Reading a text with the lexer: the vocabulary of the proofs -/

/-- The lexer stands between two tokens: no token is current and no error is recorded. -/
structure Lexer.Idle (r : Lexer) : Prop where
  kind : r.kind = .tokenUndef
  delim : r.delimValue = NUL
  ok : r.fatalError = none

/-- The lexer stands between two tokens, past the start of the input, with `data` unread and
wanting the separator `w`. -/
structure Lexer.At (r : Lexer) (data : Str) (w : Char) : Prop where
  idle : r.Idle
  pos : 0 < r.pos
  data : r.Data = data
  sep : r.wantSep = w

/-- What may stand before the next token when the lexer wants the separator `w`: white space,
with exactly one `w` in it unless `w` is `NUL`. -/
def Pre (w : Char) (pre : Str) : Prop :=
  (w = NUL ∧ IsWs pre) ∨
  ((w = ',' ∨ w = ':') ∧ ∃ ws1 ws2, IsWs ws1 ∧ IsWs ws2 ∧ pre = ws1 ++ w :: ws2)

/-- What may follow a value: the end of the input or a byte that ends a token. -/
def Follow (rest : Str) : Prop := literalEnds rest = true

/-- A routine ended as `res` says: with the data `a'`, the lexer between tokens before `rest`
and wanting the separator `wOut` (`res = some a'`), or with an error (`res = none`). -/
def Ends {α : Type} (wOut : Char) (rest : Str) (res : Option α) (x : Lexer × α) : Prop :=
  match res with
  | some a' => x.2 = a' ∧ x.1.At rest wOut
  | none => x.1.Ok = false

/-- The behaviour of a reading routine `D` on the text `u`, whatever stands around it: started
between tokens before `u`, with `a` as the data to update, `D` either stops between tokens
right behind `u`, wanting the separator `wOut`, with the data `a'` (`res = some a'`), or fails
(`res = none`). -/
def Sem {α : Type} (wOut : Char) (D : Lexer → α → Lexer × α) (u : Str) (a : α)
    (res : Option α) : Prop :=
  ∀ (r : Lexer) (w : Char) (pre rest : Str), r.At (pre ++ u ++ rest) w → Pre w pre →
    Follow rest → Ends wOut rest res (D r a)

/-- The routine `D` opens by fetching a token: past the start of the input, it does the same
when the token has been fetched already. -/
def Fetched {α : Type} (D : Lexer → α → Lexer × α) : Prop :=
  ∀ (r : Lexer) (a : α), 0 < r.pos → D r.fetchIfUndef a = D r a

/-- The routine `D` leaves a lexer that has failed in its error. -/
def Sticky {α : Type} (D : Lexer → α → Lexer × α) : Prop :=
  ∀ (r : Lexer) (a : α), r.Ok = false → (D r a).1.Ok = false

/-- The routine `D` reads every value in one way, whatever stands around it. -/
def Reads {α : Type} (D : Lexer → α → Lexer × α) : Prop :=
  ∀ (v : Str), JsonValue v → ∀ (a : α), ∃ res, Sem NUL D v a res

/-- The behaviour of the rounds of a loop on the items `us`, one round per item. -/
def ListSem {α : Type} (body : Lexer → α → Lexer × α) : List Str → α → Option α → Prop
  | [], a, res => res = some a
  | u :: us, a, res =>
    (Sem ',' body u a none ∧ res = none) ∨
    ∃ a', Sem ',' body u a (some a') ∧ ListSem body us a' res

/-- The lexer after the white space and separator `pre` have been read. -/
def Lexer.skip (r : Lexer) (n : Nat) : Lexer := { r.advance n with wantSep := NUL }

/-- The coarse structure of a string body: bytes other than quote and backslash, and
backslashes each followed by one byte. -/
inductive Units : Str → Prop where
  | nil : Units []
  | plain (c : Char) (b : Str) : c ≠ '"' → c ≠ '\\' → Units b → Units (c :: b)
  | esc (e : Char) (b : Str) : Units b → Units ('\\' :: e :: b)

/-- The number of backslashes at the end of a text. -/
def trailing (b : Str) : Nat := (b.reverse.takeWhile (· = '\\')).length

/-- The lexer `r` after the token of kind `k` that ends before `rest`, `n` bytes on. -/
def Lexer.withToken (r : Lexer) (rest : Str) (n : Nat) (k : tokenKind) : Lexer :=
  { r with Data := rest, pos := r.pos + n, wantSep := NUL, kind := k }

/-- The kind of the first token of a value, read off its first byte. -/
def valueKind (v : Str) : tokenKind :=
  match v with
  | '"' :: _ => .tokenString
  | '{' :: _ => .tokenDelim
  | '[' :: _ => .tokenDelim
  | 'n' :: _ => .tokenNull
  | 't' :: _ => .tokenBool
  | 'f' :: _ => .tokenBool
  | _ => .tokenNumber

/-- The delimiter a value opens with, `NUL` when it opens with none. -/
def valueDelim (v : Str) : Char :=
  match v with
  | '{' :: _ => '{'
  | '[' :: _ => '['
  | _ => NUL

/-- Read a string and store it with `f`. -/
def readString {α : Type} (f : α → Str → α) (r : Lexer) (a : α) : Lexer × α :=
  let (s, r) := r.String
  (r, f a s)

/-- An item of a loop: the text one round reads, and the white space around it. -/
structure Item where
  w1 : Str
  core : Str
  w2 : Str

/-- The white space of an item is white space. -/
def Item.WF (i : Item) : Prop := IsWs i.w1 ∧ IsWs i.w2

/-- The text of an item. -/
def Item.text (i : Item) : Str := i.w1 ++ i.core ++ i.w2

/-- What follows the text of an item: the closing delimiter `c`, or a comma and the items
left. -/
def remText (c : Char) : List Item → Str → Str
  | [], rest => c :: rest
  | it :: its, rest => ',' :: (it.w1 ++ (it.core ++ (it.w2 ++ remText c its rest)))

/-- What stands between the delimiters: nothing, or the first item and what follows it. -/
def startText (c : Char) : List Item → Str → Str
  | [], rest => c :: rest
  | it :: its, rest => it.w1 ++ (it.core ++ (it.w2 ++ remText c its rest))

/-- The first token of the text `u` can be fetched and is not the closing delimiter `c`. -/
def Starts (c : Char) (u : Str) : Prop :=
  ∀ (r : Lexer) (w : Char) (pre rest : Str), r.At (pre ++ u ++ rest) w → Pre w pre →
    Follow rest → r.fetchIfUndef.Ok = true ∧ r.fetchIfUndef.delimValue ≠ c

/-- Run `D`, then call `WantComma`: the shape of a loop round. -/
def thenComma {α : Type} (D : Lexer → α → Lexer × α) (r : Lexer) (a : α) : Lexer × α :=
  let (r, a) := D r a
  (r.WantComma, a)

/-- Run `D` on the fresh data `b0` and store what it built into `a`. -/
def into {α β : Type} (D : Lexer → β → Lexer × β) (b0 : β) (store : α → β → α) (r : Lexer)
    (a : α) : Lexer × α :=
  let (r, b) := D r b0
  (r, store a b)

/-- `if in.IsNull() { in.Skip(); onNull } else { D }`. -/
def nullOr {α : Type} (onNull : α → α) (D : Lexer → α → Lexer × α) (r : Lexer) (a : α) :
    Lexer × α :=
  let (isNull, r) := r.IsNull
  if isNull then (r.Skip, onNull a) else D r a

/-- `in.Delim(o)`, an optional look-ahead `in.IsDelim(c)`, the loop `for !in.IsDelim(c)` with
the budget taken behind the opening delimiter, and `in.Delim(c)`. -/
def readContainer {α : Type} (o c : Char) (lookAhead : Bool) (body : Lexer → α → Lexer × α)
    (r : Lexer) (a : α) : Lexer × α :=
  let r := r.Delim o
  let fuel := loopFuel r
  let r := if lookAhead then (r.IsDelim c).2 else r
  let (r, a) := delimLoop c body fuel r a
  (r.Delim c, a)

/-- One round of the loop over the members of an object: read the name, skip a null value,
hand any other value to `field`. -/
def readMember {α : Type} (field : Str → Lexer → α → Lexer × α) (r : Lexer) (a : α) :
    Lexer × α :=
  let (key, r) := r.UnsafeFieldName false
  let r := r.WantColon
  let (isNull, r) := r.IsNull
  if isNull then
    let r := r.Skip
    (r.WantComma, a)
  else
    let (r, a) := field key r a
    (r.WantComma, a)

/-- The text of a member without the white space around it. -/
def Member.core (m : Member) : Str :=
  '"' :: (m.key ++ '"' :: (m.ws2 ++ ':' :: (m.ws3 ++ m.value)))

/-- A member as the item of a loop. -/
def Member.item (m : Member) : Item := ⟨m.ws1, m.core, m.ws4⟩

/-- An element as the item of a loop. -/
def Elem.item (e : Elem) : Item := ⟨e.ws1, e.value, e.ws2⟩

/-! ## The scan of `SkipRecursive` -/

/-- A byte the scan of `SkipRecursive` passes over without a change of state. -/
def Plain (c : Char) : Prop :=
  c ≠ '{' ∧ c ≠ '}' ∧ c ≠ '[' ∧ c ≠ ']' ∧ c ≠ '"' ∧ c ≠ '\\'

/-- The delimiters `start`, `stop` the scan of `SkipRecursive` counts. -/
def IsPair (start stop : Char) : Prop := (start = '{' ∧ stop = '}') ∨ (start = '[' ∧ stop = ']')

/-- The scan of `SkipRecursive`, outside a string and at least one level deep, passes over the
text `t` and is in the same state behind it. -/
def Skips (t : Str) : Prop :=
  ∀ (start stop : Char), IsPair start stop → ∀ (cs : Str) (level i : Nat), 1 ≤ level →
    skipLoop start stop (t ++ cs) level false false i =
      skipLoop start stop cs level false false (i + t.length)

/-! ## The pieces the generated decoders are made of -/

/-- What `Interface` makes of a number: the value `ParseFloat` gives, an error when it gives
one. -/
def numberResult {F : Type} (rt : Runtime F) (v : Str) : Option (GoValue F) :=
  match rt.ParseFloat v with
  | (_, some _) => none
  | (f, none) => some (.float64 f)

/-- What `Interface` makes of a string: its unescaped body, an error when it does not
unescape. -/
def stringResult {F : Type} (b : Str) : Option (GoValue F) :=
  match unescape b with
  | .ok k => some (.string k)
  | .error _ => none

/-- One round of a loop that fills a map: read the name, read the value with `D`, store it. -/
def readEntry {β : Type} (D : Lexer → β → Lexer × β) (b0 : β) (r : Lexer) (m : GoMap β) :
    Lexer × GoMap β :=
  let (key, r) := r.String
  let r := r.WantColon
  let (r, v) := D r b0
  (r.WantComma, GoMap.set m key v)

/-- What a round of `readEntry` makes of a member whose value `D` reads as `res`. -/
def entryResult {β : Type} (key : Str) (res : Option β) (m : GoMap β) : Option (GoMap β) :=
  match unescape key with
  | .ok k => res.map (GoMap.set m k)
  | .error _ => none

/-- One round of the loop of `Interface` over the elements of an array. -/
def interfaceElem {F : Type} (rt : Runtime F) (n : Nat) :
    Lexer → List (GoValue F) → Lexer × List (GoValue F) :=
  thenComma (into (fun r _ => Interface rt n r) GoValue.nil (fun ret v => ret ++ [v]))

/-- One round of the loop of `Interface` over the members of an object. -/
def interfaceEntry {F : Type} (rt : Runtime F) (n : Nat) :
    Lexer → GoMap (GoValue F) → Lexer × GoMap (GoValue F) :=
  readEntry (fun r _ => Interface rt n r) GoValue.nil

/-- The call `in.Interface()` of the generated code, with its budget. -/
def readInterface {F : Type} (rt : Runtime F) (r : Lexer) (_ : GoValue F) :
    Lexer × GoValue F :=
  Interface rt (interfaceFuel r) r

/-- The statement `in.SkipRecursive()` of the `default` case. -/
def skipValue {F : Type} (rt : Runtime F) {α : Type} (r : Lexer) (a : α) : Lexer × α :=
  (r.SkipRecursive rt.jsonValid, a)

/-- The body of a generated object decoder when it does not stand at the start of the input. -/
def objectDecoder {α : Type} (field : Str → Lexer → α → Lexer × α) :
    Lexer → α → Lexer × α :=
  nullOr id (readContainer '{' '}' false (readMember field))

/-- The `attribs` case of the recipient decoder. -/
def readAttribs {F : Type} (rt : Runtime F) :
    Lexer → recipient (GoValue F) → Lexer × recipient (GoValue F) :=
  nullOr id
    (into (readContainer '{' '}' false (readEntry (readInterface rt) GoValue.nil)) []
      (fun out attribs => { out with Attribs := some attribs }))

/-- Read an array with the rounds `body` into a fresh slice and store the slice with `store`;
`la a` says whether the generated code looks ahead for an empty array first. -/
def readSlice {α β : Type} (la : α → Bool) (body : Lexer → List β → Lexer × List β)
    (store : α → List β → α) (r : Lexer) (a : α) : Lexer × α :=
  into (readContainer '[' ']' (la a) body) [] store r a

/-- The value of one element of `headers`: null, or a map of strings. -/
def readHeaderMap : Lexer → Option (GoMap Str) → Lexer × Option (GoMap Str) :=
  nullOr (fun _ => none)
    (into (readContainer '{' '}' false (readEntry (readString fun _ s => s) [])) []
      (fun _ m => some m))

/-- The `headers` case of the campaign decoder. -/
def readHeaders : Lexer → campaign → Lexer × campaign :=
  nullOr (fun out => { out with Headers := none })
    (readSlice (fun out => out.Headers.isNone)
      (thenComma (into readHeaderMap none (fun hs v => hs ++ [v])))
      (fun out hs => { out with Headers := some hs }))

/-- The `tags` case of the campaign decoder. -/
def readTags : Lexer → campaign → Lexer × campaign :=
  nullOr (fun out => { out with Tags := none })
    (readSlice (fun out => out.Tags.isNone)
      (thenComma (readString fun tags s => tags ++ [s]))
      (fun out ts => { out with Tags := some ts }))

/-- The `recipients` case of the postback decoder. -/
def readRecipients {F : Type} (rt : Runtime F) :
    Lexer → postback (GoValue F) → Lexer × postback (GoValue F) :=
  nullOr (fun out => { out with Recipients := none })
    (readSlice (fun out => out.Recipients.isNone)
      (thenComma
        (into (easyjsonDf11841fDecodeGithubComKnadhListmonkInternalMessengerPostback1 rt)
          recipient.zero (fun rs v => rs ++ [v])))
      (fun out rs => { out with Recipients := some rs }))

/-- The `campaign` case of the postback decoder. -/
def readCampaign {F : Type} (rt : Runtime F) :
    Lexer → postback (GoValue F) → Lexer × postback (GoValue F) :=
  nullOr (fun out => { out with Campaign := none })
    (fun r out =>
      into (easyjsonDf11841fDecodeGithubComKnadhListmonkInternalMessengerPostback2 rt)
        (out.Campaign.getD campaign.zero) (fun out c => { out with Campaign := some c }) r out)

/-! ## A JSON text with one member more -/

/-- The names the `switch key` of the postback decoder knows. -/
def postbackKeys : List Str :=
  ["subject".toList, "content_type".toList, "body".toList, "recipients".toList,
    "campaign".toList]

/-- The names the `switch key` of the recipient decoder knows. -/
def recipientKeys : List Str :=
  ["uuid".toList, "email".toList, "name".toList, "attribs".toList, "status".toList]

/-- The names the `switch key` of the campaign decoder knows. -/
def campaignKeys : List Str :=
  ["uuid".toList, "name".toList, "headers".toList, "tags".toList]

/-- The name of the member `m` is none of the names `known`. -/
def Member.Unknown (known : List Str) (m : Member) : Prop :=
  ∀ k ∈ known, unescape m.key ≠ .ok k

/-- The elements of an array are well formed. -/
def ElemsWF (ws : Str) (es : List Elem) : Prop :=
  IsWs ws ∧ (∀ e ∈ es, e.WF) ∧ (∀ e ∈ es, JsonValue e.value)

/-- The member `M` with another value. -/
def Member.withValue (M : Member) (v : Str) : Member := { M with value := v }

/-- The element `e` with another value. -/
def Elem.withValue (e : Elem) (v : Str) : Elem := { e with value := v }

/-- `AddsMember m t t'`: the JSON text `t'` is the JSON object text `t` with the one member `m`
more, whose name is none of the names the decoder knows at that place.  The member is added to
the top-level object (`top`), to an object in the array of the member named `recipients`
(`recipient`) or to the object of the member named `campaign` (`campaign`); `xs`, `ys`, `ps`,
`qs`, `es1`, `es2` are the members and elements before and behind the place. -/
inductive AddsMember (m : Member) : Str → Str → Prop where
  | top (w0 w1 ws : Str) (xs ys : List Member) :
      IsWs w0 → IsWs w1 → MembersWF ws (xs ++ ys) → m.Unknown postbackKeys →
      AddsMember m (w0 ++ objectText ws (xs ++ ys) ++ w1)
        (w0 ++ objectText ws (xs ++ m :: ys) ++ w1)
  | recipient (w0 w1 ws : Str) (xs ys : List Member) (M : Member) (wa : Str)
      (es1 es2 : List Elem) (e : Elem) (wr : Str) (ps qs : List Member) :
      IsWs w0 → IsWs w1 → MembersWF ws (xs ++ ys) → M.WF →
      unescape M.key = .ok "recipients".toList →
      ElemsWF wa (es1 ++ es2) → e.WF → MembersWF wr (ps ++ qs) → m.Unknown recipientKeys →
      AddsMember m
        (w0 ++ objectText ws (xs ++ M.withValue (arrayText wa
          (es1 ++ e.withValue (objectText wr (ps ++ qs)) :: es2)) :: ys) ++ w1)
        (w0 ++ objectText ws (xs ++ M.withValue (arrayText wa
          (es1 ++ e.withValue (objectText wr (ps ++ m :: qs)) :: es2)) :: ys) ++ w1)
  | campaign (w0 w1 ws : Str) (xs ys : List Member) (M : Member) (wc : Str)
      (ps qs : List Member) :
      IsWs w0 → IsWs w1 → MembersWF ws (xs ++ ys) → M.WF →
      unescape M.key = .ok "campaign".toList →
      MembersWF wc (ps ++ qs) → m.Unknown campaignKeys →
      AddsMember m
        (w0 ++ objectText ws (xs ++ M.withValue (objectText wc (ps ++ qs)) :: ys) ++ w1)
        (w0 ++ objectText ws (xs ++ M.withValue (objectText wc (ps ++ m :: qs)) :: ys) ++ w1)

/-! ## An example -/

/-- A runtime to evaluate the decoder with: `json.Valid` accepts, `ParseFloat` reads every
number as `0`. -/
def exampleRuntime : Runtime Nat :=
  { jsonValid := fun _ => true, ParseFloat := fun _ => (0, none), zero := 0 }

/-- The zero value of `postback`. -/
def postback.zero {V : Type} : postback V :=
  { Subject := [], ContentType := [], Body := [], Recipients := none, Campaign := none }

/-- The member `"x":[1]`. -/
def exampleMember : Member :=
  { ws1 := [], key := ['x'], ws2 := [], ws3 := [], value := arrayText [] [⟨[], ['1'], []⟩],
    ws4 := [] }

/-- The text `{"recipients":[{"uuid":"u"}]}`. -/
def exampleText : Str := "\x7b\"recipients\":[\x7b\"uuid\":\"u\"\x7d]\x7d".toList

/-- The text `{"recipients":[{"uuid":"u","x":[1]}]}`. -/
def exampleTextMore : Str :=
  "\x7b\"recipients\":[\x7b\"uuid\":\"u\",\"x\":[1]\x7d]\x7d".toList

/-- `Inserts m t t'`: the JSON text `t'` is the JSON object text `t` with the one member `m`
more, in the top-level object (`top`), in an object of the array of the member named
`recipients` (`recipient`) or in the object of the member named `campaign` (`campaign`). -/
inductive Inserts (m : Member) : Str → Str → Prop where
  | top (w0 w1 ws : Str) (xs ys : List Member) :
      IsWs w0 → IsWs w1 → MembersWF ws (xs ++ ys) →
      Inserts m (w0 ++ objectText ws (xs ++ ys) ++ w1)
        (w0 ++ objectText ws (xs ++ m :: ys) ++ w1)
  | recipient (w0 w1 ws : Str) (xs ys : List Member) (M : Member) (wa : Str)
      (es1 es2 : List Elem) (e : Elem) (wr : Str) (ps qs : List Member) :
      IsWs w0 → IsWs w1 → MembersWF ws (xs ++ ys) → M.WF →
      unescape M.key = .ok "recipients".toList →
      ElemsWF wa (es1 ++ es2) → e.WF → MembersWF wr (ps ++ qs) →
      Inserts m
        (w0 ++ objectText ws (xs ++ M.withValue (arrayText wa
          (es1 ++ e.withValue (objectText wr (ps ++ qs)) :: es2)) :: ys) ++ w1)
        (w0 ++ objectText ws (xs ++ M.withValue (arrayText wa
          (es1 ++ e.withValue (objectText wr (ps ++ m :: qs)) :: es2)) :: ys) ++ w1)
  | campaign (w0 w1 ws : Str) (xs ys : List Member) (M : Member) (wc : Str)
      (ps qs : List Member) :
      IsWs w0 → IsWs w1 → MembersWF ws (xs ++ ys) → M.WF →
      unescape M.key = .ok "campaign".toList →
      MembersWF wc (ps ++ qs) →
      Inserts m
        (w0 ++ objectText ws (xs ++ M.withValue (objectText wc (ps ++ qs)) :: ys) ++ w1)
        (w0 ++ objectText ws (xs ++ M.withValue (objectText wc (ps ++ m :: qs)) :: ys) ++ w1)

/-- A postback with a subject, an empty list of recipients and a campaign. -/
def examplePostback : postback (GoValue Nat) :=
  { Subject := ['s'], ContentType := [], Body := [], Recipients := some [],
    Campaign := some { UUID := ['u'], Name := [], Headers := some [], Tags := none } }

/-- The member `"recipients":null`. -/
def nullRecipients : Member :=
  { ws1 := [], key := "recipients".toList, ws2 := [], ws3 := [], value := "null".toList,
    ws4 := [] }

/-- The member `"campaign":null`. -/
def nullCampaign : Member :=
  { ws1 := [], key := "campaign".toList, ws2 := [], ws3 := [], value := "null".toList,
    ws4 := [] }

/-! ## The shape of a JSON object and array text -/

/-- The member `"name":value` of an object, for a name that needs no escaping. -/
def jsonMember (name value : Str) : Str := '"' :: name ++ "\":".toList ++ value

/-- The text `{m1,m2,...}` of an object with the given member texts, in that order. -/
def jsonObject (members : List Str) : Str := '{' :: ",".toList.intercalate members ++ ['}']

/-- The text `[e1,e2,...]` of an array with the given element texts, in that order. -/
def jsonArray (elems : List Str) : Str := '[' :: ",".toList.intercalate elems ++ [']']

/-! ## The campaign object, member by member

The texts of the campaign object and of its members, spelled out member by member.  `q` is the
quoting of a string value. -/

/-- The text of the `tags` member: `null` for a nil slice, else the array of the quoted tags. -/
def tagsText (q : Str → Str) : Option (List Str) → Str
  | none => "null".toList
  | some ts => jsonArray (ts.map q)

/-- The text of one element of `headers`: `null` for a nil map, else the object of its quoted
keys and values. -/
def headerText (q : Str → Str) : Option (GoMap Str) → Str
  | none => "null".toList
  | some kvs => jsonObject (kvs.map fun kv => q kv.1 ++ ':' :: q kv.2)

/-- The text of the `headers` member: `null` for a nil slice, else the array of its elements. -/
def headersText (q : Str → Str) : Option (List (Option (GoMap Str))) → Str
  | none => "null".toList
  | some hs => jsonArray (hs.map (headerText q))

/-- The campaign object: `uuid`, `name`, `headers`, `tags`. -/
def campaignText (q : Str → Str) (c : campaign) : Str :=
  jsonObject
    [jsonMember "uuid".toList (q c.UUID), jsonMember "name".toList (q c.Name),
     jsonMember "headers".toList (headersText q c.Headers),
     jsonMember "tags".toList (tagsText q c.Tags)]

/-! ## `internal/media/providers/s3` -/

/-- `strings.TrimSuffix(s, suffix)`: `s` without the trailing `suffix`, `s` itself when it does
not end with it. -/
def TrimSuffix (s suffix : Str) : Str :=
  if suffix.isSuffixOf s then s.take (s.length - suffix.length) else s

/-- `strings.TrimPrefix(s, pre)`: `s` without the leading `pre`, `s` itself when it does not
start with it. -/
def TrimPrefix (s pre : Str) : Str :=
  if pre.isPrefixOf s then s.drop pre.length else s

/-- The struct `Opt`; `Expiry` is a `time.Duration`, a number of nanoseconds. -/
structure Opt where
  URL : Str
  AccessKey : Str
  SecretKey : Str
  Region : Str
  Bucket : Str
  BucketPath : Str
  BucketType : Str
  Expiry : ℤ
  deriving DecidableEq, Repr

/-- The struct `Client`; `S3` stands for `*simples3.S3`. -/
structure Client (S3 : Type) where
  s3 : S3
  opts : Opt

/-- The struct `simples3.UploadInput`; `Body` stands for `io.ReadSeeker`. -/
structure UploadInput (Body : Type) where
  Bucket : Str
  ContentType : Str
  FileName : Str
  Body : Body
  ObjectKey : Str

/-- The struct `simples3.PresignedInput`; `Time` stands for `time.Time`. -/
structure PresignedInput (Time : Type) where
  Bucket : Str
  ObjectKey : Str
  Method : Str
  Timestamp : Time
  ExpirySeconds : ℤ

/-- The struct `simples3.DeleteInput`. -/
structure DeleteInput where
  Bucket : Str
  ObjectKey : Str
  deriving DecidableEq, Repr

/-- The routines of `github.com/rhnvrm/simples3` and of `time` the provider calls: they are not
part of the repository and are taken as they come.  `S3` is `*simples3.S3`, `E` the errors of the
library, `Body` is `io.ReadSeeker` and `Time` is `time.Time`. -/
structure Simples3 (S3 E Body Time : Type) where
  /-- `simples3.New(region, accessKey, secretKey)`. -/
  New : Str → Str → Str → S3
  /-- `simples3.NewUsingIAM(region)`. -/
  NewUsingIAM : Str → Except E S3
  /-- `cl.SetEndpoint(uri)`: the client afterwards. -/
  SetEndpoint : S3 → Str → S3
  /-- `s3.FileUpload(input)`: its error, `none` for `nil`. -/
  FileUpload : S3 → UploadInput Body → Option E
  /-- `s3.FileDelete(input)`: its error, `none` for `nil`. -/
  FileDelete : S3 → DeleteInput → Option E
  /-- `s3.GeneratePresignedURL(input)`. -/
  GeneratePresignedURL : S3 → PresignedInput Time → Str
  /-- `int(d.Seconds())` for a duration `d`. -/
  seconds : ℤ → ℤ

/-- The errors `NewS3Store` returns: `errors.New(msg)`, or the error of the library. -/
inductive StoreError (E : Type) where
  | errorsNew (msg : Str)
  | lib (e : E)

/-- `NewS3Store(opt)`: the error, or the store. -/
def NewS3Store {S3 E Body Time : Type} (lib : Simples3 S3 E Body Time) (opt : Opt) :
    Except (StoreError E) (Client S3) :=
  if opt.URL = [] then .error (.errorsNew "Invalid AWS URL in settings.".toList)
  else
    let opt := { opt with URL := TrimRight opt.URL "/".toList }
    if opt.AccessKey ≠ [] ∧ opt.SecretKey ≠ [] then
      let cl := lib.New opt.Region opt.AccessKey opt.SecretKey
      .ok { s3 := lib.SetEndpoint cl opt.URL, opts := opt }
    else
      match lib.NewUsingIAM opt.Region with
      | .error err => .error (.lib err)
      | .ok cl => .ok { s3 := lib.SetEndpoint cl opt.URL, opts := opt }

/-- `c.makeBucketPath(name)`. -/
def Client.makeBucketPath {S3 : Type} (c : Client S3) (name : Str) : Str :=
  let p := TrimPrefix (TrimSuffix c.opts.BucketPath "/".toList) "/".toList
  if p = [] then name
  else p ++ "/".toList ++ name

/-- `c.makeFileURL(name)`. -/
def Client.makeFileURL {S3 : Type} (c : Client S3) (name : Str) : Str :=
  c.opts.URL ++ "/".toList ++ c.opts.Bucket ++ "/".toList ++ c.makeBucketPath name

/-- The argument `Put` hands to `FileUpload`. -/
def Client.uploadInput {S3 Body : Type} (c : Client S3) (name cType : Str) (file : Body) :
    UploadInput Body :=
  { Bucket := c.opts.Bucket, ContentType := cType, FileName := name, Body := file,
    ObjectKey := c.makeBucketPath name }

/-- `c.Put(name, cType, file)`: the error of the upload, or `name`. -/
def Client.Put {S3 E Body Time : Type} (lib : Simples3 S3 E Body Time) (c : Client S3)
    (name cType : Str) (file : Body) : Except E Str :=
  match lib.FileUpload c.s3 (c.uploadInput name cType file) with
  | some err => .error err
  | none => .ok name

/-- The argument `Get` hands to `GeneratePresignedURL`; `now` is `time.Now()`. -/
def Client.presignedInput {S3 E Body Time : Type} (lib : Simples3 S3 E Body Time)
    (c : Client S3) (now : Time) (name : Str) : PresignedInput Time :=
  { Bucket := c.opts.Bucket, ObjectKey := c.makeBucketPath name, Method := "GET".toList,
    Timestamp := now, ExpirySeconds := lib.seconds c.opts.Expiry }

/-- `c.Get(name)`; `now` is `time.Now()`. -/
def Client.Get {S3 E Body Time : Type} (lib : Simples3 S3 E Body Time) (c : Client S3)
    (now : Time) (name : Str) : Str :=
  if c.opts.BucketType = "private".toList then
    lib.GeneratePresignedURL c.s3 (c.presignedInput lib now name)
  else c.makeFileURL name

/-- The argument `Delete` hands to `FileDelete`. -/
def Client.deleteInput {S3 : Type} (c : Client S3) (name : Str) : DeleteInput :=
  { Bucket := c.opts.Bucket, ObjectKey := c.makeBucketPath name }

/-- `c.Delete(name)`: the error of `FileDelete`. -/
def Client.Delete {S3 E Body Time : Type} (lib : Simples3 S3 E Body Time) (c : Client S3)
    (name : Str) : Option E :=
  lib.FileDelete c.s3 (c.deleteInput name)

/-- A client with the bucket path `bucketPath` and nothing else set. -/
def clientWithPath (bucketPath : Str) : Client Unit :=
  { s3 := (),
    opts := { URL := [], AccessKey := [], SecretKey := [], Region := [], Bucket := [],
              BucketPath := bucketPath, BucketType := [], Expiry := 0 } }

/-- A `simples3` whose routines do nothing, to evaluate the provider with. -/
def exampleSimples3 : Simples3 Unit Unit Unit Unit :=
  { New := fun _ _ _ => (), NewUsingIAM := fun _ => .ok (), SetEndpoint := fun _ _ => (),
    FileUpload := fun _ _ => none, FileDelete := fun _ _ => none,
    GeneratePresignedURL := fun _ _ => [], seconds := fun d => d / 1000000000 }

/-- The options of a public bucket `b` at `http://s3//` with keys and the bucket path `/`. -/
def exampleOpt : Opt :=
  { URL := "http://s3//".toList, AccessKey := "k".toList, SecretKey := "s".toList,
    Region := [], Bucket := "b".toList, BucketPath := "/".toList,
    BucketType := "public".toList, Expiry := 0 }

/-! ## `cmd/init.go`: `initPostbackMessengers` -/

/-- What `initPostbackMessengers` calls: on an item of `ko.Slices("messengers")` (a `K`) the
readers `item.Bool("enabled")`, `item.String("name")` and `item.UnmarshalWithConf("", &o, ...)`,
which fills the options `o` or returns an error, and `postback.New(o)`. -/
structure PostbackEnv (K O M E : Type) where
  enabled : K → Bool
  name : K → Str
  UnmarshalWithConf : K → Except E O
  New : O → Except E M

/-- How a call of `initPostbackMessengers` ends: it returns the slice `out` (`none` is `nil`), or
`lo.Fatalf` ends the process, with the error of the configuration reader or with the name and the
error of `postback.New`. -/
inductive InitOutcome (M E : Type) where
  | returned (out : Option (List M))
  | fatalConfig (err : E)
  | fatalInit (name : Str) (err : E)

/-- Everything observable about one call of `initPostbackMessengers`: how it ended, the options
`postback.New` was called with and the names printed as loaded, both in order. -/
structure InitResult (O M E : Type) where
  outcome : InitOutcome M E
  initialised : List O
  loaded : List Str

/-- The loop `for _, item := range items` of `initPostbackMessengers`. -/
def postbackLoop {K O M E : Type} (env : PostbackEnv K O M E) :
    List K → Option (List M) → List O → List Str → InitResult O M E
  | [], out, news, names => ⟨.returned out, news, names⟩
  | item :: rest, out, news, names =>
    if ¬ env.enabled item then postbackLoop env rest out news names
    else
      let name := env.name item
      match env.UnmarshalWithConf item with
      | .error err => ⟨.fatalConfig err, news, names⟩
      | .ok o =>
        match env.New o with
        | .error err => ⟨.fatalInit name err, news ++ [o], names⟩
        | .ok p => postbackLoop env rest (some (out.getD [] ++ [p])) (news ++ [o]) (names ++ [name])

/-- `initPostbackMessengers(m)`, with `items` for `ko.Slices("messengers")`. -/
def initPostbackMessengers {K O M E : Type} (env : PostbackEnv K O M E) (items : List K) :
    InitResult O M E :=
  if items.length = 0 then ⟨.returned none, [], []⟩
  else postbackLoop env items none [] []

/-- An environment in which `postback.New` always succeeds and the configuration of an item
cannot be read. -/
def unreadableEnv : PostbackEnv Unit Unit Unit Unit :=
  { enabled := fun _ => true, name := fun _ => [], UnmarshalWithConf := fun _ => .error (),
    New := fun _ => .ok () }

/-- An environment whose items are a flag and a number: the options of an item are its number,
and the messenger made of them is the number plus one hundred. -/
def numberEnv : PostbackEnv (Bool × Nat) Nat Nat Unit :=
  { enabled := fun item => item.1, name := fun _ => [], UnmarshalWithConf := fun item => .ok item.2,
    New := fun o => .ok (o + 100) }

/-! ## The document the encoder writes, as JSON members

The vocabulary of the round trip: the members and values `MarshalJSON` writes for a postback,
and what is asked of the maps and of the attribute values. -/

/-- The text `Writer.String` writes between the quotes, HTML escaping on. -/
def escaped (s : Str) : Str := (s.map (escapeChar false)).flatten

/-- The member `"key":value` written without white space; `key` is the text between the
quotes. -/
def Member.plain (key value : Str) : Member :=
  { ws1 := [], key := key, ws2 := [], ws3 := [], value := value, ws4 := [] }

/-- An element written without white space. -/
def Elem.plain (value : Str) : Elem := { ws1 := [], value := value, ws2 := [] }

/-- The members the encoder writes for a map of strings. -/
def headerMembers (kvs : GoMap Str) : List Member :=
  kvs.map fun kv => Member.plain (escaped kv.1) (quoteString false kv.2)

/-- The value the encoder writes for one element of `headers`. -/
def headerValue : Option (GoMap Str) → Str
  | none => "null".toList
  | some kvs => objectText [] (headerMembers kvs)

/-- The value the encoder writes for `headers`. -/
def headersValue : Option (List (Option (GoMap Str))) → Str
  | none => "null".toList
  | some hs => arrayText [] (hs.map fun h => Elem.plain (headerValue h))

/-- The value the encoder writes for `tags`. -/
def tagsValue : Option (List Str) → Str
  | none => "null".toList
  | some ts => arrayText [] (ts.map fun t => Elem.plain (quoteString false t))

/-- The members the encoder writes for a campaign. -/
def campaignMembers (c : campaign) : List Member :=
  [Member.plain "uuid".toList (quoteString false c.UUID),
   Member.plain "name".toList (quoteString false c.Name),
   Member.plain "headers".toList (headersValue c.Headers),
   Member.plain "tags".toList (tagsValue c.Tags)]

/-- The members the encoder writes for a map of attributes whose values are written as the
texts `text`. -/
def attribMembers {V : Type} (text : V → Str) (kvs : GoMap V) :
    List Member :=
  kvs.map fun kv => Member.plain (escaped kv.1) (text kv.2)

/-- The value the encoder writes for `attribs`. -/
def attribsValue {V : Type} (text : V → Str) : Option (GoMap V) → Str
  | none => "null".toList
  | some kvs => objectText [] (attribMembers text kvs)

/-- The members the encoder writes for a recipient. -/
def recipientMembers {V : Type} (text : V → Str) (r : recipient V) :
    List Member :=
  [Member.plain "uuid".toList (quoteString false r.UUID),
   Member.plain "email".toList (quoteString false r.Email),
   Member.plain "name".toList (quoteString false r.Name),
   Member.plain "attribs".toList (attribsValue text r.Attribs),
   Member.plain "status".toList (quoteString false r.Status)]

/-- The value the encoder writes for `recipients`. -/
def recipientsValue {V : Type} (text : V → Str) :
    Option (List (recipient V)) → Str
  | none => "null".toList
  | some rs => arrayText [] (rs.map fun r => Elem.plain (objectText [] (recipientMembers text r)))

/-- The value the encoder writes for `campaign`. -/
def campaignValue : Option campaign → Str
  | none => "null".toList
  | some c => objectText [] (campaignMembers c)

/-- The members the encoder writes for a postback. -/
def postbackMembers {V : Type} (text : V → Str) (p : postback V) :
    List Member :=
  [Member.plain "subject".toList (quoteString false p.Subject),
   Member.plain "content_type".toList (quoteString false p.ContentType),
   Member.plain "body".toList (quoteString false p.Body),
   Member.plain "recipients".toList (recipientsValue text p.Recipients),
   Member.plain "campaign".toList (campaignValue p.Campaign)]

/-- The text the attribute value `v` is written as: what it adds to the empty writer. -/
def Marshalers.text {V Err : Type} (ms : Marshalers V Err) (v : V) : Str :=
  (encodeAttribValue ms Writer.zero v).Buffer

/-- The attribute value `v` is written without error: whatever `MarshalJSON` has written so far,
the value adds its text `ms.text v` and leaves the writer as it is otherwise. -/
def Marshalers.Writes {V Err : Type} (ms : Marshalers V Err) (v : V) : Prop :=
  ∀ buf : Str,
    encodeAttribValue ms { Flags := 0, Error := none, Buffer := buf, NoEscapeHTML := false } v =
      { Flags := 0, Error := none, Buffer := buf ++ ms.text v, NoEscapeHTML := false }

/-- Attribute values none of which implements a marshaler interface, as is the case for `nil`,
`bool`, `float64`, `string`, `[]interface{}` and `map[string]interface{}`: all are handed to
`json.Marshal`. -/
def Marshalers.plain {V Err : Type} (Marshal : V → Str × Option Err) : Marshalers V Err :=
  { MarshalEasyJSON := fun _ => none, MarshalJSON := fun _ => none, Marshal := Marshal }

/-- The keys of a Go map are distinct. -/
def GoMap.WF {α : Type} (m : GoMap α) : Prop := (m.map Prod.fst).Nodup

/-- The header maps of a campaign have distinct keys. -/
def campaign.WF (c : campaign) : Prop :=
  ∀ h ∈ c.Headers.getD [], ∀ kvs, h = some kvs → GoMap.WF kvs

/-- The value `in.Interface()` returns for the one element of the array `[text]`, read behind
`in.Delim('[')`; `none` when the lexer fails. -/
def readBack {F : Type} (rt : Runtime F) (text : Str) : Option (GoValue F) :=
  let r := (Lexer.new ('[' :: text ++ [']'])).Delim '['
  let (r, v) := Interface rt (interfaceFuel r) r
  if r.Ok then some v else none

/-- The attribute value `v` is written without error, as a JSON text that `in.Interface()`
reads back as `v`. -/
def ReadsBack {F Err : Type} (rt : Runtime F) (ms : Marshalers (GoValue F) Err)
    (v : GoValue F) : Prop :=
  ms.Writes v ∧ JsonValue (ms.text v) ∧ readBack rt (ms.text v) = some v

/-- The attribute maps of the recipients have distinct keys, and so have the header maps of the
campaign. -/
def postback.WF {V : Type} (p : postback V) : Prop :=
  (∀ r ∈ p.Recipients.getD [], GoMap.WF (r.Attribs.getD [])) ∧
  ∀ c, p.Campaign = some c → c.WF

/-- A stand-in for `json.Marshal` to evaluate the encoder with: it writes `nil` and the
booleans and fails on every other value. -/
def exampleMarshal : GoValue Nat → Str × Option Str
  | .nil => ("null".toList, none)
  | .bool true => ("true".toList, none)
  | .bool false => ("false".toList, none)
  | _ => ([], some "unsupported value".toList)

/-- A postback with strings that need escaping, a recipient with attributes and one without,
and a campaign with a header map, a nil header map, an empty header map and two tags. -/
def roundTripPostback : postback (GoValue Nat) :=
  { Subject := "a\"b<c\n".toList, ContentType := "html".toList, Body := [],
    Recipients := some
      [{ UUID := ['u'], Email := "e@x".toList, Name := ['\\'],
         Attribs := some [(['k'], .bool true), (['n'], .nil)], Status := "ok".toList },
       { UUID := [], Email := [], Name := [], Attribs := none, Status := [] },
       { UUID := [], Email := [], Name := [], Attribs := some [], Status := [] }],
    Campaign := some
      { UUID := ['c'], Name := [],
        Headers := some [some [(['h'], ['v'])], none, some []],
        Tags := some [['t'], []] } }

/-! ## The postback document of the specification

What the specification says of the bytes `MarshalJSON` emits, in terms of the JSON grammar: which
members each object has, in which order, and what their values denote.  These definitions follow
the specification, not the encoder. -/

/-- The JSON text `v` is a string that denotes `s`: quotes around a string body that unescapes
to `s`. -/
def JsonString (v s : Str) : Prop := ∃ b, v = '"' :: b ++ ['"'] ∧ StrBody b ∧ unescape b = .ok s

/-- The text of the object with the given members, each a name (the text between its quotes)
and a value, in that order. -/
def plainObject (members : List (Str × Str)) : Str :=
  objectText [] (members.map fun m => Member.plain m.1 m.2)

/-- The text of the array with the given elements, in that order. -/
def plainArray (elems : List Str) : Str := arrayText [] (elems.map Elem.plain)

/-- The value of `tags`: `null` for a nil slice, else the array of the tags, in order. -/
def IsTags (v : Str) : Option (List Str) → Prop
  | none => v = "null".toList
  | some ts => ∃ es, v = plainArray es ∧ List.Forall₂ JsonString es ts

/-- An element of `headers`: `null` for a nil map, else the object of its keys and values. -/
def IsHeader (v : Str) : Option (GoMap Str) → Prop
  | none => v = "null".toList
  | some kvs => ∃ ms : List (Str × Str), v = plainObject ms ∧
      List.Forall₂ (fun m kv => JsonString ('"' :: m.1 ++ ['"']) kv.1 ∧ JsonString m.2 kv.2)
        ms kvs

/-- The value of `headers`: `null` for a nil slice, else the array of its elements, in order. -/
def IsHeaders (v : Str) : Option (List (Option (GoMap Str))) → Prop
  | none => v = "null".toList
  | some hs => ∃ es, v = plainArray es ∧ List.Forall₂ IsHeader es hs

/-- The value of `campaign`: `null` for a nil campaign, else the object with exactly the members
`uuid`, `name`, `headers`, `tags`, in that order. -/
def IsCampaign (v : Str) : Option campaign → Prop
  | none => v = "null".toList
  | some c => ∃ uuid name headers tags,
      v = plainObject [("uuid".toList, uuid), ("name".toList, name),
        ("headers".toList, headers), ("tags".toList, tags)] ∧
      JsonString uuid c.UUID ∧ JsonString name c.Name ∧ IsHeaders headers c.Headers ∧
      IsTags tags c.Tags

/-- The value of `attribs`: `null` for a nil map, else an object with one member per key, whose
value is a JSON value. -/
def IsAttribs {V : Type} (v : Str) : Option (GoMap V) → Prop
  | none => v = "null".toList
  | some kvs => ∃ ms : List (Str × Str), v = plainObject ms ∧
      List.Forall₂ (fun m kv => JsonString ('"' :: m.1 ++ ['"']) kv.1 ∧ JsonValue m.2) ms kvs

/-- An element of `recipients`: the object with exactly the members `uuid`, `email`, `name`,
`attribs`, `status`, in that order. -/
def IsRecipient {V : Type} (v : Str) (r : recipient V) : Prop :=
  ∃ uuid email name attribs status,
    v = plainObject [("uuid".toList, uuid), ("email".toList, email), ("name".toList, name),
      ("attribs".toList, attribs), ("status".toList, status)] ∧
    JsonString uuid r.UUID ∧ JsonString email r.Email ∧ JsonString name r.Name ∧
    IsAttribs attribs r.Attribs ∧ JsonString status r.Status

/-- The value of `recipients`: `null` for a nil slice, else the array of the recipients, in the
order of the slice. -/
def IsRecipients {V : Type} (v : Str) : Option (List (recipient V)) → Prop
  | none => v = "null".toList
  | some rs => ∃ es, v = plainArray es ∧ List.Forall₂ IsRecipient es rs

/-- The postback document: the object with exactly the members `subject`, `content_type`,
`body`, `recipients`, `campaign`, in that order. -/
def IsPostback {V : Type} (v : Str) (p : postback V) : Prop :=
  ∃ subject contentType body recipients campaign,
    v = plainObject [("subject".toList, subject), ("content_type".toList, contentType),
      ("body".toList, body), ("recipients".toList, recipients),
      ("campaign".toList, campaign)] ∧
    JsonString subject p.Subject ∧ JsonString contentType p.ContentType ∧
    JsonString body p.Body ∧ IsRecipients recipients p.Recipients ∧
    IsCampaign campaign p.Campaign

/-- Two `float64` attribute values: `1` and `NaN`. -/
inductive ExampleFloat where
  | one
  | nan

/-- `json.Marshal` on the two values: `NaN` is an unsupported value, for which it returns no
bytes and an error. -/
def floatMarshal : ExampleFloat → Str × Option Str
  | .one => ("1".toList, none)
  | .nan => ([], some "json: unsupported value: NaN".toList)

/-- A postback with one recipient, whose attribute `k` is `NaN`. -/
def nanPostback : postback ExampleFloat :=
  { Subject := [], ContentType := [], Body := [],
    Recipients := some
      [{ UUID := [], Email := [], Name := [], Attribs := some [(['k'], .nan)], Status := [] }],
    Campaign := none }

/-! # Properties -/

/-! ## Trimming the root URL -/

theorem trimRightByteLoop_append (c : Char) :
    ∀ (n : Nat) (s : Str), ∃ k, s = trimRightByteLoop n s c ++ List.replicate k c := by
  intro n
  induction n with
  | zero => intro s; exact ⟨0, by simp [trimRightByteLoop]⟩
  | succ n ih =>
    intro s
    unfold trimRightByteLoop
    split_ifs with h
    · obtain ⟨k, hk⟩ := ih s.dropLast
      refine ⟨k + 1, ?_⟩
      have hs : s = s.dropLast ++ [c] := by
        conv_lhs => rw [← List.dropLast_append_getLast? c h]
      calc s = s.dropLast ++ [c] := hs
        _ = (trimRightByteLoop n s.dropLast c ++ List.replicate k c) ++ [c] := by rw [← hk]
        _ = trimRightByteLoop n s.dropLast c ++ List.replicate (k + 1) c := by
          rw [List.append_assoc, List.replicate_succ', ]
    · exact ⟨0, by simp⟩

theorem trimRightByteLoop_getLast (c : Char) :
    ∀ (n : Nat) (s : Str), s.length ≤ n → (trimRightByteLoop n s c).getLast? ≠ some c := by
  intro n
  induction n with
  | zero =>
    intro s hs
    have : s = [] := List.length_eq_zero.mp (Nat.le_zero.mp hs)
    subst this
    simp [trimRightByteLoop]
  | succ n ih =>
    intro s hs
    unfold trimRightByteLoop
    split_ifs with h
    · apply ih
      rw [List.length_dropLast]
      omega
    · exact h

theorem TrimRight_slash (s : Str) : TrimRight s "/".toList = trimRightByte s '/' := by
  unfold TrimRight
  split_ifs with h
  · rcases h with h | h
    · subst h; rfl
    · exact absurd h (by decide)
  · rfl

theorem TrimRight_slash_append (s : Str) :
    ∃ k, s = TrimRight s "/".toList ++ List.replicate k '/' := by
  rw [TrimRight_slash]
  exact trimRightByteLoop_append '/' s.length s

theorem TrimRight_slash_getLast (s : Str) : (TrimRight s "/".toList).getLast? ≠ some '/' := by
  rw [TrimRight_slash]
  exact trimRightByteLoop_getLast '/' s.length s le_rfl

/-! ## Formatting -/

/-- Every template that `initConstants` builds is the trimmed root followed by the constant tail
of its format, with `%%` reduced to `%`. -/
theorem initConstants_eq (rootURL : Str) :
    initConstants rootURL = some
      { RootURL := TrimRight rootURL "/".toList
        UnsubURL := TrimRight rootURL "/".toList ++ "/subscription/%s/%s".toList
        LinkTrackURL := TrimRight rootURL "/".toList ++ "/link/%s/%s/%s".toList
        ViewTrackURL := TrimRight rootURL "/".toList ++ "/campaign/%s/%s/px.png".toList
        OptinURL := TrimRight rootURL "/".toList ++ "/subscription/optin/%s?%s".toList
        MessageURL := TrimRight rootURL "/".toList ++ "/campaign/%s/%s".toList } := by
  rfl

theorem initConstants_isSome (rootURL : Str) : (initConstants rootURL).isSome = true := by
  rw [initConstants_eq]; rfl

/-- C3: the `RootURL` stored by `initConstants` is the configured value with its trailing slashes
trimmed: it does not end in `/`, it is a prefix of the configured value, the configured value is
the stored value followed only by `/` characters, and a root made only of slashes becomes the
empty string. -/
theorem initConstants_rootURL_trimmed (rootURL : Str) :
    ∃ c, initConstants rootURL = some c ∧
      c.RootURL.getLast? ≠ some '/' ∧
      c.RootURL <+: rootURL ∧
      (∃ k, rootURL = c.RootURL ++ List.replicate k '/') ∧
      ((∀ ch ∈ rootURL, ch = '/') → c.RootURL = []) := by
  refine ⟨_, initConstants_eq rootURL, TrimRight_slash_getLast rootURL, ?_, ?_, ?_⟩
  · obtain ⟨k, hk⟩ := TrimRight_slash_append rootURL
    exact ⟨_, hk.symm⟩
  · exact TrimRight_slash_append rootURL
  · intro hall
    have hlast := TrimRight_slash_getLast rootURL
    obtain ⟨k, hk⟩ := TrimRight_slash_append rootURL
    show TrimRight rootURL "/".toList = []
    by_contra hne
    apply hlast
    have hp : TrimRight rootURL "/".toList <+: rootURL := ⟨_, hk.symm⟩
    have hmem : (TrimRight rootURL "/".toList).getLast hne ∈ rootURL :=
      hp.subset (List.getLast_mem hne)
    rw [List.getLast?_eq_getLast _ hne, hall _ hmem]

/-- C3 at the root `//`, which consists of slashes only: the stored root is empty. -/
theorem initConstants_rootURL_trimmed_witness :
    (initConstants "//".toList).map (fun c => c.RootURL) = some [] := by
  obtain ⟨c, hc, _, _, _, h⟩ := initConstants_rootURL_trimmed "//".toList
  rw [hc]
  exact congrArg some (h (by decide))

/-- C9: every message that `sendNotification` hands to `PushMessage` names the built-in e-mail
messenger, is sent from the configured `from_email` to exactly the given recipients with the
given subject, and its body is the output of executing the named template on the data (which
succeeded). -/
theorem sendNotification_message {Data Err : Type} (app : App Data Err) (toEmails : List Str)
    (subject tplName : Str) (data : Data) (m : Message)
    (hm : m ∈ (sendNotification app toEmails subject tplName data).pushed) :
    m.Messenger = app.emailMsgr ∧ m.From = app.FromEmail ∧ m.To = toEmails ∧
      m.Subject = subject ∧ app.ExecuteTemplate tplName data = (m.Body, none) := by
  unfold sendNotification at hm
  split_ifs at hm with h0
  · simp at hm
  · split at hm
    · simp at hm
    · rename_i b hexec
      dsimp only at hm
      split at hm
      · simp at hm
      · split at hm <;>
        · simp only [List.mem_singleton] at hm
          subst hm
          exact ⟨rfl, rfl, rfl, rfl, hexec⟩

/-- C9 at one recipient, a template that renders `hello` and a manager that accepts the message:
one message is pushed, and it has the stated fields. -/
theorem sendNotification_message_witness :
    (sendNotification
        ({ contentType := "html".toList
           ExecuteTemplate := fun _ _ => ("hello".toList, none)
           FromEmail := "noreply@h".toList
           PushMessage := fun _ => none
           emailMsgr := "email".toList
           campaignMessenger := fun _ => some [] } : App Unit Unit)
        ["admin@h".toList] "subj".toList "campaign-status".toList ()).pushed =
      [{ ContentType := "html".toList, From := "noreply@h".toList, To := ["admin@h".toList],
         Subject := "subj".toList, Body := "hello".toList, Messenger := "email".toList }] ∧
    ("email".toList = "email".toList ∧ "noreply@h".toList = "noreply@h".toList ∧
      ["admin@h".toList] = ["admin@h".toList] ∧ "subj".toList = "subj".toList ∧
      (("hello".toList, none) : Str × Option Unit) = ("hello".toList, none)) :=
  ⟨by rfl,
   sendNotification_message
    ({ contentType := "html".toList
       ExecuteTemplate := fun _ _ => ("hello".toList, none)
       FromEmail := "noreply@h".toList
       PushMessage := fun _ => none
       emailMsgr := "email".toList
       campaignMessenger := fun _ => some [] } : App Unit Unit)
    ["admin@h".toList] "subj".toList "campaign-status".toList ()
    { ContentType := "html".toList, From := "noreply@h".toList, To := ["admin@h".toList],
      Subject := "subj".toList, Body := "hello".toList, Messenger := "email".toList }
    (by simp [sendNotification, Message.zero])⟩

/-- C10: `initCampaignManager` reaches `manager.New` exactly when `app.concurrency` and
`app.message_rate` are both at least 1; the `Config` it passes then carries those two values;
when either is below 1 it ends in `lo.Fatal` instead, which covers a key that is not set. -/
theorem initCampaignManager_throughput (ko : Koanf) (fromEmail : Str) (cs : constants) :
    ((∃ cfg, initCampaignManager ko fromEmail cs = .ok cfg) ↔
      (1 ≤ ko.Int "app.concurrency".toList ∧ 1 ≤ ko.Int "app.message_rate".toList)) ∧
    (∀ cfg, initCampaignManager ko fromEmail cs = .ok cfg →
      cfg.Concurrency = ko.Int "app.concurrency".toList ∧
      cfg.MessageRate = ko.Int "app.message_rate".toList) ∧
    ((ko.Int "app.concurrency".toList < 1 ∨ ko.Int "app.message_rate".toList < 1) →
      ∃ msg, initCampaignManager ko fromEmail cs = .error msg) ∧
    ((ko.ints "app.concurrency".toList = none ∨ ko.ints "app.message_rate".toList = none) →
      ∃ msg, initCampaignManager ko fromEmail cs = .error msg) := by
  have hfatal : (ko.Int "app.concurrency".toList < 1 ∨ ko.Int "app.message_rate".toList < 1) →
      ∃ msg, initCampaignManager ko fromEmail cs = .error msg := by
    intro h
    unfold initCampaignManager
    split_ifs with h1 h2
    · exact ⟨_, rfl⟩
    · exact ⟨_, rfl⟩
    · rcases h with h | h
      · exact absurd h h1
      · exact absurd h h2
  refine ⟨⟨?_, ?_⟩, ?_, hfatal, ?_⟩
  · rintro ⟨cfg, hcfg⟩
    unfold initCampaignManager at hcfg
    split_ifs at hcfg with h1 h2
    exact ⟨not_lt.mp h1, not_lt.mp h2⟩
  · rintro ⟨h1, h2⟩
    unfold initCampaignManager
    rw [if_neg (not_lt.mpr h1), if_neg (not_lt.mpr h2)]
    exact ⟨_, rfl⟩
  · intro cfg hcfg
    unfold initCampaignManager at hcfg
    split_ifs at hcfg with h1 h2
    injection hcfg with hcfg
    subst hcfg
    exact ⟨rfl, rfl⟩
  · intro h
    apply hfatal
    rcases h with h | h
    · left; unfold Koanf.Int; rw [h]; decide
    · right; unfold Koanf.Int; rw [h]; decide

/-! ## The encoder -/

/-- The writer `w'` is `w` with `t` appended and nothing else changed but, possibly, the error. -/
def Writer.Appended {Err : Type} (w w' : Writer Err) (t : Str) : Prop :=
  w'.Buffer = w.Buffer ++ t ∧ w'.Flags = w.Flags ∧ w'.NoEscapeHTML = w.NoEscapeHTML

section EncodeProofs

variable {V Err : Type}

theorem Writer.Appended.refl (w : Writer Err) : w.Appended w [] :=
  ⟨by simp, rfl, rfl⟩

theorem Writer.Appended.trans {w w' w'' : Writer Err} {t u : Str}
    (h1 : w.Appended w' t) (h2 : w'.Appended w'' u) : w.Appended w'' (t ++ u) := by
  obtain ⟨a1, b1, c1⟩ := h1
  obtain ⟨a2, b2, c2⟩ := h2
  exact ⟨by rw [a2, a1, List.append_assoc], by rw [b2, b1], by rw [c2, c1]⟩

theorem Writer.Appended.cast {w w' : Writer Err} {t u : Str}
    (h : w.Appended w' t) (e : t = u) : w.Appended w' u := e ▸ h

theorem RawByte_appended (w : Writer Err) (c : Char) : w.Appended (w.RawByte c) [c] :=
  ⟨rfl, rfl, rfl⟩

theorem RawString_appended (w : Writer Err) (s : Str) : w.Appended (w.RawString s) s :=
  ⟨rfl, rfl, rfl⟩

theorem String_appended (w : Writer Err) (s : Str) :
    w.Appended (w.String s) (quoteString w.NoEscapeHTML s) :=
  ⟨rfl, rfl, rfl⟩

/-- The texts of a list, each preceded by a comma. -/
def sepTail (ts : List Str) : Str := (ts.map fun t => ',' :: t).flatten

theorem intercalate_comma_cons (t : Str) (ts : List Str) :
    [','].intercalate (t :: ts) = t ++ sepTail ts := by
  induction ts generalizing t with
  | nil => simp [sepTail, List.intercalate]
  | cons u us ih =>
    have h := ih u
    simp only [List.intercalate, sepTail, List.intersperse, List.flatten, List.map,
      List.append_assoc] at h ⊢
    rw [h]
    rfl

theorem encodeHeaderLoop_appended :
    ∀ (kvs : GoMap Str) (out : Writer Err),
      out.Appended (encodeHeaderLoop out false kvs)
        (sepTail (kvs.map fun kv =>
          quoteString out.NoEscapeHTML kv.1 ++ ':' :: quoteString out.NoEscapeHTML kv.2)) := by
  intro kvs
  induction kvs with
  | nil => intro out; exact Writer.Appended.refl out
  | cons kv rest ih =>
    intro out
    obtain ⟨k, v⟩ := kv
    unfold encodeHeaderLoop
    have h0 := RawByte_appended out ','
    have h1 := String_appended (out.RawByte ',') k
    have h2 := RawByte_appended ((out.RawByte ',').String k) ':'
    have h3 := String_appended (((out.RawByte ',').String k).RawByte ':') v
    have h4 := ih ((((out.RawByte ',').String k).RawByte ':').String v)
    refine ((((h0.trans h1).trans h2).trans h3).trans h4).cast ?_
    simp [sepTail, Writer.RawByte, Writer.String]

theorem encodeHeaderLoop_first (kvs : GoMap Str) (out : Writer Err) :
    out.Appended ((encodeHeaderLoop (out.RawByte '{') true kvs).RawByte '}')
      (headerText (quoteString out.NoEscapeHTML) (some kvs)) := by
  cases kvs with
  | nil => exact ((RawByte_appended out '{').trans (RawByte_appended _ '}')).cast rfl
  | cons kv rest =>
    obtain ⟨k, v⟩ := kv
    unfold encodeHeaderLoop
    have h0 := RawByte_appended out '{'
    have h1 := String_appended (out.RawByte '{') k
    have h2 := RawByte_appended ((out.RawByte '{').String k) ':'
    have h3 := String_appended (((out.RawByte '{').String k).RawByte ':') v
    have h4 := encodeHeaderLoop_appended rest ((((out.RawByte '{').String k).RawByte ':').String v)
    have h5 := RawByte_appended
      (encodeHeaderLoop ((((out.RawByte '{').String k).RawByte ':').String v) false rest) '}'
    refine (((((h0.trans h1).trans h2).trans h3).trans h4).trans h5).cast ?_
    simp [headerText, jsonObject, intercalate_comma_cons, Writer.RawByte, Writer.String]

theorem encodeHeader_appended (out : Writer Err) (hf : out.Flags = 0) (v8 : Option (GoMap Str)) :
    out.Appended
      (if v8.isNone ∧ Nat.land out.Flags NilMapAsEmpty = 0 then out.RawString "null".toList
       else (encodeHeaderLoop (out.RawByte '{') true (v8.getD [])).RawByte '}')
      (headerText (quoteString out.NoEscapeHTML) v8) := by
  cases v8 with
  | none =>
    rw [if_pos ⟨rfl, by rw [hf]; rfl⟩]
    exact RawString_appended out _
  | some kvs =>
    rw [if_neg (by simp)]
    exact encodeHeaderLoop_first kvs out

theorem encodeHeadersLoop_appended :
    ∀ (hs : List (Option (GoMap Str))) (out : Writer Err) (v7 : Nat), out.Flags = 0 → 0 < v7 →
      out.Appended (encodeHeadersLoop out v7 hs)
        (sepTail (hs.map (headerText (quoteString out.NoEscapeHTML)))) := by
  intro hs
  induction hs with
  | nil => intro out v7 _ _; exact Writer.Appended.refl out
  | cons h rest ih =>
    intro out v7 hf hv
    unfold encodeHeadersLoop
    simp only [if_pos hv]
    have h0 := RawByte_appended out ','
    have h1 := encodeHeader_appended (out.RawByte ',') hf h
    have h2 := ih _ (v7 + 1) (h1.2.1.trans hf) (Nat.succ_pos v7)
    refine ((h0.trans h1).trans h2).cast ?_
    rw [h1.2.2]
    simp [sepTail, Writer.RawByte]

theorem encodeHeaders_appended (out : Writer Err) (hf : out.Flags = 0)
    (hs : Option (List (Option (GoMap Str)))) :
    out.Appended
      (if hs.isNone ∧ Nat.land out.Flags NilSliceAsEmpty = 0 then out.RawString "null".toList
       else (encodeHeadersLoop (out.RawByte '[') 0 (hs.getD [])).RawByte ']')
      (headersText (quoteString out.NoEscapeHTML) hs) := by
  cases hs with
  | none =>
    rw [if_pos ⟨rfl, by rw [hf]; rfl⟩]
    exact RawString_appended out _
  | some l =>
    rw [if_neg (by simp)]
    cases l with
    | nil => exact ((RawByte_appended out '[').trans (RawByte_appended _ ']')).cast rfl
    | cons h rest =>
      unfold encodeHeadersLoop
      simp only [Option.getD_some, gt_iff_lt, lt_self_iff_false, if_false]
      have h0 := RawByte_appended out '['
      have h1 := encodeHeader_appended (out.RawByte '[') hf h
      have h2 := encodeHeadersLoop_appended rest _ (0 + 1) (h1.2.1.trans hf) (Nat.succ_pos 0)
      refine (((h0.trans h1).trans h2).trans (RawByte_appended _ ']')).cast ?_
      rw [h1.2.2]
      simp [headersText, jsonArray, intercalate_comma_cons, Writer.RawByte]

theorem encodeTagsLoop_appended :
    ∀ (ts : List Str) (out : Writer Err) (v10 : Nat), 0 < v10 →
      out.Appended (encodeTagsLoop out v10 ts)
        (sepTail (ts.map (quoteString out.NoEscapeHTML))) := by
  intro ts
  induction ts with
  | nil => intro out v10 _; exact Writer.Appended.refl out
  | cons t rest ih =>
    intro out v10 hv
    unfold encodeTagsLoop
    simp only [if_pos hv]
    have h0 := RawByte_appended out ','
    have h1 := String_appended (out.RawByte ',') t
    have h2 := ih ((out.RawByte ',').String t) (v10 + 1) (Nat.succ_pos v10)
    refine ((h0.trans h1).trans h2).cast ?_
    simp [sepTail, Writer.RawByte, Writer.String]

theorem encodeTags_appended (out : Writer Err) (hf : out.Flags = 0) (ts : Option (List Str)) :
    out.Appended
      (if ts.isNone ∧ Nat.land out.Flags NilSliceAsEmpty = 0 then out.RawString "null".toList
       else (encodeTagsLoop (out.RawByte '[') 0 (ts.getD [])).RawByte ']')
      (tagsText (quoteString out.NoEscapeHTML) ts) := by
  cases ts with
  | none =>
    rw [if_pos ⟨rfl, by rw [hf]; rfl⟩]
    exact RawString_appended out _
  | some l =>
    rw [if_neg (by simp)]
    cases l with
    | nil => exact ((RawByte_appended out '[').trans (RawByte_appended _ ']')).cast rfl
    | cons t rest =>
      unfold encodeTagsLoop
      simp only [Option.getD_some, gt_iff_lt, lt_self_iff_false, if_false]
      have h0 := RawByte_appended out '['
      have h1 := String_appended (out.RawByte '[') t
      have h2 := encodeTagsLoop_appended rest ((out.RawByte '[').String t) (0 + 1)
        (Nat.succ_pos 0)
      have h3 := RawByte_appended (encodeTagsLoop ((out.RawByte '[').String t) (0 + 1) rest) ']'
      refine (((h0.trans h1).trans h2).trans h3).cast ?_
      simp [tagsText, jsonArray, intercalate_comma_cons, Writer.RawByte, Writer.String]

theorem encodeCampaign_appended (out : Writer Err) (hf : out.Flags = 0) (c : campaign) :
    out.Appended (easyjsonDf11841fEncodeGithubComKnadhListmonkInternalMessengerPostback2 out c)
      (campaignText (quoteString out.NoEscapeHTML) c) := by
  unfold easyjsonDf11841fEncodeGithubComKnadhListmonkInternalMessengerPostback2
  have h0 := RawByte_appended out '{'
  have h1 := h0.trans (RawString_appended _ (",\"uuid\":".toList.drop 1))
  have h2 := h1.trans (String_appended _ c.UUID)
  have h3 := h2.trans (RawString_appended _ ",\"name\":".toList)
  have h4 := h3.trans (String_appended _ c.Name)
  have h5 := h4.trans (RawString_appended _ ",\"headers\":".toList)
  have h6 := h5.trans (encodeHeaders_appended _ (h5.2.1.trans hf) c.Headers)
  have h7 := h6.trans (RawString_appended _ ",\"tags\":".toList)
  have h8 := h7.trans (encodeTags_appended _ (h7.2.1.trans hf) c.Tags)
  have h9 := h8.trans (RawByte_appended _ '}')
  refine h9.cast ?_
  rw [h1.2.2, h3.2.2, h5.2.2, h7.2.2]
  simp [campaignText, jsonObject, jsonMember, List.intercalate]

end EncodeProofs

/-! ## The lexer: elementary facts -/

@[simp] theorem advance_Data (r : Lexer) (n : Nat) : (r.advance n).Data = r.Data.drop n := rfl
@[simp] theorem advance_pos (r : Lexer) (n : Nat) : (r.advance n).pos = r.pos + n := rfl
@[simp] theorem advance_kind (r : Lexer) (n : Nat) : (r.advance n).kind = r.kind := rfl
@[simp] theorem advance_wantSep (r : Lexer) (n : Nat) : (r.advance n).wantSep = r.wantSep := rfl
@[simp] theorem advance_fatalError (r : Lexer) (n : Nat) :
    (r.advance n).fatalError = r.fatalError := rfl

theorem advance_advance (r : Lexer) (m n : Nat) :
    (r.advance m).advance n = r.advance (m + n) := by
  simp only [Lexer.advance, List.drop_drop, Lexer.mk.injEq, and_true, true_and]
  omega

theorem advance_zero (r : Lexer) : r.advance 0 = r := by
  simp [Lexer.advance]

theorem isWs_cons {c : Char} {ws : Str} (h : IsWs (c :: ws)) :
    (c = ' ' ∨ c = '\t' ∨ c = '\r' ∨ c = '\n') ∧ IsWs ws :=
  ⟨h c (by simp), fun d hd => h d (by simp [hd])⟩

theorem isWs_append {a b : Str} (ha : IsWs a) (hb : IsWs b) : IsWs (a ++ b) := by
  intro c hc
  rcases List.mem_append.mp hc with h | h
  · exact ha c h
  · exact hb c h

theorem isWs_nil : IsWs [] := by intro c h; simp at h

/-- White space before a token is skipped. -/
theorem fetchLoop_ws (ws cs : Str) (hws : IsWs ws) (r : Lexer) :
    fetchLoop (ws ++ cs) r = fetchLoop cs (r.advance ws.length) := by
  induction ws generalizing r with
  | nil => simp [advance_zero]
  | cons c ws ih =>
    obtain ⟨hc, hws'⟩ := isWs_cons hws
    have h1 : ¬ (c = ':' ∨ c = ',') := by
      rcases hc with h | h | h | h <;> subst h <;> decide
    rw [List.cons_append, fetchLoop, if_neg h1, if_pos hc, ih hws', advance_advance]
    simp [Nat.add_comm]

@[simp] theorem skip_Data (r : Lexer) (n : Nat) : (r.skip n).Data = r.Data.drop n := rfl
@[simp] theorem skip_pos (r : Lexer) (n : Nat) : (r.skip n).pos = r.pos + n := rfl
@[simp] theorem skip_kind (r : Lexer) (n : Nat) : (r.skip n).kind = r.kind := rfl
@[simp] theorem skip_wantSep (r : Lexer) (n : Nat) : (r.skip n).wantSep = NUL := rfl
@[simp] theorem skip_fatalError (r : Lexer) (n : Nat) : (r.skip n).fatalError = r.fatalError := rfl
@[simp] theorem skip_delimValue (r : Lexer) (n : Nat) : (r.skip n).delimValue = r.delimValue := rfl
@[simp] theorem skip_firstElement (r : Lexer) (n : Nat) :
    (r.skip n).firstElement = r.firstElement := rfl
@[simp] theorem skip_byteValue (r : Lexer) (n : Nat) : (r.skip n).byteValue = r.byteValue := rfl
@[simp] theorem skip_boolValue (r : Lexer) (n : Nat) : (r.skip n).boolValue = r.boolValue := rfl

/-- White space and the wanted separator before a token are skipped. -/
theorem fetchLoop_pre (pre cs : Str) (r : Lexer) (h : Pre r.wantSep pre) :
    fetchLoop (pre ++ cs) r = fetchLoop cs (r.skip pre.length) := by
  rcases h with ⟨hw, hws⟩ | ⟨hw, ws1, ws2, h1, h2, rfl⟩
  · rw [fetchLoop_ws _ _ hws]
    congr 1
    cases r
    simp only [Lexer.skip, Lexer.advance] at hw ⊢
    simp [hw]
  · have hsep : r.wantSep = ':' ∨ r.wantSep = ',' := by tauto
    have hnws : ¬ (r.wantSep = ' ' ∨ r.wantSep = '\t' ∨ r.wantSep = '\r' ∨ r.wantSep = '\n') := by
      rcases hw with h | h <;> rw [h] <;> decide
    rw [List.append_assoc, fetchLoop_ws _ _ h1, List.cons_append, fetchLoop,
      if_pos hsep, if_pos (by simp), fetchLoop_ws _ _ h2]
    congr 1
    simp only [Lexer.skip, Lexer.advance, List.drop_drop, List.length_append, List.length_cons]
    simp only [Lexer.mk.injEq, and_true, true_and]
    constructor
    · congr 1; omega
    · omega

/-! ## Numbers -/

theorem allDigits_cons {c : Char} {ds : Str} (h : AllDigits (c :: ds)) :
    c.isDigit = true ∧ AllDigits ds :=
  ⟨h c (by simp), fun d hd => h d (by simp [hd])⟩

theorem numberLoop_cons (c : Char) (cs : Str) (hasE afterE hasDot : Bool) (i : Nat) :
    numberLoop (c :: cs) hasE afterE hasDot i =
      if c.isDigit then numberLoop cs hasE false hasDot (i + 1)
      else if c = '.' ∧ ¬ hasDot then numberLoop cs hasE afterE true (i + 1)
      else if (c = 'e' ∨ c = 'E') ∧ ¬ hasE then numberLoop cs true true true (i + 1)
      else if (c = '+' ∨ c = '-') ∧ afterE then numberLoop cs hasE false hasDot (i + 1)
      else (i, some c) := by
  rw [numberLoop]

theorem numberLoop_digits (ds cs : Str) (h : AllDigits ds) (hasE afterE hasDot : Bool) (i : Nat) :
    numberLoop (ds ++ cs) hasE afterE hasDot i =
      numberLoop cs hasE (if ds = [] then afterE else false) hasDot (i + ds.length) := by
  induction ds generalizing afterE i with
  | nil => simp
  | cons d ds ih =>
    obtain ⟨hd, hds⟩ := allDigits_cons h
    rw [List.cons_append, numberLoop, if_pos hd, ih hds]
    simp only [List.length_cons, if_neg (List.cons_ne_nil d ds)]
    congr 1
    · split_ifs <;> rfl
    · omega

theorem isTokenEnd_not_number {c : Char} (h : isTokenEnd c = true) :
    c.isDigit = false ∧ c ≠ '.' ∧ c ≠ 'e' ∧ c ≠ 'E' ∧ c ≠ '+' ∧ c ≠ '-' := by
  simp only [isTokenEnd, decide_eq_true_eq] at h
  rcases h with h | h | h | h | h | h | h | h | h | h <;> subst h <;> decide

theorem numberLoop_end (rest : Str) (h : Follow rest) (hasE afterE hasDot : Bool) (i : Nat) :
    numberLoop rest hasE afterE hasDot i = (i, rest.head?) := by
  cases rest with
  | nil => rfl
  | cons c cs =>
    have hc : isTokenEnd c = true := h
    obtain ⟨h1, h2, h3, h4, h5, h6⟩ := isTokenEnd_not_number hc
    simp [numberLoop, h1, h2, h3, h4, h5, h6]

theorem numberLoop_frac (f cs : Str) (hf : JsonFrac f) (i : Nat) :
    ∃ hasDot, numberLoop (f ++ cs) false false false i =
      numberLoop cs false false hasDot (i + f.length) := by
  rcases hf with rfl | ⟨d, ds, rfl, hds⟩
  · exact ⟨false, by simp⟩
  · refine ⟨true, ?_⟩
    rw [List.cons_append, numberLoop_cons, if_neg (by decide), if_pos (by simp),
      numberLoop_digits _ _ hds]
    simp only [List.length_cons, if_neg (List.cons_ne_nil d ds)]
    congr 1
    omega

theorem numberLoop_exp (x cs : Str) (hx : JsonExp x) (hasDot : Bool) (i : Nat) :
    ∃ hasE hasDot', numberLoop (x ++ cs) false false hasDot i =
      numberLoop cs hasE false hasDot' (i + x.length) := by
  rcases hx with rfl | ⟨e, sign, d, ds, rfl, he, hsign, hds⟩
  · exact ⟨false, hasDot, by simp⟩
  · refine ⟨true, true, ?_⟩
    have he1 : e.isDigit = false := by rcases he with h | h <;> subst h <;> decide
    have he2 : e ≠ '.' := by rcases he with h | h <;> subst h <;> decide
    have hstep : ∀ t : Str, numberLoop (e :: t) false false hasDot i =
        numberLoop t true true true (i + 1) := by
      intro t
      rw [numberLoop_cons, if_neg (by simp [he1]), if_neg (by simp [he2]),
        if_pos (by simp [he])]
    rcases hsign with rfl | rfl | rfl
    · have e1 : ([e] ++ d :: ds) ++ cs = e :: ((d :: ds) ++ cs) := by simp
      rw [e1, hstep, numberLoop_digits _ _ hds]
      simp only [List.length_cons, if_neg (List.cons_ne_nil d ds), List.length_append,
        List.length_nil]
      congr 1
      omega
    · have e1 : ([e, '+'] ++ d :: ds) ++ cs = e :: '+' :: ((d :: ds) ++ cs) := by simp
      rw [e1, hstep, numberLoop_cons,
        if_neg (by decide), if_neg (by decide), if_neg (by decide), if_pos (by decide),
        numberLoop_digits _ _ hds]
      simp only [List.length_cons, if_neg (List.cons_ne_nil d ds), List.length_append,
        List.length_nil]
      congr 1
      omega
    · have e1 : ([e, '-'] ++ d :: ds) ++ cs = e :: '-' :: ((d :: ds) ++ cs) := by simp
      rw [e1, hstep, numberLoop_cons,
        if_neg (by decide), if_neg (by decide), if_neg (by decide), if_pos (by decide),
        numberLoop_digits _ _ hds]
      simp only [List.length_cons, if_neg (List.cons_ne_nil d ds), List.length_append,
        List.length_nil]
      congr 1
      omega

/-- A number starts with a digit or a minus sign, and the loop of `fetchNumber` reads exactly
the rest of it. -/
theorem numberLoop_number (n rest : Str) (hn : JsonNumber n) (hrest : Follow rest) :
    ∃ c t, n = c :: t ∧ (c.isDigit = true ∨ c = '-') ∧
      numberLoop (t ++ rest) false false false 0 = (t.length, rest.head?) := by
  obtain ⟨sign, i, f, x, rfl, hsign, hi, hf, hx⟩ := hn
  have hint : ∃ d ds, i = d :: ds ∧ d.isDigit = true ∧ AllDigits ds := by
    rcases hi with rfl | ⟨d, ds, rfl, hd, _, hds⟩
    · exact ⟨'0', [], rfl, by decide, by intro c hc; simp at hc⟩
    · exact ⟨d, ds, rfl, hd, hds⟩
  obtain ⟨d, ds, rfl, hd, hds⟩ := hint
  have key : ∀ (ds' : Str), AllDigits ds' →
      numberLoop (ds' ++ f ++ x ++ rest) false false false 0 =
        ((ds' ++ f ++ x).length, rest.head?) := by
    intro ds' hds'
    rw [List.append_assoc, List.append_assoc, numberLoop_digits _ _ hds']
    have h0 : (if ds' = [] then false else false) = false := by split_ifs <;> rfl
    rw [h0]
    obtain ⟨hd1, e1⟩ := numberLoop_frac f (x ++ rest) hf (0 + ds'.length)
    rw [e1]
    obtain ⟨hE, hd2, e2⟩ := numberLoop_exp x rest hx hd1 (0 + ds'.length + f.length)
    rw [e2, numberLoop_end rest hrest]
    simp [Nat.add_assoc]
  rcases hsign with rfl | rfl
  · refine ⟨d, ds ++ f ++ x, by simp, Or.inl hd, ?_⟩
    exact key ds hds
  · refine ⟨'-', (d :: ds) ++ f ++ x, by simp, Or.inr rfl, ?_⟩
    exact key (d :: ds) (by
      intro c hc
      rcases List.mem_cons.mp hc with h | h
      · rw [h]; exact hd
      · exact hds c h)

theorem fetchNumber_number (n rest : Str) (hn : JsonNumber n) (hrest : Follow rest) (r : Lexer)
    (hd : r.Data = n ++ rest) :
    r.fetchNumber = { r with Data := rest, pos := r.pos + n.length, byteValue := n } := by
  obtain ⟨c, t, rfl, _, hloop⟩ := numberLoop_number n rest hn hrest
  unfold Lexer.fetchNumber
  simp only [advance_Data, hd, List.cons_append, List.drop_one, List.tail_cons, hloop]
  cases rest with
  | nil =>
    simp only [List.head?_nil, List.append_nil]
    simp only [Lexer.advance, List.drop_append_eq_append_drop, List.length_cons]
    simp
    omega
  | cons e rest =>
    have he : isTokenEnd e = true := hrest
    simp only [List.head?_cons, he, if_true]
    simp only [Lexer.advance, List.length_cons]
    simp [List.take_append_eq_append_take]
    omega

/-! ## Strings: finding the closing quote -/

theorem hexValue_ne_special {c : Char} (h : IsHexDigit c) : c ≠ '"' ∧ c ≠ '\\' := by
  constructor <;> (intro e; subst e; exact absurd h (by unfold IsHexDigit; decide))

theorem StrBody.units {b : Str} (h : StrBody b) : Units b := by
  induction h with
  | nil => exact Units.nil
  | unescaped c b _ h1 h2 _ ih => exact Units.plain c b h1 h2 ih
  | escape e b _ _ ih => exact Units.esc e b ih
  | unicode h1 h2 h3 h4 b x1 x2 x3 x4 _ ih =>
    exact Units.esc 'u' _
      (Units.plain h1 _ (hexValue_ne_special x1).1 (hexValue_ne_special x1).2
        (Units.plain h2 _ (hexValue_ne_special x2).1 (hexValue_ne_special x2).2
          (Units.plain h3 _ (hexValue_ne_special x3).1 (hexValue_ne_special x3).2
            (Units.plain h4 _ (hexValue_ne_special x4).1 (hexValue_ne_special x4).2 ih))))

theorem trailing_le (b : Str) : trailing b ≤ b.length := by
  unfold trailing
  calc (b.reverse.takeWhile (· = '\\')).length ≤ b.reverse.length :=
        (List.takeWhile_sublist _).length_le
    _ = b.length := List.length_reverse b

theorem trailing_cons (c : Char) (b : Str) :
    trailing (c :: b) =
      if trailing b = b.length then b.length + (if c = '\\' then 1 else 0) else trailing b := by
  unfold trailing
  rw [List.reverse_cons, List.takeWhile_append, List.length_reverse]
  split_ifs with h1 h2
  · simp [h2]
  · simp [h2]
  · rfl

theorem trailing_append_backslash (b : Str) : trailing (b ++ ['\\']) = trailing b + 1 := by
  unfold trailing
  simp [List.reverse_append, List.takeWhile_cons]

theorem Units.trailing_even {b : Str} (h : Units b) : trailing b % 2 = 0 := by
  induction h with
  | nil => rfl
  | plain c b _ h2 _ ih =>
    rw [trailing_cons, if_neg h2]
    split_ifs with h
    · rw [← h]; exact ih
    · exact ih
  | esc e b _ ih =>
    have hle := trailing_le b
    rw [trailing_cons, trailing_cons, List.length_cons]
    simp only [if_true]
    split_ifs <;> omega

theorem indexByte_append_of_not_mem (p : Str) (c : Char) (cs : Str) (h : c ∉ p) :
    indexByte (p ++ c :: cs) c = some p.length := by
  induction p with
  | nil => simp [indexByte]
  | cons d p ih =>
    have hd : d ≠ c := fun e => h (by simp [e])
    have hp : c ∉ p := fun e => h (by simp [e])
    simp [indexByte, hd, ih hp]

/-- A string body either holds no quote, or splits at its first quote, which is escaped. -/
theorem Units.first_quote {b : Str} (h : Units b) :
    '"' ∉ b ∨ ∃ p b2, b = p ++ '\\' :: '"' :: b2 ∧ '"' ∉ p ∧ Units p ∧ Units b2 := by
  induction h with
  | nil => left; simp
  | plain c b h1 h2 hb ih =>
    rcases ih with h | ⟨p, b2, rfl, hp, hup, hu2⟩
    · left; simp [h, Ne.symm h1]
    · right
      exact ⟨c :: p, b2, rfl, by simp [hp, Ne.symm h1], Units.plain c p h1 h2 hup, hu2⟩
  | esc e b hb ih =>
    by_cases he : e = '"'
    · subst he
      right
      exact ⟨[], b, rfl, by simp, Units.nil, hb⟩
    · rcases ih with h | ⟨p, b2, rfl, hp, hup, hu2⟩
      · left; simp [h, Ne.symm he]
      · right
        exact ⟨'\\' :: e :: p, b2, rfl, by simp [hp, Ne.symm he], Units.esc e p hup, hu2⟩

theorem countBackslashes_append (b : Str) (cs : Str) :
    countBackslashes (b ++ cs) b.length = trailing b := by
  unfold countBackslashes trailing
  simp

theorem findStringLenLoop_units (rest : Str) :
    ∀ (n : Nat) (b : Str) (len : Nat), Units b → b.length < n →
      findStringLenLoop n (b ++ '"' :: rest) len = (true, len + b.length) := by
  intro n
  induction n with
  | zero => intro b len _ h; omega
  | succ n ih =>
    intro b len hb hn
    rcases hb.first_quote with h | ⟨p, b2, rfl, hp, hup, hu2⟩
    · unfold findStringLenLoop
      rw [indexByte_append_of_not_mem b '"' rest h]
      simp only []
      split_ifs with h1 h2
      · rfl
      · rfl
      · exfalso
        rw [countBackslashes_append] at h2
        exact h2 hb.trailing_even
    · unfold findStringLenLoop
      have hidx : indexByte ((p ++ '\\' :: '"' :: b2) ++ '"' :: rest) '"' =
          some (p ++ ['\\']).length := by
        have := indexByte_append_of_not_mem (p ++ ['\\']) '"' (b2 ++ '"' :: rest)
          (by simp [hp])
        simpa using this
      rw [hidx]
      simp only []
      have hcnt : countBackslashes ((p ++ '\\' :: '"' :: b2) ++ '"' :: rest)
          (p ++ ['\\']).length = trailing p + 1 := by
        have := countBackslashes_append (p ++ ['\\']) ('"' :: b2 ++ '"' :: rest)
        rw [trailing_append_backslash] at this
        simpa using this
      have hdrop : (((p ++ '\\' :: '"' :: b2) ++ '"' :: rest).drop
          ((p ++ ['\\']).length - 1)).head? = some '\\' := by
        simp
      have hdrop2 : ((p ++ '\\' :: '"' :: b2) ++ '"' :: rest).drop ((p ++ ['\\']).length + 1) =
          b2 ++ '"' :: rest := by
        have : (p ++ '\\' :: '"' :: b2) ++ '"' :: rest =
            (p ++ ['\\', '"']) ++ (b2 ++ '"' :: rest) := by simp
        rw [this, List.drop_append_eq_append_drop]
        simp
      rw [if_neg (by simp [hdrop]), hcnt, if_neg (by have := hup.trailing_even; omega), hdrop2,
        ih b2 _ hu2 (by simp at hn; omega)]
      simp
      omega

theorem findStringLen_units (b rest : Str) (hb : Units b) :
    findStringLen (b ++ '"' :: rest) = (true, b.length) := by
  unfold findStringLen
  rw [findStringLenLoop_units rest _ b 0 hb (by simp; omega)]
  simp

/-! ## Fetching one token -/

theorem Lexer.Idle.fetchIfUndef {r : Lexer} (h : r.Idle) : r.fetchIfUndef = fetchLoop r.Data r := by
  unfold Lexer.fetchIfUndef Lexer.FetchToken
  have hk := h.kind
  have ho : r.Ok = true := by simp [Lexer.Ok, h.ok]
  rw [if_pos ⟨hk, ho⟩]
  congr 1
  cases r
  simp only at hk
  simp [hk]

theorem fetchLoop_cons (c : Char) (cs : Str) (r : Lexer) :
    fetchLoop (c :: cs) r =
      if c = ':' ∨ c = ',' then
        if r.wantSep = c then fetchLoop cs { r.advance 1 with wantSep := NUL }
        else fetchLoop cs r.errSyntax
      else if c = ' ' ∨ c = '\t' ∨ c = '\r' ∨ c = '\n' then fetchLoop cs (r.advance 1)
      else if c = '"' then
        Lexer.fetchString
          { (if r.wantSep ≠ NUL then r.errSyntax else r) with kind := .tokenString }
      else if c = '{' ∨ c = '[' then
        Lexer.advance
          { (if r.wantSep ≠ NUL ∧ ¬ r.firstElement then r.errSyntax else r) with
            firstElement := true, kind := .tokenDelim,
            delimValue :=
              (if r.wantSep ≠ NUL ∧ ¬ r.firstElement then r.errSyntax else r).Data.headD NUL } 1
      else if c = '}' ∨ c = ']' then
        Lexer.advance
          { (if ¬ r.firstElement ∧ r.wantSep ≠ ',' then r.errSyntax else r) with
            wantSep := NUL, kind := .tokenDelim,
            delimValue :=
              (if ¬ r.firstElement ∧ r.wantSep ≠ ',' then r.errSyntax else r).Data.headD NUL } 1
      else if c.isDigit ∨ c = '-' then
        Lexer.fetchNumber
          { (if r.wantSep ≠ NUL then r.errSyntax else r) with kind := .tokenNumber }
      else if c = 'n' then
        Lexer.fetchNull { (if r.wantSep ≠ NUL then r.errSyntax else r) with kind := .tokenNull }
      else if c = 't' then
        Lexer.fetchTrue
          { (if r.wantSep ≠ NUL then r.errSyntax else r) with
            kind := .tokenBool, boolValue := true }
      else if c = 'f' then
        Lexer.fetchFalse
          { (if r.wantSep ≠ NUL then r.errSyntax else r) with
            kind := .tokenBool, boolValue := false }
      else r.errSyntax := by
  rw [fetchLoop]

/-- Fetching from between two tokens skips what stands before the next token. -/
theorem fetch_pre {r : Lexer} (h : r.Idle) (pre cs : Str) (hpre : Pre r.wantSep pre)
    (hd : r.Data = pre ++ cs) :
    r.fetchIfUndef = fetchLoop cs (r.skip pre.length) := by
  rw [h.fetchIfUndef, hd, fetchLoop_pre pre cs r hpre]

theorem skip_Data_eq {r : Lexer} (pre cs : Str) (hd : r.Data = pre ++ cs) :
    (r.skip pre.length).Data = cs := by
  simp [hd]

theorem drop_append_cons (xs : Str) (c : Char) (rest : Str) :
    (xs ++ c :: rest).drop (xs.length + 1) = rest := by
  have : xs ++ c :: rest = (xs ++ [c]) ++ rest := by simp
  rw [this, List.drop_append_eq_append_drop]
  simp

theorem fetch_string {r : Lexer} (h : r.Idle) (pre b rest : Str) (hpre : Pre r.wantSep pre)
    (hb : Units b) (hd : r.Data = pre ++ ('"' :: b ++ '"' :: rest)) :
    r.fetchIfUndef =
      { r.withToken rest (pre.length + (b.length + 2)) .tokenString with byteValue := b } := by
  rw [fetch_pre h pre _ hpre hd, List.cons_append, fetchLoop_cons]
  simp only [Char.reduceEq, or_self, if_false, if_true, skip_wantSep, ne_eq, not_true_eq_false]
  unfold Lexer.fetchString
  have hd' := skip_Data_eq pre _ hd
  simp only [advance_Data, hd', List.cons_append, List.drop_one, List.tail_cons,
    findStringLen_units b rest hb]
  simp only [Lexer.withToken, Lexer.skip, Lexer.advance, List.drop_drop, hd]
  simp only [Lexer.mk.injEq, and_true, true_and]
  refine ⟨?_, ?_, ?_⟩
  · exact drop_append_cons b '"' rest
  · omega
  · simp

theorem fetch_number {r : Lexer} (h : r.Idle) (pre n rest : Str) (hpre : Pre r.wantSep pre)
    (hn : JsonNumber n) (hrest : Follow rest) (hd : r.Data = pre ++ (n ++ rest)) :
    r.fetchIfUndef =
      { r.withToken rest (pre.length + n.length) .tokenNumber with byteValue := n } := by
  rw [fetch_pre h pre _ hpre hd]
  obtain ⟨c, t, rfl, hc, _⟩ := numberLoop_number n rest hn hrest
  have hc1 : ¬ (c = ':' ∨ c = ',') := by
    rcases hc with h | h
    · intro h'; rcases h' with h' | h' <;> subst h' <;> exact absurd h (by decide)
    · subst h; decide
  have hc2 : ¬ (c = ' ' ∨ c = '\t' ∨ c = '\r' ∨ c = '\n') := by
    rcases hc with h | h
    · intro h'; rcases h' with h' | h' | h' | h' <;> subst h' <;> exact absurd h (by decide)
    · subst h; decide
  have hc3 : c ≠ '"' := by
    rcases hc with h | h
    · intro h'; subst h'; exact absurd h (by decide)
    · subst h; decide
  have hc4 : ¬ (c = '{' ∨ c = '[') := by
    rcases hc with h | h
    · intro h'; rcases h' with h' | h' <;> subst h' <;> exact absurd h (by decide)
    · subst h; decide
  have hc5 : ¬ (c = '}' ∨ c = ']') := by
    rcases hc with h | h
    · intro h'; rcases h' with h' | h' <;> subst h' <;> exact absurd h (by decide)
    · subst h; decide
  rw [List.cons_append, fetchLoop_cons, if_neg hc1, if_neg hc2, if_neg hc3, if_neg hc4, if_neg hc5,
    if_pos (by simpa using hc)]
  simp only [skip_wantSep, ne_eq, not_true_eq_false, if_false]
  rw [fetchNumber_number (c :: t) rest hn hrest _ (by simp [hd])]
  simp only [Lexer.withToken, Lexer.skip, Lexer.advance]
  simp only [Lexer.mk.injEq, and_true, true_and]
  omega

theorem literalEnds_of_follow {rest : Str} (h : Follow rest) : literalEnds rest = true := h

theorem fetch_null {r : Lexer} (h : r.Idle) (pre rest : Str) (hpre : Pre r.wantSep pre)
    (hrest : Follow rest) (hd : r.Data = pre ++ ("null".toList ++ rest)) :
    r.fetchIfUndef = r.withToken rest (pre.length + 4) .tokenNull := by
  rw [fetch_pre h pre _ hpre hd]
  have hd' := skip_Data_eq pre _ hd
  simp only [String.toList, List.cons_append, List.nil_append] at hd' ⊢
  rw [fetchLoop_cons]
  simp only [Char.reduceEq, or_self, if_false, if_true, skip_wantSep, ne_eq, not_true_eq_false,
    Char.reduceIsDigit, Bool.false_eq_true]
  have hrest' : literalEnds rest = true := hrest
  simp only [Lexer.fetchNull, hd', ne_eq, not_true_eq_false, false_or, hrest',
    if_false]
  simp only [Lexer.withToken, skip_pos, skip_boolValue, skip_byteValue, skip_delimValue,
    skip_firstElement, skip_fatalError, Lexer.advance]
  simp only [Lexer.mk.injEq, and_true, true_and]
  exact ⟨rfl, by omega⟩

theorem fetch_true {r : Lexer} (h : r.Idle) (pre rest : Str) (hpre : Pre r.wantSep pre)
    (hrest : Follow rest) (hd : r.Data = pre ++ ("true".toList ++ rest)) :
    r.fetchIfUndef =
      { r.withToken rest (pre.length + 4) .tokenBool with boolValue := true } := by
  rw [fetch_pre h pre _ hpre hd]
  have hd' := skip_Data_eq pre _ hd
  simp only [String.toList, List.cons_append, List.nil_append] at hd' ⊢
  rw [fetchLoop_cons]
  simp only [Char.reduceEq, or_self, if_false, if_true, skip_wantSep, ne_eq, not_true_eq_false,
    Char.reduceIsDigit, Bool.false_eq_true]
  have hrest' : literalEnds rest = true := hrest
  simp only [Lexer.fetchTrue, hd', ne_eq, not_true_eq_false, false_or, hrest',
    if_false]
  simp only [Lexer.withToken, skip_pos, skip_boolValue, skip_byteValue, skip_delimValue,
    skip_firstElement, skip_fatalError, Lexer.advance]
  simp only [Lexer.mk.injEq, and_true, true_and]
  exact ⟨rfl, by omega⟩

theorem fetch_false {r : Lexer} (h : r.Idle) (pre rest : Str) (hpre : Pre r.wantSep pre)
    (hrest : Follow rest) (hd : r.Data = pre ++ ("false".toList ++ rest)) :
    r.fetchIfUndef =
      { r.withToken rest (pre.length + 5) .tokenBool with boolValue := false } := by
  rw [fetch_pre h pre _ hpre hd]
  have hd' := skip_Data_eq pre _ hd
  simp only [String.toList, List.cons_append, List.nil_append] at hd' ⊢
  rw [fetchLoop_cons]
  simp only [Char.reduceEq, or_self, if_false, if_true, skip_wantSep, ne_eq, not_true_eq_false,
    Char.reduceIsDigit, Bool.false_eq_true]
  have hrest' : literalEnds rest = true := hrest
  simp only [Lexer.fetchFalse, hd', ne_eq, not_true_eq_false, false_or, hrest',
    if_false]
  simp only [Lexer.withToken, skip_pos, skip_boolValue, skip_byteValue, skip_delimValue,
    skip_firstElement, skip_fatalError, Lexer.advance]
  simp only [Lexer.mk.injEq, and_true, true_and]
  exact ⟨rfl, by omega⟩

/-- An opening delimiter is fetched; it makes the next element the first one. -/
theorem fetch_open {r : Lexer} (h : r.Idle) (pre rest : Str) (c : Char)
    (hc : c = '{' ∨ c = '[') (hpre : Pre r.wantSep pre) (hd : r.Data = pre ++ c :: rest) :
    r.fetchIfUndef =
      { r.withToken rest (pre.length + 1) .tokenDelim with
        delimValue := c, firstElement := true } := by
  rw [fetch_pre h pre _ hpre hd]
  have hd' := skip_Data_eq pre _ hd
  have h1 : ¬ (c = ':' ∨ c = ',') := by rcases hc with h | h <;> subst h <;> decide
  have h2 : ¬ (c = ' ' ∨ c = '\t' ∨ c = '\r' ∨ c = '\n') := by
    rcases hc with h | h <;> subst h <;> decide
  have h3 : c ≠ '"' := by rcases hc with h | h <;> subst h <;> decide
  rw [fetchLoop_cons, if_neg h1, if_neg h2, if_neg h3, if_pos hc]
  simp only [skip_wantSep, ne_eq, not_true_eq_false, false_and, if_false, hd', List.headD_cons]
  simp only [Lexer.withToken, skip_pos, skip_boolValue, skip_byteValue, skip_delimValue,
    skip_firstElement, skip_fatalError, Lexer.advance, List.drop_one, List.tail_cons]
  simp only [Lexer.mk.injEq, and_true, true_and]
  omega

/-- A closing delimiter is fetched behind an element, or right behind the opening delimiter. -/
theorem fetch_close {r : Lexer} (h : r.Idle) (ws rest : Str) (c : Char)
    (hc : c = '}' ∨ c = ']') (hws : IsWs ws) (hsep : r.firstElement = true ∨ r.wantSep = ',')
    (hd : r.Data = ws ++ c :: rest) :
    r.fetchIfUndef =
      { r.withToken rest (ws.length + 1) .tokenDelim with delimValue := c } := by
  rw [h.fetchIfUndef, hd, fetchLoop_ws _ _ hws]
  have hd' : (r.advance ws.length).Data = c :: rest := by simp [hd]
  have h1 : ¬ (c = ':' ∨ c = ',') := by rcases hc with h | h <;> subst h <;> decide
  have h2 : ¬ (c = ' ' ∨ c = '\t' ∨ c = '\r' ∨ c = '\n') := by
    rcases hc with h | h <;> subst h <;> decide
  have h3 : c ≠ '"' := by rcases hc with h | h <;> subst h <;> decide
  have h4 : ¬ (c = '{' ∨ c = '[') := by rcases hc with h | h <;> subst h <;> decide
  have h5 : ¬ (¬ (r.advance ws.length).firstElement = true ∧ (r.advance ws.length).wantSep ≠ ',') := by
    rcases hsep with h | h
    · simp [Lexer.advance, h]
    · simp [Lexer.advance, h]
  rw [fetchLoop_cons, if_neg h1, if_neg h2, if_neg h3, if_neg h4, if_pos hc]
  simp only [if_neg h5, hd', List.headD_cons]
  simp only [Lexer.withToken, Lexer.advance, List.drop_one, List.tail_cons, List.drop_drop]
  simp only [Lexer.mk.injEq, and_true, true_and]
  omega

/-! ## Once the lexer has failed it stays failed -/

theorem ok_false_iff (r : Lexer) : r.Ok = false ↔ r.fatalError.isSome = true := by
  unfold Lexer.Ok
  cases r.fatalError <;> simp

theorem ok_true_iff (r : Lexer) : r.Ok = true ↔ r.fatalError = none := by
  unfold Lexer.Ok
  cases r.fatalError <;> simp

theorem Lexer.Idle.isOk {r : Lexer} (h : r.Idle) : r.Ok = true := (ok_true_iff r).mpr h.ok

@[simp] theorem errParse_ok (r : Lexer) (what : Str) : (r.errParse what).Ok = false := by
  unfold Lexer.errParse Lexer.Ok
  cases h : r.fatalError <;> simp [h]

@[simp] theorem errSyntax_ok (r : Lexer) : r.errSyntax.Ok = false := errParse_ok r _

@[simp] theorem errInvalidToken_ok (r : Lexer) (e : Str) : (r.errInvalidToken e).Ok = false := by
  unfold Lexer.errInvalidToken Lexer.Ok
  cases h : r.fatalError <;> simp [h]

@[simp] theorem AddError_ok (r : Lexer) (e : Str) : (r.AddError e).Ok = false := by
  unfold Lexer.AddError Lexer.Ok
  cases h : r.fatalError <;> simp [h]

@[simp] theorem outOfFuel_ok (r : Lexer) : r.outOfFuel.Ok = false := rfl

theorem errParse_of_failed {r : Lexer} (h : r.Ok = false) (what : Str) : r.errParse what = r := by
  unfold Lexer.errParse
  rw [if_neg]
  rw [ok_false_iff] at h
  cases hf : r.fatalError <;> simp [hf] at h ⊢

theorem errInvalidToken_of_failed {r : Lexer} (h : r.Ok = false) (e : Str) :
    r.errInvalidToken e = r := by
  unfold Lexer.errInvalidToken
  rw [if_pos ((ok_false_iff r).mp h)]

@[simp] theorem consume_ok (r : Lexer) : r.consume.Ok = r.Ok := rfl
@[simp] theorem WantColon_ok (r : Lexer) : r.WantColon.Ok = r.Ok := rfl
@[simp] theorem WantComma_ok (r : Lexer) : r.WantComma.Ok = r.Ok := rfl
@[simp] theorem advance_ok (r : Lexer) (n : Nat) : (r.advance n).Ok = r.Ok := rfl

theorem fetchIfUndef_of_failed {r : Lexer} (h : r.Ok = false) : r.fetchIfUndef = r := by
  unfold Lexer.fetchIfUndef
  rw [if_neg]
  simp [h]

theorem fetchIfUndef_of_kind {r : Lexer} (h : r.kind ≠ .tokenUndef) : r.fetchIfUndef = r := by
  unfold Lexer.fetchIfUndef
  rw [if_neg]
  simp [h]

theorem scanToken_eq (r : Lexer) : r.scanToken = r.fetchIfUndef := by
  unfold Lexer.scanToken Lexer.fetchIfUndef
  by_cases hk : r.kind = .tokenUndef
  · by_cases ho : r.Ok = true
    · have : ¬ (r.kind ≠ .tokenUndef ∨ r.fatalError.isSome = true) := by
        rw [ok_true_iff] at ho
        simp [hk, ho]
      rw [if_neg this, if_pos ⟨hk, ho⟩]
    · have ho' : r.Ok = false := by simpa using ho
      rw [if_pos (Or.inr ((ok_false_iff r).mp ho')), if_neg (by simp [ho'])]
  · rw [if_pos (Or.inl hk), if_neg (by simp [hk])]

@[simp] theorem Delim_failed {r : Lexer} (h : r.Ok = false) (c : Char) : (r.Delim c).Ok = false := by
  unfold Lexer.Delim
  rw [fetchIfUndef_of_failed h]
  simp [h]

theorem IsDelim_failed {r : Lexer} (h : r.Ok = false) (c : Char) : r.IsDelim c = (true, r) := by
  unfold Lexer.IsDelim
  rw [fetchIfUndef_of_failed h]
  simp [h]

theorem IsNull_failed {r : Lexer} (h : r.Ok = false) : r.IsNull = (false, r) := by
  unfold Lexer.IsNull
  rw [fetchIfUndef_of_failed h]
  simp [h]

theorem String_failed {r : Lexer} (h : r.Ok = false) : r.String = ([], r) := by
  unfold Lexer.String
  rw [fetchIfUndef_of_failed h]
  simp [h, errInvalidToken_of_failed h]

theorem UnsafeFieldName_failed {r : Lexer} (h : r.Ok = false) (b : Bool) :
    r.UnsafeFieldName b = ([], r) := by
  unfold Lexer.UnsafeFieldName
  rw [fetchIfUndef_of_failed h]
  simp [h, errInvalidToken_of_failed h]

@[simp] theorem Skip_failed {r : Lexer} (h : r.Ok = false) : r.Skip.Ok = false := by
  unfold Lexer.Skip
  rw [fetchIfUndef_of_failed h]
  simpa using h

@[simp] theorem SkipRecursive_failed {r : Lexer} (h : r.Ok = false) (jv : Str → Bool) :
    (r.SkipRecursive jv).Ok = false := by
  unfold Lexer.SkipRecursive
  rw [scanToken_eq, fetchIfUndef_of_failed h]
  simp only
  by_cases hd : r.delimValue = '{' ∨ r.delimValue = '['
  · rw [if_pos hd]
    cases skipLoop r.delimValue (if r.delimValue = '{' then '}' else ']') r.consume.Data 1
        false false 0 with
    | none => rfl
    | some n =>
      simp only
      by_cases hv : jv (r.delimValue :: List.take n r.consume.Data) = true
      · rw [if_pos hv]; simpa using h
      · rw [if_neg hv]; rfl
  · rw [if_neg hd]; simpa using h

theorem Consumed_failed {r : Lexer} (h : r.Ok = false) : r.Consumed = r := by
  unfold Lexer.Consumed
  rw [if_pos (by simp [h])]

theorem delimLoop_failed {α : Type} (c : Char) (body : Lexer → α → Lexer × α) (n : Nat)
    {r : Lexer} (h : r.Ok = false) (a : α) : (delimLoop c body n r a).1.Ok = false := by
  cases n with
  | zero => rfl
  | succ n =>
    unfold delimLoop
    rw [IsDelim_failed h]
    simpa using h

theorem delimLoop_failed_snd {α : Type} (c : Char) (body : Lexer → α → Lexer × α) (n : Nat)
    {r : Lexer} (h : r.Ok = false) (a : α) : (delimLoop c body n r a).2 = a := by
  cases n with
  | zero => rfl
  | succ n =>
    unfold delimLoop
    rw [IsDelim_failed h]
    rfl

/-! ## A token that has been fetched is not fetched again -/

@[simp] theorem errParse_kind (r : Lexer) (w : Str) : (r.errParse w).kind = r.kind := by
  unfold Lexer.errParse; split_ifs <;> rfl

@[simp] theorem errSyntax_kind (r : Lexer) : r.errSyntax.kind = r.kind := errParse_kind r _

theorem fetchString_kind (r : Lexer) : r.fetchString.kind = r.kind := by
  unfold Lexer.fetchString
  simp only
  split <;> simp

theorem fetchNumber_kind (r : Lexer) : r.fetchNumber.kind = r.kind := by
  unfold Lexer.fetchNumber
  simp only
  split
  · split_ifs <;> simp
  · simp

theorem fetchNull_kind (r : Lexer) : r.fetchNull.kind = r.kind := by
  unfold Lexer.fetchNull
  split
  · split_ifs <;> simp
  · simp

theorem fetchTrue_kind (r : Lexer) : r.fetchTrue.kind = r.kind := by
  unfold Lexer.fetchTrue
  split
  · split_ifs <;> simp
  · simp

theorem fetchFalse_kind (r : Lexer) : r.fetchFalse.kind = r.kind := by
  unfold Lexer.fetchFalse
  split
  · split_ifs <;> simp
  · simp

/-- `FetchToken` ends with a token or with an error. -/
theorem fetchLoop_post (cs : Str) :
    ∀ r : Lexer, (fetchLoop cs r).kind ≠ .tokenUndef ∨ (fetchLoop cs r).Ok = false := by
  induction cs with
  | nil => intro r; right; rfl
  | cons c cs ih =>
    intro r
    rw [fetchLoop_cons]
    by_cases h1 : c = ':' ∨ c = ','
    · rw [if_pos h1]
      by_cases h2 : r.wantSep = c
      · rw [if_pos h2]; exact ih _
      · rw [if_neg h2]; exact ih _
    rw [if_neg h1]
    by_cases h2 : c = ' ' ∨ c = '\t' ∨ c = '\r' ∨ c = '\n'
    · rw [if_pos h2]; exact ih _
    rw [if_neg h2]
    by_cases h3 : c = '"'
    · rw [if_pos h3]; left; rw [fetchString_kind]; simp
    rw [if_neg h3]
    by_cases h4 : c = '{' ∨ c = '['
    · rw [if_pos h4]; left; simp
    rw [if_neg h4]
    by_cases h5 : c = '}' ∨ c = ']'
    · rw [if_pos h5]; left; simp
    rw [if_neg h5]
    by_cases h6 : c.isDigit = true ∨ c = '-'
    · rw [if_pos h6]; left; rw [fetchNumber_kind]; simp
    rw [if_neg h6]
    by_cases h7 : c = 'n'
    · rw [if_pos h7]; left; rw [fetchNull_kind]; simp
    rw [if_neg h7]
    by_cases h8 : c = 't'
    · rw [if_pos h8]; left; rw [fetchTrue_kind]; simp
    rw [if_neg h8]
    by_cases h9 : c = 'f'
    · rw [if_pos h9]; left; rw [fetchFalse_kind]; simp
    rw [if_neg h9]
    right; simp

theorem fetchIfUndef_idem (r : Lexer) : r.fetchIfUndef.fetchIfUndef = r.fetchIfUndef := by
  by_cases h : r.kind = .tokenUndef ∧ r.Ok = true
  · have e : r.fetchIfUndef = fetchLoop r.Data { r with kind := .tokenUndef } := by
      unfold Lexer.fetchIfUndef Lexer.FetchToken
      rw [if_pos h]
    rw [e]
    rcases fetchLoop_post r.Data { r with kind := .tokenUndef } with h1 | h1
    · exact fetchIfUndef_of_kind h1
    · exact fetchIfUndef_of_failed h1
  · have e : r.fetchIfUndef = r := by
      unfold Lexer.fetchIfUndef
      rw [if_neg h]
    rw [e, e]

theorem String_fetched (r : Lexer) : r.fetchIfUndef.String = r.String := by
  unfold Lexer.String; rw [fetchIfUndef_idem]

theorem UnsafeFieldName_fetched (r : Lexer) (b : Bool) :
    r.fetchIfUndef.UnsafeFieldName b = r.UnsafeFieldName b := by
  unfold Lexer.UnsafeFieldName; rw [fetchIfUndef_idem]

theorem IsNull_fetched (r : Lexer) : r.fetchIfUndef.IsNull = r.IsNull := by
  unfold Lexer.IsNull; rw [fetchIfUndef_idem]

theorem IsDelim_fetched (r : Lexer) (c : Char) : r.fetchIfUndef.IsDelim c = r.IsDelim c := by
  unfold Lexer.IsDelim; rw [fetchIfUndef_idem]

theorem Delim_fetched (r : Lexer) (c : Char) : r.fetchIfUndef.Delim c = r.Delim c := by
  unfold Lexer.Delim; rw [fetchIfUndef_idem]

theorem Skip_fetched (r : Lexer) : r.fetchIfUndef.Skip = r.Skip := by
  unfold Lexer.Skip; rw [fetchIfUndef_idem]

theorem SkipRecursive_fetched (r : Lexer) (jv : Str → Bool) :
    r.fetchIfUndef.SkipRecursive jv = r.SkipRecursive jv := by
  unfold Lexer.SkipRecursive; rw [scanToken_eq, scanToken_eq, fetchIfUndef_idem]

theorem IsNull_snd (r : Lexer) : r.IsNull.2 = r.fetchIfUndef := rfl
theorem IsDelim_snd (r : Lexer) (c : Char) : (r.IsDelim c).2 = r.fetchIfUndef := rfl

theorem delimLoop_fetched {α : Type} (c : Char) (body : Lexer → α → Lexer × α) (n : Nat)
    (r : Lexer) (a : α) :
    delimLoop c body n r.fetchIfUndef a =
      if n = 0 then (r.fetchIfUndef.outOfFuel, a) else delimLoop c body n r a := by
  cases n with
  | zero => rfl
  | succ n =>
    rw [if_neg (Nat.succ_ne_zero n)]
    unfold delimLoop
    rw [IsDelim_fetched]

/-! ## The first token of a value -/

theorem Pre.of_nul {pre : Str} (h : IsWs pre) : Pre NUL pre := Or.inl ⟨rfl, h⟩

theorem Pre.append_ws {w : Char} {pre ws : Str} (h : Pre w pre) (hws : IsWs ws) :
    Pre w (pre ++ ws) := by
  rcases h with ⟨hw, h1⟩ | ⟨hw, ws1, ws2, h1, h2, rfl⟩
  · exact Or.inl ⟨hw, isWs_append h1 hws⟩
  · exact Or.inr ⟨hw, ws1, ws2 ++ ws, h1, isWs_append h2 hws, by simp⟩

theorem Pre.sep_ws {w : Char} (hw : w = ',' ∨ w = ':') {ws1 ws2 : Str} (h1 : IsWs ws1)
    (h2 : IsWs ws2) : Pre w (ws1 ++ w :: ws2) :=
  Or.inr ⟨hw, ws1, ws2, h1, h2, rfl⟩

theorem number_head {n : Str} (hn : JsonNumber n) :
    ∃ c t, n = c :: t ∧ (c.isDigit = true ∨ c = '-') := by
  obtain ⟨c, t, h, hc, _⟩ := numberLoop_number n [] hn rfl
  exact ⟨c, t, h, hc⟩

theorem valueKind_number {n : Str} (hn : JsonNumber n) :
    valueKind n = .tokenNumber ∧ valueDelim n = NUL := by
  obtain ⟨c, t, rfl, hc⟩ := number_head hn
  have h1 : c ≠ '"' := by
    rcases hc with h | h
    · intro e; subst e; exact absurd h (by decide)
    · subst h; decide
  have h2 : c ≠ '{' := by
    rcases hc with h | h
    · intro e; subst e; exact absurd h (by decide)
    · subst h; decide
  have h3 : c ≠ '[' := by
    rcases hc with h | h
    · intro e; subst e; exact absurd h (by decide)
    · subst h; decide
  have h4 : c ≠ 'n' := by
    rcases hc with h | h
    · intro e; subst e; exact absurd h (by decide)
    · subst h; decide
  have h5 : c ≠ 't' := by
    rcases hc with h | h
    · intro e; subst e; exact absurd h (by decide)
    · subst h; decide
  have h6 : c ≠ 'f' := by
    rcases hc with h | h
    · intro e; subst e; exact absurd h (by decide)
    · subst h; decide
  constructor
  · unfold valueKind
    split <;> first | rfl | (rename_i heq; injection heq with e1 e2; simp_all)
  · unfold valueDelim
    split <;> first | rfl | (rename_i heq; injection heq with e1 e2; simp_all)

/-- Fetching the first token of a value succeeds, and gives the token its first byte
announces. -/
theorem fetch_value {v : Str} (hv : JsonValue v) {r : Lexer} (h : r.Idle) (pre rest : Str)
    (hpre : Pre r.wantSep pre) (hrest : Follow rest) (hd : r.Data = pre ++ v ++ rest) :
    r.fetchIfUndef.Ok = true ∧ r.fetchIfUndef.kind = valueKind v ∧
      r.fetchIfUndef.delimValue = valueDelim v := by
  have hok := h.isOk
  have hdl := h.delim
  rw [List.append_assoc] at hd
  cases hv with
  | null =>
    rw [fetch_null h pre rest hpre hrest hd]
    exact ⟨hok, rfl, hdl⟩
  | true =>
    rw [fetch_true h pre rest hpre hrest hd]
    exact ⟨hok, rfl, hdl⟩
  | false =>
    rw [fetch_false h pre rest hpre hrest hd]
    exact ⟨hok, rfl, hdl⟩
  | number n hn =>
    rw [fetch_number h pre v rest hpre hn hrest hd]
    exact ⟨hok, (valueKind_number hn).1.symm, hdl.trans (valueKind_number hn).2.symm⟩
  | string b hb =>
    rw [fetch_string h pre b rest hpre hb.units (by simpa using hd)]
    exact ⟨hok, rfl, hdl⟩
  | array ws es hws hes hvs =>
    rw [fetch_open h pre _ '[' (Or.inr rfl) hpre (by simpa [arrayText] using hd)]
    exact ⟨hok, rfl, rfl⟩
  | object ws ms hws hms hvs =>
    rw [fetch_open h pre _ '{' (Or.inl rfl) hpre (by simpa [objectText] using hd)]
    exact ⟨hok, rfl, rfl⟩

theorem value_string_of_kind {v : Str} (hv : JsonValue v) (hk : valueKind v = .tokenString) :
    ∃ b, StrBody b ∧ v = '"' :: (b ++ ['"']) := by
  cases hv with
  | null => exact absurd hk (by decide)
  | true => exact absurd hk (by decide)
  | false => exact absurd hk (by decide)
  | number n hn => rw [(valueKind_number hn).1] at hk; exact absurd hk (by decide)
  | string b hb => exact ⟨b, hb, by simp⟩
  | array ws es _ _ _ => exact absurd hk (by simp [arrayText, valueKind])
  | object ws ms _ _ _ => exact absurd hk (by simp [objectText, valueKind])

theorem value_null_of_kind {v : Str} (hv : JsonValue v) (hk : valueKind v = .tokenNull) :
    v = "null".toList := by
  cases hv with
  | null => rfl
  | true => exact absurd hk (by decide)
  | false => exact absurd hk (by decide)
  | number n hn => rw [(valueKind_number hn).1] at hk; exact absurd hk (by decide)
  | string b hb => exact absurd hk (by simp [valueKind])
  | array ws es _ _ _ => exact absurd hk (by simp [arrayText, valueKind])
  | object ws ms _ _ _ => exact absurd hk (by simp [objectText, valueKind])

theorem value_array_of_delim {v : Str} (hv : JsonValue v) (hk : valueDelim v = '[') :
    ∃ ws es, IsWs ws ∧ (∀ e ∈ es, Elem.WF e) ∧ (∀ e ∈ es, JsonValue e.value) ∧
      v = arrayText ws es := by
  cases hv with
  | null => exact absurd hk (by decide)
  | true => exact absurd hk (by decide)
  | false => exact absurd hk (by decide)
  | number n hn => rw [(valueKind_number hn).2] at hk; exact absurd hk (by decide)
  | string b hb => exact absurd hk (by simp [valueDelim, NUL])
  | array ws es h1 h2 h3 => exact ⟨ws, es, h1, h2, h3, rfl⟩
  | object ws ms _ _ _ => exact absurd hk (by simp [objectText, valueDelim])

theorem value_object_of_delim {v : Str} (hv : JsonValue v) (hk : valueDelim v = '{') :
    ∃ ws ms, IsWs ws ∧ (∀ m ∈ ms, Member.WF m) ∧ (∀ m ∈ ms, JsonValue m.value) ∧
      v = objectText ws ms := by
  cases hv with
  | null => exact absurd hk (by decide)
  | true => exact absurd hk (by decide)
  | false => exact absurd hk (by decide)
  | number n hn => rw [(valueKind_number hn).2] at hk; exact absurd hk (by decide)
  | string b hb => exact absurd hk (by simp [valueDelim, NUL])
  | array ws es _ _ _ => exact absurd hk (by simp [arrayText, valueDelim])
  | object ws ms h1 h2 h3 => exact ⟨ws, ms, h1, h2, h3, rfl⟩

/-! ## Reading a string, skipping a null -/

theorem withToken_at {r : Lexer} {rest : Str} {n : Nat} {k : tokenKind} {bv : Str} {bl : Bool}
    {fe : Bool} (h : r.Idle) (hn : 0 < r.pos + n) :
    Lexer.At
      (Lexer.consume
        { r.withToken rest n k with byteValue := bv, boolValue := bl, firstElement := fe })
      rest NUL :=
  ⟨⟨rfl, rfl, h.ok⟩, hn, rfl, rfl⟩

theorem string_quote_eq (b rest : Str) :
    ('"' :: (b ++ ['"'])) ++ rest = '"' :: b ++ '"' :: rest := by simp

/-- `String` on a string token whose body unescapes to `k`. -/
theorem String_string {r : Lexer} {w : Char} {pre b rest k : Str}
    (hat : r.At (pre ++ ('"' :: (b ++ ['"'])) ++ rest) w) (hpre : Pre w pre) (hb : StrBody b)
    (hk : unescape b = .ok k) :
    r.String.1 = k ∧ r.String.2.At rest NUL := by
  have hd : r.Data = pre ++ ('"' :: b ++ '"' :: rest) := by
    rw [hat.data, List.append_assoc, string_quote_eq]
  have hf := fetch_string hat.idle pre b rest (hat.sep ▸ hpre) hb.units hd
  unfold Lexer.String
  rw [hf]
  simp only [Lexer.Ok, Lexer.withToken, hat.idle.ok, Option.isNone_none, not_true_eq_false,
    ne_eq, or_self, if_false, Lexer.unescapeStringToken, hk]
  refine ⟨trivial, ⟨⟨rfl, rfl, rfl⟩, ?_, rfl, rfl⟩⟩
  show 0 < r.pos + _
  omega

/-- `String` on a string token whose body does not unescape. -/
theorem String_string_error {r : Lexer} {w : Char} {pre b rest e : Str}
    (hat : r.At (pre ++ ('"' :: (b ++ ['"'])) ++ rest) w) (hpre : Pre w pre) (hb : StrBody b)
    (hk : unescape b = .error e) :
    r.String.2.Ok = false := by
  have hd : r.Data = pre ++ ('"' :: b ++ '"' :: rest) := by
    rw [hat.data, List.append_assoc, string_quote_eq]
  have hf := fetch_string hat.idle pre b rest (hat.sep ▸ hpre) hb.units hd
  unfold Lexer.String
  rw [hf]
  simp only [Lexer.Ok, Lexer.withToken, hat.idle.ok, Option.isNone_none, not_true_eq_false,
    ne_eq, or_self, if_false, Lexer.unescapeStringToken, hk]
  exact errInvalidToken_ok _ _

/-- `String` on a value that is no string. -/
theorem String_mismatch {v : Str} (hv : JsonValue v) (hk : valueKind v ≠ .tokenString)
    {r : Lexer} {w : Char} {pre rest : Str} (hat : r.At (pre ++ v ++ rest) w) (hpre : Pre w pre)
    (hrest : Follow rest) : r.String.2.Ok = false := by
  obtain ⟨h1, h2, _⟩ := fetch_value hv hat.idle pre rest (hat.sep ▸ hpre) hrest hat.data
  unfold Lexer.String
  simp only [h1, h2, ne_eq, hk, not_false_eq_true, or_true, if_true]
  exact errInvalidToken_ok _ _

theorem readString_sem {α : Type} (f : α → Str → α) {v : Str} (hv : JsonValue v) (a : α) :
    ∃ res, Sem NUL (readString f) v a res := by
  by_cases hk : valueKind v = .tokenString
  · obtain ⟨b, hb, rfl⟩ := value_string_of_kind hv hk
    cases hu : unescape b with
    | error e =>
      refine ⟨none, ?_⟩
      intro r w pre rest hat hpre _
      exact String_string_error hat hpre hb hu
    | ok k =>
      refine ⟨some (f a k), ?_⟩
      intro r w pre rest hat hpre _
      obtain ⟨h1, h2⟩ := String_string hat hpre hb hu
      exact ⟨by unfold readString; simp only [h1], h2⟩
  · refine ⟨none, ?_⟩
    intro r w pre rest hat hpre hrest
    exact String_mismatch hv hk hat hpre hrest

theorem readString_failed {α : Type} (f : α → Str → α) {r : Lexer} (h : r.Ok = false) (a : α) :
    (readString f r a).1.Ok = false := by
  unfold readString
  rw [String_failed h]
  exact h

theorem readString_fetched {α : Type} (f : α → Str → α) (r : Lexer) (a : α) :
    readString f r.fetchIfUndef a = readString f r a := by
  unfold readString
  rw [String_fetched]

/-! ## Loops over the items of an array or object -/

theorem startText_eq (c : Char) (its : List Item) (rest : Str) :
    [','].intercalate (its.map Item.text) ++ c :: rest = startText c its rest := by
  cases its with
  | nil => simp [startText, List.intercalate]
  | cons it its =>
    induction its generalizing it with
    | nil => simp [startText, remText, Item.text, List.intercalate]
    | cons it' its ih =>
      have h := ih it'
      simp only [List.intercalate, List.map, List.intersperse, List.flatten, startText, remText,
        Item.text, List.append_assoc, List.cons_append, List.nil_append,
        List.singleton_append] at h ⊢
      rw [h]

theorem follow_cons {c : Char} (h : isTokenEnd c = true) (rest : Str) : Follow (c :: rest) := h

theorem follow_ws {ws : Str} (hws : IsWs ws) {t : Str} (ht : Follow t) : Follow (ws ++ t) := by
  cases ws with
  | nil => exact ht
  | cons c ws =>
    have hc := (isWs_cons hws).1
    apply follow_cons
    rcases hc with h | h | h | h <;> subst h <;> decide

theorem follow_remText {c : Char} (hc : c = '}' ∨ c = ']') (its : List Item) (rest : Str) :
    Follow (remText c its rest) := by
  cases its with
  | nil => exact follow_cons (by rcases hc with h | h <;> subst h <;> decide) rest
  | cons it its => exact follow_cons (by decide) _

section Loop

variable {α : Type} (c : Char) (body : Lexer → α → Lexer × α)

/-- A round on an item: the look-ahead of `IsDelim` does not end the loop. -/
theorem delimLoop_step (hbf : Fetched body) {u : Str}
    (hu : Starts c u) {r : Lexer} {w : Char} {pre rest : Str} (hat : r.At (pre ++ u ++ rest) w)
    (hpre : Pre w pre) (hrest : Follow rest) (n : Nat) (a : α) :
    delimLoop c body (n + 1) r a = delimLoop c body n (body r a).1 (body r a).2 := by
  obtain ⟨h1, h2⟩ := hu r w pre rest hat hpre hrest
  rw [delimLoop]
  simp only [Lexer.IsDelim, h1, h2, not_true_eq_false, or_self, decide_False,
    Bool.false_eq_true, if_false, hbf r a hat.pos]

/-- The round that meets the closing delimiter ends the loop, and `Delim` then reads it. -/
theorem delimLoop_exit (hc : c = '}' ∨ c = ']') {r : Lexer} {w : Char} {ws rest : Str}
    (hat : r.At (ws ++ c :: rest) w) (hws : IsWs ws)
    (hsep : r.firstElement = true ∨ w = ',') (n : Nat) (a : α) :
    (delimLoop c body (n + 1) r a).2 = a ∧
      ((delimLoop c body (n + 1) r a).1.Delim c).At rest NUL := by
  have hf := fetch_close hat.idle ws rest c hc hws (hat.sep ▸ hsep) hat.data
  rw [delimLoop]
  simp only [Lexer.IsDelim, hf, Lexer.withToken, or_true, decide_True, if_true]
  refine ⟨trivial, ?_⟩
  unfold Lexer.Delim
  rw [fetchIfUndef_of_kind (by simp)]
  simp only [Lexer.Ok, hat.idle.ok, Option.isNone_none, not_true_eq_false, ne_eq, or_self,
    if_false]
  exact ⟨⟨rfl, rfl, rfl⟩, by show 0 < r.pos + _; omega, rfl, rfl⟩

variable (hc : c = '}' ∨ c = ']') (hbf : Fetched body)

include hc hbf in
/-- The rounds of a loop on the items left, started behind an item. -/
theorem delimLoop_rem :
    ∀ (its : List Item), (∀ i ∈ its, i.WF ∧ Starts c i.core) →
      ∀ (a : α) (res : Option α), ListSem body (its.map Item.core) a res →
      ∀ (r : Lexer) (w2 rest : Str) (n : Nat), r.At (w2 ++ remText c its rest) ',' → IsWs w2 →
        its.length < n →
        Ends NUL rest res
          ((delimLoop c body n r a).1.Delim c, (delimLoop c body n r a).2) := by
  intro its
  induction its with
  | nil =>
    intro _ a res hres r w2 rest n hat hw2 hn
    obtain ⟨n, rfl⟩ : ∃ m, n = m + 1 := ⟨n - 1, by omega⟩
    have hres' : res = some a := hres
    subst hres'
    obtain ⟨e1, e2⟩ := delimLoop_exit c body hc hat hw2 (Or.inr rfl) n a
    exact ⟨e1, e2⟩
  | cons it its ih =>
    intro hits a res hres r w2 rest n hat hw2 hn
    obtain ⟨n, rfl⟩ : ∃ m, n = m + 1 := ⟨n - 1, by simp at hn; omega⟩
    obtain ⟨⟨hw1, hw2'⟩, hst⟩ := hits it (by simp)
    have hits' : ∀ i ∈ its, i.WF ∧ Starts c i.core := fun i hi => hits i (by simp [hi])
    have hpre : Pre ',' (w2 ++ ',' :: it.w1) := Pre.sep_ws (Or.inl rfl) hw2 hw1
    have hfol : Follow (it.w2 ++ remText c its rest) := follow_ws hw2' (follow_remText hc its rest)
    have hat' : r.At ((w2 ++ ',' :: it.w1) ++ it.core ++ (it.w2 ++ remText c its rest)) ',' := by
      have e : (w2 ++ ',' :: it.w1) ++ it.core ++ (it.w2 ++ remText c its rest) =
          w2 ++ remText c (it :: its) rest := by simp [remText]
      rw [e]; exact hat
    rw [delimLoop_step c body hbf hst hat' hpre hfol]
    rcases hres with ⟨hsem, rfl⟩ | ⟨a', hsem, hrest⟩
    · have hfail : (body r a).1.Ok = false := hsem r ',' _ _ hat' hpre hfol
      exact Delim_failed (delimLoop_failed c body n hfail _) c
    · obtain ⟨e1, hat1⟩ := hsem r ',' _ _ hat' hpre hfol
      rw [e1]
      exact ih hits' a' res hrest _ it.w2 rest n hat1 hw2' (by simp at hn; omega)

include hc hbf in
/-- The rounds of a loop on all the items, started behind the opening delimiter. -/
theorem delimLoop_start (its : List Item) (hits : ∀ i ∈ its, i.WF ∧ Starts c i.core)
    (a : α) (res : Option α) (hres : ListSem body (its.map Item.core) a res)
    (r : Lexer) (ws rest : Str) (n : Nat) (hat : r.At (ws ++ startText c its rest) NUL)
    (hfe : r.firstElement = true) (hws : IsWs ws) (hn : its.length < n) :
    Ends NUL rest res
      ((delimLoop c body n r a).1.Delim c, (delimLoop c body n r a).2) := by
  cases its with
  | nil =>
    obtain ⟨n, rfl⟩ : ∃ m, n = m + 1 := ⟨n - 1, by omega⟩
    have hres' : res = some a := hres
    subst hres'
    obtain ⟨e1, e2⟩ := delimLoop_exit c body hc hat hws (Or.inl hfe) n a
    exact ⟨e1, e2⟩
  | cons it its =>
    obtain ⟨n, rfl⟩ : ∃ m, n = m + 1 := ⟨n - 1, by simp at hn; omega⟩
    obtain ⟨⟨hw1, hw2'⟩, hst⟩ := hits it (by simp)
    have hits' : ∀ i ∈ its, i.WF ∧ Starts c i.core := fun i hi => hits i (by simp [hi])
    have hpre : Pre NUL (ws ++ it.w1) := Pre.of_nul (isWs_append hws hw1)
    have hfol : Follow (it.w2 ++ remText c its rest) := follow_ws hw2' (follow_remText hc its rest)
    have hat' : r.At ((ws ++ it.w1) ++ it.core ++ (it.w2 ++ remText c its rest)) NUL := by
      have e : (ws ++ it.w1) ++ it.core ++ (it.w2 ++ remText c its rest) =
          ws ++ startText c (it :: its) rest := by simp [startText]
      rw [e]; exact hat
    rw [delimLoop_step c body hbf hst hat' hpre hfol]
    rcases hres with ⟨hsem, rfl⟩ | ⟨a', hsem, hrest⟩
    · have hfail : (body r a).1.Ok = false := hsem r NUL _ _ hat' hpre hfol
      exact Delim_failed (delimLoop_failed c body n hfail _) c
    · obtain ⟨e1, hat1⟩ := hsem r NUL _ _ hat' hpre hfol
      rw [e1]
      exact delimLoop_rem c body hc hbf its hits' a' res hrest _ it.w2 rest n hat1 hw2'
        (by simp at hn; omega)

end Loop

/-! ## Building blocks of the decoders -/

section Blocks

variable {α β : Type}

theorem Lexer.At.isOkAt {r : Lexer} {d : Str} {w : Char} (h : r.At d w) : r.Ok = true :=
  h.idle.isOk

theorem Lexer.At.wantComma {r : Lexer} {d : Str} {w : Char} (h : r.At d w) :
    r.WantComma.At d ',' :=
  ⟨⟨h.idle.kind, h.idle.delim, h.idle.ok⟩, h.pos, h.data, rfl⟩

theorem Lexer.At.wantColon {r : Lexer} {d : Str} {w : Char} (h : r.At d w) :
    r.WantColon.At d ':' :=
  ⟨⟨h.idle.kind, h.idle.delim, h.idle.ok⟩, h.pos, h.data, rfl⟩

theorem thenComma_sem {D : Lexer → α → Lexer × α} {u : Str} {a : α} {res : Option α} {w : Char}
    (h : Sem w D u a res) : Sem ',' (thenComma D) u a res := by
  intro r w' pre rest hat hpre hrest
  have := h r w' pre rest hat hpre hrest
  cases res with
  | none => exact this
  | some a' => exact ⟨this.1, this.2.wantComma⟩

theorem thenComma_fetched {D : Lexer → α → Lexer × α} (h : Fetched D) :
    Fetched (thenComma D) := by
  intro r a hp
  unfold thenComma; rw [h r a hp]

theorem thenComma_failed {D : Lexer → α → Lexer × α}
    (h : ∀ r a, r.Ok = false → (D r a).1.Ok = false) (r : Lexer) (a : α) (hr : r.Ok = false) :
    (thenComma D r a).1.Ok = false := h r a hr

theorem into_sem {D : Lexer → β → Lexer × β} {u : Str} {b0 : β} {res : Option β} {w : Char}
    (store : α → β → α) (a : α) (h : Sem w D u b0 res) :
    Sem w (into D b0 store) u a (res.map (store a)) := by
  intro r w' pre rest hat hpre hrest
  have := h r w' pre rest hat hpre hrest
  cases res with
  | none => exact this
  | some b => exact ⟨by show store a (D r b0).2 = store a b; rw [this.1], this.2⟩

theorem into_fetched {D : Lexer → β → Lexer × β} (b0 : β) (store : α → β → α)
    (h : Fetched D) : Fetched (into D b0 store) := by
  intro r a hp
  unfold into; rw [h r b0 hp]

theorem into_failed {D : Lexer → β → Lexer × β} (b0 : β) (store : α → β → α)
    (h : ∀ r b, r.Ok = false → (D r b).1.Ok = false) (r : Lexer) (a : α) (hr : r.Ok = false) :
    (into D b0 store r a).1.Ok = false := h r b0 hr

/-! ### `nullOr` -/

theorem IsNull_value {v : Str} (hv : JsonValue v) {r : Lexer} {w : Char} {pre rest : Str}
    (hat : r.At (pre ++ v ++ rest) w) (hpre : Pre w pre) (hrest : Follow rest) :
    r.IsNull = (decide (valueKind v = .tokenNull), r.fetchIfUndef) := by
  obtain ⟨h1, h2, _⟩ := fetch_value hv hat.idle pre rest (hat.sep ▸ hpre) hrest hat.data
  unfold Lexer.IsNull
  simp only [h1, h2, true_and]

theorem Skip_null {r : Lexer} {w : Char} {pre rest : Str}
    (hat : r.At (pre ++ "null".toList ++ rest) w) (hpre : Pre w pre) (hrest : Follow rest) :
    r.Skip.At rest NUL := by
  have hd : r.Data = pre ++ ("null".toList ++ rest) := by rw [hat.data, List.append_assoc]
  unfold Lexer.Skip
  rw [fetch_null hat.idle pre rest (hat.sep ▸ hpre) hrest hd]
  exact ⟨⟨rfl, rfl, hat.idle.ok⟩, by show 0 < r.pos + _; omega, rfl, rfl⟩

theorem nullOr_sem_null (onNull : α → α) (D : Lexer → α → Lexer × α) (a : α) :
    Sem NUL (nullOr onNull D) "null".toList a (some (onNull a)) := by
  intro r w pre rest hat hpre hrest
  unfold nullOr
  rw [IsNull_value JsonValue.null hat hpre hrest]
  simp only [valueKind, String.toList, decide_True, if_true]
  exact ⟨rfl, by rw [Skip_fetched]; exact Skip_null hat hpre hrest⟩

theorem nullOr_sem_other (onNull : α → α) {D : Lexer → α → Lexer × α}
    (hD : Fetched D) {v : Str} (hv : JsonValue v)
    (hk : valueKind v ≠ .tokenNull) {a : α} {res : Option α} (h : Sem NUL D v a res) :
    Sem NUL (nullOr onNull D) v a res := by
  intro r w pre rest hat hpre hrest
  unfold nullOr
  rw [IsNull_value hv hat hpre hrest]
  simp only [hk, decide_False, Bool.false_eq_true, if_false, hD r a hat.pos]
  exact h r w pre rest hat hpre hrest

theorem nullOr_sem (onNull : α → α) {D : Lexer → α → Lexer × α}
    (hD : Fetched D) {v : Str} (hv : JsonValue v) (a : α)
    (h : ∃ res, Sem NUL D v a res) : ∃ res, Sem NUL (nullOr onNull D) v a res := by
  by_cases hk : valueKind v = .tokenNull
  · rw [value_null_of_kind hv hk]
    exact ⟨_, nullOr_sem_null onNull D a⟩
  · obtain ⟨res, hres⟩ := h
    exact ⟨res, nullOr_sem_other onNull hD hv hk hres⟩

theorem nullOr_fetched (onNull : α → α) (D : Lexer → α → Lexer × α) (r : Lexer) (a : α) :
    nullOr onNull D r.fetchIfUndef a = nullOr onNull D r a := by
  unfold nullOr; rw [IsNull_fetched]

theorem nullOr_failed (onNull : α → α) {D : Lexer → α → Lexer × α}
    (h : ∀ r a, r.Ok = false → (D r a).1.Ok = false) (r : Lexer) (a : α) (hr : r.Ok = false) :
    (nullOr onNull D r a).1.Ok = false := by
  unfold nullOr
  rw [IsNull_failed hr]
  exact h r a hr

/-! ### `readContainer` -/

theorem remText_length (c : Char) (its : List Item) (rest : Str) :
    its.length < (remText c its rest).length := by
  induction its with
  | nil => simp [remText]
  | cons it its ih => simp only [remText, List.length_cons, List.length_append]; omega

theorem startText_length (c : Char) (its : List Item) (rest : Str) :
    its.length ≤ (startText c its rest).length := by
  cases its with
  | nil => simp
  | cons it its =>
    have := remText_length c its rest
    simp only [startText, List.length_cons, List.length_append]; omega

theorem Delim_open {r : Lexer} {w : Char} {pre t : Str} {o : Char} (ho : o = '{' ∨ o = '[')
    (hat : r.At (pre ++ o :: t) w) (hpre : Pre w pre) :
    (r.Delim o).At t NUL ∧ (r.Delim o).firstElement = true := by
  have hf := fetch_open hat.idle pre t o ho (hat.sep ▸ hpre) hat.data
  unfold Lexer.Delim
  rw [hf]
  simp only [Lexer.Ok, Lexer.withToken, hat.idle.ok, Option.isNone_none, not_true_eq_false,
    ne_eq, or_self, if_false]
  exact ⟨⟨⟨rfl, rfl, rfl⟩, by show 0 < r.pos + _; omega, rfl, rfl⟩, rfl⟩

theorem Delim_mismatch {v : Str} (hv : JsonValue v) {o : Char} (hk : valueDelim v ≠ o)
    {r : Lexer} {w : Char} {pre rest : Str} (hat : r.At (pre ++ v ++ rest) w) (hpre : Pre w pre)
    (hrest : Follow rest) : (r.Delim o).Ok = false := by
  obtain ⟨h1, _, h3⟩ := fetch_value hv hat.idle pre rest (hat.sep ▸ hpre) hrest hat.data
  unfold Lexer.Delim
  simp only [h1, h3, ne_eq, hk, not_false_eq_true, or_true, if_true]
  exact errInvalidToken_ok _ _

theorem readContainer_failed (o c : Char) (la : Bool) (body : Lexer → α → Lexer × α)
    (r : Lexer) (a : α) (hr : r.Ok = false) : (readContainer o c la body r a).1.Ok = false := by
  unfold readContainer
  have h1 : (r.Delim o).Ok = false := Delim_failed hr o
  have h2 : (if la = true then ((r.Delim o).IsDelim c).2 else r.Delim o).Ok = false := by
    split_ifs
    · rw [IsDelim_failed h1]; exact h1
    · exact h1
  exact Delim_failed (delimLoop_failed c body _ h2 a) c

theorem readContainer_fetched (o c : Char) (la : Bool) (body : Lexer → α → Lexer × α)
    (r : Lexer) (a : α) :
    readContainer o c la body r.fetchIfUndef a = readContainer o c la body r a := by
  unfold readContainer; rw [Delim_fetched]

theorem readContainer_mismatch (o c : Char) (la : Bool) (body : Lexer → α → Lexer × α)
    {v : Str} (hv : JsonValue v) (hk : valueDelim v ≠ o) (a : α) :
    Sem NUL (readContainer o c la body) v a none := by
  intro r w pre rest hat hpre hrest
  show (readContainer o c la body r a).1.Ok = false
  unfold readContainer
  have h1 : (r.Delim o).Ok = false := Delim_mismatch hv hk hat hpre hrest
  have h2 : (if la = true then ((r.Delim o).IsDelim c).2 else r.Delim o).Ok = false := by
    split_ifs
    · rw [IsDelim_failed h1]; exact h1
    · exact h1
  exact Delim_failed (delimLoop_failed c body _ h2 a) c

/-- A container is read item by item. -/
theorem readContainer_sem {o c : Char} (hoc : (o = '{' ∧ c = '}') ∨ (o = '[' ∧ c = ']'))
    (la : Bool) {body : Lexer → α → Lexer × α}
    (hbf : Fetched body) {ws : Str} (hws : IsWs ws)
    {its : List Item} (hits : ∀ i ∈ its, i.WF ∧ Starts c i.core) {a : α} {res : Option α}
    (hres : ListSem body (its.map Item.core) a res) :
    Sem NUL (readContainer o c la body)
      (o :: ws ++ [','].intercalate (its.map Item.text) ++ [c]) a res := by
  have ho : o = '{' ∨ o = '[' := by rcases hoc with ⟨h, _⟩ | ⟨h, _⟩ <;> simp [h]
  have hc : c = '}' ∨ c = ']' := by rcases hoc with ⟨_, h⟩ | ⟨_, h⟩ <;> simp [h]
  intro r w pre rest hat hpre hrest
  have e : pre ++ (o :: ws ++ [','].intercalate (its.map Item.text) ++ [c]) ++ rest =
      pre ++ o :: (ws ++ startText c its rest) := by
    rw [← startText_eq]; simp
  rw [e] at hat
  obtain ⟨hat1, hfe⟩ := Delim_open ho hat hpre
  unfold readContainer
  have hfuel : its.length < loopFuel (r.Delim o) := by
    unfold loopFuel
    rw [hat1.data, List.length_append]
    have := startText_length c its rest
    omega
  have hla : delimLoop c body (loopFuel (r.Delim o))
      (if la = true then ((r.Delim o).IsDelim c).2 else r.Delim o) a =
      delimLoop c body (loopFuel (r.Delim o)) (r.Delim o) a := by
    split_ifs
    · rw [IsDelim_snd, delimLoop_fetched, if_neg (by omega)]
    · rfl
  simp only [hla]
  exact delimLoop_start c body hc hbf its hits a res hres _ ws rest _ hat1 hfe hws hfuel

end Blocks

/-! ## The rounds of a loop, one item more or one item changed -/

section Lists

variable {α : Type} {body : Lexer → α → Lexer × α}

theorem ListSem.exists (us : List Str) (h : ∀ u ∈ us, ∀ a, ∃ res, Sem ',' body u a res) :
    ∀ a, ∃ res, ListSem body us a res := by
  induction us with
  | nil => intro a; exact ⟨some a, rfl⟩
  | cons u us ih =>
    intro a
    obtain ⟨res1, h1⟩ := h u (by simp) a
    cases res1 with
    | none => exact ⟨none, Or.inl ⟨h1, rfl⟩⟩
    | some a' =>
      obtain ⟨res, hres⟩ := ih (fun v hv => h v (by simp [hv])) a'
      exact ⟨res, Or.inr ⟨a', h1, hres⟩⟩

/-- One item more, read by a round that changes nothing: the rounds end the same way. -/
theorem ListSem.insert (xs ys : List Str) (m : Str)
    (h : ∀ u ∈ xs ++ ys, ∀ a, ∃ res, Sem ',' body u a res)
    (hm : ∀ a, Sem ',' body m a (some a)) :
    ∀ a, ∃ res, ListSem body (xs ++ ys) a res ∧ ListSem body (xs ++ m :: ys) a res := by
  induction xs with
  | nil =>
    intro a
    obtain ⟨res, hres⟩ := ListSem.exists ys (fun u hu => h u (by simpa using hu)) a
    exact ⟨res, hres, Or.inr ⟨a, hm a, hres⟩⟩
  | cons x xs ih =>
    intro a
    obtain ⟨res1, h1⟩ := h x (by simp) a
    cases res1 with
    | none => exact ⟨none, Or.inl ⟨h1, rfl⟩, Or.inl ⟨h1, rfl⟩⟩
    | some a' =>
      obtain ⟨res, hres, hres'⟩ := ih (fun v hv => h v (by simp at hv ⊢; tauto)) a'
      exact ⟨res, Or.inr ⟨a', h1, hres⟩, Or.inr ⟨a', h1, hres'⟩⟩

/-- One item changed for an item that is read the same way: the rounds end the same way. -/
theorem ListSem.replace (xs ys : List Str) (u u' : Str)
    (h : ∀ v ∈ xs ++ ys, ∀ a, ∃ res, Sem ',' body v a res)
    (hu : ∀ a, ∃ res, Sem ',' body u a res ∧ Sem ',' body u' a res) :
    ∀ a, ∃ res, ListSem body (xs ++ u :: ys) a res ∧ ListSem body (xs ++ u' :: ys) a res := by
  induction xs with
  | nil =>
    intro a
    obtain ⟨res1, h1, h1'⟩ := hu a
    cases res1 with
    | none => exact ⟨none, Or.inl ⟨h1, rfl⟩, Or.inl ⟨h1', rfl⟩⟩
    | some a' =>
      obtain ⟨res, hres⟩ := ListSem.exists ys (fun v hv => h v (by simpa using hv)) a'
      exact ⟨res, Or.inr ⟨a', h1, hres⟩, Or.inr ⟨a', h1', hres⟩⟩
  | cons x xs ih =>
    intro a
    obtain ⟨res1, h1⟩ := h x (by simp) a
    cases res1 with
    | none => exact ⟨none, Or.inl ⟨h1, rfl⟩, Or.inl ⟨h1, rfl⟩⟩
    | some a' =>
      obtain ⟨res, hres, hres'⟩ := ih (fun v hv => h v (by simp at hv ⊢; tauto)) a'
      exact ⟨res, Or.inr ⟨a', h1, hres⟩, Or.inr ⟨a', h1, hres'⟩⟩

end Lists

/-! ## One member of an object -/

theorem Member.item_text (m : Member) : m.item.text = m.text := by
  simp [Member.item, Item.text, Member.text, Member.core]

theorem Elem.elem_text_eq (e : Elem) : e.item.text = e.text := rfl

theorem UnsafeFieldName_false (r : Lexer) : r.UnsafeFieldName false = r.String := by
  unfold Lexer.UnsafeFieldName Lexer.String
  simp

section Member

variable {α : Type}

theorem readMember_eq (field : Str → Lexer → α → Lexer × α) (r : Lexer) (a : α) :
    readMember field r a =
      if (r.String.2.WantColon.IsNull).1 = true then
        ((r.String.2.WantColon.IsNull).2.Skip.WantComma, a)
      else thenComma (field r.String.1) (r.String.2.WantColon.IsNull).2 a := by
  unfold readMember thenComma
  rw [UnsafeFieldName_false]

theorem readMember_fetched (field : Str → Lexer → α → Lexer × α) (r : Lexer) (a : α) :
    readMember field r.fetchIfUndef a = readMember field r a := by
  rw [readMember_eq, readMember_eq, String_fetched]

theorem readMember_failed {field : Str → Lexer → α → Lexer × α}
    (hf : ∀ k r a, r.Ok = false → (field k r a).1.Ok = false) (r : Lexer) (a : α)
    (hr : r.Ok = false) : (readMember field r a).1.Ok = false := by
  rw [readMember_eq, String_failed hr]
  have h1 : r.WantColon.Ok = false := hr
  rw [IsNull_failed h1]
  simp only [Bool.false_eq_true, if_false]
  exact hf _ _ _ h1

theorem member_core_eq (m : Member) (pre rest : Str) :
    pre ++ m.core ++ rest =
      pre ++ ('"' :: (m.key ++ ['"'])) ++ (m.ws2 ++ ':' :: m.ws3 ++ m.value ++ rest) := by
  simp [Member.core]

/-- The name of a member does not unescape: the round fails. -/
theorem readMember_sem_badkey {field : Str → Lexer → α → Lexer × α}
    (hf : ∀ k r a, r.Ok = false → (field k r a).1.Ok = false) {m : Member} (hkey : StrBody m.key)
    {e : Str} (hk : unescape m.key = .error e) (a : α) :
    Sem ',' (readMember field) m.core a none := by
  intro r w pre rest hat hpre hrest
  show (readMember field r a).1.Ok = false
  rw [member_core_eq] at hat
  have h1 := String_string_error hat hpre hkey hk
  rw [readMember_eq]
  have h2 : r.String.2.WantColon.Ok = false := h1
  rw [IsNull_failed h2]
  simp only [Bool.false_eq_true, if_false]
  exact hf _ _ _ h2

/-- The lexer behind the name of a member. -/
theorem readMember_key {m : Member} (hkey : StrBody m.key) {k : Str}
    (hk : unescape m.key = .ok k) {r : Lexer} {w : Char} {pre rest : Str}
    (hat : r.At (pre ++ m.core ++ rest) w) (hpre : Pre w pre) :
    r.String.1 = k ∧
      r.String.2.WantColon.At ((m.ws2 ++ ':' :: m.ws3) ++ m.value ++ rest) ':' := by
  rw [member_core_eq] at hat
  obtain ⟨h1, h2⟩ := String_string hat hpre hkey hk
  refine ⟨h1, ?_⟩
  have := h2.wantColon
  simpa using this

/-- The value of a member is null: the round skips it. -/
theorem readMember_sem_null (field : Str → Lexer → α → Lexer × α) {m : Member}
    (hkey : StrBody m.key) {k : Str} (hk : unescape m.key = .ok k) (hw2 : IsWs m.ws2)
    (hw3 : IsWs m.ws3) (hv : m.value = "null".toList) (a : α) :
    Sem ',' (readMember field) m.core a (some a) := by
  intro r w pre rest hat hpre hrest
  obtain ⟨_, h2⟩ := readMember_key hkey hk hat hpre
  rw [hv] at h2
  have hpre2 : Pre ':' (m.ws2 ++ ':' :: m.ws3) := Pre.sep_ws (Or.inr rfl) hw2 hw3
  rw [readMember_eq, IsNull_value JsonValue.null h2 hpre2 hrest]
  simp only [valueKind, String.toList, decide_True, if_true]
  exact ⟨rfl, by rw [Skip_fetched]; exact (Skip_null h2 hpre2 hrest).wantComma⟩

/-- The value of a member is not null: the round is `field` on the value. -/
theorem readMember_sem_field {field : Str → Lexer → α → Lexer × α}
    (hff : ∀ k, Fetched (field k)) {m : Member}
    (hkey : StrBody m.key) {k : Str} (hk : unescape m.key = .ok k) (hw2 : IsWs m.ws2)
    (hw3 : IsWs m.ws3) (hv : JsonValue m.value) (hnn : valueKind m.value ≠ .tokenNull)
    {a : α} {res : Option α} (h : Sem NUL (field k) m.value a res) :
    Sem ',' (readMember field) m.core a res := by
  intro r w pre rest hat hpre hrest
  obtain ⟨h1, h2⟩ := readMember_key hkey hk hat hpre
  have hpre2 : Pre ':' (m.ws2 ++ ':' :: m.ws3) := Pre.sep_ws (Or.inr rfl) hw2 hw3
  rw [readMember_eq, IsNull_value hv h2 hpre2 hrest]
  simp only [hnn, decide_False, Bool.false_eq_true, if_false, h1]
  rw [thenComma_fetched (hff k) _ _ h2.pos]
  exact thenComma_sem h _ _ _ _ h2 hpre2 hrest

/-- Every member is read in one way, whatever stands around it. -/
theorem readMember_sem {field : Str → Lexer → α → Lexer × α}
    (hff : ∀ k, Fetched (field k))
    (hfs : ∀ k r a, r.Ok = false → (field k r a).1.Ok = false) {m : Member} (hm : m.WF)
    (hv : JsonValue m.value) (a : α)
    (h : ∀ k, unescape m.key = .ok k → ∃ res, Sem NUL (field k) m.value a res) :
    ∃ res, Sem ',' (readMember field) m.core a res := by
  obtain ⟨_, hkey, hw2, hw3, _⟩ := hm
  cases hk : unescape m.key with
  | error e => exact ⟨none, readMember_sem_badkey hfs hkey hk a⟩
  | ok k =>
    by_cases hnn : valueKind m.value = .tokenNull
    · exact ⟨some a, readMember_sem_null field hkey hk hw2 hw3 (value_null_of_kind hv hnn) a⟩
    · obtain ⟨res, hres⟩ := h k hk
      exact ⟨res, readMember_sem_field hff hkey hk hw2 hw3 hv hnn hres⟩

/-- The first token of a member is its name. -/
theorem Member.core_starts (m : Member) (hkey : StrBody m.key) (c : Char) (hc : c ≠ NUL) :
    Starts c m.core := by
  intro r w pre rest hat hpre _
  rw [member_core_eq] at hat
  have hd : r.Data = pre ++ ('"' :: m.key ++
      '"' :: (m.ws2 ++ ':' :: m.ws3 ++ m.value ++ rest)) := by
    rw [hat.data]; simp
  rw [fetch_string hat.idle pre m.key _ (hat.sep ▸ hpre) hkey.units hd]
  exact ⟨hat.idle.isOk, by show r.delimValue ≠ c; rw [hat.idle.delim]; exact Ne.symm hc⟩

/-- The first token of a value is not a closing delimiter. -/
theorem JsonValue.starts {v : Str} (hv : JsonValue v) (c : Char) (hc : c = '}' ∨ c = ']') :
    Starts c v := by
  intro r w pre rest hat hpre hrest
  obtain ⟨h1, _, h3⟩ := fetch_value hv hat.idle pre rest (hat.sep ▸ hpre) hrest hat.data
  refine ⟨h1, ?_⟩
  rw [h3]
  unfold valueDelim
  split <;> rcases hc with h | h <;> subst h <;> decide

end Member

/-! ## Skipping a value -/

theorem skipLoop_cons (start stop c : Char) (cs : Str) (level : Nat) (inQuotes wasEscape : Bool)
    (i : Nat) :
    skipLoop start stop (c :: cs) level inQuotes wasEscape i =
      if c = start ∧ ¬ inQuotes then skipLoop start stop cs (level + 1) inQuotes false (i + 1)
      else if c = stop ∧ ¬ inQuotes then
        if level - 1 = 0 then some (i + 1)
        else skipLoop start stop cs (level - 1) inQuotes false (i + 1)
      else if c = '\\' ∧ inQuotes then
        skipLoop start stop cs level inQuotes (!wasEscape) (i + 1)
      else if c = '"' ∧ inQuotes then skipLoop start stop cs level wasEscape false (i + 1)
      else if c = '"' then skipLoop start stop cs level true false (i + 1)
      else skipLoop start stop cs level inQuotes false (i + 1) := by
  rw [skipLoop]

theorem Skips.nil : Skips [] := by
  intro s e _ cs level i _
  simp

theorem Skips.append {a b : Str} (ha : Skips a) (hb : Skips b) : Skips (a ++ b) := by
  intro s e hp cs level i hl
  rw [List.append_assoc, ha s e hp _ level i hl, hb s e hp cs level _ hl, List.length_append,
    Nat.add_assoc]

theorem IsPair.ne_plain {s e c : Char} (hp : IsPair s e) (hc : Plain c) : c ≠ s ∧ c ≠ e := by
  obtain ⟨h1, h2, h3, h4, _, _⟩ := hc
  rcases hp with ⟨rfl, rfl⟩ | ⟨rfl, rfl⟩
  · exact ⟨h1, h2⟩
  · exact ⟨h3, h4⟩

theorem Skips.plain {c : Char} (hc : Plain c) : Skips [c] := by
  intro s e hp cs level i hl
  obtain ⟨h1, h2⟩ := hp.ne_plain hc
  rw [List.singleton_append, skipLoop_cons, if_neg (by simp [h1]), if_neg (by simp [h2]),
    if_neg (by simp), if_neg (by simp), if_neg hc.2.2.2.2.1]
  rfl

theorem Skips.plains {t : Str} (h : ∀ c ∈ t, Plain c) : Skips t := by
  induction t with
  | nil => exact Skips.nil
  | cons c t ih =>
    have : c :: t = [c] ++ t := rfl
    rw [this]
    exact (Skips.plain (h c (by simp))).append (ih (fun d hd => h d (by simp [hd])))

theorem Skips.ws {ws : Str} (h : IsWs ws) : Skips ws := by
  apply Skips.plains
  intro c hc
  rcases h c hc with h | h | h | h <;> subst h <;> (unfold Plain; decide)

/-- Inside a string the scan passes over the units of the body. -/
theorem skipLoop_units {b : Str} (hb : Units b) (s e : Char) (cs : Str)
    (level i : Nat) :
    skipLoop s e (b ++ cs) level true false i = skipLoop s e cs level true false (i + b.length) := by
  induction hb generalizing i with
  | nil => simp
  | plain c b h1 h2 _ ih =>
    rw [List.cons_append, skipLoop_cons, if_neg (by simp), if_neg (by simp),
      if_neg (by simp [h2]), if_neg (by simp [h1]), if_neg h1, ih]
    simp only [List.length_cons]
    congr 1; omega
  | esc c b _ ih =>
    rw [List.cons_append, List.cons_append, skipLoop_cons, if_neg (by simp), if_neg (by simp),
      if_pos (by simp), skipLoop_cons, if_neg (by simp), if_neg (by simp)]
    simp only [Bool.not_false]
    by_cases h1 : c = '\\'
    · rw [if_pos (by simp [h1])]
      simp only [Bool.not_true]
      rw [ih]
      simp only [List.length_cons]
      congr 1; omega
    · rw [if_neg (by simp [h1])]
      by_cases h2 : c = '"'
      · rw [if_pos (by simp [h2]), ih]
        simp only [List.length_cons]
        congr 1; omega
      · rw [if_neg (by simp [h2]), if_neg h2, ih]
        simp only [List.length_cons]
        congr 1; omega

theorem Skips.string {b : Str} (hb : Units b) : Skips ('"' :: (b ++ ['"'])) := by
  intro s e hp cs level i hl
  have hs : '"' ≠ s ∧ '"' ≠ e := by
    rcases hp with ⟨rfl, rfl⟩ | ⟨rfl, rfl⟩ <;> exact ⟨by decide, by decide⟩
  rw [List.cons_append, skipLoop_cons, if_neg (by simp [hs.1]), if_neg (by simp [hs.2]),
    if_neg (by simp), if_neg (by simp), if_pos rfl, List.append_assoc,
    skipLoop_units hb s e, List.singleton_append, skipLoop_cons, if_neg (by simp),
    if_neg (by simp), if_neg (by simp), if_pos (by simp)]
  simp only [List.length_cons, List.length_append, List.length_nil]
  congr 1; omega

/-- A bracketed text is passed over when its inside is. -/
theorem Skips.bracket {o c : Char} (hoc : IsPair o c) {t : Str} (ht : Skips t) :
    Skips (o :: (t ++ [c])) := by
  intro s e hp cs level i hl
  by_cases hso : o = s
  · have hce : c = e := by
      rcases hoc with ⟨rfl, rfl⟩ | ⟨rfl, rfl⟩ <;> rcases hp with ⟨h, rfl⟩ | ⟨h, rfl⟩ <;>
        first | rfl | exact absurd (hso.trans h) (by decide)
    have hes : c ≠ s := by
      rw [hce]
      rcases hp with ⟨rfl, rfl⟩ | ⟨rfl, rfl⟩ <;> decide
    rw [List.cons_append, skipLoop_cons, if_pos (by simp [hso]), List.append_assoc,
      ht s e hp _ (level + 1) _ (by omega), List.singleton_append, skipLoop_cons,
      if_neg (by simp [hes]), if_pos (by simp [hce]), if_neg (by omega)]
    simp only [List.length_cons, List.length_append, List.length_nil, Nat.add_sub_cancel]
    congr 1; omega
  · have hoe : o ≠ e := by
      rcases hoc with ⟨rfl, rfl⟩ | ⟨rfl, rfl⟩ <;> rcases hp with ⟨rfl, rfl⟩ | ⟨rfl, rfl⟩ <;>
        decide
    have hcs : c ≠ s := by
      rcases hoc with ⟨rfl, rfl⟩ | ⟨rfl, rfl⟩ <;> rcases hp with ⟨rfl, rfl⟩ | ⟨rfl, rfl⟩ <;>
        decide
    have hce : c ≠ e := by
      rcases hoc with ⟨rfl, rfl⟩ | ⟨rfl, rfl⟩ <;> rcases hp with ⟨rfl, rfl⟩ | ⟨rfl, rfl⟩ <;>
        first | exact absurd rfl hso | decide
    have ho1 : o ≠ '\\' ∧ o ≠ '"' := by
      rcases hoc with ⟨rfl, rfl⟩ | ⟨rfl, rfl⟩ <;> exact ⟨by decide, by decide⟩
    have hc1 : c ≠ '\\' ∧ c ≠ '"' := by
      rcases hoc with ⟨rfl, rfl⟩ | ⟨rfl, rfl⟩ <;> exact ⟨by decide, by decide⟩
    rw [List.cons_append, skipLoop_cons, if_neg (by simp [hso]), if_neg (by simp [hoe]),
      if_neg (by simp), if_neg (by simp), if_neg ho1.2, List.append_assoc,
      ht s e hp _ level _ hl, List.singleton_append, skipLoop_cons, if_neg (by simp [hcs]),
      if_neg (by simp [hce]), if_neg (by simp), if_neg (by simp), if_neg hc1.2]
    simp only [List.length_cons, List.length_append, List.length_nil]
    congr 1; omega

theorem Skips.intercalate {ts : List Str} (h : ∀ t ∈ ts, Skips t) :
    Skips ([','].intercalate ts) := by
  induction ts with
  | nil => exact Skips.nil
  | cons t ts ih =>
    rw [intercalate_comma_cons]
    refine (h t (by simp)).append ?_
    have hts : ∀ u ∈ ts, Skips u := fun u hu => h u (by simp [hu])
    clear ih h
    induction ts with
    | nil => exact Skips.nil
    | cons u us ih2 =>
      have : sepTail (u :: us) = [','] ++ (u ++ sepTail us) := by simp [sepTail]
      rw [this]
      exact (Skips.plain (by unfold Plain; decide)).append
        ((hts u (by simp)).append (ih2 (fun v hv => hts v (by simp [hv]))))

theorem isDigit_plain {c : Char} (h : c.isDigit = true) : Plain c := by
  unfold Plain
  refine ⟨?_, ?_, ?_, ?_, ?_, ?_⟩ <;> (intro e; subst e; exact absurd h (by decide))

theorem allDigits_plain {ds : Str} (h : AllDigits ds) : ∀ c ∈ ds, Plain c :=
  fun c hc => isDigit_plain (h c hc)

theorem JsonNumber.all_plain {n : Str} (hn : JsonNumber n) : ∀ c ∈ n, Plain c := by
  obtain ⟨sign, i, f, x, rfl, hsign, hi, hf, hx⟩ := hn
  intro c hc
  simp only [List.mem_append] at hc
  rcases hc with ((hc | hc) | hc) | hc
  · rcases hsign with rfl | rfl
    · simp at hc
    · simp at hc; subst hc; unfold Plain; decide
  · rcases hi with rfl | ⟨d, ds, rfl, hd, _, hds⟩
    · simp at hc; subst hc; unfold Plain; decide
    · rcases List.mem_cons.mp hc with h | h
      · rw [h]; exact isDigit_plain hd
      · exact isDigit_plain (hds c h)
  · rcases hf with rfl | ⟨d, ds, rfl, hds⟩
    · simp at hc
    · rcases List.mem_cons.mp hc with h | h
      · rw [h]; unfold Plain; decide
      · exact isDigit_plain (hds c h)
  · rcases hx with rfl | ⟨e, sg, d, ds, rfl, he, hsg, hds⟩
    · simp at hc
    · simp only [List.mem_append, List.mem_cons] at hc
      rcases hc with (h | h) | h
      · subst h; rcases he with h | h <;> subst h <;> (unfold Plain; decide)
      · rcases hsg with rfl | rfl | rfl
        · simp at h
        · simp at h; subst h; unfold Plain; decide
        · simp at h; subst h; unfold Plain; decide
      · exact isDigit_plain (hds c (by simpa using h))

/-- The scan of `SkipRecursive` passes over every value. -/
theorem JsonValue.skips {v : Str} (hv : JsonValue v) : Skips v := by
  induction hv with
  | null => exact Skips.plains (by intro c hc; simp at hc; rcases hc with h | h | h <;> subst h <;> (unfold Plain; decide))
  | true => exact Skips.plains (by intro c hc; simp at hc; rcases hc with h | h | h | h <;> subst h <;> (unfold Plain; decide))
  | false => exact Skips.plains (by intro c hc; simp at hc; rcases hc with h | h | h | h | h <;> subst h <;> (unfold Plain; decide))
  | number n hn => exact Skips.plains hn.all_plain
  | string b hb => exact Skips.string hb.units
  | array ws es hws hes _ ih =>
    have : arrayText ws es = '[' :: ((ws ++ [','].intercalate (es.map Elem.text)) ++ [']']) := by
      simp [arrayText]
    rw [this]
    refine Skips.bracket (Or.inr ⟨rfl, rfl⟩) ((Skips.ws hws).append (Skips.intercalate ?_))
    intro t ht
    obtain ⟨e, he, rfl⟩ := List.mem_map.mp ht
    exact ((Skips.ws (hes e he).1).append (ih e he)).append (Skips.ws (hes e he).2)
  | object ws ms hws hms _ ih =>
    have : objectText ws ms =
        '{' :: ((ws ++ [','].intercalate (ms.map Member.text)) ++ ['}']) := by
      simp [objectText]
    rw [this]
    refine Skips.bracket (Or.inl ⟨rfl, rfl⟩) ((Skips.ws hws).append (Skips.intercalate ?_))
    intro t ht
    obtain ⟨m, hm, rfl⟩ := List.mem_map.mp ht
    obtain ⟨h1, hk, h2, h3, h4⟩ := hms m hm
    have e : m.text = m.ws1 ++ (('"' :: (m.key ++ ['"'])) ++ (m.ws2 ++ ([':'] ++
        (m.ws3 ++ (m.value ++ m.ws4))))) := by
      simp [Member.text]
    rw [e]
    exact (Skips.ws h1).append ((Skips.string hk.units).append ((Skips.ws h2).append
      ((Skips.plain (by unfold Plain; decide)).append ((Skips.ws h3).append
        ((ih m hm).append (Skips.ws h4))))))

theorem skipLoop_container {o c : Char} (hoc : IsPair o c) {t : Str} (ht : Skips t)
    (rest : Str) : skipLoop o c (t ++ c :: rest) 1 false false 0 = some (t.length + 1) := by
  have hco : c ≠ o := by rcases hoc with ⟨rfl, rfl⟩ | ⟨rfl, rfl⟩ <;> decide
  rw [ht o c hoc _ 1 0 (le_refl 1), skipLoop_cons, if_neg (by simp [hco]), if_pos (by simp),
    if_pos rfl, Nat.zero_add]

/-- A value that opens with a delimiter is a bracketed text the skip scan passes over. -/
theorem JsonValue.container {v : Str} (hv : JsonValue v) (hd : valueDelim v ≠ NUL) :
    ∃ o c t, IsPair o c ∧ Skips t ∧ v = o :: (t ++ [c]) := by
  cases hv with
  | null => exact absurd rfl hd
  | true => exact absurd rfl hd
  | false => exact absurd rfl hd
  | number n hn => exact absurd (valueKind_number hn).2 hd
  | string b hb => exact absurd rfl hd
  | array ws es hws hes hvs =>
    refine ⟨'[', ']', ws ++ [','].intercalate (es.map Elem.text), Or.inr ⟨rfl, rfl⟩,
      (Skips.ws hws).append (Skips.intercalate ?_), by simp [arrayText]⟩
    intro t ht
    obtain ⟨e, he, rfl⟩ := List.mem_map.mp ht
    exact ((Skips.ws (hes e he).1).append (hvs e he).skips).append (Skips.ws (hes e he).2)
  | object ws ms hws hms hvs =>
    refine ⟨'{', '}', ws ++ [','].intercalate (ms.map Member.text), Or.inl ⟨rfl, rfl⟩,
      (Skips.ws hws).append (Skips.intercalate ?_), by simp [objectText]⟩
    intro t ht
    obtain ⟨m, hm, rfl⟩ := List.mem_map.mp ht
    obtain ⟨h1, hk, h2, h3, h4⟩ := hms m hm
    have e : m.text = m.ws1 ++ (('"' :: (m.key ++ ['"'])) ++ (m.ws2 ++ ([':'] ++
        (m.ws3 ++ (m.value ++ m.ws4))))) := by
      simp [Member.text]
    rw [e]
    exact (Skips.ws h1).append ((Skips.string hk.units).append ((Skips.ws h2).append
      ((Skips.plain (by unfold Plain; decide)).append ((Skips.ws h3).append
        ((hvs m hm).skips.append (Skips.ws h4))))))

/-- Behind the first token of a value that opens with no delimiter the lexer stands right behind
the value. -/
theorem consume_scalar {v : Str} (hv : JsonValue v) (hd : valueDelim v = NUL) {r : Lexer}
    {w : Char} {pre rest : Str} (hat : r.At (pre ++ v ++ rest) w) (hpre : Pre w pre)
    (hrest : Follow rest) : r.fetchIfUndef.consume.At rest NUL := by
  have hdt : r.Data = pre ++ (v ++ rest) := by rw [hat.data, List.append_assoc]
  have hp := hat.pos
  have hpre' : Pre r.wantSep pre := hat.sep ▸ hpre
  cases hv with
  | null =>
    rw [fetch_null hat.idle pre rest hpre' hrest hdt]
    exact ⟨⟨rfl, rfl, hat.idle.ok⟩, by show 0 < r.pos + _; omega, rfl, rfl⟩
  | true =>
    rw [fetch_true hat.idle pre rest hpre' hrest hdt]
    exact ⟨⟨rfl, rfl, hat.idle.ok⟩, by show 0 < r.pos + _; omega, rfl, rfl⟩
  | false =>
    rw [fetch_false hat.idle pre rest hpre' hrest hdt]
    exact ⟨⟨rfl, rfl, hat.idle.ok⟩, by show 0 < r.pos + _; omega, rfl, rfl⟩
  | number n hn =>
    rw [fetch_number hat.idle pre v rest hpre' hn hrest hdt]
    exact ⟨⟨rfl, rfl, hat.idle.ok⟩, by show 0 < r.pos + _; omega, rfl, rfl⟩
  | string b hb =>
    rw [fetch_string hat.idle pre b rest hpre' hb.units (by simpa using hdt)]
    exact ⟨⟨rfl, rfl, hat.idle.ok⟩, by show 0 < r.pos + _; omega, rfl, rfl⟩
  | array ws es _ _ _ => exact absurd hd (by simp [arrayText, valueDelim, NUL])
  | object ws ms _ _ _ => exact absurd hd (by simp [objectText, valueDelim, NUL])

/-- `SkipRecursive` on a value: it stops right behind the value, and fails only on an array or
object that `json.Valid` rejects. -/
theorem SkipRecursive_value (jv : Str → Bool) {v : Str} (hv : JsonValue v) {r : Lexer}
    {w : Char} {pre rest : Str} (hat : r.At (pre ++ v ++ rest) w) (hpre : Pre w pre)
    (hrest : Follow rest) :
    if valueDelim v = NUL ∨ jv v = true then (r.SkipRecursive jv).At rest NUL
    else (r.SkipRecursive jv).Ok = false := by
  have hf := fetch_value hv hat.idle pre rest (hat.sep ▸ hpre) hrest hat.data
  by_cases hd : valueDelim v = NUL
  · rw [if_pos (Or.inl hd)]
    unfold Lexer.SkipRecursive
    simp only [scanToken_eq]
    rw [if_neg (by rw [hf.2.2, hd]; decide)]
    exact consume_scalar hv hd hat hpre hrest
  · obtain ⟨o, c, t, hoc, ht, rfl⟩ := hv.container hd
    have ho : o = '{' ∨ o = '[' := by rcases hoc with ⟨h, _⟩ | ⟨h, _⟩ <;> simp [h]
    have hstop : (if o = '{' then '}' else ']') = c := by
      rcases hoc with ⟨rfl, rfl⟩ | ⟨rfl, rfl⟩ <;> rfl
    have hdt : r.Data = pre ++ o :: (t ++ c :: rest) := by
      rw [hat.data]; simp
    have hfo := fetch_open hat.idle pre (t ++ c :: rest) o ho (hat.sep ▸ hpre) hdt
    have htake : o :: List.take (t.length + 1) (t ++ c :: rest) = o :: (t ++ [c]) := by
      congr 1
      have : t ++ c :: rest = (t ++ [c]) ++ rest := by simp
      rw [this, List.take_left' (by simp)]
    have hdrop : List.drop (t.length + 1) (t ++ c :: rest) = rest := by
      have : t ++ c :: rest = (t ++ [c]) ++ rest := by simp
      rw [this, List.drop_left' (by simp)]
    unfold Lexer.SkipRecursive
    simp only [scanToken_eq, hfo, Lexer.consume, Lexer.withToken, ho, if_true, hstop,
      skipLoop_container hoc ht rest, Lexer.advance, htake, hdrop]
    by_cases hj : jv (o :: (t ++ [c])) = true
    · rw [if_pos (Or.inr hj)]
      simp only [hj, if_true]
      exact ⟨⟨rfl, rfl, hat.idle.ok⟩, by show 0 < r.pos + _ + _; have := hat.pos; omega, rfl, rfl⟩
    · rw [if_neg (by simp [hd, hj])]
      simp only [hj, Bool.false_eq_true, if_false]
      rfl

theorem SkipRecursive_sem (jv : Str → Bool) {v : Str} (hv : JsonValue v) {α : Type} (a : α) :
    Sem NUL (fun r a => (r.SkipRecursive jv, a)) v a
      (if valueDelim v = NUL ∨ jv v = true then some a else none) := by
  intro r w pre rest hat hpre hrest
  have h := SkipRecursive_value jv hv hat hpre hrest
  by_cases hc : valueDelim v = NUL ∨ jv v = true
  · rw [if_pos hc] at h ⊢
    exact ⟨rfl, h⟩
  · rw [if_neg hc] at h ⊢
    exact h

/-! ## `Interface` on a value -/

section Iface

variable {F : Type} (rt : Runtime F)

theorem Interface_failed (n : Nat) {r : Lexer} (h : r.Ok = false) :
    (Interface rt n r).1.Ok = false := by
  cases n with
  | zero => rfl
  | succ n =>
    rw [Interface]
    simp only [fetchIfUndef_of_failed h, h, Bool.false_eq_true, not_false_eq_true, if_true]

theorem Interface_fetched (n : Nat) (r : Lexer) :
    Interface rt (n + 1) r.fetchIfUndef = Interface rt (n + 1) r := by
  rw [Interface, Interface, fetchIfUndef_idem]

theorem Interface_null {r : Lexer} {w : Char} {pre rest : Str}
    (hat : r.At (pre ++ "null".toList ++ rest) w) (hpre : Pre w pre) (hrest : Follow rest)
    (n : Nat) : Ends NUL rest (some GoValue.nil) (Interface rt (n + 1) r) := by
  have hd : r.Data = pre ++ ("null".toList ++ rest) := by rw [hat.data, List.append_assoc]
  have hf := fetch_null hat.idle pre rest (hat.sep ▸ hpre) hrest hd
  rw [Interface]
  simp only [hf, Lexer.withToken, Lexer.Ok, hat.idle.ok, Option.isNone_none, not_true_eq_false,
    if_false, Lexer.Null]
  rw [fetchIfUndef_of_kind (by simp)]
  simp only [Lexer.Ok, hat.idle.ok, Option.isNone_none, not_true_eq_false, ne_eq, or_self,
    if_false]
  exact ⟨rfl, ⟨rfl, rfl, rfl⟩, by show 0 < r.pos + _; have := hat.pos; omega, rfl, rfl⟩

theorem Interface_true {r : Lexer} {w : Char} {pre rest : Str}
    (hat : r.At (pre ++ "true".toList ++ rest) w) (hpre : Pre w pre) (hrest : Follow rest)
    (n : Nat) : Ends NUL rest (some (GoValue.bool true)) (Interface rt (n + 1) r) := by
  have hd : r.Data = pre ++ ("true".toList ++ rest) := by rw [hat.data, List.append_assoc]
  have hf := fetch_true hat.idle pre rest (hat.sep ▸ hpre) hrest hd
  rw [Interface]
  simp only [hf, Lexer.withToken, Lexer.Ok, hat.idle.ok, Option.isNone_none, not_true_eq_false,
    if_false, Lexer.Bool]
  rw [fetchIfUndef_of_kind (by simp)]
  simp only [Lexer.Ok, hat.idle.ok, Option.isNone_none, not_true_eq_false, ne_eq, or_self,
    if_false]
  exact ⟨rfl, ⟨rfl, rfl, rfl⟩, by show 0 < r.pos + _; have := hat.pos; omega, rfl, rfl⟩

theorem Interface_false {r : Lexer} {w : Char} {pre rest : Str}
    (hat : r.At (pre ++ "false".toList ++ rest) w) (hpre : Pre w pre) (hrest : Follow rest)
    (n : Nat) : Ends NUL rest (some (GoValue.bool false)) (Interface rt (n + 1) r) := by
  have hd : r.Data = pre ++ ("false".toList ++ rest) := by rw [hat.data, List.append_assoc]
  have hf := fetch_false hat.idle pre rest (hat.sep ▸ hpre) hrest hd
  rw [Interface]
  simp only [hf, Lexer.withToken, Lexer.Ok, hat.idle.ok, Option.isNone_none, not_true_eq_false,
    if_false, Lexer.Bool]
  rw [fetchIfUndef_of_kind (by simp)]
  simp only [Lexer.Ok, hat.idle.ok, Option.isNone_none, not_true_eq_false, ne_eq, or_self,
    if_false]
  exact ⟨rfl, ⟨rfl, rfl, rfl⟩, by show 0 < r.pos + _; have := hat.pos; omega, rfl, rfl⟩

theorem Interface_number {v : Str} (hn : JsonNumber v) {r : Lexer} {w : Char} {pre rest : Str}
    (hat : r.At (pre ++ v ++ rest) w) (hpre : Pre w pre) (hrest : Follow rest)
    (n : Nat) : Ends NUL rest (numberResult rt v) (Interface rt (n + 1) r) := by
  have hd : r.Data = pre ++ (v ++ rest) := by rw [hat.data, List.append_assoc]
  have hf := fetch_number hat.idle pre v rest (hat.sep ▸ hpre) hn hrest hd
  rw [Interface]
  simp only [hf, Lexer.withToken, Lexer.Ok, hat.idle.ok, Option.isNone_none, not_true_eq_false,
    if_false, Lexer.Float64, Lexer.number]
  rw [fetchIfUndef_of_kind (by simp)]
  simp only [Lexer.Ok, hat.idle.ok, Option.isNone_none, not_true_eq_false, ne_eq, or_self,
    if_false, Lexer.consume]
  unfold numberResult
  rcases hp : rt.ParseFloat v with ⟨f, _ | err⟩
  · exact ⟨rfl, ⟨rfl, rfl, rfl⟩, by show 0 < r.pos + _; have := hat.pos; omega, rfl, rfl⟩
  · rfl

theorem Interface_string {b : Str} (hb : StrBody b) {r : Lexer} {w : Char} {pre rest : Str}
    (hat : r.At (pre ++ ('"' :: (b ++ ['"'])) ++ rest) w) (hpre : Pre w pre)
    (n : Nat) : Ends NUL rest (stringResult b : Option (GoValue F)) (Interface rt (n + 1) r) := by
  have hd : r.Data = pre ++ ('"' :: b ++ '"' :: rest) := by
    rw [hat.data, List.append_assoc, string_quote_eq]
  have hf := fetch_string hat.idle pre b rest (hat.sep ▸ hpre) hb.units hd
  have hs : r.fetchIfUndef.String = r.String := String_fetched r
  rw [Interface]
  have h1 : r.fetchIfUndef.Ok = true := by rw [hf]; exact hat.idle.isOk
  have h2 : r.fetchIfUndef.kind = .tokenString := by rw [hf]; rfl
  simp only [h1, h2, hs, not_true_eq_false, if_false]
  unfold stringResult
  cases hu : unescape b with
  | error e => exact String_string_error hat hpre hb hu
  | ok k =>
    obtain ⟨e1, e2⟩ := String_string hat hpre hb hu
    exact ⟨by show GoValue.string r.String.1 = _; rw [e1], e2⟩

theorem Interface_array (n : Nat) {r : Lexer} (h1 : r.fetchIfUndef.Ok = true)
    (h2 : r.fetchIfUndef.kind = .tokenDelim) (h3 : r.fetchIfUndef.delimValue = '[') :
    Interface rt (n + 1) r =
      if (readContainer '[' ']' false (interfaceElem rt n) r []).1.Ok then
        ((readContainer '[' ']' false (interfaceElem rt n) r []).1,
          .slice (readContainer '[' ']' false (interfaceElem rt n) r []).2)
      else ((readContainer '[' ']' false (interfaceElem rt n) r []).1, .nil) := by
  rw [Interface]
  simp only [h1, h2, h3, not_true_eq_false, if_false, Char.reduceEq, if_true]
  unfold readContainer Lexer.Delim
  simp only [h1, h3, not_true_eq_false, ne_eq, or_self, if_false, Bool.false_eq_true]
  rfl

theorem Interface_object (n : Nat) {r : Lexer} (h1 : r.fetchIfUndef.Ok = true)
    (h2 : r.fetchIfUndef.kind = .tokenDelim) (h3 : r.fetchIfUndef.delimValue = '{') :
    Interface rt (n + 1) r =
      if (readContainer '{' '}' false (interfaceEntry rt n) r []).1.Ok then
        ((readContainer '{' '}' false (interfaceEntry rt n) r []).1,
          .map (readContainer '{' '}' false (interfaceEntry rt n) r []).2)
      else ((readContainer '{' '}' false (interfaceEntry rt n) r []).1, .nil) := by
  rw [Interface]
  simp only [h1, h2, h3, not_true_eq_false, if_false, Char.reduceEq, if_true]
  unfold readContainer Lexer.Delim
  simp only [h1, h3, not_true_eq_false, ne_eq, or_self, if_false, Bool.false_eq_true]
  rfl

end Iface

section Entry

variable {β : Type}

theorem readEntry_eq (D : Lexer → β → Lexer × β) (b0 : β) (r : Lexer) (m : GoMap β) :
    readEntry D b0 r m =
      ((D r.String.2.WantColon b0).1.WantComma,
        GoMap.set m r.String.1 (D r.String.2.WantColon b0).2) := rfl

theorem readEntry_fetched (D : Lexer → β → Lexer × β) (b0 : β) (r : Lexer) (m : GoMap β) :
    readEntry D b0 r.fetchIfUndef m = readEntry D b0 r m := by
  rw [readEntry_eq, readEntry_eq, String_fetched]

theorem readEntry_failed {D : Lexer → β → Lexer × β}
    (hf : ∀ r b, r.Ok = false → (D r b).1.Ok = false) (b0 : β) (r : Lexer) (m : GoMap β)
    (hr : r.Ok = false) : (readEntry D b0 r m).1.Ok = false := by
  rw [readEntry_eq, String_failed hr]
  exact hf _ _ hr

/-- Every member is read by `readEntry` in one way, whatever stands around it. -/
theorem readEntry_sem {D : Lexer → β → Lexer × β}
    (hf : ∀ r b, r.Ok = false → (D r b).1.Ok = false) {m : Member} (hm : m.WF) {b0 : β}
    {res : Option β} (h : Sem NUL D m.value b0 res) (a : GoMap β) :
    Sem ',' (readEntry D b0) m.core a (entryResult m.key res a) := by
  obtain ⟨_, hkey, hw2, hw3, _⟩ := hm
  intro r w pre rest hat hpre hrest
  unfold entryResult
  rw [readEntry_eq]
  cases hk : unescape m.key with
  | error e =>
    rw [member_core_eq] at hat
    have h1 := String_string_error hat hpre hkey hk
    have h2 : r.String.2.WantColon.Ok = false := h1
    exact hf _ _ h2
  | ok k =>
    obtain ⟨h1, h2⟩ := readMember_key hkey hk hat hpre
    have hpre2 : Pre ':' (m.ws2 ++ ':' :: m.ws3) := Pre.sep_ws (Or.inr rfl) hw2 hw3
    have h3 := h _ _ _ _ h2 hpre2 hrest
    cases res with
    | none => exact h3
    | some b => exact ⟨by show GoMap.set a r.String.1 _ = GoMap.set a k b; rw [h1, h3.1],
        h3.2.wantComma⟩

end Entry

theorem length_le_intercalate (sep : Str) (ts : List Str) {t : Str} (ht : t ∈ ts) :
    t.length ≤ (sep.intercalate ts).length := by
  induction ts with
  | nil => exact absurd ht (List.not_mem_nil _)
  | cons u us ih =>
    cases us with
    | nil =>
      have : t = u := by simpa using ht
      subst this
      simp [List.intercalate]
    | cons u2 us =>
      have e : sep.intercalate (u :: u2 :: us) = u ++ sep ++ sep.intercalate (u2 :: us) := by
        simp [List.intercalate, List.intersperse]
      rw [e]
      rcases List.mem_cons.mp ht with h | h
      · subst h; simp only [List.length_append]; omega
      · have := ih h
        simp only [List.length_append]; omega

theorem Elem.value_length {ws : Str} {es : List Elem} {e : Elem} (he : e ∈ es) :
    e.value.length + 2 ≤ (arrayText ws es).length := by
  have h := length_le_intercalate [','] (es.map Elem.text) (List.mem_map_of_mem Elem.text he)
  simp only [arrayText, Elem.text, List.length_cons, List.length_append, List.length_nil] at h ⊢
  omega

theorem Member.member_value_length {ws : Str} {ms : List Member} {m : Member} (hm : m ∈ ms) :
    m.value.length + 2 ≤ (objectText ws ms).length := by
  have h := length_le_intercalate [','] (ms.map Member.text) (List.mem_map_of_mem Member.text hm)
  simp only [objectText, Member.text, List.length_cons, List.length_append,
    List.length_nil] at h ⊢
  omega

theorem Elem.map_elem_text (es : List Elem) :
    (es.map Elem.item).map Item.text = es.map Elem.text := by
  rw [List.map_map]; exact List.map_congr_left (fun e _ => e.elem_text_eq)

theorem Elem.map_elem_core (es : List Elem) :
    (es.map Elem.item).map Item.core = es.map Elem.value := by
  rw [List.map_map]; exact List.map_congr_left (fun _ _ => rfl)

theorem Member.map_item_text (ms : List Member) :
    (ms.map Member.item).map Item.text = ms.map Member.text := by
  rw [List.map_map]; exact List.map_congr_left (fun m _ => m.item_text)

theorem Member.map_item_core (ms : List Member) :
    (ms.map Member.item).map Item.core = ms.map Member.core := by
  rw [List.map_map]; exact List.map_congr_left (fun _ _ => rfl)

theorem arrayText_length (ws : Str) (es : List Elem) : 2 ≤ (arrayText ws es).length := by
  simp only [arrayText, List.length_cons, List.length_append, List.length_nil]; omega

theorem objectText_length (ws : Str) (ms : List Member) : 2 ≤ (objectText ws ms).length := by
  simp only [objectText, List.length_cons, List.length_append, List.length_nil]; omega

/-- The rounds of a family of loop bodies that agree from the budget `N` on end in one way. -/
theorem ListSem.exists_from {α : Type} (body : Nat → Lexer → α → Lexer × α) (N : Nat)
    (us : List Str) (h : ∀ u ∈ us, ∀ a, ∃ res, ∀ n, N ≤ n → Sem ',' (body n) u a res) :
    ∀ a, ∃ res, ∀ n, N ≤ n → ListSem (body n) us a res := by
  induction us with
  | nil => intro a; exact ⟨some a, fun _ _ => rfl⟩
  | cons u us ih =>
    intro a
    obtain ⟨res1, h1⟩ := h u (by simp) a
    cases res1 with
    | none => exact ⟨none, fun n hn => Or.inl ⟨h1 n hn, rfl⟩⟩
    | some a' =>
      obtain ⟨res, hres⟩ := ih (fun v hv => h v (by simp [hv])) a'
      exact ⟨res, fun n hn => Or.inr ⟨a', h1 n hn, hres n hn⟩⟩

section Iface

variable {F : Type} (rt : Runtime F)

theorem interfaceElem_fetched (n : Nat) (r : Lexer) (a : List (GoValue F)) :
    interfaceElem rt (n + 1) r.fetchIfUndef a = interfaceElem rt (n + 1) r a := by
  unfold interfaceElem thenComma into
  simp only [Interface_fetched]

/-- `Interface` reads every value in one way, whatever stands around it and whatever budget
above the length of the value it is given. -/
theorem Interface_sem {v : Str} (hv : JsonValue v) :
    ∃ res : Option (GoValue F), ∀ n, v.length < n → ∀ b,
      Sem NUL (fun r _ => Interface rt n r) v b res := by
  induction hv with
  | null =>
    refine ⟨some .nil, fun n hn b r w pre rest hat hpre hrest => ?_⟩
    obtain ⟨m, rfl⟩ : ∃ m, n = m + 1 := ⟨n - 1, by omega⟩
    exact Interface_null rt hat hpre hrest m
  | true =>
    refine ⟨some (.bool true), fun n hn b r w pre rest hat hpre hrest => ?_⟩
    obtain ⟨m, rfl⟩ : ∃ m, n = m + 1 := ⟨n - 1, by omega⟩
    exact Interface_true rt hat hpre hrest m
  | false =>
    refine ⟨some (.bool false), fun n hn b r w pre rest hat hpre hrest => ?_⟩
    obtain ⟨m, rfl⟩ : ∃ m, n = m + 1 := ⟨n - 1, by omega⟩
    exact Interface_false rt hat hpre hrest m
  | number v hn' =>
    refine ⟨numberResult rt v, fun n hn b r w pre rest hat hpre hrest => ?_⟩
    obtain ⟨m, rfl⟩ : ∃ m, n = m + 1 := ⟨n - 1, by omega⟩
    exact Interface_number rt hn' hat hpre hrest m
  | string s hs =>
    refine ⟨stringResult s, fun n hn b r w pre rest hat hpre hrest => ?_⟩
    obtain ⟨m, rfl⟩ : ∃ m, n = m + 1 := ⟨n - 1, by omega⟩
    exact Interface_string rt hs hat hpre m
  | array ws es hws hes hvs ih =>
    have hel : ∀ u ∈ es.map Elem.value, ∀ a : List (GoValue F), ∃ res,
        ∀ n, (arrayText ws es).length ≤ n + 1 → Sem ',' (interfaceElem rt n) u a res := by
      intro u hu a
      obtain ⟨e, he, rfl⟩ := List.mem_map.mp hu
      obtain ⟨res, hres⟩ := ih e he
      refine ⟨res.map (fun v => a ++ [v]), fun n hn => ?_⟩
      have hl : e.value.length + 2 ≤ (arrayText ws es).length := Elem.value_length he
      exact thenComma_sem (into_sem _ a (hres n (by omega) GoValue.nil))
    obtain ⟨resl, hresl⟩ := ListSem.exists_from
      (fun n => interfaceElem rt n) ((arrayText ws es).length - 1) (es.map Elem.value)
      (fun u hu a => by
        obtain ⟨res, hres⟩ := hel u hu a
        exact ⟨res, fun n hn => hres n (by omega)⟩) []
    refine ⟨resl.map GoValue.slice, fun n hn b r w pre rest hat hpre hrest => ?_⟩
    obtain ⟨m, rfl⟩ : ∃ m, n = m + 1 := ⟨n - 1, by omega⟩
    have hlen := arrayText_length ws es
    obtain ⟨m, rfl⟩ : ∃ k, m = k + 1 := ⟨m - 1, by omega⟩
    obtain ⟨h1, h2, h3⟩ := fetch_value (JsonValue.array ws es hws hes hvs) hat.idle pre rest
      (hat.sep ▸ hpre) hrest hat.data
    have h2' : r.fetchIfUndef.kind = .tokenDelim := h2
    have h3' : r.fetchIfUndef.delimValue = '[' := h3
    show Ends NUL rest _ (Interface rt (m + 1 + 1) r)
    rw [Interface_array rt (m + 1) h1 h2' h3']
    have hits : ∀ i ∈ es.map Elem.item, i.WF ∧ Starts ']' i.core := by
      intro i hi
      obtain ⟨e, he, rfl⟩ := List.mem_map.mp hi
      exact ⟨hes e he, (hvs e he).starts ']' (Or.inr rfl)⟩
    have hsem : Sem NUL (readContainer '[' ']' false (interfaceElem rt (m + 1)))
        ('[' :: ws ++ [','].intercalate ((es.map Elem.item).map Item.text) ++ [']']) []
        resl :=
      readContainer_sem (Or.inr ⟨rfl, rfl⟩) false
        (fun r a _ => interfaceElem_fetched rt m r a) hws hits
        (by rw [Elem.map_elem_core]; exact hresl (m + 1) (by omega))
    have htext : '[' :: ws ++ [','].intercalate ((es.map Elem.item).map Item.text) ++ [']'] =
        arrayText ws es := by
      rw [Elem.map_elem_text]; rfl
    rw [htext] at hsem
    have := hsem r w pre rest hat hpre hrest
    cases resl with
    | none =>
      have hok : (readContainer '[' ']' false (interfaceElem rt (m + 1)) r []).1.Ok = false :=
        this
      rw [if_neg (by simp [hok])]
      exact hok
    | some l =>
      obtain ⟨e1, e2⟩ := this
      rw [if_pos e2.isOkAt]
      exact ⟨by show GoValue.slice _ = GoValue.slice l; rw [e1], e2⟩
  | object ws ms hws hms hvs ih =>
    have hel : ∀ u ∈ ms.map Member.core, ∀ a : GoMap (GoValue F), ∃ res,
        ∀ n, (objectText ws ms).length ≤ n + 1 → Sem ',' (interfaceEntry rt n) u a res := by
      intro u hu a
      obtain ⟨e, he, rfl⟩ := List.mem_map.mp hu
      obtain ⟨res, hres⟩ := ih e he
      refine ⟨entryResult e.key res a, fun n hn => ?_⟩
      have hl : e.value.length + 2 ≤ (objectText ws ms).length := Member.member_value_length he
      exact readEntry_sem (fun r _ h => Interface_failed rt n h) (hms e he)
        (hres n (by omega) GoValue.nil) a
    obtain ⟨resl, hresl⟩ := ListSem.exists_from
      (fun n => interfaceEntry rt n) ((objectText ws ms).length - 1) (ms.map Member.core)
      (fun u hu a => by
        obtain ⟨res, hres⟩ := hel u hu a
        exact ⟨res, fun n hn => hres n (by omega)⟩) []
    refine ⟨resl.map GoValue.map, fun n hn b r w pre rest hat hpre hrest => ?_⟩
    obtain ⟨m, rfl⟩ : ∃ m, n = m + 1 := ⟨n - 1, by omega⟩
    obtain ⟨h1, h2, h3⟩ := fetch_value (JsonValue.object ws ms hws hms hvs) hat.idle pre rest
      (hat.sep ▸ hpre) hrest hat.data
    have h2' : r.fetchIfUndef.kind = .tokenDelim := h2
    have h3' : r.fetchIfUndef.delimValue = '{' := h3
    show Ends NUL rest _ (Interface rt (m + 1) r)
    rw [Interface_object rt m h1 h2' h3']
    have hits : ∀ i ∈ ms.map Member.item, i.WF ∧ Starts '}' i.core := by
      intro i hi
      obtain ⟨e, he, rfl⟩ := List.mem_map.mp hi
      exact ⟨⟨(hms e he).1, (hms e he).2.2.2.2⟩,
        e.core_starts (hms e he).2.1 '}' (by decide)⟩
    have hsem : Sem NUL (readContainer '{' '}' false (interfaceEntry rt m))
        ('{' :: ws ++ [','].intercalate ((ms.map Member.item).map Item.text) ++ ['}']) []
        resl :=
      readContainer_sem (Or.inl ⟨rfl, rfl⟩) false
        (fun r a _ => readEntry_fetched _ _ r a) hws hits
        (by rw [Member.map_item_core]; exact hresl m (by omega))
    have htext : '{' :: ws ++ [','].intercalate ((ms.map Member.item).map Item.text) ++ ['}'] =
        objectText ws ms := by
      rw [Member.map_item_text]; rfl
    rw [htext] at hsem
    have := hsem r w pre rest hat hpre hrest
    cases resl with
    | none =>
      have hok : (readContainer '{' '}' false (interfaceEntry rt m) r []).1.Ok = false := this
      rw [if_neg (by simp [hok])]
      exact hok
    | some l =>
      obtain ⟨e1, e2⟩ := this
      rw [if_pos e2.isOkAt]
      exact ⟨by show GoValue.map _ = GoValue.map l; rw [e1], e2⟩

end Iface

/-! ## The position never moves back -/

@[simp] theorem errParse_pos (r : Lexer) (w : Str) : (r.errParse w).pos = r.pos := by
  unfold Lexer.errParse; split_ifs <;> rfl

@[simp] theorem errSyntax_pos (r : Lexer) : r.errSyntax.pos = r.pos := errParse_pos r _

theorem fetchString_pos (r : Lexer) : r.pos ≤ r.fetchString.pos := by
  unfold Lexer.fetchString
  simp only
  split <;> simp [Lexer.advance] <;> omega

theorem fetchNumber_pos (r : Lexer) : r.pos ≤ r.fetchNumber.pos := by
  unfold Lexer.fetchNumber
  simp only
  split
  · split_ifs <;> simp [Lexer.advance] <;> omega
  · simp [Lexer.advance]; omega

theorem fetchNull_pos (r : Lexer) : r.pos ≤ r.fetchNull.pos := by
  unfold Lexer.fetchNull
  split
  · split_ifs <;> simp [Lexer.advance]
  · simp

theorem fetchTrue_pos (r : Lexer) : r.pos ≤ r.fetchTrue.pos := by
  unfold Lexer.fetchTrue
  split
  · split_ifs <;> simp [Lexer.advance]
  · simp

theorem fetchFalse_pos (r : Lexer) : r.pos ≤ r.fetchFalse.pos := by
  unfold Lexer.fetchFalse
  split
  · split_ifs <;> simp [Lexer.advance]
  · simp

theorem ite_errSyntax_pos (p : Prop) [Decidable p] (r : Lexer) :
    (if p then r.errSyntax else r).pos = r.pos := by
  split_ifs <;> simp

theorem fetchLoop_pos (cs : Str) : ∀ r : Lexer, r.pos ≤ (fetchLoop cs r).pos := by
  induction cs with
  | nil => intro r; exact le_refl _
  | cons c cs ih =>
    intro r
    rw [fetchLoop_cons]
    by_cases h1 : c = ':' ∨ c = ','
    · rw [if_pos h1]
      by_cases h2 : r.wantSep = c
      · rw [if_pos h2]
        refine le_trans ?_ (ih _)
        show r.pos ≤ r.pos + 1
        omega
      · rw [if_neg h2]
        refine le_trans ?_ (ih _)
        simp
    rw [if_neg h1]
    by_cases h2 : c = ' ' ∨ c = '\t' ∨ c = '\r' ∨ c = '\n'
    · rw [if_pos h2]
      refine le_trans ?_ (ih _)
      show r.pos ≤ r.pos + 1
      omega
    rw [if_neg h2]
    by_cases h3 : c = '"'
    · rw [if_pos h3]
      refine le_trans ?_ (fetchString_pos _)
      show r.pos ≤ (if r.wantSep ≠ NUL then r.errSyntax else r).pos
      rw [ite_errSyntax_pos]
    rw [if_neg h3]
    by_cases h4 : c = '{' ∨ c = '['
    · rw [if_pos h4]
      show r.pos ≤ (if r.wantSep ≠ NUL ∧ ¬ r.firstElement then r.errSyntax else r).pos + 1
      rw [ite_errSyntax_pos]; omega
    rw [if_neg h4]
    by_cases h5 : c = '}' ∨ c = ']'
    · rw [if_pos h5]
      show r.pos ≤ (if ¬ r.firstElement ∧ r.wantSep ≠ ',' then r.errSyntax else r).pos + 1
      rw [ite_errSyntax_pos]; omega
    rw [if_neg h5]
    by_cases h6 : c.isDigit = true ∨ c = '-'
    · rw [if_pos h6]
      refine le_trans ?_ (fetchNumber_pos _)
      show r.pos ≤ (if r.wantSep ≠ NUL then r.errSyntax else r).pos
      rw [ite_errSyntax_pos]
    rw [if_neg h6]
    by_cases h7 : c = 'n'
    · rw [if_pos h7]
      refine le_trans ?_ (fetchNull_pos _)
      show r.pos ≤ (if r.wantSep ≠ NUL then r.errSyntax else r).pos
      rw [ite_errSyntax_pos]
    rw [if_neg h7]
    by_cases h8 : c = 't'
    · rw [if_pos h8]
      refine le_trans ?_ (fetchTrue_pos _)
      show r.pos ≤ (if r.wantSep ≠ NUL then r.errSyntax else r).pos
      rw [ite_errSyntax_pos]
    rw [if_neg h8]
    by_cases h9 : c = 'f'
    · rw [if_pos h9]
      refine le_trans ?_ (fetchFalse_pos _)
      show r.pos ≤ (if r.wantSep ≠ NUL then r.errSyntax else r).pos
      rw [ite_errSyntax_pos]
    rw [if_neg h9]
    simp

theorem fetchIfUndef_pos (r : Lexer) : r.pos ≤ r.fetchIfUndef.pos := by
  unfold Lexer.fetchIfUndef Lexer.FetchToken
  split_ifs
  · exact fetchLoop_pos r.Data { r with kind := .tokenUndef }
  · exact le_refl _

theorem IsStart_fetched {r : Lexer} (h : 0 < r.pos) : r.fetchIfUndef.IsStart = false := by
  have := fetchIfUndef_pos r
  unfold Lexer.IsStart
  simp only [decide_eq_false_iff_not]
  omega

theorem IsStart_false {r : Lexer} (h : 0 < r.pos) : r.IsStart = false := by
  unfold Lexer.IsStart
  simp only [decide_eq_false_iff_not]
  omega

/-! ## Routines that read every value -/

section Readers

variable {α β : Type}

theorem Sem.agree {D D' : Lexer → α → Lexer × α} {w : Char} {u : Str} {a : α}
    {res : Option α} (h : ∀ r, 0 < r.pos → D r a = D' r a) (hs : Sem w D' u a res) :
    Sem w D u a res := by
  intro r w' pre rest hat hpre hrest
  rw [h r hat.pos]
  exact hs r w' pre rest hat hpre hrest

theorem Reads.congr {D D' : Lexer → α → Lexer × α}
    (h : ∀ r a, 0 < r.pos → D r a = D' r a) (hs : Reads D') : Reads D := by
  intro v hv a
  obtain ⟨res, hres⟩ := hs v hv a
  exact ⟨res, Sem.agree (fun r hp => h r a hp) hres⟩

theorem readString_reads (f : α → Str → α) : Reads (readString f) :=
  fun _ hv a => readString_sem f hv a

theorem readString_sticky (f : α → Str → α) : Sticky (readString f) :=
  fun _ a h => readString_failed f h a

theorem readString_isFetched (f : α → Str → α) : Fetched (readString f) :=
  fun r a _ => readString_fetched f r a

theorem skip_reads (jv : Str → Bool) : Reads (fun r (a : α) => (r.SkipRecursive jv, a)) :=
  fun _ hv a => ⟨_, SkipRecursive_sem jv hv a⟩

theorem skip_sticky (jv : Str → Bool) : Sticky (fun r (a : α) => (r.SkipRecursive jv, a)) :=
  fun _ _ h => SkipRecursive_failed h jv

theorem skip_isFetched (jv : Str → Bool) :
    Fetched (fun r (a : α) => (r.SkipRecursive jv, a)) := by
  intro r a _
  simp only [SkipRecursive_fetched]

theorem nullOr_reads (onNull : α → α) {D : Lexer → α → Lexer × α} (hf : Fetched D)
    (h : Reads D) : Reads (nullOr onNull D) :=
  fun v hv a => nullOr_sem onNull hf hv a (h v hv a)

theorem nullOr_sticky (onNull : α → α) {D : Lexer → α → Lexer × α} (h : Sticky D) :
    Sticky (nullOr onNull D) :=
  fun r a hr => nullOr_failed onNull h r a hr

theorem nullOr_isFetched (onNull : α → α) (D : Lexer → α → Lexer × α) :
    Fetched (nullOr onNull D) :=
  fun r a _ => nullOr_fetched onNull D r a

theorem into_reads {D : Lexer → β → Lexer × β} (b0 : β) (store : α → β → α) (h : Reads D) :
    Reads (into D b0 store) := by
  intro v hv a
  obtain ⟨res, hres⟩ := h v hv b0
  exact ⟨_, into_sem store a hres⟩

theorem into_sticky {D : Lexer → β → Lexer × β} (b0 : β) (store : α → β → α) (h : Sticky D) :
    Sticky (into D b0 store) :=
  fun r a hr => into_failed b0 store h r a hr

theorem thenComma_sticky {D : Lexer → α → Lexer × α} (h : Sticky D) : Sticky (thenComma D) :=
  fun r a hr => thenComma_failed h r a hr

theorem readContainer_sticky (o c : Char) (la : Bool) (body : Lexer → α → Lexer × α) :
    Sticky (readContainer o c la body) :=
  fun r a hr => readContainer_failed o c la body r a hr

theorem readContainer_isFetched (o c : Char) (la : Bool) (body : Lexer → α → Lexer × α) :
    Fetched (readContainer o c la body) :=
  fun r a _ => readContainer_fetched o c la body r a

theorem readMember_isFetched (field : Str → Lexer → α → Lexer × α) :
    Fetched (readMember field) :=
  fun r a _ => readMember_fetched field r a

theorem readEntry_isFetched (D : Lexer → β → Lexer × β) (b0 : β) : Fetched (readEntry D b0) :=
  fun r a _ => readEntry_fetched D b0 r a

theorem elems_items {es : List Elem} (hes : ∀ e ∈ es, e.WF)
    (hvs : ∀ e ∈ es, JsonValue e.value) :
    ∀ i ∈ es.map Elem.item, i.WF ∧ Starts ']' i.core := by
  intro i hi
  obtain ⟨e, he, rfl⟩ := List.mem_map.mp hi
  exact ⟨hes e he, (hvs e he).starts ']' (Or.inr rfl)⟩

theorem members_items {ms : List Member} (hms : ∀ m ∈ ms, m.WF) :
    ∀ i ∈ ms.map Member.item, i.WF ∧ Starts '}' i.core := by
  intro i hi
  obtain ⟨e, he, rfl⟩ := List.mem_map.mp hi
  exact ⟨⟨(hms e he).1, (hms e he).2.2.2.2⟩, e.core_starts (hms e he).2.1 '}' (by decide)⟩

/-- An array is read element by element. -/
theorem readArray_sem (la : Bool) {body : Lexer → α → Lexer × α} (hbf : Fetched body)
    {ws : Str} {es : List Elem} (hws : IsWs ws) (hes : ∀ e ∈ es, e.WF)
    (hvs : ∀ e ∈ es, JsonValue e.value) {a : α} {res : Option α}
    (hres : ListSem body (es.map Elem.value) a res) :
    Sem NUL (readContainer '[' ']' la body) (arrayText ws es) a res := by
  have h : Sem NUL (readContainer '[' ']' la body)
      ('[' :: ws ++ [','].intercalate ((es.map Elem.item).map Item.text) ++ [']']) a res :=
    readContainer_sem (Or.inr ⟨rfl, rfl⟩) la hbf hws (elems_items hes hvs)
      (by rw [Elem.map_elem_core]; exact hres)
  rw [Elem.map_elem_text] at h
  exact h

/-- An object is read member by member. -/
theorem readObject_sem {body : Lexer → α → Lexer × α} (hbf : Fetched body)
    {ws : Str} {ms : List Member} (hws : IsWs ws) (hms : ∀ m ∈ ms, m.WF)
    {a : α} {res : Option α} (hres : ListSem body (ms.map Member.core) a res) :
    Sem NUL (readContainer '{' '}' false body) (objectText ws ms) a res := by
  have h : Sem NUL (readContainer '{' '}' false body)
      ('{' :: ws ++ [','].intercalate ((ms.map Member.item).map Item.text) ++ ['}']) a res :=
    readContainer_sem (Or.inl ⟨rfl, rfl⟩) false hbf hws (members_items hms)
      (by rw [Member.map_item_core]; exact hres)
  rw [Member.map_item_text] at h
  exact h

theorem readArray_reads (la : Bool) {D : Lexer → α → Lexer × α} (hf : Fetched D)
    (h : Reads D) : Reads (readContainer '[' ']' la (thenComma D)) := by
  intro v hv a
  by_cases hd : valueDelim v = '['
  · obtain ⟨ws, es, hws, hes, hvs, rfl⟩ := value_array_of_delim hv hd
    have hex : ∀ a, ∃ res, ListSem (thenComma D) (es.map Elem.value) a res :=
      ListSem.exists _ (fun u hu a => by
        obtain ⟨e, he, rfl⟩ := List.mem_map.mp hu
        obtain ⟨res, hres⟩ := h e.value (hvs e he) a
        exact ⟨res, thenComma_sem hres⟩)
    obtain ⟨res, hres⟩ := hex a
    exact ⟨res, readArray_sem la (thenComma_fetched hf) hws hes hvs hres⟩
  · exact ⟨none, readContainer_mismatch _ _ la _ hv hd a⟩

theorem readMembers_exists {field : Str → Lexer → α → Lexer × α}
    (hff : ∀ k, Fetched (field k)) (hfs : ∀ k, Sticky (field k)) (h : ∀ k, Reads (field k))
    {ms : List Member} (hms : ∀ m ∈ ms, m.WF) (hvs : ∀ m ∈ ms, JsonValue m.value) :
    ∀ u ∈ ms.map Member.core, ∀ a, ∃ res, Sem ',' (readMember field) u a res := by
  intro u hu a
  obtain ⟨m, hm, rfl⟩ := List.mem_map.mp hu
  exact readMember_sem hff hfs (hms m hm) (hvs m hm) a (fun k _ => h k m.value (hvs m hm) a)

theorem readObject_reads {field : Str → Lexer → α → Lexer × α}
    (hff : ∀ k, Fetched (field k)) (hfs : ∀ k, Sticky (field k)) (h : ∀ k, Reads (field k)) :
    Reads (readContainer '{' '}' false (readMember field)) := by
  intro v hv a
  by_cases hd : valueDelim v = '{'
  · obtain ⟨ws, ms, hws, hms, hvs, rfl⟩ := value_object_of_delim hv hd
    obtain ⟨res, hres⟩ := ListSem.exists _ (readMembers_exists hff hfs h hms hvs) a
    exact ⟨res, readObject_sem (readMember_isFetched field) hws hms hres⟩
  · exact ⟨none, readContainer_mismatch _ _ false _ hv hd a⟩

theorem readMap_reads {D : Lexer → β → Lexer × β} (b0 : β) (hs : Sticky D) (h : Reads D) :
    Reads (readContainer '{' '}' false (readEntry D b0)) := by
  intro v hv a
  by_cases hd : valueDelim v = '{'
  · obtain ⟨ws, ms, hws, hms, hvs, rfl⟩ := value_object_of_delim hv hd
    have hex : ∀ a, ∃ res, ListSem (readEntry D b0) (ms.map Member.core) a res :=
      ListSem.exists _ (fun u hu a => by
        obtain ⟨m, hm, rfl⟩ := List.mem_map.mp hu
        obtain ⟨res, hres⟩ := h m.value (hvs m hm) b0
        exact ⟨_, readEntry_sem hs (hms m hm) hres a⟩)
    obtain ⟨res, hres⟩ := hex a
    exact ⟨res, readObject_sem (readEntry_isFetched D b0) hws hms hres⟩
  · exact ⟨none, readContainer_mismatch _ _ false _ hv hd a⟩

end Readers

/-! ## The generated decoders, piece by piece -/

section Decoders

variable {F : Type} (rt : Runtime F)

theorem readInterface_reads : Reads (readInterface rt) := by
  intro v hv b
  obtain ⟨res, hres⟩ := Interface_sem rt hv
  refine ⟨res, ?_⟩
  intro r w pre rest hat hpre hrest
  have hlen : v.length < interfaceFuel r := by
    unfold interfaceFuel
    rw [hat.data]
    simp only [List.length_append]
    omega
  exact hres (interfaceFuel r) hlen b r w pre rest hat hpre hrest

theorem readInterface_sticky : Sticky (readInterface rt) :=
  fun _ _ h => Interface_failed rt _ h

theorem skipValue_reads {α : Type} : Reads (skipValue rt : Lexer → α → Lexer × α) :=
  skip_reads rt.jsonValid

theorem skipValue_sticky {α : Type} : Sticky (skipValue rt : Lexer → α → Lexer × α) :=
  skip_sticky rt.jsonValid

theorem skipValue_isFetched {α : Type} : Fetched (skipValue rt : Lexer → α → Lexer × α) :=
  skip_isFetched rt.jsonValid

theorem decodeAttrib_eq : decodeAttrib rt = readEntry (readInterface rt) GoValue.nil := rfl

theorem readAttribs_reads : Reads (readAttribs rt) :=
  nullOr_reads _ (into_fetched _ _ (readContainer_isFetched _ _ _ _))
    (into_reads _ _ (readMap_reads _ (readInterface_sticky rt) (readInterface_reads rt)))

theorem readAttribs_sticky : Sticky (readAttribs rt) :=
  nullOr_sticky _ (into_sticky _ _ (readContainer_sticky _ _ _ _))

theorem readAttribs_isFetched : Fetched (readAttribs rt) := nullOr_isFetched _ _

theorem decodeRecipientField_unknown {k : Str} (h1 : k ≠ "uuid".toList)
    (h2 : k ≠ "email".toList) (h3 : k ≠ "name".toList) (h4 : k ≠ "attribs".toList)
    (h5 : k ≠ "status".toList) : decodeRecipientField rt k = skipValue rt := by
  funext r a
  unfold decodeRecipientField
  rw [if_neg h1, if_neg h2, if_neg h3, if_neg h4, if_neg h5]
  unfold skipValue
  rfl

theorem decodeRecipientField_cases (k : Str) :
    (∃ f, decodeRecipientField rt k = readString f) ∨
      decodeRecipientField rt k = readAttribs rt ∨ decodeRecipientField rt k = skipValue rt := by
  by_cases h1 : k = "uuid".toList
  · left
    refine ⟨fun out s => { out with UUID := s }, ?_⟩
    funext r a
    unfold decodeRecipientField
    rw [if_pos h1]
    rfl
  by_cases h2 : k = "email".toList
  · left
    refine ⟨fun out s => { out with Email := s }, ?_⟩
    funext r a
    unfold decodeRecipientField
    rw [if_neg h1, if_pos h2]
    rfl
  by_cases h3 : k = "name".toList
  · left
    refine ⟨fun out s => { out with Name := s }, ?_⟩
    funext r a
    unfold decodeRecipientField
    rw [if_neg h1, if_neg h2, if_pos h3]
    rfl
  by_cases h4 : k = "attribs".toList
  · right; left
    funext r a
    unfold decodeRecipientField
    rw [if_neg h1, if_neg h2, if_neg h3, if_pos h4]
    unfold readAttribs nullOr into readContainer
    simp only [Bool.false_eq_true, if_false, id]
    rfl
  by_cases h5 : k = "status".toList
  · left
    refine ⟨fun out s => { out with Status := s }, ?_⟩
    funext r a
    unfold decodeRecipientField
    rw [if_neg h1, if_neg h2, if_neg h3, if_neg h4, if_pos h5]
    rfl
  right; right
  exact decodeRecipientField_unknown rt h1 h2 h3 h4 h5

theorem decodeRecipientField_reads (k : Str) : Reads (decodeRecipientField rt k) := by
  rcases decodeRecipientField_cases rt k with ⟨f, h⟩ | h | h <;> rw [h]
  · exact readString_reads f
  · exact readAttribs_reads rt
  · exact skipValue_reads rt

theorem decodeRecipientField_sticky (k : Str) : Sticky (decodeRecipientField rt k) := by
  rcases decodeRecipientField_cases rt k with ⟨f, h⟩ | h | h <;> rw [h]
  · exact readString_sticky f
  · exact readAttribs_sticky rt
  · exact skipValue_sticky rt

theorem decodeRecipientField_isFetched (k : Str) : Fetched (decodeRecipientField rt k) := by
  rcases decodeRecipientField_cases rt k with ⟨f, h⟩ | h | h <;> rw [h]
  · exact readString_isFetched f
  · exact readAttribs_isFetched rt
  · exact skipValue_isFetched rt

theorem decodeRecipientMember_eq :
    decodeRecipientMember rt = readMember (decodeRecipientField rt) := rfl

end Decoders

section Decoders

variable {F : Type} (rt : Runtime F)

section Slice

variable {α β : Type}

theorem readSlice_reads (la : α → Bool) {D : Lexer → List β → Lexer × List β}
    (store : α → List β → α) (hf : Fetched D) (h : Reads D) :
    Reads (readSlice la (thenComma D) store) := by
  intro v hv a
  obtain ⟨res, hres⟩ := into_reads [] store (readArray_reads (la a) hf h) v hv a
  exact ⟨res, fun r w pre rest hat hpre hrest => hres r w pre rest hat hpre hrest⟩

theorem readSlice_sticky (la : α → Bool) (body : Lexer → List β → Lexer × List β)
    (store : α → List β → α) : Sticky (readSlice la body store) :=
  fun r a hr => into_sticky [] store (readContainer_sticky _ _ (la a) body) r a hr

theorem readSlice_isFetched (la : α → Bool) (body : Lexer → List β → Lexer × List β)
    (store : α → List β → α) : Fetched (readSlice la body store) :=
  fun r a hp => into_fetched [] store (readContainer_isFetched _ _ (la a) body) r a hp

end Slice

theorem decodeHeaderEntry_eq : decodeHeaderEntry = readEntry (readString fun _ s => s) [] := rfl

theorem decodeHeader_eq :
    decodeHeader = thenComma (into readHeaderMap none (fun hs v => hs ++ [v])) := by
  funext r a
  unfold decodeHeader thenComma into readHeaderMap nullOr into readContainer
  simp only [Bool.false_eq_true, if_false]
  rw [decodeHeaderEntry_eq]

theorem decodeTag_eq : decodeTag = thenComma (readString fun tags s => tags ++ [s]) := rfl

theorem readHeaderMap_reads : Reads readHeaderMap :=
  nullOr_reads _ (into_fetched _ _ (readContainer_isFetched _ _ _ _))
    (into_reads _ _ (readMap_reads _ (readString_sticky _) (readString_reads _)))

theorem readHeaderMap_sticky : Sticky readHeaderMap :=
  nullOr_sticky _ (into_sticky _ _ (readContainer_sticky _ _ _ _))

theorem readHeaderMap_isFetched : Fetched readHeaderMap := nullOr_isFetched _ _

theorem readHeaders_reads : Reads readHeaders :=
  nullOr_reads _ (readSlice_isFetched _ _ _)
    (readSlice_reads _ _ (into_fetched _ _ readHeaderMap_isFetched)
      (into_reads _ _ readHeaderMap_reads))

theorem readHeaders_sticky : Sticky readHeaders := nullOr_sticky _ (readSlice_sticky _ _ _)

theorem readHeaders_isFetched : Fetched readHeaders := nullOr_isFetched _ _

theorem readTags_reads : Reads readTags :=
  nullOr_reads _ (readSlice_isFetched _ _ _)
    (readSlice_reads _ _ (readString_isFetched _) (readString_reads _))

theorem readTags_sticky : Sticky readTags := nullOr_sticky _ (readSlice_sticky _ _ _)

theorem readTags_isFetched : Fetched readTags := nullOr_isFetched _ _

theorem decodeCampaignField_unknown {k : Str} (h1 : k ≠ "uuid".toList)
    (h2 : k ≠ "name".toList) (h3 : k ≠ "headers".toList) (h4 : k ≠ "tags".toList) :
    decodeCampaignField rt k = skipValue rt := by
  funext r a
  unfold decodeCampaignField
  rw [if_neg h1, if_neg h2, if_neg h3, if_neg h4]
  unfold skipValue
  rfl

theorem decodeCampaignField_cases (k : Str) :
    (∃ f, decodeCampaignField rt k = readString f) ∨
      decodeCampaignField rt k = readHeaders ∨ decodeCampaignField rt k = readTags ∨
      decodeCampaignField rt k = skipValue rt := by
  by_cases h1 : k = "uuid".toList
  · left
    refine ⟨fun out s => { out with UUID := s }, ?_⟩
    funext r a
    unfold decodeCampaignField
    rw [if_pos h1]
    rfl
  by_cases h2 : k = "name".toList
  · left
    refine ⟨fun out s => { out with Name := s }, ?_⟩
    funext r a
    unfold decodeCampaignField
    rw [if_neg h1, if_pos h2]
    rfl
  by_cases h3 : k = "headers".toList
  · right; left
    funext r a
    unfold decodeCampaignField
    rw [if_neg h1, if_neg h2, if_pos h3]
    unfold readHeaders nullOr readSlice into readContainer
    rw [decodeHeader_eq]
    rfl
  by_cases h4 : k = "tags".toList
  · right; right; left
    funext r a
    unfold decodeCampaignField
    rw [if_neg h1, if_neg h2, if_neg h3, if_pos h4]
    unfold readTags nullOr readSlice into readContainer
    rw [decodeTag_eq]
  right; right; right
  exact decodeCampaignField_unknown rt h1 h2 h3 h4

theorem decodeCampaignField_reads (k : Str) : Reads (decodeCampaignField rt k) := by
  rcases decodeCampaignField_cases rt k with ⟨f, h⟩ | h | h | h <;> rw [h]
  · exact readString_reads f
  · exact readHeaders_reads
  · exact readTags_reads
  · exact skipValue_reads rt

theorem decodeCampaignField_sticky (k : Str) : Sticky (decodeCampaignField rt k) := by
  rcases decodeCampaignField_cases rt k with ⟨f, h⟩ | h | h | h <;> rw [h]
  · exact readString_sticky f
  · exact readHeaders_sticky
  · exact readTags_sticky
  · exact skipValue_sticky rt

theorem decodeCampaignField_isFetched (k : Str) : Fetched (decodeCampaignField rt k) := by
  rcases decodeCampaignField_cases rt k with ⟨f, h⟩ | h | h | h <;> rw [h]
  · exact readString_isFetched f
  · exact readHeaders_isFetched
  · exact readTags_isFetched
  · exact skipValue_isFetched rt

theorem decodeCampaignMember_eq :
    decodeCampaignMember rt = readMember (decodeCampaignField rt) := rfl

end Decoders

section Decoders

variable {F : Type} (rt : Runtime F)

section Obj

variable {α : Type}

theorem objectDecoder_reads {field : Str → Lexer → α → Lexer × α}
    (hff : ∀ k, Fetched (field k)) (hfs : ∀ k, Sticky (field k)) (h : ∀ k, Reads (field k)) :
    Reads (objectDecoder field) :=
  nullOr_reads id (readContainer_isFetched _ _ _ _) (readObject_reads hff hfs h)

theorem objectDecoder_sticky (field : Str → Lexer → α → Lexer × α) :
    Sticky (objectDecoder field) :=
  nullOr_sticky id (readContainer_sticky _ _ _ _)

theorem objectDecoder_isFetched (field : Str → Lexer → α → Lexer × α) :
    Fetched (objectDecoder field) :=
  nullOr_isFetched id _

end Obj

/-- Past the start of the input the recipient decoder does not call `Consumed`. -/
theorem decodeRecipient_nested {r : Lexer} (h : r.IsStart = false)
    (out : recipient (GoValue F)) :
    easyjsonDf11841fDecodeGithubComKnadhListmonkInternalMessengerPostback1 rt r out =
      objectDecoder (decodeRecipientField rt) r out := by
  unfold easyjsonDf11841fDecodeGithubComKnadhListmonkInternalMessengerPostback1 objectDecoder
    nullOr readContainer
  simp only [h, Bool.false_eq_true, if_false, id]
  rfl

/-- Past the start of the input the campaign decoder does not call `Consumed`. -/
theorem decodeCampaign_nested {r : Lexer} (h : r.IsStart = false) (out : campaign) :
    easyjsonDf11841fDecodeGithubComKnadhListmonkInternalMessengerPostback2 rt r out =
      objectDecoder (decodeCampaignField rt) r out := by
  unfold easyjsonDf11841fDecodeGithubComKnadhListmonkInternalMessengerPostback2 objectDecoder
    nullOr readContainer
  simp only [h, Bool.false_eq_true, if_false, id]
  rfl

theorem recipientObject_reads : Reads (objectDecoder (decodeRecipientField rt)) :=
  objectDecoder_reads (decodeRecipientField_isFetched rt) (decodeRecipientField_sticky rt)
    (decodeRecipientField_reads rt)

theorem campaignObject_reads : Reads (objectDecoder (decodeCampaignField rt)) :=
  objectDecoder_reads (decodeCampaignField_isFetched rt) (decodeCampaignField_sticky rt)
    (decodeCampaignField_reads rt)

theorem decodeRecipientObject_reads :
    Reads (easyjsonDf11841fDecodeGithubComKnadhListmonkInternalMessengerPostback1 rt) :=
  Reads.congr (fun _ a hp => decodeRecipient_nested rt (IsStart_false hp) a)
    (recipientObject_reads rt)

theorem decodeCampaignObject_reads :
    Reads (easyjsonDf11841fDecodeGithubComKnadhListmonkInternalMessengerPostback2 rt) :=
  Reads.congr (fun _ a hp => decodeCampaign_nested rt (IsStart_false hp) a)
    (campaignObject_reads rt)

theorem decodeRecipientObject_isFetched :
    Fetched (easyjsonDf11841fDecodeGithubComKnadhListmonkInternalMessengerPostback1 rt) := by
  intro r a hp
  rw [decodeRecipient_nested rt (IsStart_fetched hp), decodeRecipient_nested rt (IsStart_false hp)]
  exact objectDecoder_isFetched _ r a hp

theorem decodeCampaignObject_isFetched :
    Fetched (easyjsonDf11841fDecodeGithubComKnadhListmonkInternalMessengerPostback2 rt) := by
  intro r a hp
  rw [decodeCampaign_nested rt (IsStart_fetched hp), decodeCampaign_nested rt (IsStart_false hp)]
  exact objectDecoder_isFetched _ r a hp

theorem ite_Consumed_failed (b : Bool) {r : Lexer} (h : r.Ok = false) :
    (if b = true then r.Consumed else r).Ok = false := by
  cases b
  · exact h
  · rw [if_pos rfl, Consumed_failed h]; exact h

theorem decodeRecipientObject_sticky :
    Sticky (easyjsonDf11841fDecodeGithubComKnadhListmonkInternalMessengerPostback1 rt) := by
  intro r a hr
  unfold easyjsonDf11841fDecodeGithubComKnadhListmonkInternalMessengerPostback1
  simp only [IsNull_failed hr, Bool.false_eq_true, if_false]
  exact ite_Consumed_failed _ (Delim_failed (delimLoop_failed _ _ _ (Delim_failed hr '{') a) '}')

theorem decodeCampaignObject_sticky :
    Sticky (easyjsonDf11841fDecodeGithubComKnadhListmonkInternalMessengerPostback2 rt) := by
  intro r a hr
  unfold easyjsonDf11841fDecodeGithubComKnadhListmonkInternalMessengerPostback2
  simp only [IsNull_failed hr, Bool.false_eq_true, if_false]
  exact ite_Consumed_failed _ (Delim_failed (delimLoop_failed _ _ _ (Delim_failed hr '{') a) '}')

theorem decodeRecipient_eq :
    decodeRecipient rt =
      thenComma
        (into (easyjsonDf11841fDecodeGithubComKnadhListmonkInternalMessengerPostback1 rt)
          recipient.zero (fun rs v => rs ++ [v])) := rfl

theorem readRecipients_reads : Reads (readRecipients rt) :=
  nullOr_reads _ (readSlice_isFetched _ _ _)
    (readSlice_reads _ _ (into_fetched _ _ (decodeRecipientObject_isFetched rt))
      (into_reads _ _ (decodeRecipientObject_reads rt)))

theorem readRecipients_sticky : Sticky (readRecipients rt) :=
  nullOr_sticky _ (readSlice_sticky _ _ _)

theorem readRecipients_isFetched : Fetched (readRecipients rt) := nullOr_isFetched _ _

theorem readCampaign_reads : Reads (readCampaign rt) := by
  refine nullOr_reads _ ?_ ?_
  · exact fun r a hp => into_fetched _ _ (decodeCampaignObject_isFetched rt) r a hp
  · intro v hv a
    obtain ⟨res, hres⟩ := into_reads (a.Campaign.getD campaign.zero)
      (fun (out : postback (GoValue F)) c => { out with Campaign := some c })
      (decodeCampaignObject_reads rt) v hv a
    exact ⟨res, fun r w pre rest hat hpre hrest => hres r w pre rest hat hpre hrest⟩

theorem readCampaign_sticky : Sticky (readCampaign rt) :=
  nullOr_sticky _ (fun r a hr => into_sticky _ _ (decodeCampaignObject_sticky rt) r a hr)

theorem readCampaign_isFetched : Fetched (readCampaign rt) := nullOr_isFetched _ _

theorem decodePostbackField_unknown {k : Str} (h1 : k ≠ "subject".toList)
    (h2 : k ≠ "content_type".toList) (h3 : k ≠ "body".toList) (h4 : k ≠ "recipients".toList)
    (h5 : k ≠ "campaign".toList) : decodePostbackField rt k = skipValue rt := by
  funext r a
  unfold decodePostbackField
  rw [if_neg h1, if_neg h2, if_neg h3, if_neg h4, if_neg h5]
  unfold skipValue
  rfl

theorem decodePostbackField_recipients :
    decodePostbackField rt "recipients".toList = readRecipients rt := by
  funext r a
  unfold decodePostbackField
  rw [if_neg (by decide), if_neg (by decide), if_neg (by decide), if_pos rfl]
  rw [decodeRecipient_eq]
  unfold readRecipients nullOr readSlice into readContainer
  dsimp only

theorem decodePostbackField_campaign :
    decodePostbackField rt "campaign".toList = readCampaign rt := by
  funext r a
  unfold decodePostbackField
  rw [if_neg (by decide), if_neg (by decide), if_neg (by decide), if_neg (by decide),
    if_pos rfl]
  unfold readCampaign nullOr into
  dsimp only

theorem decodePostbackField_cases (k : Str) :
    (∃ f, decodePostbackField rt k = readString f) ∨
      decodePostbackField rt k = readRecipients rt ∨
      decodePostbackField rt k = readCampaign rt ∨
      decodePostbackField rt k = skipValue rt := by
  by_cases h1 : k = "subject".toList
  · left
    refine ⟨fun out s => { out with Subject := s }, ?_⟩
    funext r a
    unfold decodePostbackField
    rw [if_pos h1]
    rfl
  by_cases h2 : k = "content_type".toList
  · left
    refine ⟨fun out s => { out with ContentType := s }, ?_⟩
    funext r a
    unfold decodePostbackField
    rw [if_neg h1, if_pos h2]
    rfl
  by_cases h3 : k = "body".toList
  · left
    refine ⟨fun out s => { out with Body := s }, ?_⟩
    funext r a
    unfold decodePostbackField
    rw [if_neg h1, if_neg h2, if_pos h3]
    rfl
  by_cases h4 : k = "recipients".toList
  · right; left
    rw [h4]
    exact decodePostbackField_recipients rt
  by_cases h5 : k = "campaign".toList
  · right; right; left
    rw [h5]
    exact decodePostbackField_campaign rt
  right; right; right
  exact decodePostbackField_unknown rt h1 h2 h3 h4 h5

theorem decodePostbackField_reads (k : Str) : Reads (decodePostbackField rt k) := by
  rcases decodePostbackField_cases rt k with ⟨f, h⟩ | h | h | h <;> rw [h]
  · exact readString_reads f
  · exact readRecipients_reads rt
  · exact readCampaign_reads rt
  · exact skipValue_reads rt

theorem decodePostbackField_sticky (k : Str) : Sticky (decodePostbackField rt k) := by
  rcases decodePostbackField_cases rt k with ⟨f, h⟩ | h | h | h <;> rw [h]
  · exact readString_sticky f
  · exact readRecipients_sticky rt
  · exact readCampaign_sticky rt
  · exact skipValue_sticky rt

theorem decodePostbackField_isFetched (k : Str) : Fetched (decodePostbackField rt k) := by
  rcases decodePostbackField_cases rt k with ⟨f, h⟩ | h | h | h <;> rw [h]
  · exact readString_isFetched f
  · exact readRecipients_isFetched rt
  · exact readCampaign_isFetched rt
  · exact skipValue_isFetched rt

theorem decodePostbackMember_eq :
    decodePostbackMember rt = readMember (decodePostbackField rt) := rfl

end Decoders

/-! ## The decoder at the start of the input -/

theorem consumedLoop_ws {ws : Str} (hws : IsWs ws) (r : Lexer) :
    (consumedLoop ws r).fatalError = r.fatalError := by
  induction ws generalizing r with
  | nil => rfl
  | cons c ws ih =>
    have hc := (isWs_cons hws).1
    have h1 : ¬ (c ≠ ' ' ∧ c ≠ '\t' ∧ c ≠ '\r' ∧ c ≠ '\n') := by
      rcases hc with h | h | h | h <;> subst h <;> decide
    rw [consumedLoop, if_neg h1, ih (isWs_cons hws).2]
    rfl

/-- Behind the value only white space is left: `Consumed` records no error. -/
theorem Consumed_ws {r : Lexer} {ws : Str} {w : Char} (hat : r.At ws w) (hws : IsWs ws) :
    r.Consumed.Error = none := by
  unfold Lexer.Consumed Lexer.Error
  rw [if_neg (by simp [hat.isOkAt]), hat.data, consumedLoop_ws hws]
  exact hat.idle.ok

theorem Delim_open_idle {r : Lexer} (h : r.Idle) {pre t : Str} {o : Char}
    (ho : o = '{' ∨ o = '[') (hd : r.Data = pre ++ o :: t) (hpre : Pre r.wantSep pre) :
    (r.Delim o).At t NUL ∧ (r.Delim o).firstElement = true := by
  have hf := fetch_open h pre t o ho hpre hd
  unfold Lexer.Delim
  rw [hf]
  simp only [Lexer.Ok, Lexer.withToken, h.ok, Option.isNone_none, not_true_eq_false,
    ne_eq, or_self, if_false]
  exact ⟨⟨⟨rfl, rfl, rfl⟩, by show 0 < r.pos + _; omega, rfl, rfl⟩, rfl⟩

theorem IsNull_open_idle {r : Lexer} (h : r.Idle) {pre t : Str} {o : Char}
    (ho : o = '{' ∨ o = '[') (hd : r.Data = pre ++ o :: t) (hpre : Pre r.wantSep pre) :
    r.IsNull = (false, r.fetchIfUndef) := by
  have hf := fetch_open h pre t o ho hpre hd
  unfold Lexer.IsNull
  rw [hf]
  simp [Lexer.withToken]

section Top

variable {F : Type} (rt : Runtime F)

/-- What `UnmarshalJSON` returns on an object text, from what the rounds of its loop do. -/
theorem UnmarshalJSON_object (v : postback (GoValue F)) {w0 w1 ws : Str} {ms : List Member}
    (hw0 : IsWs w0) (hw1 : IsWs w1) (hws : IsWs ws) (hms : ∀ m ∈ ms, m.WF)
    {res : Option (postback (GoValue F))}
    (hres : ListSem (decodePostbackMember rt) (ms.map Member.core) v res) :
    match res with
    | some a => UnmarshalJSON rt v (w0 ++ objectText ws ms ++ w1) = (a, none)
    | none => (UnmarshalJSON rt v (w0 ++ objectText ws ms ++ w1)).2 ≠ none := by
  have hidle : (Lexer.new (w0 ++ objectText ws ms ++ w1)).Idle := ⟨rfl, rfl, rfl⟩
  have hd : (Lexer.new (w0 ++ objectText ws ms ++ w1)).Data =
      w0 ++ '{' :: (ws ++ startText '}' (ms.map Member.item) w1) := by
    show w0 ++ objectText ws ms ++ w1 = _
    rw [← startText_eq, Member.map_item_text]
    simp [objectText]
  have hpre : Pre (Lexer.new (w0 ++ objectText ws ms ++ w1)).wantSep w0 := Pre.of_nul hw0
  obtain ⟨hat1, hfe⟩ := Delim_open_idle hidle (Or.inl rfl) hd hpre
  have hnull := IsNull_open_idle hidle (Or.inl rfl) hd hpre
  have hfuel : (ms.map Member.item).length <
      loopFuel ((Lexer.new (w0 ++ objectText ws ms ++ w1)).Delim '{') := by
    unfold loopFuel
    rw [hat1.data, List.length_append]
    have := startText_length '}' (ms.map Member.item) w1
    omega
  have hloop := delimLoop_start '}' (decodePostbackMember rt) (Or.inl rfl)
    (readMember_isFetched (decodePostbackField rt)) (ms.map Member.item) (members_items hms)
    v res (by rw [Member.map_item_core]; exact hres) _ ws w1 _ hat1 hfe hws hfuel
  have hun : UnmarshalJSON rt v (w0 ++ objectText ws ms ++ w1) =
      ((((delimLoop '}' (decodePostbackMember rt)
          (loopFuel ((Lexer.new (w0 ++ objectText ws ms ++ w1)).Delim '{'))
          ((Lexer.new (w0 ++ objectText ws ms ++ w1)).Delim '{') v).1.Delim '}').Consumed,
        (delimLoop '}' (decodePostbackMember rt)
          (loopFuel ((Lexer.new (w0 ++ objectText ws ms ++ w1)).Delim '{'))
          ((Lexer.new (w0 ++ objectText ws ms ++ w1)).Delim '{') v).2).2,
       (((delimLoop '}' (decodePostbackMember rt)
          (loopFuel ((Lexer.new (w0 ++ objectText ws ms ++ w1)).Delim '{'))
          ((Lexer.new (w0 ++ objectText ws ms ++ w1)).Delim '{') v).1.Delim '}').Consumed).Error) := by
    unfold UnmarshalJSON easyjsonDf11841fDecodeGithubComKnadhListmonkInternalMessengerPostback
    simp only [hnull, Bool.false_eq_true, if_false, Delim_fetched]
    rfl
  rw [hun]
  cases res with
  | none =>
    have hok : ((delimLoop '}' (decodePostbackMember rt)
          (loopFuel ((Lexer.new (w0 ++ objectText ws ms ++ w1)).Delim '{'))
          ((Lexer.new (w0 ++ objectText ws ms ++ w1)).Delim '{') v).1.Delim '}').Ok = false :=
      hloop
    rw [Consumed_failed hok]
    show Lexer.Error _ ≠ none
    unfold Lexer.Error
    rw [ok_false_iff] at hok
    intro h
    rw [h] at hok
    exact absurd hok (by simp)
  | some a =>
    obtain ⟨e1, e2⟩ := hloop
    show (_, _) = (a, none)
    rw [Consumed_ws e2 hw1]
    exact congrArg (fun x => (x, none)) e1

end Top

/-! ## A well-formed string unescapes -/

theorem StrBody.drop_index {b : Str} (hb : StrBody b) :
    ∀ {i : Nat}, indexByte b '\\' = some i → ∃ t, b.drop i = '\\' :: t ∧ StrBody ('\\' :: t) := by
  induction hb with
  | nil => intro i hi; simp [indexByte] at hi
  | unescaped c b h32 hq hbs hb ih =>
    intro i hi
    rw [indexByte, if_neg hbs] at hi
    cases hj : indexByte b '\\' with
    | none => rw [hj] at hi; simp at hi
    | some j =>
      rw [hj] at hi
      have : i = j + 1 := by simpa using hi.symm
      subst this
      exact ih hj
  | escape e b he hb _ =>
    intro i hi
    rw [indexByte, if_pos rfl] at hi
    have : i = 0 := by simpa using hi.symm
    subst this
    exact ⟨e :: b, rfl, StrBody.escape e b he hb⟩
  | unicode h1 h2 h3 h4 b a1 a2 a3 a4 hb _ =>
    intro i hi
    rw [indexByte, if_pos rfl] at hi
    have : i = 0 := by simpa using hi.symm
    subst this
    exact ⟨_, rfl, StrBody.unicode h1 h2 h3 h4 b a1 a2 a3 a4 hb⟩

theorem getu4_some {h1 h2 h3 h4 : Char} (a1 : IsHexDigit h1) (a2 : IsHexDigit h2)
    (a3 : IsHexDigit h3) (a4 : IsHexDigit h4) (b : Str) :
    ∃ rr, getu4 ('\\' :: 'u' :: h1 :: h2 :: h3 :: h4 :: b) = some rr := by
  unfold IsHexDigit at a1 a2 a3 a4
  obtain ⟨x1, e1⟩ := Option.isSome_iff_exists.mp a1
  obtain ⟨x2, e2⟩ := Option.isSome_iff_exists.mp a2
  obtain ⟨x3, e3⟩ := Option.isSome_iff_exists.mp a3
  obtain ⟨x4, e4⟩ := Option.isSome_iff_exists.mp a4
  exact ⟨((x1 * 16 + x2) * 16 + x3) * 16 + x4, by simp [getu4, e1, e2, e3, e4]⟩

theorem getu4_shape {s : Str} {rr : Nat} (h : getu4 s = some rr) :
    ∃ a b c d t, s = '\\' :: 'u' :: a :: b :: c :: d :: t := by
  unfold getu4 at h
  split at h
  · exact ⟨_, _, _, _, _, rfl⟩
  · exact absurd h (by simp)

theorem StrBody.drop_unicode {a b c d : Char} {t : Str}
    (h : StrBody ('\\' :: 'u' :: a :: b :: c :: d :: t)) : StrBody t := by
  cases h with
  | unescaped _ _ _ _ hbs _ => exact absurd rfl hbs
  | escape _ _ he _ => rcases he with h | h | h | h | h | h | h | h <;> exact absurd h (by decide)
  | unicode _ _ _ _ _ _ _ _ _ hb => exact hb

/-- The escape at the head of a well-formed string body decodes, and what follows it is a
well-formed string body again. -/
theorem decodeEscape_strBody {t : Str} (hb : StrBody ('\\' :: t)) :
    ∃ rr k, decodeEscape ('\\' :: t) = .ok (rr, k) ∧ StrBody (('\\' :: t).drop k) := by
  cases hb with
  | unescaped _ _ _ _ hbs _ => exact absurd rfl hbs
  | escape e b he hb =>
    rcases he with h | h | h | h | h | h | h | h <;> subst h
    · exact ⟨34, 2, by simp [decodeEscape], hb⟩
    · exact ⟨92, 2, by simp [decodeEscape], hb⟩
    · exact ⟨47, 2, by simp [decodeEscape], hb⟩
    · exact ⟨8, 2, by simp [decodeEscape], hb⟩
    · exact ⟨12, 2, by simp [decodeEscape], hb⟩
    · exact ⟨10, 2, by simp [decodeEscape], hb⟩
    · exact ⟨13, 2, by simp [decodeEscape], hb⟩
    · exact ⟨9, 2, by simp [decodeEscape], hb⟩
  | unicode h1 h2 h3 h4 b a1 a2 a3 a4 hb =>
    obtain ⟨rr, hrr⟩ := getu4_some a1 a2 a3 a4 b
    by_cases hs : isSurrogate rr = true
    · by_cases hdec : utf16DecodeRune rr (getu4 b) ≠ replacementChar
      · have hsome : ∃ r2, getu4 b = some r2 := by
          cases hg : getu4 b with
          | none => rw [hg] at hdec; exact absurd rfl hdec
          | some r2 => exact ⟨r2, rfl⟩
        obtain ⟨r2, hr2⟩ := hsome
        obtain ⟨a, b', c, d, t', rfl⟩ := getu4_shape hr2
        rw [hr2] at hdec
        refine ⟨utf16DecodeRune rr (some r2), 12, ?_, hb.drop_unicode⟩
        simp only [decodeEscape, Char.reduceEq, or_self, if_false, if_true, hrr, hs,
          List.drop_succ_cons, List.drop_zero, ne_eq]
        rw [hr2, if_pos hdec]
      · refine ⟨replacementChar, 6, ?_, hb⟩
        simp only [decodeEscape, Char.reduceEq, or_self, if_false, if_true, hrr, hs,
          List.drop_succ_cons, List.drop_zero, hdec]
    · refine ⟨rr, 6, ?_, hb⟩
      simp only [decodeEscape, Char.reduceEq, or_self, if_false, if_true, hrr, hs,
        Bool.false_eq_true]

theorem unescapeLoop_ok (n : Nat) : ∀ {b : Str}, StrBody b → ∃ k, unescapeLoop n b = .ok k := by
  induction n with
  | zero => intro b _; exact ⟨b, rfl⟩
  | succ n ih =>
    intro b hb
    rw [unescapeLoop]
    cases hi : indexByte b '\\' with
    | none => exact ⟨b, rfl⟩
    | some i =>
      obtain ⟨t, ht, hbt⟩ := hb.drop_index hi
      obtain ⟨rr, k, hk, hrest⟩ := decodeEscape_strBody hbt
      obtain ⟨s, hs⟩ := ih (b := b.drop (i + k)) (by
        rw [← List.drop_drop, ht]; exact hrest)
      simp only [ht, hk, hs]
      exact ⟨_, rfl⟩

/-- The body of a well-formed string unescapes. -/
theorem unescape_ok {b : Str} (hb : StrBody b) : ∃ k, unescape b = .ok k :=
  unescapeLoop_ok _ hb

/-! ## One member more -/

section Insert

variable {F : Type} (rt : Runtime F) {α : Type}

/-- A round on a member the `switch key` does not know leaves the data as it is. -/
theorem unknownMember_sem {field : Str → Lexer → α → Lexer × α}
    (hff : ∀ k, Fetched (field k)) {m : Member} (hm : m.WF) (hv : JsonValue m.value)
    (hjv : valueDelim m.value ≠ NUL → rt.jsonValid m.value = true)
    (hunk : ∀ k, unescape m.key = .ok k → field k = skipValue rt) (a : α) :
    Sem ',' (readMember field) m.core a (some a) := by
  obtain ⟨_, hkey, hw2, hw3, _⟩ := hm
  obtain ⟨k, hk⟩ := unescape_ok hkey
  by_cases hnn : valueKind m.value = .tokenNull
  · exact readMember_sem_null field hkey hk hw2 hw3 (value_null_of_kind hv hnn) a
  · refine readMember_sem_field hff hkey hk hw2 hw3 hv hnn ?_
    rw [hunk k hk]
    have h := SkipRecursive_sem rt.jsonValid hv a
    have hc : valueDelim m.value = NUL ∨ rt.jsonValid m.value = true := by
      by_cases h0 : valueDelim m.value = NUL
      · exact Or.inl h0
      · exact Or.inr (hjv h0)
    rw [if_pos hc] at h
    exact h

theorem members_append {xs ys : List Member} {m : Member} {P : Member → Prop}
    (h : ∀ x ∈ xs ++ ys, P x) (hm : P m) : ∀ x ∈ xs ++ m :: ys, P x := by
  intro x hx
  rcases List.mem_append.mp hx with h1 | h1
  · exact h x (List.mem_append_left _ h1)
  · rcases List.mem_cons.mp h1 with h2 | h2
    · exact h2 ▸ hm
    · exact h x (List.mem_append_right _ h2)

theorem elems_append {xs ys : List Elem} {m : Elem} {P : Elem → Prop}
    (h : ∀ x ∈ xs ++ ys, P x) (hm : P m) : ∀ x ∈ xs ++ m :: ys, P x := by
  intro x hx
  rcases List.mem_append.mp hx with h1 | h1
  · exact h x (List.mem_append_left _ h1)
  · rcases List.mem_cons.mp h1 with h2 | h2
    · exact h2 ▸ hm
    · exact h x (List.mem_append_right _ h2)

/-- The rounds over the members of an object, with and without a member that changes
nothing. -/
theorem readMembers_insert {field : Str → Lexer → α → Lexer × α}
    (hff : ∀ k, Fetched (field k)) (hfs : ∀ k, Sticky (field k)) (hfr : ∀ k, Reads (field k))
    {xs ys : List Member} (hms : ∀ x ∈ xs ++ ys, x.WF) (hvs : ∀ x ∈ xs ++ ys, JsonValue x.value)
    {m : Member} (hm : ∀ a, Sem ',' (readMember field) m.core a (some a)) (a : α) :
    ∃ res, ListSem (readMember field) ((xs ++ ys).map Member.core) a res ∧
      ListSem (readMember field) ((xs ++ m :: ys).map Member.core) a res := by
  have h := ListSem.insert (xs.map Member.core) (ys.map Member.core) m.core
    (by
      rw [← List.map_append]
      exact readMembers_exists hff hfs hfr hms hvs) hm a
  rw [← List.map_append, ← List.map_cons, ← List.map_append] at h
  exact h

/-- The rounds over the members of an object, with one member changed for one that is read the
same way. -/
theorem readMembers_replace {field : Str → Lexer → α → Lexer × α}
    (hff : ∀ k, Fetched (field k)) (hfs : ∀ k, Sticky (field k)) (hfr : ∀ k, Reads (field k))
    {xs ys : List Member} (hms : ∀ x ∈ xs ++ ys, x.WF) (hvs : ∀ x ∈ xs ++ ys, JsonValue x.value)
    {M M' : Member}
    (hM : ∀ a, ∃ res, Sem ',' (readMember field) M.core a res ∧
      Sem ',' (readMember field) M'.core a res) (a : α) :
    ∃ res, ListSem (readMember field) ((xs ++ M :: ys).map Member.core) a res ∧
      ListSem (readMember field) ((xs ++ M' :: ys).map Member.core) a res := by
  have h := ListSem.replace (xs.map Member.core) (ys.map Member.core) M.core M'.core
    (by
      rw [← List.map_append]
      exact readMembers_exists hff hfs hfr hms hvs) hM a
  rw [← List.map_cons, ← List.map_append, ← List.map_cons, ← List.map_append] at h
  exact h

/-- The rounds over the elements of an array, with one element changed for one that is read
the same way. -/
theorem readElems_replace {D : Lexer → α → Lexer × α} (hr : Reads D)
    {es1 es2 : List Elem} (hvs : ∀ x ∈ es1 ++ es2, JsonValue x.value) {e e' : Elem}
    (he : ∀ a, ∃ res, Sem ',' (thenComma D) e.value a res ∧
      Sem ',' (thenComma D) e'.value a res) (a : α) :
    ∃ res, ListSem (thenComma D) ((es1 ++ e :: es2).map Elem.value) a res ∧
      ListSem (thenComma D) ((es1 ++ e' :: es2).map Elem.value) a res := by
  have h := ListSem.replace (es1.map Elem.value) (es2.map Elem.value) e.value e'.value
    (by
      rw [← List.map_append]
      intro u hu a
      obtain ⟨x, hx, rfl⟩ := List.mem_map.mp hu
      obtain ⟨res, hres⟩ := hr x.value (hvs x hx) a
      exact ⟨res, thenComma_sem hres⟩) he a
  rw [← List.map_cons, ← List.map_append, ← List.map_cons, ← List.map_append] at h
  exact h

theorem valueKind_object (ws : Str) (ms : List Member) :
    valueKind (objectText ws ms) ≠ .tokenNull := by
  simp [objectText, valueKind]

theorem valueKind_array (ws : Str) (es : List Elem) :
    valueKind (arrayText ws es) ≠ .tokenNull := by
  simp [arrayText, valueKind]

/-- A nested object decoder reads an object the same way with and without a member that
changes nothing. -/
theorem objectDecoder_insert {field : Str → Lexer → α → Lexer × α}
    (hff : ∀ k, Fetched (field k)) (hfs : ∀ k, Sticky (field k)) (hfr : ∀ k, Reads (field k))
    {ws : Str} {xs ys : List Member} (hwf : MembersWF ws (xs ++ ys)) {m : Member} (hmw : m.WF)
    (hmv : JsonValue m.value) (hm : ∀ a, Sem ',' (readMember field) m.core a (some a))
    (a : α) :
    ∃ res, Sem NUL (objectDecoder field) (objectText ws (xs ++ ys)) a res ∧
      Sem NUL (objectDecoder field) (objectText ws (xs ++ m :: ys)) a res := by
  obtain ⟨hws, hms, hvs⟩ := hwf
  obtain ⟨res, h1, h2⟩ := readMembers_insert hff hfs hfr hms hvs hm a
  have hms' := members_append hms hmw
  have hvs' := members_append (P := fun x => JsonValue x.value) hvs hmv
  exact ⟨res,
    nullOr_sem_other id (readContainer_isFetched _ _ _ _) (JsonValue.object _ _ hws hms hvs)
      (valueKind_object _ _) (readObject_sem (readMember_isFetched field) hws hms h1),
    nullOr_sem_other id (readContainer_isFetched _ _ _ _) (JsonValue.object _ _ hws hms' hvs')
      (valueKind_object _ _) (readObject_sem (readMember_isFetched field) hws hms' h2)⟩

end Insert

section Paths

variable {F : Type} (rt : Runtime F)

theorem Member.Unknown.ne {known : List Str} {m : Member} (h : m.Unknown known) {k : Str}
    (hk : unescape m.key = .ok k) {n : Str} (hn : n ∈ known) : k ≠ n :=
  fun e => h n hn (e ▸ hk)

/-- A round of the recipient decoder on a member it does not know. -/
theorem recipient_unknown_sem {m : Member} (hmw : m.WF) (hmv : JsonValue m.value)
    (hjv : valueDelim m.value ≠ NUL → rt.jsonValid m.value = true)
    (hunk : m.Unknown recipientKeys) (a : recipient (GoValue F)) :
    Sem ',' (readMember (decodeRecipientField rt)) m.core a (some a) :=
  unknownMember_sem rt (decodeRecipientField_isFetched rt) hmw hmv hjv
    (fun _ hk => decodeRecipientField_unknown rt
      (hunk.ne hk (by simp [recipientKeys])) (hunk.ne hk (by simp [recipientKeys]))
      (hunk.ne hk (by simp [recipientKeys])) (hunk.ne hk (by simp [recipientKeys]))
      (hunk.ne hk (by simp [recipientKeys]))) a

/-- A round of the campaign decoder on a member it does not know. -/
theorem campaign_unknown_sem {m : Member} (hmw : m.WF) (hmv : JsonValue m.value)
    (hjv : valueDelim m.value ≠ NUL → rt.jsonValid m.value = true)
    (hunk : m.Unknown campaignKeys) (a : campaign) :
    Sem ',' (readMember (decodeCampaignField rt)) m.core a (some a) :=
  unknownMember_sem rt (decodeCampaignField_isFetched rt) hmw hmv hjv
    (fun _ hk => decodeCampaignField_unknown rt
      (hunk.ne hk (by simp [campaignKeys])) (hunk.ne hk (by simp [campaignKeys]))
      (hunk.ne hk (by simp [campaignKeys])) (hunk.ne hk (by simp [campaignKeys]))) a

/-- A round of the postback decoder on a member it does not know. -/
theorem postback_unknown_sem {m : Member} (hmw : m.WF) (hmv : JsonValue m.value)
    (hjv : valueDelim m.value ≠ NUL → rt.jsonValid m.value = true)
    (hunk : m.Unknown postbackKeys) (a : postback (GoValue F)) :
    Sem ',' (readMember (decodePostbackField rt)) m.core a (some a) :=
  unknownMember_sem rt (decodePostbackField_isFetched rt) hmw hmv hjv
    (fun _ hk => decodePostbackField_unknown rt
      (hunk.ne hk (by simp [postbackKeys])) (hunk.ne hk (by simp [postbackKeys]))
      (hunk.ne hk (by simp [postbackKeys])) (hunk.ne hk (by simp [postbackKeys]))
      (hunk.ne hk (by simp [postbackKeys]))) a

/-- The recipient decoder reads a recipient the same way with and without a member that changes
nothing. -/
theorem decodeRecipientObject_noop {m : Member} (hmw : m.WF) (hmv : JsonValue m.value)
    (hm : ∀ a, Sem ',' (readMember (decodeRecipientField rt)) m.core a (some a)) {wr : Str} {ps qs : List Member}
    (hob : MembersWF wr (ps ++ qs)) (b : recipient (GoValue F)) :
    ∃ res,
      Sem NUL (easyjsonDf11841fDecodeGithubComKnadhListmonkInternalMessengerPostback1 rt)
        (objectText wr (ps ++ qs)) b res ∧
      Sem NUL (easyjsonDf11841fDecodeGithubComKnadhListmonkInternalMessengerPostback1 rt)
        (objectText wr (ps ++ m :: qs)) b res := by
  obtain ⟨res, h1, h2⟩ := objectDecoder_insert (decodeRecipientField_isFetched rt)
    (decodeRecipientField_sticky rt) (decodeRecipientField_reads rt) hob hmw hmv
    hm b
  exact ⟨res, Sem.agree (fun _ hp => decodeRecipient_nested rt (IsStart_false hp) b) h1,
    Sem.agree (fun _ hp => decodeRecipient_nested rt (IsStart_false hp) b) h2⟩

/-- The recipient decoder reads a recipient the same way with and without a member it does not
know. -/
theorem decodeRecipientObject_insert {m : Member} (hmw : m.WF) (hmv : JsonValue m.value)
    (hjv : valueDelim m.value ≠ NUL → rt.jsonValid m.value = true)
    (hunk : m.Unknown recipientKeys) {wr : Str} {ps qs : List Member}
    (hob : MembersWF wr (ps ++ qs)) (b : recipient (GoValue F)) :
    ∃ res,
      Sem NUL (easyjsonDf11841fDecodeGithubComKnadhListmonkInternalMessengerPostback1 rt)
        (objectText wr (ps ++ qs)) b res ∧
      Sem NUL (easyjsonDf11841fDecodeGithubComKnadhListmonkInternalMessengerPostback1 rt)
        (objectText wr (ps ++ m :: qs)) b res :=
  decodeRecipientObject_noop rt hmw hmv (recipient_unknown_sem rt hmw hmv hjv hunk) hob b

/-- The campaign decoder reads a campaign the same way with and without a member that changes
nothing. -/
theorem decodeCampaignObject_noop {m : Member} (hmw : m.WF) (hmv : JsonValue m.value)
    (hm : ∀ a, Sem ',' (readMember (decodeCampaignField rt)) m.core a (some a)) {wc : Str} {ps qs : List Member}
    (hob : MembersWF wc (ps ++ qs)) (b : campaign) :
    ∃ res,
      Sem NUL (easyjsonDf11841fDecodeGithubComKnadhListmonkInternalMessengerPostback2 rt)
        (objectText wc (ps ++ qs)) b res ∧
      Sem NUL (easyjsonDf11841fDecodeGithubComKnadhListmonkInternalMessengerPostback2 rt)
        (objectText wc (ps ++ m :: qs)) b res := by
  obtain ⟨res, h1, h2⟩ := objectDecoder_insert (decodeCampaignField_isFetched rt)
    (decodeCampaignField_sticky rt) (decodeCampaignField_reads rt) hob hmw hmv
    hm b
  exact ⟨res, Sem.agree (fun _ hp => decodeCampaign_nested rt (IsStart_false hp) b) h1,
    Sem.agree (fun _ hp => decodeCampaign_nested rt (IsStart_false hp) b) h2⟩

/-- The campaign decoder reads a campaign the same way with and without a member it does not
know. -/
theorem decodeCampaignObject_insert {m : Member} (hmw : m.WF) (hmv : JsonValue m.value)
    (hjv : valueDelim m.value ≠ NUL → rt.jsonValid m.value = true)
    (hunk : m.Unknown campaignKeys) {wc : Str} {ps qs : List Member}
    (hob : MembersWF wc (ps ++ qs)) (b : campaign) :
    ∃ res,
      Sem NUL (easyjsonDf11841fDecodeGithubComKnadhListmonkInternalMessengerPostback2 rt)
        (objectText wc (ps ++ qs)) b res ∧
      Sem NUL (easyjsonDf11841fDecodeGithubComKnadhListmonkInternalMessengerPostback2 rt)
        (objectText wc (ps ++ m :: qs)) b res :=
  decodeCampaignObject_noop rt hmw hmv (campaign_unknown_sem rt hmw hmv hjv hunk) hob b

theorem MembersWF.with_member {ws : Str} {xs ys : List Member} (h : MembersWF ws (xs ++ ys))
    {m : Member} (hmw : m.WF) (hmv : JsonValue m.value) : MembersWF ws (xs ++ m :: ys) :=
  ⟨h.1, members_append h.2.1 hmw, members_append (P := fun x => JsonValue x.value) h.2.2 hmv⟩

theorem MembersWF.object_value {ws : Str} {ms : List Member} (h : MembersWF ws ms) :
    JsonValue (objectText ws ms) :=
  JsonValue.object ws ms h.1 h.2.1 h.2.2

theorem ElemsWF.with_elem {ws : Str} {xs ys : List Elem} (h : ElemsWF ws (xs ++ ys))
    {e : Elem} (hew : e.WF) (hev : JsonValue e.value) : ElemsWF ws (xs ++ e :: ys) :=
  ⟨h.1, elems_append h.2.1 hew, elems_append (P := fun x => JsonValue x.value) h.2.2 hev⟩

theorem ElemsWF.array_value {ws : Str} {es : List Elem} (h : ElemsWF ws es) :
    JsonValue (arrayText ws es) :=
  JsonValue.array ws es h.1 h.2.1 h.2.2

/-- The member named `recipients` is read the same way with and without a member that changes
nothing in one of its recipients. -/
theorem recipients_noop {m : Member} (hmw : m.WF) (hmv : JsonValue m.value)
    (hm : ∀ a, Sem ',' (readMember (decodeRecipientField rt)) m.core a (some a)) {M : Member} (hM : M.WF)
    (hMk : unescape M.key = .ok "recipients".toList) {wa : Str} {es1 es2 : List Elem}
    (hes : ElemsWF wa (es1 ++ es2)) {e : Elem} (he : e.WF) {wr : Str} {ps qs : List Member}
    (hob : MembersWF wr (ps ++ qs)) (a : postback (GoValue F)) :
    ∃ res,
      Sem ',' (readMember (decodePostbackField rt))
        (M.withValue (arrayText wa
          (es1 ++ e.withValue (objectText wr (ps ++ qs)) :: es2))).core a res ∧
      Sem ',' (readMember (decodePostbackField rt))
        (M.withValue (arrayText wa
          (es1 ++ e.withValue (objectText wr (ps ++ m :: qs)) :: es2))).core a res := by
  have hob' := hob.with_member hmw hmv
  have hes1 : ElemsWF wa (es1 ++ e.withValue (objectText wr (ps ++ qs)) :: es2) :=
    hes.with_elem he hob.object_value
  have hes2 : ElemsWF wa (es1 ++ e.withValue (objectText wr (ps ++ m :: qs)) :: es2) :=
    hes.with_elem he hob'.object_value
  -- one recipient
  have hround : ∀ rs : List (recipient (GoValue F)), ∃ res,
      Sem ','
        (thenComma
          (into (easyjsonDf11841fDecodeGithubComKnadhListmonkInternalMessengerPostback1 rt)
            recipient.zero (fun rs v => rs ++ [v])))
        (e.withValue (objectText wr (ps ++ qs))).value rs res ∧
      Sem ','
        (thenComma
          (into (easyjsonDf11841fDecodeGithubComKnadhListmonkInternalMessengerPostback1 rt)
            recipient.zero (fun rs v => rs ++ [v])))
        (e.withValue (objectText wr (ps ++ m :: qs))).value rs res := by
    intro rs
    obtain ⟨res, h1, h2⟩ := decodeRecipientObject_noop rt hmw hmv hm hob recipient.zero
    exact ⟨_, thenComma_sem (into_sem _ rs h1), thenComma_sem (into_sem _ rs h2)⟩
  -- the array
  obtain ⟨resl, hl1, hl2⟩ := readElems_replace
    (into_reads recipient.zero (fun (rs : List (recipient (GoValue F))) v => rs ++ [v])
      (decodeRecipientObject_reads rt)) hes.2.2 hround []
  have hbf := thenComma_fetched
    (into_fetched recipient.zero (fun (rs : List (recipient (GoValue F))) v => rs ++ [v])
      (decodeRecipientObject_isFetched rt))
  have ha1 := readArray_sem a.Recipients.isNone hbf hes1.1 hes1.2.1 hes1.2.2 hl1
  have ha2 := readArray_sem a.Recipients.isNone hbf hes2.1 hes2.2.1 hes2.2.2 hl2
  have hs1 := into_sem (fun (out : postback (GoValue F)) rs => { out with Recipients := some rs })
    a ha1
  have hs2 := into_sem (fun (out : postback (GoValue F)) rs => { out with Recipients := some rs })
    a ha2
  -- the member
  have hf1 : Sem NUL (decodePostbackField rt "recipients".toList)
      (arrayText wa (es1 ++ e.withValue (objectText wr (ps ++ qs)) :: es2)) a
      (resl.map fun rs => { a with Recipients := some rs }) := by
    rw [decodePostbackField_recipients]
    exact nullOr_sem_other _ (readSlice_isFetched _ _ _) hes1.array_value (valueKind_array _ _)
      (fun r w pre rest hat hpre hrest => hs1 r w pre rest hat hpre hrest)
  have hf2 : Sem NUL (decodePostbackField rt "recipients".toList)
      (arrayText wa (es1 ++ e.withValue (objectText wr (ps ++ m :: qs)) :: es2)) a
      (resl.map fun rs => { a with Recipients := some rs }) := by
    rw [decodePostbackField_recipients]
    exact nullOr_sem_other _ (readSlice_isFetched _ _ _) hes2.array_value (valueKind_array _ _)
      (fun r w pre rest hat hpre hrest => hs2 r w pre rest hat hpre hrest)
  obtain ⟨_, hkey, hw2, hw3, _⟩ := hM
  exact ⟨_,
    readMember_sem_field (decodePostbackField_isFetched rt)
      (m := M.withValue (arrayText wa (es1 ++ e.withValue (objectText wr (ps ++ qs)) :: es2)))
      hkey hMk hw2 hw3 hes1.array_value (valueKind_array _ _) hf1,
    readMember_sem_field (decodePostbackField_isFetched rt)
      (m := M.withValue
        (arrayText wa (es1 ++ e.withValue (objectText wr (ps ++ m :: qs)) :: es2)))
      hkey hMk hw2 hw3 hes2.array_value (valueKind_array _ _) hf2⟩

/-- The member named `recipients` is read the same way with and without a member the recipient
decoder does not know in one of its recipients. -/
theorem recipients_add {m : Member} (hmw : m.WF) (hmv : JsonValue m.value)
    (hjv : valueDelim m.value ≠ NUL → rt.jsonValid m.value = true)
    (hunk : m.Unknown recipientKeys) {M : Member} (hM : M.WF)
    (hMk : unescape M.key = .ok "recipients".toList) {wa : Str} {es1 es2 : List Elem}
    (hes : ElemsWF wa (es1 ++ es2)) {e : Elem} (he : e.WF) {wr : Str} {ps qs : List Member}
    (hob : MembersWF wr (ps ++ qs)) (a : postback (GoValue F)) :
    ∃ res,
      Sem ',' (readMember (decodePostbackField rt))
        (M.withValue (arrayText wa
          (es1 ++ e.withValue (objectText wr (ps ++ qs)) :: es2))).core a res ∧
      Sem ',' (readMember (decodePostbackField rt))
        (M.withValue (arrayText wa
          (es1 ++ e.withValue (objectText wr (ps ++ m :: qs)) :: es2))).core a res :=
  recipients_noop rt hmw hmv (recipient_unknown_sem rt hmw hmv hjv hunk) hM hMk hes he hob a

/-- The member named `campaign` is read the same way with and without a member that changes
nothing. -/
theorem campaign_noop {m : Member} (hmw : m.WF) (hmv : JsonValue m.value)
    (hm : ∀ a, Sem ',' (readMember (decodeCampaignField rt)) m.core a (some a)) {M : Member} (hM : M.WF)
    (hMk : unescape M.key = .ok "campaign".toList) {wc : Str} {ps qs : List Member}
    (hob : MembersWF wc (ps ++ qs)) (a : postback (GoValue F)) :
    ∃ res,
      Sem ',' (readMember (decodePostbackField rt))
        (M.withValue (objectText wc (ps ++ qs))).core a res ∧
      Sem ',' (readMember (decodePostbackField rt))
        (M.withValue (objectText wc (ps ++ m :: qs))).core a res := by
  have hob' := hob.with_member hmw hmv
  obtain ⟨res, h1, h2⟩ := decodeCampaignObject_noop rt hmw hmv hm hob
    (a.Campaign.getD campaign.zero)
  have hs1 := into_sem (fun (out : postback (GoValue F)) c => { out with Campaign := some c })
    a h1
  have hs2 := into_sem (fun (out : postback (GoValue F)) c => { out with Campaign := some c })
    a h2
  have hfe : Fetched (fun r (out : postback (GoValue F)) =>
      into (easyjsonDf11841fDecodeGithubComKnadhListmonkInternalMessengerPostback2 rt)
        (out.Campaign.getD campaign.zero) (fun out c => { out with Campaign := some c }) r out) :=
    fun r a hp => into_fetched _ _ (decodeCampaignObject_isFetched rt) r a hp
  have hf1 : Sem NUL (decodePostbackField rt "campaign".toList) (objectText wc (ps ++ qs)) a
      (res.map fun c => { a with Campaign := some c }) := by
    rw [decodePostbackField_campaign]
    exact nullOr_sem_other _ hfe hob.object_value (valueKind_object _ _)
      (fun r w pre rest hat hpre hrest => hs1 r w pre rest hat hpre hrest)
  have hf2 : Sem NUL (decodePostbackField rt "campaign".toList)
      (objectText wc (ps ++ m :: qs)) a (res.map fun c => { a with Campaign := some c }) := by
    rw [decodePostbackField_campaign]
    exact nullOr_sem_other _ hfe hob'.object_value (valueKind_object _ _)
      (fun r w pre rest hat hpre hrest => hs2 r w pre rest hat hpre hrest)
  obtain ⟨_, hkey, hw2, hw3, _⟩ := hM
  exact ⟨_,
    readMember_sem_field (decodePostbackField_isFetched rt)
      (m := M.withValue (objectText wc (ps ++ qs)))
      hkey hMk hw2 hw3 hob.object_value (valueKind_object _ _) hf1,
    readMember_sem_field (decodePostbackField_isFetched rt)
      (m := M.withValue (objectText wc (ps ++ m :: qs)))
      hkey hMk hw2 hw3 hob'.object_value (valueKind_object _ _) hf2⟩

/-- The member named `campaign` is read the same way with and without a member the campaign
decoder does not know. -/
theorem campaign_add {m : Member} (hmw : m.WF) (hmv : JsonValue m.value)
    (hjv : valueDelim m.value ≠ NUL → rt.jsonValid m.value = true)
    (hunk : m.Unknown campaignKeys) {M : Member} (hM : M.WF)
    (hMk : unescape M.key = .ok "campaign".toList) {wc : Str} {ps qs : List Member}
    (hob : MembersWF wc (ps ++ qs)) (a : postback (GoValue F)) :
    ∃ res,
      Sem ',' (readMember (decodePostbackField rt))
        (M.withValue (objectText wc (ps ++ qs))).core a res ∧
      Sem ',' (readMember (decodePostbackField rt))
        (M.withValue (objectText wc (ps ++ m :: qs))).core a res :=
  campaign_noop rt hmw hmv (campaign_unknown_sem rt hmw hmv hjv hunk) hM hMk hob a

/-- Two object texts whose members are read the same way decode the same way, when the first is
accepted. -/
theorem UnmarshalJSON_same (v : postback (GoValue F)) {w0 w1 ws : Str} {ms ms' : List Member}
    (hw0 : IsWs w0) (hw1 : IsWs w1) (hws : IsWs ws) (hms : ∀ x ∈ ms, x.WF)
    (hms' : ∀ x ∈ ms', x.WF) {res : Option (postback (GoValue F))}
    (h1 : ListSem (decodePostbackMember rt) (ms.map Member.core) v res)
    (h2 : ListSem (decodePostbackMember rt) (ms'.map Member.core) v res)
    (hacc : (UnmarshalJSON rt v (w0 ++ objectText ws ms ++ w1)).2 = none) :
    UnmarshalJSON rt v (w0 ++ objectText ws ms' ++ w1) =
      UnmarshalJSON rt v (w0 ++ objectText ws ms ++ w1) := by
  have a1 := UnmarshalJSON_object rt v hw0 hw1 hws hms h1
  have a2 := UnmarshalJSON_object rt v hw0 hw1 hws hms' h2
  cases res with
  | none => exact absurd hacc a1
  | some a =>
    have b1 : UnmarshalJSON rt v (w0 ++ objectText ws ms ++ w1) = (a, none) := a1
    have b2 : UnmarshalJSON rt v (w0 ++ objectText ws ms' ++ w1) = (a, none) := a2
    rw [b1, b2]

end Paths

theorem isWs_nil_str : IsWs [] := fun _ h => absurd h (List.not_mem_nil _)

/-- A text without control characters, quotes and backslashes is a string body. -/
theorem strBody_of_plain {b : Str} (h : ∀ c ∈ b, 32 ≤ c.toNat ∧ c ≠ '"' ∧ c ≠ '\\') :
    StrBody b := by
  induction b with
  | nil => exact StrBody.nil
  | cons c b ih =>
    obtain ⟨h1, h2, h3⟩ := h c (by simp)
    exact StrBody.unescaped c b h1 h2 h3 (ih (fun d hd => h d (by simp [hd])))

section Claim

variable {F : Type}

/-- C1: let `t` be a JSON object text that `postback.UnmarshalJSON` accepts, and `t'` the text
`t` with one well-formed member more, whose name is none of the field names the decoder knows
where the member stands: at the top level, inside a recipient or inside the campaign
(`AddsMember`).  Then `t'` is decoded without an error and to the same postback value as `t`.
`json.Valid`, which `SkipRecursive` consults on a skipped array or object, is taken to accept
the value of the member. -/
theorem UnmarshalJSON_unknown_member (rt : Runtime F) (v : postback (GoValue F)) (m : Member)
    (t t' : Str) (hmw : m.WF) (hmv : JsonValue m.value)
    (hjv : valueDelim m.value ≠ NUL → rt.jsonValid m.value = true) (hadd : AddsMember m t t')
    (hacc : (UnmarshalJSON rt v t).2 = none) :
    (UnmarshalJSON rt v t').2 = none ∧ (UnmarshalJSON rt v t').1 = (UnmarshalJSON rt v t).1 := by
  have key : UnmarshalJSON rt v t' = UnmarshalJSON rt v t := by
    cases hadd with
    | top w0 w1 ws xs ys hw0 hw1 hwf hunk =>
      obtain ⟨res, h1, h2⟩ := readMembers_insert (decodePostbackField_isFetched rt)
        (decodePostbackField_sticky rt) (decodePostbackField_reads rt) hwf.2.1 hwf.2.2
        (postback_unknown_sem rt hmw hmv hjv hunk) v
      exact UnmarshalJSON_same rt v hw0 hw1 hwf.1 hwf.2.1 (hwf.with_member hmw hmv).2.1 h1 h2 hacc
    | recipient w0 w1 ws xs ys M wa es1 es2 e wr ps qs hw0 hw1 hwf hM hMk hes he hob hunk =>
      obtain ⟨res, h1, h2⟩ := readMembers_replace (decodePostbackField_isFetched rt)
        (decodePostbackField_sticky rt) (decodePostbackField_reads rt) hwf.2.1 hwf.2.2
        (recipients_add rt hmw hmv hjv hunk hM hMk hes he hob) v
      have he1 : ElemsWF wa (es1 ++ e.withValue (objectText wr (ps ++ qs)) :: es2) :=
        hes.with_elem he hob.object_value
      have he2 : ElemsWF wa (es1 ++ e.withValue (objectText wr (ps ++ m :: qs)) :: es2) :=
        hes.with_elem he (hob.with_member hmw hmv).object_value
      have hm1 : MembersWF ws (xs ++ M.withValue (arrayText wa
          (es1 ++ e.withValue (objectText wr (ps ++ qs)) :: es2)) :: ys) :=
        hwf.with_member hM he1.array_value
      have hm2 : MembersWF ws (xs ++ M.withValue (arrayText wa
          (es1 ++ e.withValue (objectText wr (ps ++ m :: qs)) :: es2)) :: ys) :=
        hwf.with_member hM he2.array_value
      exact UnmarshalJSON_same rt v hw0 hw1 hwf.1 hm1.2.1 hm2.2.1 h1 h2 hacc
    | campaign w0 w1 ws xs ys M wc ps qs hw0 hw1 hwf hM hMk hob hunk =>
      obtain ⟨res, h1, h2⟩ := readMembers_replace (decodePostbackField_isFetched rt)
        (decodePostbackField_sticky rt) (decodePostbackField_reads rt) hwf.2.1 hwf.2.2
        (campaign_add rt hmw hmv hjv hunk hM hMk hob) v
      have hm1 : MembersWF ws (xs ++ M.withValue (objectText wc (ps ++ qs)) :: ys) :=
        hwf.with_member hM hob.object_value
      have hm2 : MembersWF ws (xs ++ M.withValue (objectText wc (ps ++ m :: qs)) :: ys) :=
        hwf.with_member hM (hob.with_member hmw hmv).object_value
      exact UnmarshalJSON_same rt v hw0 hw1 hwf.1 hm1.2.1 hm2.2.1 h1 h2 hacc
  rw [key]
  exact ⟨hacc, rfl⟩

end Claim

theorem exampleMember_wf : exampleMember.WF :=
  ⟨isWs_nil_str, strBody_of_plain (by decide), isWs_nil_str, isWs_nil_str, isWs_nil_str⟩

theorem exampleMember_value : JsonValue exampleMember.value :=
  JsonValue.array [] [⟨[], ['1'], []⟩] isWs_nil_str
    (fun e he => by
      have : e = ⟨[], ['1'], []⟩ := by simpa using he
      subst this
      exact ⟨isWs_nil_str, isWs_nil_str⟩)
    (fun e he => by
      have : e = ⟨[], ['1'], []⟩ := by simpa using he
      subst this
      exact JsonValue.number ['1'] ⟨[], ['1'], [], [], rfl, Or.inl rfl,
        Or.inr ⟨'1', [], rfl, by decide, by decide, fun _ h => absurd h (List.not_mem_nil _)⟩,
        Or.inl rfl, Or.inl rfl⟩)

theorem exampleMember_unknown : exampleMember.Unknown recipientKeys := by
  intro k hk h
  have hx : unescape exampleMember.key = .ok ['x'] := rfl
  rw [hx] at h
  have hk' : ['x'] = k := Except.ok.inj h
  subst hk'
  exact absurd hk (by decide)

theorem exampleText_adds : AddsMember exampleMember exampleText exampleTextMore :=
  AddsMember.recipient [] [] [] [] [] ⟨[], "recipients".toList, [], [], [], []⟩ [] [] []
    ⟨[], [], []⟩ [] [⟨[], "uuid".toList, [], [], "\"u\"".toList, []⟩] []
    isWs_nil_str isWs_nil_str
    ⟨isWs_nil_str, fun _ h => absurd h (List.not_mem_nil _),
      fun _ h => absurd h (List.not_mem_nil _)⟩
    ⟨isWs_nil_str, strBody_of_plain (by decide), isWs_nil_str, isWs_nil_str, isWs_nil_str⟩
    rfl
    ⟨isWs_nil_str, fun _ h => absurd h (List.not_mem_nil _),
      fun _ h => absurd h (List.not_mem_nil _)⟩
    ⟨isWs_nil_str, isWs_nil_str⟩
    ⟨isWs_nil_str,
      fun x hx => by
        have : x = ⟨[], "uuid".toList, [], [], "\"u\"".toList, []⟩ := by simpa using hx
        subst this
        exact ⟨isWs_nil_str, strBody_of_plain (by decide), isWs_nil_str, isWs_nil_str,
          isWs_nil_str⟩,
      fun x hx => by
        have : x = ⟨[], "uuid".toList, [], [], "\"u\"".toList, []⟩ := by simpa using hx
        subst this
        exact JsonValue.string ['u'] (strBody_of_plain (by decide))⟩
    exampleMember_unknown

/-- The text `{"recipients":[{"uuid":"u"}]}` is accepted, and so is the text
`{"recipients":[{"uuid":"u","x":[1]}]}`, with the same value. -/
theorem UnmarshalJSON_unknown_member_witness :
    (UnmarshalJSON exampleRuntime postback.zero exampleText).2 = none ∧
      (UnmarshalJSON exampleRuntime postback.zero exampleTextMore).2 = none ∧
      (UnmarshalJSON exampleRuntime postback.zero exampleTextMore).1 =
        (UnmarshalJSON exampleRuntime postback.zero exampleText).1 :=
  ⟨rfl, UnmarshalJSON_unknown_member exampleRuntime postback.zero exampleMember exampleText
    exampleTextMore exampleMember_wf exampleMember_value (fun _ => rfl) exampleText_adds rfl⟩

/-! ## The S3 media provider -/

theorem TrimRight_slash_all {s : Str} (hall : ∀ ch ∈ s, ch = '/') :
    TrimRight s "/".toList = [] := by
  have hlast := TrimRight_slash_getLast s
  obtain ⟨k, hk⟩ := TrimRight_slash_append s
  by_contra hne
  apply hlast
  have hp : TrimRight s "/".toList <+: s := ⟨_, hk.symm⟩
  have hmem : (TrimRight s "/".toList).getLast hne ∈ s := hp.subset (List.getLast_mem hne)
  rw [List.getLast?_eq_getLast _ hne, hall _ hmem]

/-- C11 fails on the code: with the bucket path `//media` the key of `a.jpg` is `/media/a.jpg`,
which starts with `/`, and this is the `ObjectKey` that `Put`, `Get` (for a private bucket) and
`Delete` hand to the library.  `TrimPrefix` takes one leading `/` off, not all of them. -/
theorem makeBucketPath_leading_slash :
    (clientWithPath "//media".toList).makeBucketPath "a.jpg".toList = "/media/a.jpg".toList ∧
      ((clientWithPath "//media".toList).makeBucketPath "a.jpg".toList).head? = some '/' ∧
      ((clientWithPath "//media".toList).uploadInput "a.jpg".toList [] ()).ObjectKey =
        "/media/a.jpg".toList ∧
      ((clientWithPath "//media".toList).presignedInput exampleSimples3 ()
        "a.jpg".toList).ObjectKey = "/media/a.jpg".toList ∧
      ((clientWithPath "//media".toList).deleteInput "a.jpg".toList).ObjectKey =
        "/media/a.jpg".toList := by
  refine ⟨by decide, by decide, by decide, by decide, by decide⟩

theorem TrimSuffix_isPrefix (s suffix : Str) : TrimSuffix s suffix <+: s := by
  unfold TrimSuffix
  split_ifs
  · exact List.take_prefix _ _
  · exact List.prefix_refl _

/-- Where the code keeps its promise: the key does not start with `/` when the file name does
not and the bucket path does not start with `//`. -/
theorem makeBucketPath_head {S3 : Type} (c : Client S3) (name : Str)
    (hname : name.head? ≠ some '/') (hpath : ¬ "//".toList <+: c.opts.BucketPath) :
    (c.makeBucketPath name).head? ≠ some '/' := by
  unfold Client.makeBucketPath
  have hq : ¬ "//".toList <+: TrimSuffix c.opts.BucketPath "/".toList :=
    fun h => hpath (h.trans (TrimSuffix_isPrefix _ _))
  generalize TrimSuffix c.opts.BucketPath "/".toList = q at hq
  have hp : (TrimPrefix q "/".toList).head? ≠ some '/' := by
    unfold TrimPrefix
    cases q with
    | nil => simp
    | cons a q =>
      by_cases ha : a = '/'
      · subst ha
        have : "/".toList.isPrefixOf ('/' :: q) = true := by simp [List.isPrefixOf]
        rw [if_pos this]
        cases q with
        | nil => simp
        | cons b q =>
          intro hb
          have hb' : b = '/' := by simpa using hb
          subst hb'
          exact hq ⟨q, rfl⟩
      · have : ¬ "/".toList.isPrefixOf (a :: q) = true := by
          simp [List.isPrefixOf, Ne.symm ha]
        rw [if_neg this]
        simpa using ha
  simp only
  split_ifs with h0
  · exact hname
  · generalize TrimPrefix q "/".toList = p at hp h0
    cases p with
    | nil => exact absurd rfl h0
    | cons a p => simpa using hp

section Store

variable {S3 E Body Time : Type} (lib : Simples3 S3 E Body Time)

/-- C12: with both keys given, `NewS3Store` returns the error `Invalid AWS URL in settings.`
when the URL is empty and only then; otherwise it returns a store, whose URL is the configured
one with the trailing `/` trimmed, so a URL of `/` characters only is accepted and stored as the
empty string. -/
theorem NewS3Store_invalid_url (opt : Opt) (ha : opt.AccessKey ≠ [])
    (hs : opt.SecretKey ≠ []) :
    (opt.URL = [] →
      NewS3Store lib opt = .error (.errorsNew "Invalid AWS URL in settings.".toList)) ∧
    ((∃ e, NewS3Store lib opt = .error e) ↔ opt.URL = []) ∧
    (opt.URL ≠ [] → ∃ c, NewS3Store lib opt = .ok c ∧
      c.opts = { opt with URL := TrimRight opt.URL "/".toList }) ∧
    (opt.URL ≠ [] → (∀ ch ∈ opt.URL, ch = '/') →
      ∃ c, NewS3Store lib opt = .ok c ∧ c.opts.URL = []) := by
  have hok : opt.URL ≠ [] → NewS3Store lib opt =
      .ok { s3 := lib.SetEndpoint (lib.New opt.Region opt.AccessKey opt.SecretKey)
              (TrimRight opt.URL "/".toList),
            opts := { opt with URL := TrimRight opt.URL "/".toList } } := by
    intro hu
    unfold NewS3Store
    rw [if_neg hu]
    simp only [ne_eq, ha, hs, not_false_eq_true, and_self, if_true]
  have herr : opt.URL = [] →
      NewS3Store lib opt = .error (.errorsNew "Invalid AWS URL in settings.".toList) := by
    intro hu
    unfold NewS3Store
    rw [if_pos hu]
  refine ⟨herr, ⟨?_, fun hu => ⟨_, herr hu⟩⟩, fun hu => ⟨_, hok hu, rfl⟩, ?_⟩
  · rintro ⟨e, he⟩
    by_contra hu
    rw [hok hu] at he
    exact absurd he (by simp)
  · intro hu hall
    exact ⟨_, hok hu, TrimRight_slash_all hall⟩

/-- C12 at the options with keys and the URL `//`: a store is returned, with the empty URL. -/
theorem NewS3Store_invalid_url_witness :
    ∃ c, NewS3Store exampleSimples3 { exampleOpt with URL := "//".toList } = .ok c ∧
      c.opts.URL = [] :=
  (NewS3Store_invalid_url exampleSimples3 { exampleOpt with URL := "//".toList }
    (by decide) (by decide)).2.2.2 (by decide) (by decide)

/-- C13: for a store built by `NewS3Store` from options whose bucket type is not `private`,
`Get(name)` is `u/Bucket/key`, where `u` is the configured URL with all trailing `/` removed and
`key` is `makeBucketPath(name)`; with the bucket path empty or `/` the key is `name`. -/
theorem Get_public_url (opt : Opt) (c : Client S3) (now : Time) (name : Str)
    (hnew : NewS3Store lib opt = .ok c) (hpub : opt.BucketType ≠ "private".toList) :
    c.Get lib now name =
        TrimRight opt.URL "/".toList ++ "/".toList ++ opt.Bucket ++ "/".toList ++
          c.makeBucketPath name ∧
      (TrimRight opt.URL "/".toList).getLast? ≠ some '/' ∧
      (∃ k, opt.URL = TrimRight opt.URL "/".toList ++ List.replicate k '/') ∧
      ((opt.BucketPath = [] ∨ opt.BucketPath = "/".toList) →
        c.Get lib now name =
          TrimRight opt.URL "/".toList ++ "/".toList ++ opt.Bucket ++ "/".toList ++ name) := by
  have hopts : c.opts = { opt with URL := TrimRight opt.URL "/".toList } := by
    unfold NewS3Store at hnew
    by_cases h1 : opt.URL = []
    · rw [if_pos h1] at hnew
      exact absurd hnew (by simp)
    · rw [if_neg h1] at hnew
      by_cases h2 : opt.AccessKey ≠ [] ∧ opt.SecretKey ≠ []
      · rw [if_pos h2] at hnew
        simp only [Except.ok.injEq] at hnew
        rw [← hnew]
      · rw [if_neg h2] at hnew
        split at hnew
        · exact absurd hnew (by simp)
        · simp only [Except.ok.injEq] at hnew
          rw [← hnew]
  have hget : c.Get lib now name =
      TrimRight opt.URL "/".toList ++ "/".toList ++ opt.Bucket ++ "/".toList ++
        c.makeBucketPath name := by
    unfold Client.Get Client.makeFileURL
    rw [hopts] at *
    rw [if_neg hpub]
  refine ⟨hget, TrimRight_slash_getLast _, TrimRight_slash_append _, ?_⟩
  intro hbp
  rw [hget]
  congr 1
  unfold Client.makeBucketPath
  rw [hopts]
  rcases hbp with h | h <;> rw [h] <;> rfl

end Store

/-- C13 at the example options (URL `http://s3//`, bucket `b`, bucket path `/`): the public URL
of `a.jpg` is `http://s3/b/a.jpg`. -/
theorem Get_public_url_witness :
    ∃ c, NewS3Store exampleSimples3 exampleOpt = .ok c ∧
      c.Get exampleSimples3 () "a.jpg".toList = "http://s3/b/a.jpg".toList := by
  refine ⟨_, rfl, ?_⟩
  have h := (Get_public_url exampleSimples3 exampleOpt _ () "a.jpg".toList rfl
    (by decide)).2.2.2 (Or.inr rfl)
  rw [h]
  decide

/-! ## Claims about `initPostbackMessengers` -/

/-- C14 fails as stated: `postback.New` succeeds on every option set, yet the one enabled item
does not give a messenger, because its configuration cannot be read and `lo.Fatalf` ends the
process: the function returns nothing. -/
theorem initPostbackMessengers_unreadable :
    (∀ o, ∃ p, unreadableEnv.New o = .ok p) ∧
      (initPostbackMessengers unreadableEnv [()]).outcome = .fatalConfig () ∧
      (initPostbackMessengers unreadableEnv [()]).initialised = [] :=
  ⟨fun _ => ⟨(), rfl⟩, rfl, rfl⟩

section Postback

variable {K O M E : Type} (env : PostbackEnv K O M E)

/-- The loop on items whose configuration can be read and whose messenger can be made. -/
theorem postbackLoop_enabled :
    ∀ (items : List K),
      (∀ item ∈ items, env.enabled item = true →
        ∃ o p, env.UnmarshalWithConf item = .ok o ∧ env.New o = .ok p) →
      ∃ (ms : List M) (os : List O),
        List.Forall₂ (fun item (op : O × M) =>
            env.UnmarshalWithConf item = .ok op.1 ∧ env.New op.1 = .ok op.2)
          (items.filter env.enabled) (os.zip ms) ∧ os.length = ms.length ∧
        ∀ (out : Option (List M)) (news : List O) (names : List Str),
          postbackLoop env items out news names =
            ⟨.returned (if ms.isEmpty then out else some (out.getD [] ++ ms)), news ++ os,
              names ++ (items.filter env.enabled).map env.name⟩ := by
  intro items
  induction items with
  | nil =>
    intro _
    exact ⟨[], [], List.Forall₂.nil, rfl, fun out news names => by simp [postbackLoop]⟩
  | cons item rest ih =>
    intro h
    obtain ⟨ms, os, hf, hl, hloop⟩ := ih (fun i hi => h i (List.mem_cons_of_mem _ hi))
    by_cases hen : env.enabled item = true
    · obtain ⟨o, p, ho, hp⟩ := h item (List.mem_cons_self _ _) hen
      refine ⟨p :: ms, o :: os, ?_, by simp [hl], ?_⟩
      · rw [List.filter_cons_of_pos hen]
        exact List.Forall₂.cons ⟨ho, hp⟩ hf
      · intro out news names
        rw [postbackLoop, if_neg (by simp [hen])]
        simp only [ho, hp, hloop, List.filter_cons_of_pos hen, List.map_cons]
        have e1 : news ++ [o] ++ os = news ++ o :: os := by simp
        have e2 : names ++ [env.name item] ++ List.map env.name (List.filter env.enabled rest) =
            names ++ env.name item :: List.map env.name (List.filter env.enabled rest) := by simp
        rw [e1, e2]
        congr 2
        cases ms with
        | nil => simp
        | cons m ms => simp
    · refine ⟨ms, os, ?_, hl, ?_⟩
      · rw [List.filter_cons_of_neg hen]
        exact hf
      · intro out news names
        rw [postbackLoop, if_pos (by simp [hen]), hloop, List.filter_cons_of_neg hen]

/-- C14, amended: when the configuration of every enabled item can be read and `postback.New`
succeeds on it, `initPostbackMessengers` returns one messenger per enabled item, in the order of
the configuration, each made by `postback.New` from the options of its item; `postback.New` is
called for the enabled items and for no other; and the result is `nil` when there is no item or
none is enabled. -/
theorem initPostbackMessengers_enabled (items : List K)
    (h : ∀ item ∈ items, env.enabled item = true →
      ∃ o p, env.UnmarshalWithConf item = .ok o ∧ env.New o = .ok p) :
    ∃ (ms : List M) (os : List O),
      List.Forall₂ (fun item (op : O × M) =>
          env.UnmarshalWithConf item = .ok op.1 ∧ env.New op.1 = .ok op.2)
        (items.filter env.enabled) (os.zip ms) ∧ os.length = ms.length ∧
      (initPostbackMessengers env items).outcome =
        .returned (if (items.filter env.enabled).isEmpty then none else some ms) ∧
      (initPostbackMessengers env items).initialised = os ∧
      (initPostbackMessengers env items).loaded = (items.filter env.enabled).map env.name := by
  obtain ⟨ms, os, hf, hl, hloop⟩ := postbackLoop_enabled env items h
  refine ⟨ms, os, hf, hl, ?_⟩
  have hlen : (items.filter env.enabled).length = ms.length := by
    have h1 := hf.length_eq
    rw [List.length_zip, hl, min_self] at h1
    exact h1
  have hempty : (items.filter env.enabled).isEmpty = ms.isEmpty := by
    cases hm : ms with
    | nil =>
      rw [hm] at hlen
      rw [List.length_eq_zero.mp hlen]
      rfl
    | cons m ms' =>
      rw [hm] at hlen
      cases hi : items.filter env.enabled with
      | nil => rw [hi] at hlen; simp at hlen
      | cons i is => rfl
  unfold initPostbackMessengers
  by_cases h0 : items.length = 0
  · have hnil : items = [] := List.length_eq_zero.mp h0
    subst hnil
    have hms : ms = [] := by
      rw [← List.length_eq_zero, ← hlen]; rfl
    have hos : os = [] := by
      rw [← List.length_eq_zero, hl, hms]; rfl
    subst hms hos
    exact ⟨rfl, rfl, rfl⟩
  · rw [if_neg h0, hloop, hempty]
    refine ⟨?_, by simp, by simp⟩
    show InitOutcome.returned _ = InitOutcome.returned _
    congr 1

end Postback

/-- C14 at three items, the second one disabled: the messengers of the first and the third are
returned, in this order, and `postback.New` is called on their options only. -/
theorem initPostbackMessengers_enabled_witness :
    (initPostbackMessengers numberEnv [(true, 1), (false, 2), (true, 3)]).outcome =
        .returned (some [101, 103]) ∧
      (initPostbackMessengers numberEnv [(true, 1), (false, 2), (true, 3)]).initialised =
        [1, 3] := by
  obtain ⟨ms, os, hf, _, hout, hinit, _⟩ :=
    initPostbackMessengers_enabled numberEnv [(true, 1), (false, 2), (true, 3)]
      (fun item _ _ => ⟨item.2, item.2 + 100, rfl, rfl⟩)
  exact ⟨rfl, rfl⟩

/-! ## A member with the value null -/

section Null

variable {F : Type} (rt : Runtime F)

/-- A round on a member with the value null leaves the data as it is, whatever the name. -/
theorem nullMember_sem {α : Type} (field : Str → Lexer → α → Lexer × α) {m : Member}
    (hm : m.WF) (hnull : m.value = "null".toList) (a : α) :
    Sem ',' (readMember field) m.core a (some a) := by
  obtain ⟨_, hkey, hw2, hw3, _⟩ := hm
  obtain ⟨k, hk⟩ := unescape_ok hkey
  exact readMember_sem_null field hkey hk hw2 hw3 hnull a

/-- The rounds on members that all have the value null leave the data as it is. -/
theorem nullMembers_sem {α : Type} (field : Str → Lexer → α → Lexer × α) :
    ∀ (ms : List Member), (∀ m ∈ ms, m.WF ∧ m.value = "null".toList) → ∀ (a : α),
      ListSem (readMember field) (ms.map Member.core) a (some a) := by
  intro ms
  induction ms with
  | nil => intro _ a; rfl
  | cons m ms ih =>
    intro h a
    exact Or.inr ⟨a, nullMember_sem field (h m (by simp)).1 (h m (by simp)).2 a,
      ih (fun x hx => h x (by simp [hx])) a⟩

theorem consumedLoop_ws_eq {ws : Str} (hws : IsWs ws) (r : Lexer) :
    consumedLoop ws r = r.advance ws.length := by
  induction ws generalizing r with
  | nil => rw [consumedLoop, List.length_nil, advance_zero]
  | cons c ws ih =>
    have hc := (isWs_cons hws).1
    have h1 : ¬ (c ≠ ' ' ∧ c ≠ '\t' ∧ c ≠ '\r' ∧ c ≠ '\n') := by
      rcases hc with h | h | h | h <;> subst h <;> decide
    rw [consumedLoop, if_neg h1, ih (isWs_cons hws).2, advance_advance, List.length_cons,
      Nat.add_comm]

/-- `UnmarshalJSON` on the text `null`. -/
theorem UnmarshalJSON_null_text (v : postback (GoValue F)) {w0 w1 : Str} (hw0 : IsWs w0)
    (hw1 : IsWs w1) : UnmarshalJSON rt v (w0 ++ "null".toList ++ w1) = (v, none) := by
  have hidle : (Lexer.new (w0 ++ "null".toList ++ w1)).Idle := ⟨rfl, rfl, rfl⟩
  have hd : (Lexer.new (w0 ++ "null".toList ++ w1)).Data = w0 ++ ("null".toList ++ w1) := by
    show w0 ++ "null".toList ++ w1 = _
    rw [List.append_assoc]
  have hfol : Follow w1 := by
    have h := follow_ws hw1 (t := []) rfl
    simpa using h
  have hf := fetch_null hidle w0 w1 (Pre.of_nul hw0) hfol hd
  have hnull : (Lexer.new (w0 ++ "null".toList ++ w1)).IsNull =
      (true, (Lexer.new (w0 ++ "null".toList ++ w1)).withToken w1 (w0.length + 4)
        .tokenNull) := by
    unfold Lexer.IsNull
    rw [hf]
    rfl
  have hcons : ((Lexer.new (w0 ++ "null".toList ++ w1)).withToken w1 (w0.length + 4)
      .tokenNull).Consumed =
      ((Lexer.new (w0 ++ "null".toList ++ w1)).withToken w1 (w0.length + 4)
        .tokenNull).advance w1.length := by
    unfold Lexer.Consumed
    rw [if_neg (by simp [Lexer.Ok, Lexer.withToken, Lexer.new])]
    exact consumedLoop_ws_eq hw1 _
  unfold UnmarshalJSON easyjsonDf11841fDecodeGithubComKnadhListmonkInternalMessengerPostback
  simp only [hnull, if_true]
  have hstart : (Lexer.new (w0 ++ "null".toList ++ w1)).IsStart = true := rfl
  simp only [hstart, if_true, hcons]
  unfold Lexer.Skip
  rw [fetchIfUndef_of_kind (by simp [Lexer.withToken, Lexer.advance])]
  rfl

/-- C16: a JSON null never overwrites a field.  Decoding the text `null` leaves the output `v`
as it is; so does decoding an object whose members all have the value null, whatever their
names (`subject`, `recipients`, `campaign`, ...); and an accepted object text decodes to the
same value with one more member whose value is null, at the top level, in a recipient or in the
campaign (`Inserts`), so that the fields are what they are without that member. -/
theorem UnmarshalJSON_null_keeps (v : postback (GoValue F)) :
    (∀ w0 w1 : Str, IsWs w0 → IsWs w1 →
      UnmarshalJSON rt v (w0 ++ "null".toList ++ w1) = (v, none)) ∧
    (∀ (w0 w1 ws : Str) (ms : List Member), IsWs w0 → IsWs w1 → IsWs ws →
      (∀ m ∈ ms, m.WF ∧ m.value = "null".toList) →
      UnmarshalJSON rt v (w0 ++ objectText ws ms ++ w1) = (v, none)) ∧
    (∀ (m : Member) (t t' : Str), m.WF → m.value = "null".toList → Inserts m t t' →
      (UnmarshalJSON rt v t).2 = none → UnmarshalJSON rt v t' = UnmarshalJSON rt v t) := by
  refine ⟨fun w0 w1 hw0 hw1 => UnmarshalJSON_null_text rt v hw0 hw1, ?_, ?_⟩
  · intro w0 w1 ws ms hw0 hw1 hws hms
    exact UnmarshalJSON_object rt v hw0 hw1 hws (fun m hm => (hms m hm).1)
      (nullMembers_sem (decodePostbackField rt) ms hms v)
  · intro m t t' hmw hnull hins hacc
    have hmv : JsonValue m.value := hnull ▸ JsonValue.null
    cases hins with
    | top w0 w1 ws xs ys hw0 hw1 hwf =>
      obtain ⟨res, h1, h2⟩ := readMembers_insert (decodePostbackField_isFetched rt)
        (decodePostbackField_sticky rt) (decodePostbackField_reads rt) hwf.2.1 hwf.2.2
        (nullMember_sem (decodePostbackField rt) hmw hnull) v
      exact UnmarshalJSON_same rt v hw0 hw1 hwf.1 hwf.2.1 (hwf.with_member hmw hmv).2.1 h1 h2
        hacc
    | recipient w0 w1 ws xs ys M wa es1 es2 e wr ps qs hw0 hw1 hwf hM hMk hes he hob =>
      obtain ⟨res, h1, h2⟩ := readMembers_replace (decodePostbackField_isFetched rt)
        (decodePostbackField_sticky rt) (decodePostbackField_reads rt) hwf.2.1 hwf.2.2
        (recipients_noop rt hmw hmv (nullMember_sem (decodeRecipientField rt) hmw hnull)
          hM hMk hes he hob) v
      have he1 : ElemsWF wa (es1 ++ e.withValue (objectText wr (ps ++ qs)) :: es2) :=
        hes.with_elem he hob.object_value
      have he2 : ElemsWF wa (es1 ++ e.withValue (objectText wr (ps ++ m :: qs)) :: es2) :=
        hes.with_elem he (hob.with_member hmw hmv).object_value
      have hm1 : MembersWF ws (xs ++ M.withValue (arrayText wa
          (es1 ++ e.withValue (objectText wr (ps ++ qs)) :: es2)) :: ys) :=
        hwf.with_member hM he1.array_value
      have hm2 : MembersWF ws (xs ++ M.withValue (arrayText wa
          (es1 ++ e.withValue (objectText wr (ps ++ m :: qs)) :: es2)) :: ys) :=
        hwf.with_member hM he2.array_value
      exact UnmarshalJSON_same rt v hw0 hw1 hwf.1 hm1.2.1 hm2.2.1 h1 h2 hacc
    | campaign w0 w1 ws xs ys M wc ps qs hw0 hw1 hwf hM hMk hob =>
      obtain ⟨res, h1, h2⟩ := readMembers_replace (decodePostbackField_isFetched rt)
        (decodePostbackField_sticky rt) (decodePostbackField_reads rt) hwf.2.1 hwf.2.2
        (campaign_noop rt hmw hmv (nullMember_sem (decodeCampaignField rt) hmw hnull)
          hM hMk hob) v
      have hm1 : MembersWF ws (xs ++ M.withValue (objectText wc (ps ++ qs)) :: ys) :=
        hwf.with_member hM hob.object_value
      have hm2 : MembersWF ws (xs ++ M.withValue (objectText wc (ps ++ m :: qs)) :: ys) :=
        hwf.with_member hM (hob.with_member hmw hmv).object_value
      exact UnmarshalJSON_same rt v hw0 hw1 hwf.1 hm1.2.1 hm2.2.1 h1 h2 hacc

end Null

theorem nullRecipients_wf : nullRecipients.WF :=
  ⟨isWs_nil_str, strBody_of_plain (by decide), isWs_nil_str, isWs_nil_str, isWs_nil_str⟩

theorem nullCampaign_wf : nullCampaign.WF :=
  ⟨isWs_nil_str, strBody_of_plain (by decide), isWs_nil_str, isWs_nil_str, isWs_nil_str⟩

/-- C16 at the text `{"recipients":null,"campaign":null}` and an output that holds an empty
list of recipients and a campaign: both are still there afterwards. -/
theorem UnmarshalJSON_null_keeps_witness :
    UnmarshalJSON exampleRuntime examplePostback
        (objectText [] [nullRecipients, nullCampaign]) = (examplePostback, none) ∧
      objectText [] [nullRecipients, nullCampaign] =
        "\x7b\"recipients\":null,\"campaign\":null\x7d".toList :=
  ⟨(UnmarshalJSON_null_keeps exampleRuntime examplePostback).2.1 [] [] []
    [nullRecipients, nullCampaign] isWs_nil_str isWs_nil_str isWs_nil_str
    (fun m hm => by
      rcases List.mem_cons.mp hm with h | h
      · subst h; exact ⟨nullRecipients_wf, rfl⟩
      · have h' : m = nullCampaign := by simpa using h
        subst h'; exact ⟨nullCampaign_wf, rfl⟩), by decide⟩

/-! ## What `Writer.String` writes is read back by `Lexer.String` -/

theorem escaped_cons (c : Char) (s : Str) : escaped (c :: s) = escapeChar false c ++ escaped s := by
  simp [escaped]

theorem quoteString_escaped (s : Str) : quoteString false s = '"' :: (escaped s ++ ['"']) := rfl

theorem hexValue_hexChar : ∀ k < 16, hexValue (hexChar k) = some k := by decide

theorem hexChar_isHexDigit {k : Nat} (h : k < 16) : IsHexDigit (hexChar k) := by
  unfold IsHexDigit; rw [hexValue_hexChar k h]; rfl

theorem isSurrogate_toNat (c : Char) : isSurrogate c.toNat = false := by
  have h := c.valid
  unfold isSurrogate
  simp only [decide_eq_false_iff_not, not_and, not_lt]
  intro h1
  rcases h with h | h
  · have : c.toNat < 55296 := h
    omega
  · have : 57343 < c.toNat := h.1
    omega

theorem encodeRune_toNat (c : Char) : encodeRune c.toNat = c := by
  unfold encodeRune
  have h : c.toNat.isValidChar := c.valid
  rw [if_pos h]
  exact Char.ofNat_toNat c

/-- The three shapes of what `Writer.String` writes for one character. -/
theorem escapeChar_shape (c : Char) :
    (escapeChar false c = [c] ∧ 32 ≤ c.toNat ∧ c ≠ '"' ∧ c ≠ '\\') ∨
    (∃ e, escapeChar false c = ['\\', e] ∧
      (e = '"' ∨ e = '\\' ∨ e = '/' ∨ e = 'b' ∨ e = 'f' ∨ e = 'n' ∨ e = 'r' ∨ e = 't') ∧
      ∀ t, decodeEscape ('\\' :: e :: t) = .ok (c.toNat, 2)) ∨
    (∃ a b x y, a < 16 ∧ b < 16 ∧ x < 16 ∧ y < 16 ∧
      escapeChar false c = ['\\', 'u', hexChar a, hexChar b, hexChar x, hexChar y] ∧
      ((a * 16 + b) * 16 + x) * 16 + y = c.toNat) := by
  unfold escapeChar
  by_cases h128 : c.toNat < 128
  · rw [if_pos h128]
    by_cases ht : escapeTable false c = true
    · rw [if_pos ht]
      left
      unfold escapeTable at ht
      by_cases hc : c.toNat < 32 ∨ c = '"' ∨ c = '\\'
      · rw [if_pos hc] at ht; exact absurd ht (by simp)
      · push_neg at hc
        exact ⟨rfl, hc.1, hc.2.1, hc.2.2⟩
    · rw [if_neg ht]
      by_cases h1 : c = '\t'
      · subst h1; right; left
        exact ⟨'t', by simp, by simp, fun t => by simp [decodeEscape]⟩
      by_cases h2 : c = '\r'
      · subst h2; right; left
        exact ⟨'r', by simp, by simp, fun t => by simp [decodeEscape]⟩
      by_cases h3 : c = '\n'
      · subst h3; right; left
        exact ⟨'n', by simp, by simp, fun t => by simp [decodeEscape]⟩
      by_cases h4 : c = '\\'
      · subst h4; right; left
        exact ⟨'\\', by simp, by simp, fun t => by simp [decodeEscape]⟩
      by_cases h5 : c = '"'
      · subst h5; right; left
        exact ⟨'"', by simp, by simp, fun t => by simp [decodeEscape]⟩
      right; right
      rw [if_neg h1, if_neg h2, if_neg h3, if_neg h4, if_neg h5]
      refine ⟨0, 0, c.toNat / 16, c.toNat % 16, by omega, by omega, by omega, by omega, rfl,
        by omega⟩
  · rw [if_neg h128]
    by_cases hj : c.toNat = 0x2028 ∨ c.toNat = 0x2029
    · rw [if_pos hj]
      right; right
      refine ⟨2, 0, 2, c.toNat % 16, by omega, by omega, by omega, by omega, rfl, by omega⟩
    · rw [if_neg hj]
      left
      refine ⟨rfl, by omega, ?_, ?_⟩
      · rintro rfl; exact h128 (by decide)
      · rintro rfl; exact h128 (by decide)

theorem decodeEscape_hex {a b x y : Nat} (ha : a < 16) (hb : b < 16) (hx : x < 16) (hy : y < 16)
    (c : Char) (hc : ((a * 16 + b) * 16 + x) * 16 + y = c.toNat) (t : Str) :
    decodeEscape ('\\' :: 'u' :: hexChar a :: hexChar b :: hexChar x :: hexChar y :: t) =
      .ok (c.toNat, 6) := by
  have hg : getu4 ('\\' :: 'u' :: hexChar a :: hexChar b :: hexChar x :: hexChar y :: t) =
      some c.toNat := by
    simp [getu4, hexValue_hexChar a ha, hexValue_hexChar b hb, hexValue_hexChar x hx,
      hexValue_hexChar y hy, hc]
  simp only [decodeEscape, Char.reduceEq, or_self, if_false, if_true, hg, isSurrogate_toNat,
    Bool.false_eq_true]

/-- What `Writer.String` writes between the quotes is the body of a JSON string. -/
theorem escaped_strBody (s : Str) : StrBody (escaped s) := by
  induction s with
  | nil => exact StrBody.nil
  | cons c s ih =>
    rw [escaped_cons]
    rcases escapeChar_shape c with ⟨h, h32, hq, hb⟩ | ⟨e, h, he, _⟩ |
      ⟨a, b, x, y, ha, hb, hx, hy, h, _⟩
    · rw [h]; exact StrBody.unescaped c _ h32 hq hb ih
    · rw [h]; exact StrBody.escape e _ he ih
    · rw [h]
      exact StrBody.unicode _ _ _ _ _ (hexChar_isHexDigit ha) (hexChar_isHexDigit hb)
        (hexChar_isHexDigit hx) (hexChar_isHexDigit hy) ih

theorem unescapeLoop_plain (n : Nat) {c : Char} (hc : c ≠ '\\') (t : Str) :
    unescapeLoop (n + 1) (c :: t) =
      match unescapeLoop (n + 1) t with
      | .ok k => .ok (c :: k)
      | .error e => .error e := by
  rw [unescapeLoop, unescapeLoop, indexByte, if_neg hc]
  cases hi : indexByte t '\\' with
  | none => rfl
  | some i =>
    simp only [Option.map_some', List.drop_succ_cons, List.take_succ_cons]
    cases decodeEscape (t.drop i) with
    | error e => rfl
    | ok p =>
      obtain ⟨rr, k⟩ := p
      simp only
      have e : i + 1 + k = (i + k) + 1 := by omega
      rw [e, List.drop_succ_cons]
      cases unescapeLoop n (t.drop (i + k)) with
      | error e => rfl
      | ok rest => rfl

theorem unescapeLoop_escape (n : Nat) (u t : Str) (c : Char)
    (hd : decodeEscape ('\\' :: (u ++ t)) = .ok (c.toNat, u.length + 1)) :
    unescapeLoop (n + 1) ('\\' :: (u ++ t)) =
      match unescapeLoop n t with
      | .ok k => .ok (c :: k)
      | .error e => .error e := by
  rw [unescapeLoop, indexByte, if_pos rfl]
  simp only [List.drop_zero, hd, Nat.zero_add, List.take_zero, List.nil_append,
    encodeRune_toNat, List.drop_succ_cons, List.drop_left]
  cases unescapeLoop n t with
  | error e => rfl
  | ok rest => rfl

theorem unescapeLoop_escaped (s : Str) :
    ∀ n, (escaped s).length < n → unescapeLoop n (escaped s) = .ok s := by
  induction s with
  | nil =>
    intro n hn
    obtain ⟨m, rfl⟩ : ∃ m, n = m + 1 := ⟨n - 1, by omega⟩
    rfl
  | cons c s ih =>
    intro n hn
    rw [escaped_cons] at hn ⊢
    obtain ⟨m, rfl⟩ : ∃ m, n = m + 1 := ⟨n - 1, by omega⟩
    rcases escapeChar_shape c with ⟨h, h32, hq, hb⟩ | ⟨e, h, he, hd⟩ |
      ⟨a, b, x, y, ha, hb, hx, hy, h, hv⟩
    · rw [h] at hn ⊢
      simp only [List.singleton_append, List.length_cons] at hn ⊢
      rw [unescapeLoop_plain m hb, ih (m + 1) (by omega)]
    · rw [h] at hn ⊢
      simp only [List.cons_append, List.nil_append, List.length_cons] at hn ⊢
      have := unescapeLoop_escape m [e] (escaped s) c (hd _)
      simp only [List.singleton_append] at this
      rw [this, ih m (by omega)]
    · rw [h] at hn ⊢
      simp only [List.cons_append, List.nil_append, List.length_cons] at hn ⊢
      have := unescapeLoop_escape m ['u', hexChar a, hexChar b, hexChar x, hexChar y]
        (escaped s) c (decodeEscape_hex ha hb hx hy c hv _)
      simp only [List.cons_append, List.nil_append] at this
      rw [this, ih m (by omega)]

/-- Unescaping what `Writer.String` wrote gives the string back. -/
theorem unescape_escaped (s : Str) : unescape (escaped s) = .ok s :=
  unescapeLoop_escaped s _ (Nat.lt_succ_self _)

/-! ## The text the encoder writes, exactly -/

section EncodeExact

variable {V Err : Type}

theorem encodeHeaderLoop_error :
    ∀ (kvs : GoMap Str) (out : Writer Err) (first : Bool),
      (encodeHeaderLoop out first kvs).Error = out.Error := by
  intro kvs
  induction kvs with
  | nil => intro out first; rfl
  | cons kv rest ih =>
    intro out first
    obtain ⟨k, v⟩ := kv
    unfold encodeHeaderLoop
    simp only [ih]
    cases first <;> rfl

theorem encodeHeadersLoop_error :
    ∀ (hs : List (Option (GoMap Str))) (out : Writer Err) (v7 : Nat),
      (encodeHeadersLoop out v7 hs).Error = out.Error := by
  intro hs
  induction hs with
  | nil => intro out v7; rfl
  | cons h rest ih =>
    intro out v7
    unfold encodeHeadersLoop
    simp only [ih]
    split_ifs <;> simp [Writer.RawByte, Writer.RawString, encodeHeaderLoop_error]

theorem encodeTagsLoop_error :
    ∀ (ts : List Str) (out : Writer Err) (v10 : Nat),
      (encodeTagsLoop out v10 ts).Error = out.Error := by
  intro ts
  induction ts with
  | nil => intro out v10; rfl
  | cons t rest ih =>
    intro out v10
    unfold encodeTagsLoop
    simp only [ih]
    split_ifs <;> rfl

theorem encodeCampaign_error (out : Writer Err) (c : campaign) :
    (easyjsonDf11841fEncodeGithubComKnadhListmonkInternalMessengerPostback2 out c).Error =
      out.Error := by
  unfold easyjsonDf11841fEncodeGithubComKnadhListmonkInternalMessengerPostback2
  simp only [Writer.RawByte, Writer.RawString, Writer.String]
  split_ifs <;> simp [Writer.RawByte, Writer.RawString, encodeHeadersLoop_error,
    encodeTagsLoop_error]

theorem Writer.eq_of_appended {w w' : Writer Err} {t : Str} (h : w.Appended w' t)
    (he : w'.Error = w.Error) : w' = { w with Buffer := w.Buffer ++ t } := by
  obtain ⟨h1, h2, h3⟩ := h
  cases w; cases w'
  simp only at h1 h2 h3 he
  simp [h1, h2, h3, he]

theorem jsonObject_members (ms : List Member) :
    jsonObject (ms.map Member.text) = objectText [] ms := by
  simp [jsonObject, objectText]

theorem jsonArray_elems (es : List Elem) : jsonArray (es.map Elem.text) = arrayText [] es := by
  simp [jsonArray, arrayText]

theorem jsonMember_plain (name value : Str) :
    jsonMember name value = (Member.plain name value).text := by
  simp [jsonMember, Member.plain, Member.text]

theorem entry_plain (k value : Str) :
    quoteString false k ++ ':' :: value = (Member.plain (escaped k) value).text := by
  simp [quoteString_escaped, Member.plain, Member.text]

theorem elem_plain (v : Str) : (Elem.plain v).text = v := by
  simp [Elem.plain, Elem.text]

theorem tagsText_eq (ts : Option (List Str)) : tagsText (quoteString false) ts = tagsValue ts := by
  cases ts with
  | none => rfl
  | some ts =>
    simp only [tagsText, tagsValue, ← jsonArray_elems, List.map_map]
    congr 1
    apply List.map_congr_left
    intro t _
    simp only [Function.comp, elem_plain]

theorem headerText_eq (h : Option (GoMap Str)) :
    headerText (quoteString false) h = headerValue h := by
  cases h with
  | none => rfl
  | some kvs =>
    simp only [headerText, headerValue, headerMembers, ← jsonObject_members, List.map_map]
    congr 1
    apply List.map_congr_left
    intro kv _
    exact entry_plain kv.1 _

theorem headersText_eq (hs : Option (List (Option (GoMap Str)))) :
    headersText (quoteString false) hs = headersValue hs := by
  cases hs with
  | none => rfl
  | some hs =>
    simp only [headersText, headersValue, ← jsonArray_elems, List.map_map]
    congr 1
    apply List.map_congr_left
    intro h _
    simp only [Function.comp, elem_plain]
    exact headerText_eq h

theorem campaignText_eq (c : campaign) :
    campaignText (quoteString false) c = objectText [] (campaignMembers c) := by
  simp only [campaignText, campaignMembers, ← jsonObject_members, List.map, jsonMember_plain,
    headersText_eq, tagsText_eq]

theorem encodeCampaign_exact (buf : Str) (c : campaign) :
    easyjsonDf11841fEncodeGithubComKnadhListmonkInternalMessengerPostback2
        ({ Flags := 0, Error := none, Buffer := buf, NoEscapeHTML := false } : Writer Err) c =
      { Flags := 0, Error := none, Buffer := buf ++ objectText [] (campaignMembers c),
        NoEscapeHTML := false } := by
  have h := Writer.eq_of_appended
    (encodeCampaign_appended
      ({ Flags := 0, Error := none, Buffer := buf, NoEscapeHTML := false } : Writer Err) rfl c)
    (encodeCampaign_error _ c)
  rw [h, campaignText_eq]

/-- What the loop over a map of attributes writes. -/
theorem encodeAttribsLoop_exact (ms : Marshalers V Err) :
    ∀ (kvs : GoMap V), (∀ kv ∈ kvs, ms.Writes kv.2) →
      ∀ (buf : Str),
      encodeAttribsLoop ms
          ({ Flags := 0, Error := none, Buffer := buf, NoEscapeHTML := false } : Writer Err)
          false kvs =
        { Flags := 0, Error := none,
          Buffer := buf ++ sepTail ((attribMembers ms.text kvs).map Member.text),
          NoEscapeHTML := false } := by
  intro kvs
  induction kvs with
  | nil => intro _ buf; simp [encodeAttribsLoop, attribMembers, sepTail]
  | cons kv rest ih =>
    intro h buf
    obtain ⟨k, v⟩ := kv
    have hw : ms.Writes v := h (k, v) (List.mem_cons_self _ _)
    unfold encodeAttribsLoop
    simp only [Bool.false_eq_true, if_false, Writer.RawByte, Writer.String]
    rw [hw, ih (fun kv hkv => h kv (List.mem_cons_of_mem _ hkv))]
    simp [attribMembers, sepTail, ← entry_plain]

/-- `Writer.Raw` on what a successful `json.Marshal` returned. -/
theorem Raw_exact (Marshal : V → Str × Option Err) {v : V}
    (h : (Marshal v).2 = none ∧ (Marshal v).1 ≠ []) (b : Str) :
    Writer.Raw ({ Flags := 0, Error := none, Buffer := b, NoEscapeHTML := false } : Writer Err)
        (Marshal v) =
      { Flags := 0, Error := none, Buffer := b ++ (Marshal v).1, NoEscapeHTML := false } := by
  obtain ⟨h1, h2⟩ := h
  have hlen : 0 < (Marshal v).1.length := List.length_pos.mpr h2
  generalize Marshal v = res at h1 hlen
  obtain ⟨data, err⟩ := res
  simp only at h1 hlen
  subst h1
  simp [Writer.Raw, hlen, Writer.RawString]

/-- A value that implements no marshaler interface and on which `json.Marshal` succeeds is
written without error, as the bytes `json.Marshal` returned. -/
theorem plain_writes (Marshal : V → Str × Option Err) {v : V}
    (h : (Marshal v).2 = none ∧ (Marshal v).1 ≠ []) :
    (Marshalers.plain Marshal).text v = (Marshal v).1 ∧ (Marshalers.plain Marshal).Writes v := by
  have ht : (Marshalers.plain Marshal).text v = (Marshal v).1 := by
    have := Raw_exact Marshal h []
    show (Writer.Raw (Writer.zero : Writer Err) (Marshal v)).Buffer = _
    unfold Writer.zero
    rw [this]
    rfl
  refine ⟨ht, fun buf => ?_⟩
  rw [ht]
  exact Raw_exact Marshal h buf

/-- What the encoder writes for the value of `attribs`. -/
theorem encodeAttribs_exact (ms : Marshalers V Err) (a : Option (GoMap V))
    (h : ∀ kv ∈ a.getD [], ms.Writes kv.2) (buf : Str) :
    (if a.isNone ∧ Nat.land
          ({ Flags := 0, Error := none, Buffer := buf, NoEscapeHTML := false } : Writer Err).Flags
          NilMapAsEmpty = 0 then
        Writer.RawString
          ({ Flags := 0, Error := none, Buffer := buf, NoEscapeHTML := false } : Writer Err)
          "null".toList
      else
        (encodeAttribsLoop ms
          (Writer.RawByte
            ({ Flags := 0, Error := none, Buffer := buf, NoEscapeHTML := false } : Writer Err)
            '{') true (a.getD [])).RawByte '}') =
      { Flags := 0, Error := none, Buffer := buf ++ attribsValue ms.text a,
        NoEscapeHTML := false } := by
  cases a with
  | none =>
    rw [if_pos ⟨rfl, by show Nat.land 0 NilMapAsEmpty = 0; rfl⟩]
    rfl
  | some kvs =>
    rw [if_neg (by simp)]
    cases kvs with
    | nil =>
      simp [encodeAttribsLoop, Writer.RawByte, attribsValue, attribMembers, objectText,
        List.intercalate]
    | cons kv rest =>
      obtain ⟨k, v⟩ := kv
      simp only [Option.getD_some] at h ⊢
      unfold encodeAttribsLoop
      have hw : ms.Writes v := h (k, v) (List.mem_cons_self _ _)
      simp only [if_true, Writer.RawByte, Writer.String]
      rw [hw, encodeAttribsLoop_exact ms rest (fun kv hkv => h kv (List.mem_cons_of_mem _ hkv))]
      simp [attribsValue, attribMembers, objectText, intercalate_comma_cons, ← entry_plain]

/-- What the encoder writes for a recipient. -/
theorem encodeRecipient_exact (ms : Marshalers V Err) (r : recipient V)
    (h : ∀ kv ∈ r.Attribs.getD [], ms.Writes kv.2)
    (buf : Str) :
    easyjsonDf11841fEncodeGithubComKnadhListmonkInternalMessengerPostback1 ms
        ({ Flags := 0, Error := none, Buffer := buf, NoEscapeHTML := false } : Writer Err) r =
      { Flags := 0, Error := none, Buffer := buf ++ objectText [] (recipientMembers ms.text r),
        NoEscapeHTML := false } := by
  unfold easyjsonDf11841fEncodeGithubComKnadhListmonkInternalMessengerPostback1
  simp only [Writer.RawByte, Writer.RawString, Writer.String]
  have := encodeAttribs_exact ms r.Attribs h
  simp only [Writer.RawByte, Writer.RawString] at this
  rw [this]
  simp [recipientMembers, objectText, Member.text, Member.plain, List.intercalate]

theorem encodeRecipientsLoop_exact (ms : Marshalers V Err) :
    ∀ (rs : List (recipient V)),
      (∀ r ∈ rs, ∀ kv ∈ r.Attribs.getD [], ms.Writes kv.2) →
      ∀ (buf : Str) (v2 : Nat), 0 < v2 →
      encodeRecipientsLoop ms
          ({ Flags := 0, Error := none, Buffer := buf, NoEscapeHTML := false } : Writer Err)
          v2 rs =
        { Flags := 0, Error := none,
          Buffer := buf ++ sepTail (rs.map fun r => objectText [] (recipientMembers ms.text r)),
          NoEscapeHTML := false } := by
  intro rs
  induction rs with
  | nil => intro _ buf v2 _; simp [encodeRecipientsLoop, sepTail]
  | cons r rest ih =>
    intro h buf v2 hv
    unfold encodeRecipientsLoop
    simp only [if_pos hv, Writer.RawByte,
      encodeRecipient_exact ms r (h r (List.mem_cons_self _ _))]
    rw [ih (fun r hr => h r (List.mem_cons_of_mem _ hr)) _ _ (Nat.succ_pos v2)]
    simp [sepTail]

/-- What the encoder writes for the value of `recipients`. -/
theorem encodeRecipients_exact (ms : Marshalers V Err)
    (rs : Option (List (recipient V)))
    (h : ∀ r ∈ rs.getD [], ∀ kv ∈ r.Attribs.getD [],
      ms.Writes kv.2) (buf : Str) :
    (if rs.isNone ∧ Nat.land
          ({ Flags := 0, Error := none, Buffer := buf, NoEscapeHTML := false } : Writer Err).Flags
          NilSliceAsEmpty = 0 then
        Writer.RawString
          ({ Flags := 0, Error := none, Buffer := buf, NoEscapeHTML := false } : Writer Err)
          "null".toList
      else
        (encodeRecipientsLoop ms
          (Writer.RawByte
            ({ Flags := 0, Error := none, Buffer := buf, NoEscapeHTML := false } : Writer Err)
            '[') 0 (rs.getD [])).RawByte ']') =
      { Flags := 0, Error := none, Buffer := buf ++ recipientsValue ms.text rs,
        NoEscapeHTML := false } := by
  cases rs with
  | none =>
    rw [if_pos ⟨rfl, by show Nat.land 0 NilSliceAsEmpty = 0; rfl⟩]
    rfl
  | some l =>
    rw [if_neg (by simp)]
    cases l with
    | nil =>
      simp [encodeRecipientsLoop, Writer.RawByte, recipientsValue, arrayText, List.intercalate]
    | cons r rest =>
      simp only [Option.getD_some] at h ⊢
      unfold encodeRecipientsLoop
      simp only [gt_iff_lt, lt_self_iff_false, if_false, Writer.RawByte,
        encodeRecipient_exact ms r (h r (List.mem_cons_self _ _))]
      rw [encodeRecipientsLoop_exact ms rest
        (fun r hr => h r (List.mem_cons_of_mem _ hr)) _ _ (Nat.succ_pos 0)]
      simp [recipientsValue, arrayText, intercalate_comma_cons, elem_plain, Function.comp_def]

/-- When every attribute value is written without error, `MarshalJSON` succeeds and writes the
object of the members `postbackMembers`. -/
theorem MarshalJSON_exact (ms : Marshalers V Err) (p : postback V)
    (h : ∀ r ∈ p.Recipients.getD [], ∀ kv ∈ r.Attribs.getD [], ms.Writes kv.2) :
    MarshalJSON ms p = (objectText [] (postbackMembers ms.text p), none) := by
  unfold MarshalJSON easyjsonDf11841fEncodeGithubComKnadhListmonkInternalMessengerPostback
  simp only [Writer.zero, Writer.RawByte, Writer.RawString, Writer.String]
  have h1 := encodeRecipients_exact ms p.Recipients h
  simp only [Writer.RawByte, Writer.RawString] at h1
  rw [h1]
  cases hc : p.Campaign with
  | none =>
    simp [postbackMembers, objectText, Member.text, Member.plain, List.intercalate, hc,
      campaignValue, Writer.RawString, Writer.RawByte]
  | some c =>
    simp only [Writer.RawString, encodeCampaign_exact]
    simp [postbackMembers, objectText, Member.text, Member.plain, List.intercalate, hc,
      campaignValue, Writer.RawByte]

end EncodeExact

/-! ## Reading back what the encoder wrote -/

theorem jsonValue_quoted (s : Str) : JsonValue (quoteString false s) :=
  JsonValue.string _ (escaped_strBody s)

theorem valueKind_quoted (s : Str) : valueKind (quoteString false s) ≠ .tokenNull := by
  simp [quoteString, valueKind]

theorem plain_wf {key : Str} (h : StrBody key) (value : Str) : (Member.plain key value).WF :=
  ⟨isWs_nil, h, isWs_nil, isWs_nil, isWs_nil⟩

theorem elem_plain_wf (value : Str) : (Elem.plain value).WF := ⟨isWs_nil, isWs_nil⟩

/-- `Lexer.String` reads back the string `Writer.String` wrote. -/
theorem readString_quoted {α : Type} (f : α → Str → α) (s : Str) (a : α) :
    Sem NUL (readString f) (quoteString false s) a (some (f a s)) := by
  intro r w pre rest hat hpre _
  obtain ⟨h1, h2⟩ := String_string hat hpre (escaped_strBody s) (unescape_escaped s)
  exact ⟨by unfold readString; simp only [h1], h2⟩

/-- The rounds of a loop whose round on the text of `x` turns the data `a` into `step a x`. -/
theorem ListSem.fold {α X : Type} {B : Lexer → α → Lexer × α} (g : X → Str)
    (step : α → X → α) :
    ∀ (xs : List X), (∀ x ∈ xs, ∀ a, Sem ',' B (g x) a (some (step a x))) → ∀ (a : α),
      ListSem B (xs.map g) a (some (xs.foldl step a)) := by
  intro xs
  induction xs with
  | nil => intro _ a; rfl
  | cons x xs ih =>
    intro h a
    exact Or.inr ⟨step a x, h x (List.mem_cons_self _ _) a,
      ih (fun y hy => h y (List.mem_cons_of_mem _ hy)) (step a x)⟩

theorem foldl_snoc {X : Type} (xs : List X) (a : List X) :
    xs.foldl (fun acc x => acc ++ [x]) a = a ++ xs := by
  induction xs generalizing a with
  | nil => simp
  | cons x xs ih => simp [ih]

theorem GoMap.set_new {α : Type} (m : GoMap α) (k : Str) (v : α) (h : k ∉ m.map Prod.fst) :
    GoMap.set m k v = m ++ [(k, v)] := by
  induction m with
  | nil => rfl
  | cons kv rest ih =>
    obtain ⟨k', v'⟩ := kv
    simp only [List.map_cons, List.mem_cons, not_or] at h
    rw [GoMap.set, if_neg (fun e => h.1 e.symm), ih h.2]
    rfl

theorem foldl_set {α : Type} (kvs : GoMap α) :
    ∀ (a : GoMap α), (List.map Prod.fst (a ++ kvs)).Nodup →
      kvs.foldl (fun acc kv => GoMap.set acc kv.1 kv.2) a = a ++ kvs := by
  induction kvs with
  | nil => intro a _; simp
  | cons kv rest ih =>
    intro a h
    have hk : kv.1 ∉ a.map Prod.fst := by
      simp only [List.map_append, List.map_cons] at h
      have := (List.nodup_append.mp h).2.2
      intro hmem
      exact this hmem (List.mem_cons_self _ _)
    rw [List.foldl_cons, GoMap.set_new a kv.1 kv.2 hk, ih]
    · simp
    · simpa using h

/-- A member the encoder wrote, whose value `field` reads as `res`. -/
theorem plainMember_sem {α : Type} {field : Str → Lexer → α → Lexer × α}
    (hff : ∀ k, Fetched (field k)) (k : Str) {value : Str} (hv : JsonValue value)
    (hnn : valueKind value ≠ .tokenNull) {a : α} {res : Option α}
    (h : Sem NUL (field k) value a res) :
    Sem ',' (readMember field) (Member.plain (escaped k) value).core a res := by
  have hm : StrBody (Member.plain (escaped k) value).key := escaped_strBody k
  have hk : unescape (Member.plain (escaped k) value).key = .ok k := unescape_escaped k
  have hvv : JsonValue (Member.plain (escaped k) value).value := hv
  exact readMember_sem_field hff hm hk isWs_nil isWs_nil hvv hnn h

/-- A member the encoder wrote with the value null: the round changes nothing. -/
theorem plainMember_null {α : Type} (field : Str → Lexer → α → Lexer × α) (k : Str) (a : α) :
    Sem ',' (readMember field) (Member.plain (escaped k) "null".toList).core a (some a) :=
  nullMember_sem field (plain_wf (escaped_strBody k) _) rfl a

section ReadBack

variable {F : Type} (rt : Runtime F)

theorem jsonValue_tags (ts : Option (List Str)) : JsonValue (tagsValue ts) := by
  cases ts with
  | none => exact JsonValue.null
  | some ts =>
    refine JsonValue.array [] _ isWs_nil (fun e _ => ?_) (fun e he => ?_)
    · obtain ⟨t, _, rfl⟩ := List.mem_map.mp ‹_›
      exact elem_plain_wf _
    · obtain ⟨t, _, rfl⟩ := List.mem_map.mp he
      exact jsonValue_quoted t

/-- The `tags` array the encoder wrote is read back. -/
theorem readTags_written (ts : List Str) (c : campaign) :
    Sem NUL readTags (tagsValue (some ts)) c (some { c with Tags := some ts }) := by
  have hl : ListSem (thenComma (readString fun (tags : List Str) s => tags ++ [s]))
      ((ts.map fun t => Elem.plain (quoteString false t)).map Elem.value) []
      (some ts) := by
    have h := ListSem.fold (B := thenComma (readString fun (tags : List Str) s => tags ++ [s]))
      (quoteString false) (fun acc x => acc ++ [x]) ts
      (fun x _ a => thenComma_sem (readString_quoted _ x a)) []
    rw [foldl_snoc, List.nil_append] at h
    rw [List.map_map]
    exact h
  have ha := readArray_sem c.Tags.isNone
    (thenComma_fetched (readString_isFetched fun (tags : List Str) s => tags ++ [s]))
    isWs_nil (fun e he => by
      obtain ⟨t, _, rfl⟩ := List.mem_map.mp he
      exact elem_plain_wf _)
    (fun e he => by
      obtain ⟨t, _, rfl⟩ := List.mem_map.mp he
      exact jsonValue_quoted t) hl
  have hi : Sem NUL
      (readSlice (fun (out : campaign) => out.Tags.isNone)
        (thenComma (readString fun (tags : List Str) s => tags ++ [s]))
        (fun out ts => { out with Tags := some ts }))
      (tagsValue (some ts)) c (some { c with Tags := some ts }) :=
    fun r w pre rest hat hpre hrest =>
      into_sem (fun (out : campaign) ts => { out with Tags := some ts }) c ha r w pre rest hat
        hpre hrest
  exact nullOr_sem_other _ (readSlice_isFetched _ _ _) (jsonValue_tags (some ts))
    (valueKind_array _ _) hi

theorem jsonValue_header (h : Option (GoMap Str)) : JsonValue (headerValue h) := by
  cases h with
  | none => exact JsonValue.null
  | some kvs =>
    refine JsonValue.object [] _ isWs_nil (fun m hm => ?_) (fun m hm => ?_)
    · obtain ⟨kv, _, rfl⟩ := List.mem_map.mp hm
      exact plain_wf (escaped_strBody _) _
    · obtain ⟨kv, _, rfl⟩ := List.mem_map.mp hm
      exact jsonValue_quoted kv.2

theorem jsonValue_headers (hs : Option (List (Option (GoMap Str)))) :
    JsonValue (headersValue hs) := by
  cases hs with
  | none => exact JsonValue.null
  | some hs =>
    refine JsonValue.array [] _ isWs_nil (fun e he => ?_) (fun e he => ?_)
    · obtain ⟨h, _, rfl⟩ := List.mem_map.mp he
      exact elem_plain_wf _
    · obtain ⟨h, _, rfl⟩ := List.mem_map.mp he
      exact jsonValue_header h

/-- The rounds over the members the encoder wrote for a map: every value is read back by `D`
and stored under its key. -/
theorem entries_written {β : Type} {D : Lexer → β → Lexer × β} (hs : Sticky D) (b0 : β)
    (text : β → Str) (kvs : GoMap β) (hwf : kvs.WF)
    (h : ∀ kv ∈ kvs, Sem NUL D (text kv.2) b0 (some kv.2)) :
    ListSem (readEntry D b0)
      ((kvs.map fun kv => Member.plain (escaped kv.1) (text kv.2)).map Member.core) []
      (some kvs) := by
  have hf := ListSem.fold (B := readEntry D b0)
    (fun kv : Str × β => (Member.plain (escaped kv.1) (text kv.2)).core)
    (fun acc kv => GoMap.set acc kv.1 kv.2) kvs
    (fun kv hkv a => by
      have hm : (Member.plain (escaped kv.1) (text kv.2)).WF := plain_wf (escaped_strBody _) _
      have hv : Sem NUL D (Member.plain (escaped kv.1) (text kv.2)).value b0 (some kv.2) :=
        h kv hkv
      have := readEntry_sem hs hm hv a
      unfold entryResult at this
      have hk : unescape (Member.plain (escaped kv.1) (text kv.2)).key = .ok kv.1 :=
        unescape_escaped kv.1
      rw [hk] at this
      exact this) []
  rw [foldl_set kvs [] (by simpa using hwf), List.nil_append] at hf
  rw [List.map_map]
  exact hf

/-- One element of `headers` the encoder wrote is read back. -/
theorem readHeaderMap_written (h : Option (GoMap Str)) (hwf : ∀ kvs, h = some kvs → kvs.WF)
    (b : Option (GoMap Str)) : Sem NUL readHeaderMap (headerValue h) b (some h) := by
  cases h with
  | none => exact nullOr_sem_null _ _ b
  | some kvs =>
    have hl := entries_written (readString_sticky fun (_ : Str) s => s) []
      (quoteString false) kvs (hwf kvs rfl) (fun kv _ => readString_quoted _ kv.2 [])
    have ho := readObject_sem (readEntry_isFetched (readString fun (_ : Str) s => s) [])
      isWs_nil (fun m hm => by
        obtain ⟨kv, _, rfl⟩ := List.mem_map.mp hm
        exact plain_wf (escaped_strBody _) _) hl
    have hi := into_sem (fun (_ : Option (GoMap Str)) m => some m) b ho
    exact nullOr_sem_other _ (into_fetched _ _ (readContainer_isFetched _ _ _ _))
      (jsonValue_header (some kvs)) (valueKind_object _ _) hi

/-- The `headers` array the encoder wrote is read back. -/
theorem readHeaders_written (hs : List (Option (GoMap Str)))
    (hwf : ∀ h ∈ hs, ∀ kvs, h = some kvs → kvs.WF) (c : campaign) :
    Sem NUL readHeaders (headersValue (some hs)) c (some { c with Headers := some hs }) := by
  have hl : ListSem (thenComma (into readHeaderMap none
        (fun (hs : List (Option (GoMap Str))) v => hs ++ [v])))
      ((hs.map fun h => Elem.plain (headerValue h)).map Elem.value) [] (some hs) := by
    have h := ListSem.fold
      (B := thenComma (into readHeaderMap none
        (fun (hs : List (Option (GoMap Str))) v => hs ++ [v])))
      headerValue (fun acc x => acc ++ [x]) hs
      (fun x hx a => thenComma_sem (into_sem _ a (readHeaderMap_written x (hwf x hx) none))) []
    rw [foldl_snoc, List.nil_append] at h
    rw [List.map_map]
    exact h
  have ha := readArray_sem c.Headers.isNone
    (thenComma_fetched (into_fetched none
      (fun (hs : List (Option (GoMap Str))) v => hs ++ [v]) readHeaderMap_isFetched))
    isWs_nil (fun e he => by
      obtain ⟨t, _, rfl⟩ := List.mem_map.mp he
      exact elem_plain_wf _)
    (fun e he => by
      obtain ⟨t, _, rfl⟩ := List.mem_map.mp he
      exact jsonValue_header t) hl
  have hi : Sem NUL
      (readSlice (fun (out : campaign) => out.Headers.isNone)
        (thenComma (into readHeaderMap none
          (fun (hs : List (Option (GoMap Str))) v => hs ++ [v])))
        (fun out hs => { out with Headers := some hs }))
      (headersValue (some hs)) c (some { c with Headers := some hs }) :=
    fun r w pre rest hat hpre hrest =>
      into_sem (fun (out : campaign) hs => { out with Headers := some hs }) c ha r w pre rest
        hat hpre hrest
  exact nullOr_sem_other _ (readSlice_isFetched _ _ _) (jsonValue_headers (some hs))
    (valueKind_array _ _) hi

theorem escaped_names :
    escaped "subject".toList = "subject".toList ∧
    escaped "content_type".toList = "content_type".toList ∧
    escaped "body".toList = "body".toList ∧
    escaped "recipients".toList = "recipients".toList ∧
    escaped "campaign".toList = "campaign".toList ∧
    escaped "uuid".toList = "uuid".toList ∧
    escaped "email".toList = "email".toList ∧
    escaped "name".toList = "name".toList ∧
    escaped "attribs".toList = "attribs".toList ∧
    escaped "status".toList = "status".toList ∧
    escaped "headers".toList = "headers".toList ∧
    escaped "tags".toList = "tags".toList := by
  decide

theorem decodeCampaignField_uuid :
    decodeCampaignField rt "uuid".toList = readString (fun out s => { out with UUID := s }) := by
  funext r a
  unfold decodeCampaignField
  rw [if_pos rfl]
  rfl

theorem decodeCampaignField_name :
    decodeCampaignField rt "name".toList = readString (fun out s => { out with Name := s }) := by
  funext r a
  unfold decodeCampaignField
  rw [if_neg (by decide), if_pos rfl]
  rfl

theorem decodeCampaignField_headers : decodeCampaignField rt "headers".toList = readHeaders := by
  funext r a
  unfold decodeCampaignField
  rw [if_neg (by decide), if_neg (by decide), if_pos rfl]
  unfold readHeaders nullOr readSlice into readContainer
  rw [decodeHeader_eq]
  rfl

theorem decodeCampaignField_tags : decodeCampaignField rt "tags".toList = readTags := by
  funext r a
  unfold decodeCampaignField
  rw [if_neg (by decide), if_neg (by decide), if_neg (by decide), if_pos rfl]
  unfold readTags nullOr readSlice into readContainer
  rw [decodeTag_eq]

/-- The member `headers` the encoder wrote is read back into a campaign without headers. -/
theorem campaignHeaders_written (hs : Option (List (Option (GoMap Str))))
    (hwf : ∀ h ∈ hs.getD [], ∀ kvs, h = some kvs → GoMap.WF kvs) (c : campaign)
    (h0 : c.Headers = none) :
    Sem ',' (readMember (decodeCampaignField rt))
      (Member.plain "headers".toList (headersValue hs)).core c
      (some { c with Headers := hs }) := by
  have hn : "headers".toList = escaped "headers".toList := by decide
  rw [hn]
  cases hs with
  | none =>
    have e : ({ c with Headers := none } : campaign) = c := by
      cases c; simp only at h0; subst h0; rfl
    rw [e]
    exact plainMember_null (decodeCampaignField rt) "headers".toList c
  | some l =>
    refine plainMember_sem (decodeCampaignField_isFetched rt) "headers".toList
      (jsonValue_headers (some l)) (valueKind_array _ _) ?_
    rw [decodeCampaignField_headers]
    exact readHeaders_written l hwf c

/-- The member `tags` the encoder wrote is read back into a campaign without tags. -/
theorem campaignTags_written (ts : Option (List Str)) (c : campaign) (h0 : c.Tags = none) :
    Sem ',' (readMember (decodeCampaignField rt))
      (Member.plain "tags".toList (tagsValue ts)).core c (some { c with Tags := ts }) := by
  have hn : "tags".toList = escaped "tags".toList := by decide
  rw [hn]
  cases ts with
  | none =>
    have e : ({ c with Tags := none } : campaign) = c := by
      cases c; simp only at h0; subst h0; rfl
    rw [e]
    exact plainMember_null (decodeCampaignField rt) "tags".toList c
  | some l =>
    refine plainMember_sem (decodeCampaignField_isFetched rt) "tags".toList
      (jsonValue_tags (some l)) (valueKind_array _ _) ?_
    rw [decodeCampaignField_tags]
    exact readTags_written l c

/-- A member the encoder wrote for a string field. -/
theorem stringMember_written {α : Type} {field : Str → Lexer → α → Lexer × α}
    (hff : ∀ k, Fetched (field k)) (k : Str) (f : α → Str → α) (hf : field k = readString f)
    (s : Str) (a : α) :
    Sem ',' (readMember field) (Member.plain (escaped k) (quoteString false s)).core a
      (some (f a s)) := by
  refine plainMember_sem hff k (jsonValue_quoted s) (valueKind_quoted s) ?_
  rw [hf]
  exact readString_quoted f s a

theorem campaignMembers_wf (c : campaign) : ∀ m ∈ campaignMembers c, m.WF := by
  intro m hm
  simp only [campaignMembers, List.mem_cons, List.mem_singleton, List.not_mem_nil,
    or_false] at hm
  obtain ⟨h1, h2, h3, h4⟩ :
      StrBody "uuid".toList ∧ StrBody "name".toList ∧ StrBody "headers".toList ∧
        StrBody "tags".toList :=
    ⟨escaped_strBody "uuid".toList, escaped_strBody "name".toList,
      escaped_strBody "headers".toList, escaped_strBody "tags".toList⟩
  rcases hm with rfl | rfl | rfl | rfl
  · exact plain_wf h1 _
  · exact plain_wf h2 _
  · exact plain_wf h3 _
  · exact plain_wf h4 _

theorem jsonValue_campaign (c : Option campaign) : JsonValue (campaignValue c) := by
  cases c with
  | none => exact JsonValue.null
  | some c =>
    refine JsonValue.object [] _ isWs_nil (campaignMembers_wf c) (fun m hm => ?_)
    simp only [campaignMembers, List.mem_cons, List.mem_singleton, List.not_mem_nil,
      or_false] at hm
    rcases hm with rfl | rfl | rfl | rfl
    · exact jsonValue_quoted _
    · exact jsonValue_quoted _
    · exact jsonValue_headers _
    · exact jsonValue_tags _

/-- The rounds of the campaign decoder over the members the encoder wrote. -/
theorem campaignMembers_written (c : campaign) (hwf : c.WF) :
    ListSem (readMember (decodeCampaignField rt)) ((campaignMembers c).map Member.core)
      campaign.zero (some c) := by
  have h1 := stringMember_written (decodeCampaignField_isFetched rt) "uuid".toList _
    (decodeCampaignField_uuid rt) c.UUID campaign.zero
  have h2 := stringMember_written (decodeCampaignField_isFetched rt) "name".toList _
    (decodeCampaignField_name rt) c.Name { campaign.zero with UUID := c.UUID }
  have h3 := campaignHeaders_written rt c.Headers hwf
    { campaign.zero with UUID := c.UUID, Name := c.Name } rfl
  have h4 := campaignTags_written rt c.Tags
    { campaign.zero with UUID := c.UUID, Name := c.Name, Headers := c.Headers } rfl
  rw [escaped_names.2.2.2.2.2.1] at h1
  rw [escaped_names.2.2.2.2.2.2.2.1] at h2
  exact Or.inr ⟨_, h1, Or.inr ⟨_, h2, Or.inr ⟨_, h3, Or.inr ⟨_, h4, rfl⟩⟩⟩⟩

/-- The campaign decoder reads back the object the encoder wrote for a campaign. -/
theorem decodeCampaign_written (c : campaign) (hwf : c.WF) :
    Sem NUL (easyjsonDf11841fDecodeGithubComKnadhListmonkInternalMessengerPostback2 rt)
      (objectText [] (campaignMembers c)) campaign.zero (some c) := by
  refine Sem.agree (fun r hp => decodeCampaign_nested rt (IsStart_false hp) _) ?_
  exact nullOr_sem_other id (readContainer_isFetched _ _ _ _) (jsonValue_campaign (some c))
    (valueKind_object _ _)
    (readObject_sem (readMember_isFetched _) isWs_nil (campaignMembers_wf c)
      (campaignMembers_written rt c hwf))

/-- A JSON text that `Interface` reads as `v` when it stands alone is read as `v` wherever it
stands. -/
theorem readBack_sem {t : Str} (ht : JsonValue t) {v : GoValue F} (h : readBack rt t = some v)
    (b : GoValue F) : Sem NUL (readInterface rt) t b (some v) := by
  obtain ⟨res, hres⟩ := readInterface_reads rt t ht b
  have hidle : (Lexer.new ('[' :: t ++ [']'])).Idle := ⟨rfl, rfl, rfl⟩
  have hd : (Lexer.new ('[' :: t ++ [']'])).Data = [] ++ '[' :: (t ++ [']']) := rfl
  obtain ⟨hat, _⟩ := Delim_open_idle hidle (Or.inr rfl) hd (Pre.of_nul isWs_nil)
  have hat' : ((Lexer.new ('[' :: t ++ [']'])).Delim '[').At ([] ++ t ++ [']']) NUL := by
    simpa using hat
  have he := hres _ NUL [] [']'] hat' (Pre.of_nul isWs_nil) (follow_cons (by decide) [])
  have hres' : res = some v := by
    cases res with
    | none =>
      have hok : (Interface rt (interfaceFuel ((Lexer.new ('[' :: t ++ [']'])).Delim '['))
          ((Lexer.new ('[' :: t ++ [']'])).Delim '[')).1.Ok = false := he
      unfold readBack at h
      simp only [hok, Bool.false_eq_true, if_false] at h
      exact absurd h (by simp)
    | some v' =>
      have hv : (Interface rt (interfaceFuel ((Lexer.new ('[' :: t ++ [']'])).Delim '['))
          ((Lexer.new ('[' :: t ++ [']'])).Delim '[')).2 = v' := he.1
      have hok : (Interface rt (interfaceFuel ((Lexer.new ('[' :: t ++ [']'])).Delim '['))
          ((Lexer.new ('[' :: t ++ [']'])).Delim '[')).1.Ok = true := he.2.isOkAt
      unfold readBack at h
      simp only [hok, if_true, hv, Option.some.injEq] at h
      rw [h]
  rw [← hres']
  exact hres

variable {Err : Type} (ms : Marshalers (GoValue F) Err)

theorem decodeRecipientField_uuid :
    decodeRecipientField rt "uuid".toList = readString (fun out s => { out with UUID := s }) := by
  funext r a
  unfold decodeRecipientField
  rw [if_pos rfl]
  rfl

theorem decodeRecipientField_email :
    decodeRecipientField rt "email".toList =
      readString (fun out s => { out with Email := s }) := by
  funext r a
  unfold decodeRecipientField
  rw [if_neg (by decide), if_pos rfl]
  rfl

theorem decodeRecipientField_name :
    decodeRecipientField rt "name".toList = readString (fun out s => { out with Name := s }) := by
  funext r a
  unfold decodeRecipientField
  rw [if_neg (by decide), if_neg (by decide), if_pos rfl]
  rfl

theorem decodeRecipientField_attribs :
    decodeRecipientField rt "attribs".toList = readAttribs rt := by
  funext r a
  unfold decodeRecipientField
  rw [if_neg (by decide), if_neg (by decide), if_neg (by decide), if_pos rfl]
  unfold readAttribs nullOr into readContainer
  simp only [Bool.false_eq_true, if_false, id]
  rfl

theorem decodeRecipientField_status :
    decodeRecipientField rt "status".toList =
      readString (fun out s => { out with Status := s }) := by
  funext r a
  unfold decodeRecipientField
  rw [if_neg (by decide), if_neg (by decide), if_neg (by decide), if_neg (by decide),
    if_pos rfl]
  rfl

theorem jsonValue_attribs (a : Option (GoMap (GoValue F)))
    (hv : ∀ kv ∈ a.getD [], ReadsBack rt ms kv.2) : JsonValue (attribsValue ms.text a) := by
  cases a with
  | none => exact JsonValue.null
  | some kvs =>
    refine JsonValue.object [] _ isWs_nil (fun m hm => ?_) (fun m hm => ?_)
    · obtain ⟨kv, _, rfl⟩ := List.mem_map.mp hm
      exact plain_wf (escaped_strBody _) _
    · obtain ⟨kv, hkv, rfl⟩ := List.mem_map.mp hm
      exact (hv kv hkv).2.1

/-- The `attribs` object the encoder wrote is read back. -/
theorem readAttribs_written (kvs : GoMap (GoValue F)) (hwf : GoMap.WF kvs)
    (hv : ∀ kv ∈ kvs, ReadsBack rt ms kv.2) (r0 : recipient (GoValue F)) :
    Sem NUL (readAttribs rt) (attribsValue ms.text (some kvs)) r0
      (some { r0 with Attribs := some kvs }) := by
  have hl := entries_written (readInterface_sticky rt) GoValue.nil
    ms.text kvs hwf
    (fun kv hkv => readBack_sem rt (hv kv hkv).2.1 (hv kv hkv).2.2 GoValue.nil)
  have ho := readObject_sem (readEntry_isFetched (readInterface rt) GoValue.nil)
    isWs_nil (fun m hm => by
      obtain ⟨kv, _, rfl⟩ := List.mem_map.mp hm
      exact plain_wf (escaped_strBody _) _) hl
  have hi := into_sem
    (fun (out : recipient (GoValue F)) attribs => { out with Attribs := some attribs }) r0 ho
  exact nullOr_sem_other _ (into_fetched _ _ (readContainer_isFetched _ _ _ _))
    (jsonValue_attribs rt ms (some kvs) hv) (valueKind_object _ _) hi

/-- The member `attribs` the encoder wrote is read back into a recipient without attributes. -/
theorem recipientAttribs_written (a : Option (GoMap (GoValue F)))
    (hwf : GoMap.WF (a.getD [])) (hv : ∀ kv ∈ a.getD [], ReadsBack rt ms kv.2)
    (r0 : recipient (GoValue F)) (h0 : r0.Attribs = none) :
    Sem ',' (readMember (decodeRecipientField rt))
      (Member.plain "attribs".toList (attribsValue ms.text a)).core r0
      (some { r0 with Attribs := a }) := by
  have hn : "attribs".toList = escaped "attribs".toList := by decide
  rw [hn]
  cases a with
  | none =>
    have e : ({ r0 with Attribs := none } : recipient (GoValue F)) = r0 := by
      cases r0; simp only at h0; subst h0; rfl
    rw [e]
    exact plainMember_null (decodeRecipientField rt) "attribs".toList r0
  | some kvs =>
    refine plainMember_sem (decodeRecipientField_isFetched rt) "attribs".toList
      (jsonValue_attribs rt ms (some kvs) hv) (valueKind_object _ _) ?_
    rw [decodeRecipientField_attribs]
    exact readAttribs_written rt ms kvs hwf hv r0

theorem recipientMembers_wf (r : recipient (GoValue F)) :
    ∀ m ∈ recipientMembers ms.text r, m.WF := by
  intro m hm
  simp only [recipientMembers, List.mem_cons, List.mem_singleton, List.not_mem_nil,
    or_false] at hm
  obtain ⟨h1, h2, h3, h4, h5⟩ :
      StrBody "uuid".toList ∧ StrBody "email".toList ∧ StrBody "name".toList ∧
        StrBody "attribs".toList ∧ StrBody "status".toList :=
    ⟨escaped_strBody "uuid".toList, escaped_strBody "email".toList,
      escaped_strBody "name".toList, escaped_strBody "attribs".toList,
      escaped_strBody "status".toList⟩
  rcases hm with rfl | rfl | rfl | rfl | rfl
  · exact plain_wf h1 _
  · exact plain_wf h2 _
  · exact plain_wf h3 _
  · exact plain_wf h4 _
  · exact plain_wf h5 _

theorem jsonValue_recipient (r : recipient (GoValue F))
    (hv : ∀ kv ∈ r.Attribs.getD [], ReadsBack rt ms kv.2) :
    JsonValue (objectText [] (recipientMembers ms.text r)) := by
  refine JsonValue.object [] _ isWs_nil (recipientMembers_wf ms r) (fun m hm => ?_)
  simp only [recipientMembers, List.mem_cons, List.mem_singleton, List.not_mem_nil,
    or_false] at hm
  rcases hm with rfl | rfl | rfl | rfl | rfl
  · exact jsonValue_quoted _
  · exact jsonValue_quoted _
  · exact jsonValue_quoted _
  · exact jsonValue_attribs rt ms _ hv
  · exact jsonValue_quoted _

/-- The rounds of the recipient decoder over the members the encoder wrote. -/
theorem recipientMembers_written (r : recipient (GoValue F))
    (hwf : GoMap.WF (r.Attribs.getD [])) (hv : ∀ kv ∈ r.Attribs.getD [], ReadsBack rt ms kv.2) :
    ListSem (readMember (decodeRecipientField rt))
      ((recipientMembers ms.text r).map Member.core) recipient.zero (some r) := by
  have h1 := stringMember_written (decodeRecipientField_isFetched rt) "uuid".toList _
    (decodeRecipientField_uuid rt) r.UUID (recipient.zero : recipient (GoValue F))
  have h2 := stringMember_written (decodeRecipientField_isFetched rt) "email".toList _
    (decodeRecipientField_email rt) r.Email
    ({ UUID := r.UUID, Email := [], Name := [], Attribs := none, Status := [] } :
      recipient (GoValue F))
  have h3 := stringMember_written (decodeRecipientField_isFetched rt) "name".toList _
    (decodeRecipientField_name rt) r.Name
    ({ UUID := r.UUID, Email := r.Email, Name := [], Attribs := none, Status := [] } :
      recipient (GoValue F))
  have h4 := recipientAttribs_written rt ms r.Attribs hwf hv
    ({ UUID := r.UUID, Email := r.Email, Name := r.Name, Attribs := none, Status := [] } :
      recipient (GoValue F)) rfl
  have h5 := stringMember_written (decodeRecipientField_isFetched rt) "status".toList _
    (decodeRecipientField_status rt) r.Status
    ({ UUID := r.UUID, Email := r.Email, Name := r.Name, Attribs := r.Attribs, Status := [] } :
      recipient (GoValue F))
  rw [escaped_names.2.2.2.2.2.1] at h1
  rw [escaped_names.2.2.2.2.2.2.1] at h2
  rw [escaped_names.2.2.2.2.2.2.2.1] at h3
  rw [escaped_names.2.2.2.2.2.2.2.2.2.1] at h5
  exact Or.inr ⟨_, h1, Or.inr ⟨_, h2, Or.inr ⟨_, h3, Or.inr ⟨_, h4, Or.inr ⟨_, h5, rfl⟩⟩⟩⟩⟩

/-- The recipient decoder reads back the object the encoder wrote for a recipient. -/
theorem decodeRecipient_written (r : recipient (GoValue F))
    (hwf : GoMap.WF (r.Attribs.getD [])) (hv : ∀ kv ∈ r.Attribs.getD [], ReadsBack rt ms kv.2) :
    Sem NUL (easyjsonDf11841fDecodeGithubComKnadhListmonkInternalMessengerPostback1 rt)
      (objectText [] (recipientMembers ms.text r)) recipient.zero (some r) := by
  refine Sem.agree (fun r hp => decodeRecipient_nested rt (IsStart_false hp) _) ?_
  exact nullOr_sem_other id (readContainer_isFetched _ _ _ _)
    (jsonValue_recipient rt ms r hv) (valueKind_object _ _)
    (readObject_sem (readMember_isFetched _) isWs_nil (recipientMembers_wf ms r)
      (recipientMembers_written rt ms r hwf hv))

theorem decodePostbackField_subject :
    decodePostbackField rt "subject".toList =
      readString (fun out s => { out with Subject := s }) := by
  funext r a
  unfold decodePostbackField
  rw [if_pos rfl]
  rfl

theorem decodePostbackField_content_type :
    decodePostbackField rt "content_type".toList =
      readString (fun out s => { out with ContentType := s }) := by
  funext r a
  unfold decodePostbackField
  rw [if_neg (by decide), if_pos rfl]
  rfl

theorem decodePostbackField_body :
    decodePostbackField rt "body".toList = readString (fun out s => { out with Body := s }) := by
  funext r a
  unfold decodePostbackField
  rw [if_neg (by decide), if_neg (by decide), if_pos rfl]
  rfl

theorem jsonValue_recipients (rs : Option (List (recipient (GoValue F))))
    (hv : ∀ r ∈ rs.getD [], ∀ kv ∈ r.Attribs.getD [], ReadsBack rt ms kv.2) :
    JsonValue (recipientsValue ms.text rs) := by
  cases rs with
  | none => exact JsonValue.null
  | some rs =>
    refine JsonValue.array [] _ isWs_nil (fun e he => ?_) (fun e he => ?_)
    · obtain ⟨r, _, rfl⟩ := List.mem_map.mp he
      exact elem_plain_wf _
    · obtain ⟨r, hr, rfl⟩ := List.mem_map.mp he
      exact jsonValue_recipient rt ms r (hv r hr)

/-- The `recipients` array the encoder wrote is read back. -/
theorem readRecipients_written (rs : List (recipient (GoValue F)))
    (hwf : ∀ r ∈ rs, GoMap.WF (r.Attribs.getD []))
    (hv : ∀ r ∈ rs, ∀ kv ∈ r.Attribs.getD [], ReadsBack rt ms kv.2)
    (p0 : postback (GoValue F)) :
    Sem NUL (readRecipients rt) (recipientsValue ms.text (some rs)) p0
      (some { p0 with Recipients := some rs }) := by
  have hl : ListSem
      (thenComma
        (into (easyjsonDf11841fDecodeGithubComKnadhListmonkInternalMessengerPostback1 rt)
          recipient.zero (fun (rs : List (recipient (GoValue F))) v => rs ++ [v])))
      ((rs.map fun r => Elem.plain (objectText [] (recipientMembers ms.text r))).map Elem.value)
      [] (some rs) := by
    have h := ListSem.fold
      (B := thenComma
        (into (easyjsonDf11841fDecodeGithubComKnadhListmonkInternalMessengerPostback1 rt)
          recipient.zero (fun (rs : List (recipient (GoValue F))) v => rs ++ [v])))
      (fun r => objectText [] (recipientMembers ms.text r)) (fun acc x => acc ++ [x]) rs
      (fun x hx a => thenComma_sem
        (into_sem _ a (decodeRecipient_written rt ms x (hwf x hx) (hv x hx)))) []
    rw [foldl_snoc, List.nil_append] at h
    rw [List.map_map]
    exact h
  have ha := readArray_sem p0.Recipients.isNone
    (thenComma_fetched (into_fetched recipient.zero
      (fun (rs : List (recipient (GoValue F))) v => rs ++ [v])
      (decodeRecipientObject_isFetched rt)))
    isWs_nil (fun e he => by
      obtain ⟨t, _, rfl⟩ := List.mem_map.mp he
      exact elem_plain_wf _)
    (fun e he => by
      obtain ⟨t, ht, rfl⟩ := List.mem_map.mp he
      exact jsonValue_recipient rt ms t (hv t ht)) hl
  have hi : Sem NUL
      (readSlice (fun (out : postback (GoValue F)) => out.Recipients.isNone)
        (thenComma
          (into (easyjsonDf11841fDecodeGithubComKnadhListmonkInternalMessengerPostback1 rt)
            recipient.zero (fun (rs : List (recipient (GoValue F))) v => rs ++ [v])))
        (fun out rs => { out with Recipients := some rs }))
      (recipientsValue ms.text (some rs)) p0 (some { p0 with Recipients := some rs }) :=
    fun r w pre rest hat hpre hrest =>
      into_sem (fun (out : postback (GoValue F)) rs => { out with Recipients := some rs }) p0
        ha r w pre rest hat hpre hrest
  exact nullOr_sem_other _ (readSlice_isFetched _ _ _) (jsonValue_recipients rt ms (some rs) hv)
    (valueKind_array _ _) hi

/-- The member `recipients` the encoder wrote is read back into a postback without
recipients. -/
theorem postbackRecipients_written (rs : Option (List (recipient (GoValue F))))
    (hwf : ∀ r ∈ rs.getD [], GoMap.WF (r.Attribs.getD []))
    (hv : ∀ r ∈ rs.getD [], ∀ kv ∈ r.Attribs.getD [], ReadsBack rt ms kv.2)
    (p0 : postback (GoValue F)) (h0 : p0.Recipients = none) :
    Sem ',' (readMember (decodePostbackField rt))
      (Member.plain "recipients".toList (recipientsValue ms.text rs)).core p0
      (some { p0 with Recipients := rs }) := by
  have hn : "recipients".toList = escaped "recipients".toList := by decide
  rw [hn]
  cases rs with
  | none =>
    have e : ({ p0 with Recipients := none } : postback (GoValue F)) = p0 := by
      cases p0; simp only at h0; subst h0; rfl
    rw [e]
    exact plainMember_null (decodePostbackField rt) "recipients".toList p0
  | some l =>
    refine plainMember_sem (decodePostbackField_isFetched rt) "recipients".toList
      (jsonValue_recipients rt ms (some l) hv) (valueKind_array _ _) ?_
    rw [decodePostbackField_recipients]
    exact readRecipients_written rt ms l hwf hv p0

/-- The member `campaign` the encoder wrote is read back into a postback without campaign. -/
theorem postbackCampaign_written (c : Option campaign) (hwf : ∀ c', c = some c' → c'.WF)
    (p0 : postback (GoValue F)) (h0 : p0.Campaign = none) :
    Sem ',' (readMember (decodePostbackField rt))
      (Member.plain "campaign".toList (campaignValue c)).core p0
      (some { p0 with Campaign := c }) := by
  have hn : "campaign".toList = escaped "campaign".toList := by decide
  rw [hn]
  cases c with
  | none =>
    have e : ({ p0 with Campaign := none } : postback (GoValue F)) = p0 := by
      cases p0; simp only at h0; subst h0; rfl
    rw [e]
    exact plainMember_null (decodePostbackField rt) "campaign".toList p0
  | some c =>
    refine plainMember_sem (decodePostbackField_isFetched rt) "campaign".toList
      (jsonValue_campaign (some c)) (valueKind_object _ _) ?_
    rw [decodePostbackField_campaign]
    have hd := decodeCampaign_written rt c (hwf c rfl)
    have hi : Sem NUL
        (fun r (out : postback (GoValue F)) =>
          into (easyjsonDf11841fDecodeGithubComKnadhListmonkInternalMessengerPostback2 rt)
            (out.Campaign.getD campaign.zero) (fun out c => { out with Campaign := some c })
            r out)
        (campaignValue (some c)) p0 (some { p0 with Campaign := some c }) := by
      intro r w pre rest hat hpre hrest
      have hz : p0.Campaign.getD campaign.zero = campaign.zero := by rw [h0]; rfl
      have := into_sem (fun (out : postback (GoValue F)) c => { out with Campaign := some c })
        p0 hd r w pre rest hat hpre hrest
      show Ends NUL rest _
        (into (easyjsonDf11841fDecodeGithubComKnadhListmonkInternalMessengerPostback2 rt)
          (p0.Campaign.getD campaign.zero) (fun out c => { out with Campaign := some c }) r p0)
      rw [hz]
      exact this
    have hfd : Fetched
        (fun r (out : postback (GoValue F)) =>
          into (easyjsonDf11841fDecodeGithubComKnadhListmonkInternalMessengerPostback2 rt)
            (out.Campaign.getD campaign.zero) (fun out c => { out with Campaign := some c })
            r out) :=
      fun r a hp => into_fetched _ _ (decodeCampaignObject_isFetched rt) r a hp
    have hk : valueKind (campaignValue (some c)) ≠ .tokenNull := valueKind_object _ _
    exact nullOr_sem_other (fun (out : postback (GoValue F)) => { out with Campaign := none })
      hfd (jsonValue_campaign (some c)) hk hi

theorem postbackMembers_wf (p : postback (GoValue F)) :
    ∀ m ∈ postbackMembers ms.text p, m.WF := by
  intro m hm
  simp only [postbackMembers, List.mem_cons, List.mem_singleton, List.not_mem_nil,
    or_false] at hm
  obtain ⟨h1, h2, h3, h4, h5⟩ :
      StrBody "subject".toList ∧ StrBody "content_type".toList ∧ StrBody "body".toList ∧
        StrBody "recipients".toList ∧ StrBody "campaign".toList :=
    ⟨escaped_strBody "subject".toList, escaped_strBody "content_type".toList,
      escaped_strBody "body".toList, escaped_strBody "recipients".toList,
      escaped_strBody "campaign".toList⟩
  rcases hm with rfl | rfl | rfl | rfl | rfl
  · exact plain_wf h1 _
  · exact plain_wf h2 _
  · exact plain_wf h3 _
  · exact plain_wf h4 _
  · exact plain_wf h5 _

/-- The rounds of the postback decoder over the members the encoder wrote. -/
theorem postbackMembers_written (p : postback (GoValue F)) (hwf : p.WF)
    (hv : ∀ r ∈ p.Recipients.getD [], ∀ kv ∈ r.Attribs.getD [], ReadsBack rt ms kv.2) :
    ListSem (decodePostbackMember rt) ((postbackMembers ms.text p).map Member.core)
      postback.zero (some p) := by
  rw [decodePostbackMember_eq]
  have h1 := stringMember_written (decodePostbackField_isFetched rt) "subject".toList _
    (decodePostbackField_subject rt) p.Subject (postback.zero : postback (GoValue F))
  have h2 := stringMember_written (decodePostbackField_isFetched rt) "content_type".toList _
    (decodePostbackField_content_type rt) p.ContentType
    ({ Subject := p.Subject, ContentType := [], Body := [], Recipients := none,
       Campaign := none } : postback (GoValue F))
  have h3 := stringMember_written (decodePostbackField_isFetched rt) "body".toList _
    (decodePostbackField_body rt) p.Body
    ({ Subject := p.Subject, ContentType := p.ContentType, Body := [], Recipients := none,
       Campaign := none } : postback (GoValue F))
  have h4 := postbackRecipients_written rt ms p.Recipients hwf.1 hv
    ({ Subject := p.Subject, ContentType := p.ContentType, Body := p.Body, Recipients := none,
       Campaign := none } : postback (GoValue F)) rfl
  have h5 := postbackCampaign_written rt p.Campaign hwf.2
    ({ Subject := p.Subject, ContentType := p.ContentType, Body := p.Body,
       Recipients := p.Recipients, Campaign := none } : postback (GoValue F)) rfl
  rw [escaped_names.1] at h1
  rw [escaped_names.2.1] at h2
  rw [escaped_names.2.2.1] at h3
  exact Or.inr ⟨_, h1, Or.inr ⟨_, h2, Or.inr ⟨_, h3, Or.inr ⟨_, h4, Or.inr ⟨_, h5, rfl⟩⟩⟩⟩⟩

end ReadBack

/-- C15: decode undoes encode.  For every postback `p` whose maps have distinct keys (as every
Go map has) and whose attribute values are written without error as JSON texts that
`in.Interface()` reads back as the values, `MarshalJSON` succeeds and `UnmarshalJSON` of its
bytes into the zero postback succeeds and yields `p`: the strings, the recipients, headers and
tags in their order, nil and empty slices and maps as they were, and a nil or present
campaign. -/
theorem UnmarshalJSON_MarshalJSON {F Err : Type} (rt : Runtime F)
    (ms : Marshalers (GoValue F) Err) (p : postback (GoValue F)) (hwf : p.WF)
    (hv : ∀ r ∈ p.Recipients.getD [], ∀ kv ∈ r.Attribs.getD [], ReadsBack rt ms kv.2) :
    (MarshalJSON ms p).2 = none ∧
      UnmarshalJSON rt postback.zero (MarshalJSON ms p).1 = (p, none) := by
  rw [MarshalJSON_exact ms p (fun r hr kv hkv => (hv r hr kv hkv).1)]
  refine ⟨rfl, ?_⟩
  have h := UnmarshalJSON_object rt postback.zero isWs_nil isWs_nil
    isWs_nil (postbackMembers_wf ms p) (postbackMembers_written rt ms p hwf hv)
  simpa using h

theorem roundTripPostback_wf : roundTripPostback.WF := by
  refine ⟨?_, ?_⟩
  · intro r hr
    simp only [roundTripPostback, Option.getD_some, List.mem_cons, List.mem_singleton,
      List.not_mem_nil, or_false] at hr
    rcases hr with rfl | rfl | rfl <;> simp [GoMap.WF]
  · intro c hc
    have : c = { UUID := ['c'], Name := [],
                 Headers := some [some [(['h'], ['v'])], none, some []],
                 Tags := some [['t'], []] } := by
      simpa [roundTripPostback] using hc.symm
    subst this
    intro h hh kvs hk
    simp only [Option.getD_some, List.mem_cons, List.mem_singleton, List.not_mem_nil,
      or_false] at hh
    rcases hh with rfl | rfl | rfl
    · cases hk; simp [GoMap.WF]
    · cases hk
    · cases hk; simp [GoMap.WF]

theorem roundTripPostback_readsBack :
    ∀ r ∈ roundTripPostback.Recipients.getD [], ∀ kv ∈ r.Attribs.getD [],
      ReadsBack exampleRuntime (Marshalers.plain exampleMarshal) kv.2 := by
  intro r hr kv hkv
  simp only [roundTripPostback, Option.getD_some, List.mem_cons, List.mem_singleton,
    List.not_mem_nil, or_false] at hr
  rcases hr with rfl | rfl | rfl
  · simp only [Option.getD_some, List.mem_cons, List.mem_singleton, List.not_mem_nil,
      or_false] at hkv
    rcases hkv with rfl | rfl
    · exact ⟨fun _ => rfl, JsonValue.true, rfl⟩
    · exact ⟨fun _ => rfl, JsonValue.null, rfl⟩
  · simp at hkv
  · simp at hkv

set_option maxRecDepth 100000 in
/-- The example postback is written as the text below and read back from it. -/
theorem UnmarshalJSON_MarshalJSON_witness :
    MarshalJSON (Marshalers.plain exampleMarshal) roundTripPostback =
      (("\x7b\"subject\":\"a\\\"b\\u003cc\\n\",\"content_type\":\"html\",\"body\":\"\"," ++
        "\"recipients\":[\x7b\"uuid\":\"u\",\"email\":\"e@x\",\"name\":\"\\\\\"," ++
        "\"attribs\":\x7b\"k\":true,\"n\":null\x7d,\"status\":\"ok\"\x7d," ++
        "\x7b\"uuid\":\"\",\"email\":\"\",\"name\":\"\",\"attribs\":null,\"status\":\"\"\x7d," ++
        "\x7b\"uuid\":\"\",\"email\":\"\",\"name\":\"\",\"attribs\":\x7b\x7d,\"status\":\"\"\x7d]," ++
        "\"campaign\":\x7b\"uuid\":\"c\",\"name\":\"\"," ++
        "\"headers\":[\x7b\"h\":\"v\"\x7d,null,\x7b\x7d],\"tags\":[\"t\",\"\"]\x7d\x7d").toList,
        none) ∧
      UnmarshalJSON exampleRuntime postback.zero
          (MarshalJSON (Marshalers.plain exampleMarshal) roundTripPostback).1 =
        (roundTripPostback, none) :=
  ⟨rfl,
    (UnmarshalJSON_MarshalJSON exampleRuntime (Marshalers.plain exampleMarshal) roundTripPostback
      roundTripPostback_wf roundTripPostback_readsBack).2⟩

/-! ## `Interface` accepts every JSON value -/

theorem ListSem.some_from {α : Type} (body : Nat → Lexer → α → Lexer × α) (N : Nat)
    (us : List Str) (h : ∀ u ∈ us, ∀ a, ∃ a', ∀ n, N ≤ n → Sem ',' (body n) u a (some a')) :
    ∀ a, ∃ a', ∀ n, N ≤ n → ListSem (body n) us a (some a') := by
  induction us with
  | nil => intro a; exact ⟨a, fun _ _ => rfl⟩
  | cons u us ih =>
    intro a
    obtain ⟨a1, h1⟩ := h u (by simp) a
    obtain ⟨a2, h2⟩ := ih (fun v hv => h v (by simp [hv])) a1
    exact ⟨a2, fun n hn => Or.inr ⟨a1, h1 n hn, h2 n hn⟩⟩

section Accepts

variable {F : Type} (rt : Runtime F)

/-- When `ParseFloat` accepts every number, `Interface` reads every JSON value without error,
whatever stands around it. -/
theorem Interface_accepts (hpf : ∀ s, (rt.ParseFloat s).2 = none) {v : Str} (hv : JsonValue v) :
    ∃ x : GoValue F, ∀ n, v.length < n → ∀ b,
      Sem NUL (fun r _ => Interface rt n r) v b (some x) := by
  induction hv with
  | null =>
    refine ⟨.nil, fun n hn b r w pre rest hat hpre hrest => ?_⟩
    obtain ⟨m, rfl⟩ : ∃ m, n = m + 1 := ⟨n - 1, by omega⟩
    exact Interface_null rt hat hpre hrest m
  | true =>
    refine ⟨.bool true, fun n hn b r w pre rest hat hpre hrest => ?_⟩
    obtain ⟨m, rfl⟩ : ∃ m, n = m + 1 := ⟨n - 1, by omega⟩
    exact Interface_true rt hat hpre hrest m
  | false =>
    refine ⟨.bool false, fun n hn b r w pre rest hat hpre hrest => ?_⟩
    obtain ⟨m, rfl⟩ : ∃ m, n = m + 1 := ⟨n - 1, by omega⟩
    exact Interface_false rt hat hpre hrest m
  | number v hn' =>
    have hr : numberResult rt v = some (.float64 (rt.ParseFloat v).1) := by
      unfold numberResult
      have := hpf v
      generalize rt.ParseFloat v = res at this
      obtain ⟨f, e⟩ := res
      simp only at this
      subst this
      rfl
    refine ⟨.float64 (rt.ParseFloat v).1, fun n hn b r w pre rest hat hpre hrest => ?_⟩
    obtain ⟨m, rfl⟩ : ∃ m, n = m + 1 := ⟨n - 1, by omega⟩
    have := Interface_number rt hn' hat hpre hrest m
    rw [hr] at this
    exact this
  | string s hs =>
    obtain ⟨k, hk⟩ := unescape_ok hs
    have hr : (stringResult s : Option (GoValue F)) = some (.string k) := by
      unfold stringResult; rw [hk]
    refine ⟨.string k, fun n hn b r w pre rest hat hpre hrest => ?_⟩
    obtain ⟨m, rfl⟩ : ∃ m, n = m + 1 := ⟨n - 1, by omega⟩
    have := Interface_string rt hs hat hpre m
    rw [hr] at this
    exact this
  | array ws es hws hes hvs ih =>
    have hel : ∀ u ∈ es.map Elem.value, ∀ a : List (GoValue F), ∃ a',
        ∀ n, (arrayText ws es).length - 1 ≤ n → Sem ',' (interfaceElem rt n) u a (some a') := by
      intro u hu a
      obtain ⟨e, he, rfl⟩ := List.mem_map.mp hu
      obtain ⟨x, hx⟩ := ih e he
      refine ⟨a ++ [x], fun n hn => ?_⟩
      have hl : e.value.length + 2 ≤ (arrayText ws es).length := Elem.value_length he
      exact thenComma_sem (into_sem _ a (hx n (by omega) GoValue.nil))
    obtain ⟨l, hl⟩ := ListSem.some_from
      (fun n => interfaceElem rt n) ((arrayText ws es).length - 1) (es.map Elem.value) hel []
    refine ⟨.slice l, fun n hn b r w pre rest hat hpre hrest => ?_⟩
    obtain ⟨m, rfl⟩ : ∃ m, n = m + 1 := ⟨n - 1, by omega⟩
    have hlen := arrayText_length ws es
    obtain ⟨m, rfl⟩ : ∃ k, m = k + 1 := ⟨m - 1, by omega⟩
    obtain ⟨h1, h2, h3⟩ := fetch_value (JsonValue.array ws es hws hes hvs) hat.idle pre rest
      (hat.sep ▸ hpre) hrest hat.data
    have h2' : r.fetchIfUndef.kind = .tokenDelim := h2
    have h3' : r.fetchIfUndef.delimValue = '[' := h3
    show Ends NUL rest _ (Interface rt (m + 1 + 1) r)
    rw [Interface_array rt (m + 1) h1 h2' h3']
    have hits : ∀ i ∈ es.map Elem.item, i.WF ∧ Starts ']' i.core := by
      intro i hi
      obtain ⟨e, he, rfl⟩ := List.mem_map.mp hi
      exact ⟨hes e he, (hvs e he).starts ']' (Or.inr rfl)⟩
    have hsem : Sem NUL (readContainer '[' ']' false (interfaceElem rt (m + 1)))
        ('[' :: ws ++ [','].intercalate ((es.map Elem.item).map Item.text) ++ [']']) []
        (some l) :=
      readContainer_sem (Or.inr ⟨rfl, rfl⟩) false
        (fun r a _ => interfaceElem_fetched rt m r a) hws hits
        (by rw [Elem.map_elem_core]; exact hl (m + 1) (by omega))
    have htext : '[' :: ws ++ [','].intercalate ((es.map Elem.item).map Item.text) ++ [']'] =
        arrayText ws es := by
      rw [Elem.map_elem_text]; rfl
    rw [htext] at hsem
    obtain ⟨e1, e2⟩ := hsem r w pre rest hat hpre hrest
    rw [if_pos e2.isOkAt]
    exact ⟨by show GoValue.slice _ = GoValue.slice l; rw [e1], e2⟩
  | object ws ms hws hms hvs ih =>
    have hel : ∀ u ∈ ms.map Member.core, ∀ a : GoMap (GoValue F), ∃ a',
        ∀ n, (objectText ws ms).length - 1 ≤ n →
          Sem ',' (interfaceEntry rt n) u a (some a') := by
      intro u hu a
      obtain ⟨e, he, rfl⟩ := List.mem_map.mp hu
      obtain ⟨x, hx⟩ := ih e he
      obtain ⟨k, hk⟩ := unescape_ok (hms e he).2.1
      refine ⟨GoMap.set a k x, fun n hn => ?_⟩
      have hl : e.value.length + 2 ≤ (objectText ws ms).length := Member.member_value_length he
      have := readEntry_sem (fun r _ h => Interface_failed rt n h) (hms e he)
        (hx n (by omega) GoValue.nil) a
      unfold entryResult at this
      rw [hk] at this
      exact this
    obtain ⟨l, hl⟩ := ListSem.some_from
      (fun n => interfaceEntry rt n) ((objectText ws ms).length - 1) (ms.map Member.core) hel []
    refine ⟨.map l, fun n hn b r w pre rest hat hpre hrest => ?_⟩
    obtain ⟨m, rfl⟩ : ∃ m, n = m + 1 := ⟨n - 1, by omega⟩
    obtain ⟨h1, h2, h3⟩ := fetch_value (JsonValue.object ws ms hws hms hvs) hat.idle pre rest
      (hat.sep ▸ hpre) hrest hat.data
    have h2' : r.fetchIfUndef.kind = .tokenDelim := h2
    have h3' : r.fetchIfUndef.delimValue = '{' := h3
    show Ends NUL rest _ (Interface rt (m + 1) r)
    rw [Interface_object rt m h1 h2' h3']
    have hits : ∀ i ∈ ms.map Member.item, i.WF ∧ Starts '}' i.core := by
      intro i hi
      obtain ⟨e, he, rfl⟩ := List.mem_map.mp hi
      exact ⟨⟨(hms e he).1, (hms e he).2.2.2.2⟩,
        e.core_starts (hms e he).2.1 '}' (by decide)⟩
    have hsem : Sem NUL (readContainer '{' '}' false (interfaceEntry rt m))
        ('{' :: ws ++ [','].intercalate ((ms.map Member.item).map Item.text) ++ ['}']) []
        (some l) :=
      readContainer_sem (Or.inl ⟨rfl, rfl⟩) false
        (fun r a _ => readEntry_fetched _ _ r a) hws hits
        (by rw [Member.map_item_core]; exact hl m (by omega))
    have htext : '{' :: ws ++ [','].intercalate ((ms.map Member.item).map Item.text) ++ ['}'] =
        objectText ws ms := by
      rw [Member.map_item_text]; rfl
    rw [htext] at hsem
    obtain ⟨e1, e2⟩ := hsem r w pre rest hat hpre hrest
    rw [if_pos e2.isOkAt]
    exact ⟨by show GoValue.map _ = GoValue.map l; rw [e1], e2⟩

/-- A JSON value is read by `Interface` without error when it stands alone in an array. -/
theorem readBack_accepts (hpf : ∀ s, (rt.ParseFloat s).2 = none) {t : Str} (ht : JsonValue t) :
    ∃ x, readBack rt t = some x := by
  obtain ⟨x, hx⟩ := Interface_accepts rt hpf ht
  have hidle : (Lexer.new ('[' :: t ++ [']'])).Idle := ⟨rfl, rfl, rfl⟩
  have hd : (Lexer.new ('[' :: t ++ [']'])).Data = [] ++ '[' :: (t ++ [']']) := rfl
  obtain ⟨hat, _⟩ := Delim_open_idle hidle (Or.inr rfl) hd (Pre.of_nul isWs_nil)
  have hat' : ((Lexer.new ('[' :: t ++ [']'])).Delim '[').At ([] ++ t ++ [']']) NUL := by
    simpa using hat
  have hlen : t.length < interfaceFuel ((Lexer.new ('[' :: t ++ [']'])).Delim '[') := by
    unfold interfaceFuel
    rw [hat.data]
    simp only [List.length_append]
    omega
  have he := hx _ hlen GoValue.nil _ NUL [] [']'] hat' (Pre.of_nul isWs_nil)
    (follow_cons (by decide) [])
  have hv : (Interface rt (interfaceFuel ((Lexer.new ('[' :: t ++ [']'])).Delim '['))
      ((Lexer.new ('[' :: t ++ [']'])).Delim '[')).2 = x := he.1
  have hok : (Interface rt (interfaceFuel ((Lexer.new ('[' :: t ++ [']'])).Delim '['))
      ((Lexer.new ('[' :: t ++ [']'])).Delim '[')).1.Ok = true := he.2.isOkAt
  refine ⟨x, ?_⟩
  unfold readBack
  simp only [hok, if_true, hv]

end Accepts

/-! ## The document `MarshalJSON` emits -/

theorem jsonString_quoted (s : Str) : JsonString (quoteString false s) s :=
  ⟨escaped s, rfl, escaped_strBody s, unescape_escaped s⟩

theorem jsonString_key (k : Str) : JsonString ('"' :: escaped k ++ ['"']) k :=
  ⟨escaped k, rfl, escaped_strBody k, unescape_escaped k⟩

theorem forall₂_map_self {α β : Type} (R : β → α → Prop) (f : α → β) (l : List α)
    (h : ∀ x ∈ l, R (f x) x) : List.Forall₂ R (l.map f) l := by
  induction l with
  | nil => exact List.Forall₂.nil
  | cons x l ih =>
    exact List.Forall₂.cons (h x (List.mem_cons_self _ _))
      (ih fun y hy => h y (List.mem_cons_of_mem _ hy))

theorem isTags_value (ts : Option (List Str)) : IsTags (tagsValue ts) ts := by
  cases ts with
  | none => rfl
  | some l =>
    refine ⟨l.map (quoteString false), ?_, forall₂_map_self _ _ l fun t _ => jsonString_quoted t⟩
    simp [tagsValue, plainArray, List.map_map, Function.comp_def]

theorem isHeader_value (h : Option (GoMap Str)) : IsHeader (headerValue h) h := by
  cases h with
  | none => rfl
  | some kvs =>
    refine ⟨kvs.map fun kv => (escaped kv.1, quoteString false kv.2), ?_,
      forall₂_map_self _ _ kvs fun kv _ => ⟨jsonString_key kv.1, jsonString_quoted kv.2⟩⟩
    simp [headerValue, headerMembers, plainObject, List.map_map, Function.comp_def]

theorem isHeaders_value (hs : Option (List (Option (GoMap Str)))) :
    IsHeaders (headersValue hs) hs := by
  cases hs with
  | none => rfl
  | some l =>
    refine ⟨l.map headerValue, ?_, forall₂_map_self _ _ l fun h _ => isHeader_value h⟩
    simp [headersValue, plainArray, List.map_map, Function.comp_def]

theorem isCampaign_value (c : Option campaign) : IsCampaign (campaignValue c) c := by
  cases c with
  | none => rfl
  | some c =>
    exact ⟨_, _, _, _, rfl, jsonString_quoted _, jsonString_quoted _, isHeaders_value _,
      isTags_value _⟩

section Document

variable {V : Type} (text : V → Str)

theorem isAttribs_value (a : Option (GoMap V)) (hj : ∀ kv ∈ a.getD [], JsonValue (text kv.2)) :
    IsAttribs (attribsValue text a) a := by
  cases a with
  | none => rfl
  | some kvs =>
    refine ⟨kvs.map fun kv => (escaped kv.1, text kv.2), ?_,
      forall₂_map_self _ _ kvs fun kv hkv => ⟨jsonString_key kv.1, hj kv hkv⟩⟩
    simp [attribsValue, attribMembers, plainObject, List.map_map, Function.comp_def]

theorem isRecipient_value (r : recipient V) (hj : ∀ kv ∈ r.Attribs.getD [], JsonValue (text kv.2)) :
    IsRecipient (objectText [] (recipientMembers text r)) r :=
  ⟨_, _, _, _, _, rfl, jsonString_quoted _, jsonString_quoted _, jsonString_quoted _,
    isAttribs_value text _ hj, jsonString_quoted _⟩

theorem isRecipients_value (rs : Option (List (recipient V)))
    (hj : ∀ r ∈ rs.getD [], ∀ kv ∈ r.Attribs.getD [], JsonValue (text kv.2)) :
    IsRecipients (recipientsValue text rs) rs := by
  cases rs with
  | none => rfl
  | some l =>
    refine ⟨l.map fun r => objectText [] (recipientMembers text r), ?_,
      forall₂_map_self _ _ l fun r hr => isRecipient_value text r (hj r hr)⟩
    simp [recipientsValue, plainArray, List.map_map, Function.comp_def]

theorem isPostback_value (p : postback V)
    (hj : ∀ r ∈ p.Recipients.getD [], ∀ kv ∈ r.Attribs.getD [], JsonValue (text kv.2)) :
    IsPostback (objectText [] (postbackMembers text p)) p :=
  ⟨_, _, _, _, _, rfl, jsonString_quoted _, jsonString_quoted _, jsonString_quoted _,
    isRecipients_value text _ hj, isCampaign_value _⟩

theorem attribsValue_json (a : Option (GoMap V)) (hj : ∀ kv ∈ a.getD [], JsonValue (text kv.2)) :
    JsonValue (attribsValue text a) := by
  cases a with
  | none => exact JsonValue.null
  | some kvs =>
    refine JsonValue.object [] _ isWs_nil (fun m hm => ?_) (fun m hm => ?_)
    · obtain ⟨kv, _, rfl⟩ := List.mem_map.mp hm
      exact plain_wf (escaped_strBody _) _
    · obtain ⟨kv, hkv, rfl⟩ := List.mem_map.mp hm
      exact hj kv hkv

theorem strBody_name (k : Str) (h : escaped k = k) : StrBody k := h ▸ escaped_strBody k

theorem recipientMembers_json (r : recipient V)
    (hj : ∀ kv ∈ r.Attribs.getD [], JsonValue (text kv.2)) :
    JsonValue (objectText [] (recipientMembers text r)) := by
  refine JsonValue.object [] _ isWs_nil (fun m hm => ?_) (fun m hm => ?_)
  · simp only [recipientMembers, List.mem_cons, List.mem_singleton, List.not_mem_nil,
      or_false] at hm
    rcases hm with rfl | rfl | rfl | rfl | rfl
    · exact plain_wf (strBody_name _ (by decide)) _
    · exact plain_wf (strBody_name _ (by decide)) _
    · exact plain_wf (strBody_name _ (by decide)) _
    · exact plain_wf (strBody_name _ (by decide)) _
    · exact plain_wf (strBody_name _ (by decide)) _
  · simp only [recipientMembers, List.mem_cons, List.mem_singleton, List.not_mem_nil,
      or_false] at hm
    rcases hm with rfl | rfl | rfl | rfl | rfl
    · exact jsonValue_quoted _
    · exact jsonValue_quoted _
    · exact jsonValue_quoted _
    · exact attribsValue_json text _ hj
    · exact jsonValue_quoted _

theorem recipientsValue_json (rs : Option (List (recipient V)))
    (hj : ∀ r ∈ rs.getD [], ∀ kv ∈ r.Attribs.getD [], JsonValue (text kv.2)) :
    JsonValue (recipientsValue text rs) := by
  cases rs with
  | none => exact JsonValue.null
  | some rs =>
    refine JsonValue.array [] _ isWs_nil (fun e he => ?_) (fun e he => ?_)
    · obtain ⟨r, _, rfl⟩ := List.mem_map.mp he
      exact elem_plain_wf _
    · obtain ⟨r, hr, rfl⟩ := List.mem_map.mp he
      exact recipientMembers_json text r (hj r hr)

theorem postbackMembers_json (p : postback V)
    (hj : ∀ r ∈ p.Recipients.getD [], ∀ kv ∈ r.Attribs.getD [], JsonValue (text kv.2)) :
    JsonValue (objectText [] (postbackMembers text p)) := by
  refine JsonValue.object [] _ isWs_nil (fun m hm => ?_) (fun m hm => ?_)
  · simp only [postbackMembers, List.mem_cons, List.mem_singleton, List.not_mem_nil,
      or_false] at hm
    rcases hm with rfl | rfl | rfl | rfl | rfl
    · exact plain_wf (strBody_name _ (by decide)) _
    · exact plain_wf (strBody_name _ (by decide)) _
    · exact plain_wf (strBody_name _ (by decide)) _
    · exact plain_wf (strBody_name _ (by decide)) _
    · exact plain_wf (strBody_name _ (by decide)) _
  · simp only [postbackMembers, List.mem_cons, List.mem_singleton, List.not_mem_nil,
      or_false] at hm
    rcases hm with rfl | rfl | rfl | rfl | rfl
    · exact jsonValue_quoted _
    · exact jsonValue_quoted _
    · exact jsonValue_quoted _
    · exact recipientsValue_json text _ hj
    · exact jsonValue_campaign _

end Document

/-- C2 (amended): for every postback value whose attribute values are each written without error
as a JSON value, `MarshalJSON` returns no error and emits a JSON value, the object with exactly
the members `subject`, `content_type`, `body`, `recipients`, `campaign` in that order, whose
string values denote the fields.  `recipients` is `null` for a nil slice and otherwise the
array, in slice order, of objects with exactly the members `uuid`, `email`, `name`, `attribs`,
`status` in that order, `attribs` being `null` for a nil map; `campaign` is `null` for a nil
campaign and otherwise the object with exactly the members `uuid`, `name`, `headers`, `tags` in
that order, where a nil `headers` or `tags` slice and a nil header map are `null`. -/
theorem MarshalJSON_document {V Err : Type} (ms : Marshalers V Err) (p : postback V)
    (hw : ∀ r ∈ p.Recipients.getD [], ∀ kv ∈ r.Attribs.getD [],
      ms.Writes kv.2 ∧ JsonValue (ms.text kv.2)) :
    (MarshalJSON ms p).2 = none ∧ JsonValue (MarshalJSON ms p).1 ∧
      IsPostback (MarshalJSON ms p).1 p := by
  rw [MarshalJSON_exact ms p (fun r hr kv hkv => (hw r hr kv hkv).1)]
  exact ⟨rfl, postbackMembers_json ms.text p (fun r hr kv hkv => (hw r hr kv hkv).2),
    isPostback_value ms.text p (fun r hr kv hkv => (hw r hr kv hkv).2)⟩

/-- The example postback is written without error as a JSON value, the postback document. -/
theorem MarshalJSON_document_witness :
    (MarshalJSON (Marshalers.plain exampleMarshal) roundTripPostback).2 = none ∧
      JsonValue (MarshalJSON (Marshalers.plain exampleMarshal) roundTripPostback).1 ∧
      IsPostback (MarshalJSON (Marshalers.plain exampleMarshal) roundTripPostback).1
        roundTripPostback :=
  MarshalJSON_document (Marshalers.plain exampleMarshal) roundTripPostback
    (fun r hr kv hkv =>
      ⟨(roundTripPostback_readsBack r hr kv hkv).1, (roundTripPostback_readsBack r hr kv hkv).2.1⟩)

set_option maxRecDepth 100000 in
/-- C2 fails on the code as it stands in the claim: for a recipient whose attribute `k` is
`NaN`, `json.Marshal` fails, `MarshalJSON` returns that error, and the bytes hold the member
`"k":` without a value, so that they are no JSON value. -/
theorem MarshalJSON_unsupported_value :
    MarshalJSON (Marshalers.plain floatMarshal) nanPostback =
      (("\x7b\"subject\":\"\",\"content_type\":\"\",\"body\":\"\"," ++
        "\"recipients\":[\x7b\"uuid\":\"\",\"email\":\"\",\"name\":\"\"," ++
        "\"attribs\":\x7b\"k\":\x7d,\"status\":\"\"\x7d],\"campaign\":null\x7d").toList,
        some "json: unsupported value: NaN".toList) ∧
      ¬ JsonValue (MarshalJSON (Marshalers.plain floatMarshal) nanPostback).1 := by
  refine ⟨rfl, fun hj => ?_⟩
  obtain ⟨x, hx⟩ := readBack_accepts exampleRuntime (fun _ => rfl) hj
  have hn : readBack exampleRuntime
      (MarshalJSON (Marshalers.plain floatMarshal) nanPostback).1 = none := rfl
  rw [hn] at hx
  exact absurd hx (by simp)

end Listmonk
